import Mathlib

/-!
# Pixel kernels of the GStreamer editing plugins

A shallow embedding of the frame kernels of the repository
(`gstaddalpha.c`, `framearith.c`, `gstgimpcolorenhance.c`,
`gstgimpdespeckle.c`, `gstsobel.c`, `gstgimpcontraststretch.c`) and theorems
about them.

Conventions of the embedding:

* a `guint8` / `guchar` is a `Byte = Fin 256`; a byte buffer is a `List Byte`;
* a C `for (k = 0; k < n; k++)` loop is a left fold over `List.range n`;
* a pointer into a buffer is the byte offset it points at;
* `gint` arithmetic is done in `Nat` or `Int`, C division and remainder of
  `gint` values being `Int.tdiv` and `Int.tmod`; a value narrowed to `guint8`
  goes through `toByte`, which reduces modulo 256.  Frame dimensions are
  taken in the range where the `gint` products `width*height*bpp` do not wrap;
* code that can read or write outside an array, or loop without end, returns
  an `Option`: `none` stands for the out-of-range access and for a loop that
  ran out of fuel, so a result `some _` says that neither happened;
* the floating-point luminance of `pixel_luminance` is a parameter `lum`, an
  arbitrary function of the three channel bytes;
* the buffer `gst_gimp_color_enhance_chain` allocates for the converted frame
  is a parameter `hsvdata`, its content before the first store being
  arbitrary;
* in `gst_sobel_chain` every store into the output buffer is checked against
  the length of the buffer, the loads being inside the luma plane at every
  processed pixel; the macros `SOBEL_MAX_ABS` and `SOBEL_MAX_SQRT` of
  `gstsobel.h` are parameters.
-/

namespace GstEditing

/-! ## Bytes and buffers -/

abbrev Byte := Fin 256

abbrev Buffer := List Byte

/-- Narrowing of a C `int` to `guint8`. -/
def toByte (x : Int) : Byte := ⟨(x % 256).toNat, by omega⟩

/-- Read `m[k]`. -/
def peek (m : Buffer) (k : Nat) : Byte := m.getD k 0

/-- The assignment `m[k] = v`. -/
def poke (m : Buffer) (k : Nat) (v : Byte) : Buffer := m.set k v

/-- The loop `for (k = 0; k < n; k++) body`, the buffer being the loop state. -/
def forRange (n : Nat) (body : Nat → Buffer → Buffer) (d : Buffer) : Buffer :=
  (List.range n).foldl (fun acc k => body k acc) d

/-! ## gstaddalpha.c -/

/-- Body of the repacking loop of `gst_add_alpha_collect_func`. -/
def repack_pixel (framedata maskdata : Buffer) (cur_pixel : Nat) (destdata : Buffer) : Buffer :=
  let d0 := poke destdata (cur_pixel * 4) (peek maskdata cur_pixel)
  let d1 := poke d0 (cur_pixel * 4 + 1) (peek framedata (cur_pixel * 3))
  let d2 := poke d1 (cur_pixel * 4 + 2) (peek framedata (cur_pixel * 3 + 1))
  poke d2 (cur_pixel * 4 + 3) (peek framedata (cur_pixel * 3 + 2))

/-- The repacking loop of `gst_add_alpha_collect_func`; `destdata` is the
freshly allocated output buffer of `width*height*4` bytes. -/
def add_alpha_repack (width height : Nat) (framedata maskdata destdata : Buffer) : Buffer :=
  forRange (width * height) (repack_pixel framedata maskdata) destdata

/-- The value `GST_FLOW_OK` of `GstFlowReturn`. -/
def GST_FLOW_OK : Int := 0

/-- The function `gst_add_alpha_collect_func`: `width` and `height` are the
fields of the element, set from the caps of the frame sink pad and of the
source pad; `framedata` and `maskdata` are the bytes of the two buffers popped
from the collect pads; `buf_alloc_ret` and `destdata` are what
`gst_pad_alloc_buffer_and_set_caps` returned for `width*height*4` bytes.  The
result is the flow error returned, or the bytes of the buffer pushed on the
source pad. -/
def gst_add_alpha_collect_func (width height : Nat) (framedata maskdata : Buffer)
    (buf_alloc_ret : Int) (destdata : Buffer) : Except Int Buffer :=
  if buf_alloc_ret ≠ GST_FLOW_OK then Except.error buf_alloc_ret
  else Except.ok (add_alpha_repack width height framedata maskdata destdata)

/-! ## framearith.c -/

/-- The function `blend_video_frames`. -/
def blend_video_frames (w h bpp : Nat) (a b dest blend_ratio_image : Buffer) : Buffer :=
  forRange h (fun ch d =>
    forRange w (fun cw d =>
      let briidx := ch * w + cw
      let fidx := briidx * bpp
      let weight := (peek blend_ratio_image briidx).val
      forRange bpp (fun i d =>
        poke d (fidx + i)
          (toByte (((weight * (peek a (fidx + i)).val
                      + (255 - weight) * (peek b (fidx + i)).val) / 255 : Nat) : Int))) d) d) dest

/-- The call of `blend_video_frames` in `gst_masked_unsharp_collect_func`:
four bytes per pixel, the sharpened frame as `a`, the original frame as `b`. -/
def masked_unsharp_blend (width height : Nat) (sharpdata framedata destdata maskdata : Buffer) :
    Buffer :=
  blend_video_frames width height 4 sharpdata framedata destdata maskdata

/-- The GLib macro `CLAMP(x, low, high)`. -/
def CLAMP (x low high : Int) : Int :=
  if x > high then high else if x < low then low else x

/-- The function `subtract_frames`. -/
def subtract_frames (w h bpp : Nat) (a b dest : Buffer) : Buffer :=
  forRange h (fun ch d =>
    forRange w (fun cw d =>
      let idx := ch * w + cw
      forRange bpp (fun i d =>
        let result := CLAMP (((peek a (idx + i)).val : Int) - ((peek b (idx + i)).val : Int)) 0 255
        poke d (idx + i) (toByte result)) d) d) dest

/-! ## gstgimpcolorenhance.c -/

/-- The GLib macro `MAX(a, b)`. -/
def MAX (a b : Nat) : Nat := if a > b then a else b

/-- The GLib macro `MIN(a, b)`. -/
def MIN (a b : Nat) : Nat := if a < b then a else b

/-- The two-branch selection of `max` and `min` at the head of
`gimp_rgb_to_hsv4`, returned as `(max, min)`. -/
def rgb_max_min (red green blue : Byte) : Nat × Nat :=
  if red > green then (MAX red.val blue.val, MIN green.val blue.val)
  else (MAX green.val blue.val, MIN red.val blue.val)

/-- The hue sector value of `gimp_rgb_to_hsv4`: the assignments to `delta` and
the `if (red == max) ... else if (green == max) ... else if (blue == max)` chain;
`h` keeps its initial 0 if no branch is taken. -/
def rgb_sector (red green blue : Byte) (max min : Nat) : Int :=
  let delta0 : Byte := toByte ((max : Int) - (min : Int))
  let delta : Int := if delta0 = 0 then 255 else (delta0.val : Int)
  if red.val = max then Int.tdiv (((green.val : Int) - (blue.val : Int)) * 255) delta
  else if green.val = max then 510 + Int.tdiv (((blue.val : Int) - (red.val : Int)) * 255) delta
  else if blue.val = max then 1020 + Int.tdiv (((red.val : Int) - (green.val : Int)) * 255) delta
  else 0

/-- The scale-and-wrap tail of the hue computation of `gimp_rgb_to_hsv4`:
`h *= 60; h /= 255;` the wrap into the circle, and `h = h * 255 / 360`. -/
def hue_of_sector (h0 : Int) : Int :=
  let h1 : Int := h0 * 60
  let h2 : Int := Int.tdiv h1 255
  let h3 : Int := if h2 < 0 then h2 + 360 else if h2 > 360 then h2 - 360 else h2
  Int.tdiv (h3 * 255) 360

/-- The hue computation of `gimp_rgb_to_hsv4` (the `else` branch of `if (s == 0)`),
before the result is narrowed to `guint8`. -/
def rgb_hue (red green blue : Byte) (max min : Nat) : Int :=
  hue_of_sector (rgb_sector red green blue max min)

/-- The function `gimp_rgb_to_hsv4`, returning `(hue, saturation, value)`. -/
def gimp_rgb_to_hsv4 (red green blue : Byte) : Byte × Byte × Byte :=
  let max := (rgb_max_min red green blue).1
  let min := (rgb_max_min red green blue).2
  let v : Int := max
  let s : Int := if max ≠ 0 then Int.tdiv (((max : Int) - (min : Int)) * 255) (max : Int) else 0
  let h : Int := if s = 0 then 0 else rgb_hue red green blue max min
  (toByte h, toByte s, toByte v)

/-- The function `gimp_hsv_to_rgb4`, returning `(rgb[0], rgb[1], rgb[2])`. -/
def gimp_hsv_to_rgb4 (hue saturation value : Byte) : Byte × Byte × Byte :=
  if saturation = 0 then (value, value, value)
  else
    let h : Int := Int.tdiv ((hue.val : Int) * 360) 255
    let s : Int := saturation.val
    let v : Int := value.val
    let f : Int := Int.tmod h 60
    let p : Int := Int.tdiv (v * (255 - s)) 255
    let q : Int := Int.tdiv (v * (255 * 59 - s * f)) (255 * 59)
    let t : Int := Int.tdiv (v * (255 * 59 - s * (59 - f))) (255 * 59)
    let k : Int := Int.tdiv h 60
    if k = 0 then (toByte v, toByte t, toByte p)
    else if k = 1 then (toByte q, toByte v, toByte p)
    else if k = 2 then (toByte p, toByte v, toByte t)
    else if k = 3 then (toByte p, toByte q, toByte v)
    else if k = 4 then (toByte t, toByte p, toByte v)
    else if k = 5 then (toByte v, toByte p, toByte q)
    else (hue, saturation, value)

/-- The struct `ColorEnhanceParam_t`. -/
structure ColorEnhanceParam_t where
  vhi : Byte
  vlo : Byte
deriving DecidableEq

/-- The function `find_vhi_vlo (src + pos, &param)`. -/
def find_vhi_vlo (src : Buffer) (pos : Nat) (param : ColorEnhanceParam_t) :
    ColorEnhanceParam_t :=
  let v := peek src (pos + 2)
  let param := if v > param.vhi then { param with vhi := v } else param
  if v < param.vlo then { param with vlo := v } else param

/-- The four bytes `colorspace_prepare` computes from the three bytes of a
pixel: `c`, `m`, `y` are the complements, `k` their minimum, and the pixel
`(c-k, m-k, y-k)` goes through `gimp_rgb_to_hsv4`; the result is
`(h, z, v, k)`. -/
def prepare_pixel (s0 s1 s2 : Byte) : Byte × Byte × Byte × Byte :=
  let c : Int := 255 - (s0.val : Int)
  let m : Int := 255 - (s1.val : Int)
  let y : Int := 255 - (s2.val : Int)
  let k : Int := c
  let k : Int := if m < k then m else k
  let k : Int := if y < k then y else k
  let hzv := gimp_rgb_to_hsv4 (toByte (c - k)) (toByte (m - k)) (toByte (y - k))
  (hzv.1, hzv.2.1, hzv.2.2, toByte k)

/-- The function `colorspace_prepare (src + spos, dest + dpos)`. -/
def colorspace_prepare (src : Buffer) (spos : Nat) (dest : Buffer) (dpos : Nat) : Buffer :=
  let hzvk := prepare_pixel (peek src spos) (peek src (spos + 1)) (peek src (spos + 2))
  let d0 := poke dest dpos hzvk.1
  let d1 := poke d0 (dpos + 1) hzvk.2.1
  let d2 := poke d1 (dpos + 2) hzvk.2.2.1
  poke d2 (dpos + 3) hzvk.2.2.2

/-- The three bytes `colorspace_prepare_reverse` computes from the four bytes
of a pixel: `gimp_hsv_to_rgb4` of the first three, `k` added to each channel
with saturation at 255, and the complement taken. -/
def reverse_pixel (s0 s1 s2 s3 : Byte) : Byte × Byte × Byte :=
  let map := gimp_hsv_to_rgb4 s0 s1 s2
  let k : Int := (s3.val : Int)
  let c : Int := (map.1.val : Int) + k
  let c : Int := if c > 255 then 255 else c
  let m : Int := (map.2.1.val : Int) + k
  let m : Int := if m > 255 then 255 else m
  let y : Int := (map.2.2.val : Int) + k
  let y : Int := if y > 255 then 255 else y
  (toByte (255 - c), toByte (255 - m), toByte (255 - y))

/-- The function `colorspace_prepare_reverse (src + spos, dest + dpos)`. -/
def colorspace_prepare_reverse (src : Buffer) (spos : Nat) (dest : Buffer) (dpos : Nat) :
    Buffer :=
  let cmy := reverse_pixel (peek src spos) (peek src (spos + 1)) (peek src (spos + 2))
    (peek src (spos + 3))
  let d0 := poke dest dpos cmy.1
  let d1 := poke d0 (dpos + 1) cmy.2.1
  poke d1 (dpos + 2) cmy.2.2

/-- The value `enhance_it` stores in `dest[2]` for the value byte `v`. -/
def enhance_value (v vlo vhi : Byte) : Byte :=
  if vhi ≠ vlo then
    toByte (Int.tdiv (((v.val : Int) - (vlo.val : Int)) * 255)
      ((vhi.val : Int) - (vlo.val : Int)))
  else v

/-- The function `enhance_it (src + spos, dest + dpos, vlo, vhi)`. -/
def enhance_it (src : Buffer) (spos : Nat) (dest : Buffer) (dpos : Nat) (vlo vhi : Byte) :
    Buffer :=
  poke dest (dpos + 2) (enhance_value (peek src (spos + 2)) vlo vhi)

/-- The first loop nest of `gst_gimp_color_enhance_chain`, "Convert color
space first": `x` runs through `0, 3, .., bytes_x - 3`, and the pixel goes to
the offset `y*bytes_x_hsvk + x*4/3` of `hsvdata`. -/
def color_enhance_prepare (width height : Nat) (data hsvdata : Buffer) : Buffer :=
  forRange height (fun y d =>
    forRange width (fun k d =>
      colorspace_prepare data (y * (width * 3) + 3 * k) d
        (y * (width * 4) + 3 * k * 4 / 3)) d) hsvdata

/-- The second loop nest of `gst_gimp_color_enhance_chain`, "Find vhi and
vlo", with the `memset` of `param` to zero before it. -/
def color_enhance_scan (width height : Nat) (hsvdata : Buffer) : ColorEnhanceParam_t :=
  (List.range height).foldl (fun param y =>
    (List.range width).foldl (fun param k =>
      find_vhi_vlo hsvdata (y * (width * 4) + 4 * k) param) param) ⟨0, 0⟩

/-- The third loop nest of `gst_gimp_color_enhance_chain`, "Run the actual
enhancement", `enhance_it` being called with `src` and `dest` both pointing at
the pixel. -/
def color_enhance_stretch (width height : Nat) (param : ColorEnhanceParam_t)
    (hsvdata : Buffer) : Buffer :=
  forRange height (fun y d =>
    forRange width (fun k d =>
      enhance_it d (y * (width * 4) + 4 * k) d (y * (width * 4) + 4 * k)
        param.vlo param.vhi) d) hsvdata

/-- The fourth loop nest of `gst_gimp_color_enhance_chain`, "Convert
colorspace back to RGB". -/
def color_enhance_reverse (width height : Nat) (hsvdata data : Buffer) : Buffer :=
  forRange height (fun y d =>
    forRange width (fun k d =>
      colorspace_prepare_reverse hsvdata (y * (width * 4) + 3 * k * 4 / 3) d
        (y * (width * 3) + 3 * k)) d) data

/-- The function `gst_gimp_color_enhance_chain` on the bytes of the incoming
buffer: `hsvdata` is the content of the freshly allocated buffer of
`width*height*4` bytes; the result is the data of the buffer pushed
downstream. -/
def gst_gimp_color_enhance_chain (width height : Nat) (data hsvdata : Buffer) : Buffer :=
  let hsv1 := color_enhance_prepare width height data hsvdata
  let param := color_enhance_scan width height hsv1
  let hsv2 := color_enhance_stretch width height param hsv1
  color_enhance_reverse width height hsv2 data

/-! ## gstgimpdespeckle.c: quick_median_select -/

/-- The two parallel arrays `quick_median_select` works on: the pointers `p`
(each the byte offset of a pixel in the source frame) and their keys `i`. -/
structure Sel where
  p : List Nat
  i : List Byte
deriving DecidableEq

/-- Read `a[k]`; an index outside the array has no value. -/
def rdAt {α : Type} (a : List α) (k : Int) : Option α :=
  if 0 ≤ k then a[k.toNat]? else none

/-- Exchange `a[x]` and `a[y]`, both of which must lie inside the array. -/
def swapAt {α : Type} (a : List α) (x y : Int) : Option (List α) :=
  match rdAt a x, rdAt a y with
  | some u, some v => some ((a.set x.toNat v).set y.toNat u)
  | _, _ => none

/-- The pair `VALUE_SWAP (i[x], i[y]); POINTER_SWAP (p[x], p[y]);`. -/
def SWAP (s : Sel) (x y : Int) : Option Sel :=
  match swapAt s.i x y, swapAt s.p x y with
  | some i', some p' => some ⟨p', i'⟩
  | _, _ => none

/-- The statement `if (i[x] > i[y]) { VALUE_SWAP ...; POINTER_SWAP ...; }`. -/
def swapIfGreater (s : Sel) (x y : Int) : Option Sel :=
  match rdAt s.i x, rdAt s.i y with
  | some u, some v => if u > v then SWAP s x y else some s
  | _, _ => none

/-- The scan `do ll++; while (i[low] > i[ll]);`, returning the final `ll`. -/
def scanUp (i : List Byte) (low : Int) : Nat → Int → Option Int
  | 0, _ => none
  | fuel + 1, ll =>
    match rdAt i low, rdAt i (ll + 1) with
    | some u, some v => if u > v then scanUp i low fuel (ll + 1) else some (ll + 1)
    | _, _ => none

/-- The scan `do hh--; while (i[hh] > i[low]);`, returning the final `hh`. -/
def scanDown (i : List Byte) (low : Int) : Nat → Int → Option Int
  | 0, _ => none
  | fuel + 1, hh =>
    match rdAt i (hh - 1), rdAt i low with
    | some u, some v => if u > v then scanDown i low fuel (hh - 1) else some (hh - 1)
    | _, _ => none

/-- The inner `while (TRUE)` loop of `quick_median_select` ("nibble from each
end towards middle, swapping items when stuck"); returns the arrays and the
values of `ll` and `hh` at the `break`. -/
def nibble (low : Int) : Nat → Sel → Int → Int → Option (Sel × Int × Int)
  | 0, _, _, _ => none
  | fuel + 1, s, ll, hh =>
    match scanUp s.i low s.i.length ll with
    | none => none
    | some ll' =>
      match scanDown s.i low s.i.length hh with
      | none => none
      | some hh' =>
        if hh' < ll' then some (s, ll', hh')
        else
          match SWAP s ll' hh' with
          | none => none
          | some s' => nibble low fuel s' ll' hh'

/-- One pass of the outer loop of `quick_median_select` for a partition of
three or more elements: median of three into position `low`, the nibble loop,
and the swap of the pivot back into place; returns the arrays, `ll` and `hh`. -/
def partition_pass (s : Sel) (low high : Int) : Option (Sel × Int × Int) :=
  let middle := Int.tdiv (low + high) 2
  match swapIfGreater s middle high with
  | none => none
  | some s1 =>
    match swapIfGreater s1 low high with
    | none => none
    | some s2 =>
      match swapIfGreater s2 middle low with
      | none => none
      | some s3 =>
        match SWAP s3 middle (low + 1) with
        | none => none
        | some s4 =>
          match nibble low s4.i.length s4 (low + 1) high with
          | none => none
          | some (s5, ll, hh) =>
            match SWAP s5 low hh with
            | none => none
            | some s6 => some (s6, ll, hh)

/-- The outer `while (TRUE)` loop of `quick_median_select`. -/
def select_loop (median : Int) : Nat → Sel → Int → Int → Option (Int × Sel)
  | 0, _, _, _ => none
  | fuel + 1, s, low, high =>
    if high ≤ low then some (median, s)
    else if high = low + 1 then
      match swapIfGreater s low high with
      | none => none
      | some s' => some (median, s')
    else
      match partition_pass s low high with
      | none => none
      | some (s', ll, hh) =>
        let low' := if hh ≤ median then ll else low
        let high' := if hh ≥ median then hh - 1 else high
        select_loop median fuel s' low' high'

/-- The function `quick_median_select (p, i, n)`: the returned index together
with the arrays as the call leaves them.  The result is `none` when the code
reads or writes outside `i[0..]`/`p[0..]` or a loop does not come to an end. -/
def quick_median_select (p : List Nat) (i : List Byte) (n : Int) : Option (Int × Sel) :=
  let low : Int := 0
  let high : Int := n - 1
  let median : Int := Int.tdiv (low + high) 2
  select_loop median (n.toNat + 1) ⟨p, i⟩ low high

/-! ## gstgimpdespeckle.c: despeckle_median -/

/-- The despeckle parameters of `struct _GstGimpDespeckle`. -/
structure GstGimpDespeckle where
  despeckle_radius : Byte
  adaptive : Bool
  recursive : Bool
  black_level : Byte
  white_level : Byte

/-- The filter type bit `FILTER_ADAPTIVE`. -/
abbrev FILTER_ADAPTIVE : Nat := 2

/-- The filter type bit `FILTER_RECURSIVE`. -/
abbrev FILTER_RECURSIVE : Nat := 1

/-- The local `filter_type` of `despeckle_median`:
`((guint8) adaptive << 1) | (guint8) recursive`, a `gboolean` being 0 or 1. -/
def filter_type (f : GstGimpDespeckle) : Nat :=
  (f.adaptive.toNat <<< 1) ||| f.recursive.toNat

/-- The test `filter_type & FILTER_ADAPTIVE` of `despeckle_median`. -/
def is_adaptive (f : GstGimpDespeckle) : Bool :=
  decide (filter_type f &&& FILTER_ADAPTIVE ≠ 0)

/-- The test `filter_type & FILTER_RECURSIVE` of `despeckle_median`. -/
def is_recursive (f : GstGimpDespeckle) : Bool :=
  decide (filter_type f &&& FILTER_RECURSIVE ≠ 0)

/-- The macro `MAX` on `gint` operands. -/
def IMAX (a b : Int) : Int := if a > b then a else b

/-- The macro `MIN` on `gint` operands. -/
def IMIN (a b : Int) : Int := if a < b then a else b

/-- The function `pixel_luminance (src + pos, bpp)`.  For three and four bytes
per pixel the source evaluates `GIMP_RGB_LUMINANCE` in floating point and
narrows the result to `guchar`; that function of the three channel bytes is
the parameter `lum`, about which nothing is assumed. -/
def pixel_luminance (lum : Byte → Byte → Byte → Byte) (src : Buffer) (pos bpp : Nat) : Byte :=
  if bpp = 1 ∨ bpp = 2 then peek src pos
  else if bpp = 3 ∨ bpp = 4 then lum (peek src pos) (peek src (pos + 1)) (peek src (pos + 2))
  else 0

/-- The call `memcpy (dst + dpos, src + spos, n)`. -/
def memcpy (dst : Buffer) (dpos : Nat) (src : Buffer) (spos n : Nat) : Buffer :=
  forRange n (fun k d => poke d (dpos + k) (peek src (spos + k))) dst

/-- The values a loop `for (v = lo; v <= hi; v++)` runs through. -/
def fromTo (lo hi : Int) : List Int :=
  (List.range (hi - lo + 1).toNat).map (fun (k : Nat) => lo + (k : Int))

/-- The per-pixel locals of `despeckle_median` filled by the window scan: the
first `med + 1` entries of `buf` and `ibuf`, and the two histogram counters.
The arrays are as long as the number of entries stored; the capacity `box` the
source allocates them with is not represented. -/
structure Window where
  buf : List Nat
  ibuf : List Byte
  hist0 : Nat
  hist255 : Nat
deriving DecidableEq

/-- Body of the window scan of `despeckle_median` for the sample `(u, v)`. -/
def classify (lum : Byte → Byte → Byte → Byte) (f : GstGimpDespeckle) (src : Buffer)
    (width bpp : Nat) (v u : Int) (st : Window) : Window :=
  let pos : Nat := ((u + v * (width : Int)) * (bpp : Int)).toNat
  let value : Byte := pixel_luminance lum src pos bpp
  if value > f.black_level ∧ value < f.white_level then
    { st with buf := st.buf ++ [pos], ibuf := st.ibuf ++ [value] }
  else
    { st with hist0 := if value ≤ f.black_level then st.hist0 + 1 else st.hist0,
              hist255 := if value ≥ f.white_level then st.hist255 + 1 else st.hist255 }

/-- The two nested window loops of `despeckle_median`, started with `med = -1`
and both counters at 0. -/
def scan_window (lum : Byte → Byte → Byte → Byte) (f : GstGimpDespeckle) (src : Buffer)
    (width bpp : Nat) (ymin ymax xmin xmax : Int) : Window :=
  (fromTo ymin ymax).foldl (fun st v =>
    (fromTo xmin xmax).foldl (fun st u => classify lum f src width bpp v u st) st)
    ⟨[], [], 0, 0⟩

/-- The state `despeckle_median` carries from pixel to pixel: the source frame
(written to when the filter is recursive), the destination frame and the
current `radius`. -/
structure Pass where
  src : Buffer
  dst : Buffer
  radius : Nat
deriving DecidableEq

/-- The histogram check at the end of the pixel loop body of `despeckle_median`. -/
def adapt_radius (f : GstGimpDespeckle) (diameter : Nat) (w : Window) (radius : Nat) : Nat :=
  if is_adaptive f then
    if w.hist0 ≥ radius ∨ w.hist255 ≥ radius then
      if radius < diameter / 2 then (radius + 1) % 256 else radius
    else if radius > 1 then (radius - 1) % 256
    else radius
  else radius

/-- Body of the `x` loop of `despeckle_median` for the pixel `(x, y)`; `ymin`
and `ymax` are the row bounds computed at the head of the `y` loop.  The result
is `none` when `quick_median_select` has none. -/
def despeckle_pixel (lum : Byte → Byte → Byte → Byte) (f : GstGimpDespeckle)
    (width bpp diameter : Nat) (ymin ymax : Int) (y x : Nat) (st : Pass) : Option Pass :=
  let xmin : Int := IMAX 0 ((x : Int) - (st.radius : Int))
  let xmax : Int := IMIN ((width : Int) - 1) ((x : Int) + (st.radius : Int))
  let w := scan_window lum f st.src width bpp ymin ymax xmin xmax
  let med : Int := (w.buf.length : Int) - 1
  let pos : Nat := (x + y * width) * bpp
  let radius' := adapt_radius f diameter w st.radius
  if med < 1 then
    some ⟨st.src, memcpy st.dst pos st.src pos bpp, radius'⟩
  else
    match quick_median_select w.buf w.ibuf (med + 1) with
    | none => none
    | some (idx, sel) =>
      match rdAt sel.p idx with
      | none => none
      | some pixel =>
        let src' :=
          if is_recursive f then memcpy st.src pos st.src pixel bpp
          else st.src
        some ⟨src', memcpy st.dst pos src' pixel bpp, radius'⟩

/-- The function `despeckle_median (src, dst, width, height, bpp, preview, filter)`:
the frames and the radius as the call leaves them. -/
def despeckle_median (lum : Byte → Byte → Byte → Byte) (src dst : Buffer)
    (width height bpp : Nat) (f : GstGimpDespeckle) : Option Pass :=
  let radius : Nat := f.despeckle_radius.val
  let diameter : Nat := 2 * radius + 1
  (List.range height).foldlM (fun (st : Pass) (y : Nat) =>
    let ymin : Int := IMAX 0 ((y : Int) - (st.radius : Int))
    let ymax : Int := IMIN ((height : Int) - 1) ((y : Int) + (st.radius : Int))
    (List.range width).foldlM
      (fun (st : Pass) (x : Nat) => despeckle_pixel lum f width bpp diameter ymin ymax y x st) st)
    ⟨src, dst, radius⟩

/-! ## gstsobel.c -/

/-- The fields of `GstSobel` read by `gst_sobel_chain`: the frame size taken
from the caps and the three properties. -/
structure GstSobel where
  width : Nat
  height : Nat
  mirror : Bool
  abs_magnitude : Bool
  clamp : Bool

/-- The table `sobel_x`. -/
def sobel_x : List (List Int) := [[-1, 0, 1], [-2, 0, 2], [-1, 0, 1]]

/-- The table `sobel_y`. -/
def sobel_y : List (List Int) := [[-1, -2, -1], [0, 0, 0], [1, 2, 1]]

/-- The entry `kernel[a][b]` of a 3x3 table. -/
def kernelAt (kernel : List (List Int)) (a b : Int) : Int :=
  (kernel.getD a.toNat []).getD b.toNat 0

/-- The sample of `origdata` multiplied with the kernel entry for the offsets
`mi`, `mj` at pixel `(i, j)`: with `mirror` the coordinates are clamped into
the plane, without it they are used as they are. -/
def sobel_sample (f : GstSobel) (origdata : Buffer) (i j mi mj : Int) : Int :=
  if f.mirror then
    ((peek origdata ((f.width : Int) * CLAMP (i + mi) 0 ((f.height : Int) - 1)
        + CLAMP (j + mj) 0 ((f.width : Int) - 1)).toNat).val : Int)
  else
    ((peek origdata ((f.width : Int) * (i + mi) + (j + mj)).toNat).val : Int)

/-- The two nested loops over `mi` and `mj` of `gst_sobel_chain` that
accumulate `g_x` (with `sobel_x`) and `g_y` (with `sobel_y`) at pixel
`(i, j)`. -/
def sobel_gradient (kernel : List (List Int)) (f : GstSobel) (origdata : Buffer) (i j : Int) :
    Int :=
  (fromTo (-1) 1).foldl (fun g mi =>
    (fromTo (-1) 1).foldl (fun g mj =>
      g + kernelAt kernel (mi + 1) (mj + 1) * sobel_sample f origdata i j mi mj) g) 0

/-- The C library function `abs`. -/
def c_abs (x : Int) : Int := if x < 0 then -x else x

/-- The assignment `result = sqrt (n) * 255` to the `gint` `result`: the
integer part of `255 * sqrt n`, that is the integer square root of
`n * 255 * 255`.  The sums of squares `n` that occur are at most
`2 * 1020 * 1020`; for these the double product differs from `255 * sqrt n`
by less than `1e-10`, while `255 * sqrt n` is an integer or lies further than
`1e-6` from every integer, so rounding in the double arithmetic does not
change the integer part. -/
def sqrt_times_255 (n : Int) : Int := (Nat.sqrt (n.toNat * (255 * 255)) : Int)

/-- The statements of `gst_sobel_chain` under "Calculate magnitude,
normalize/clamp": the value of `result` that is narrowed and stored.  The
macros `SOBEL_MAX_ABS` and `SOBEL_MAX_SQRT` come from `gstsobel.h` and are
parameters here, taken as `gint` constants. -/
def sobel_result (f : GstSobel) (SOBEL_MAX_ABS SOBEL_MAX_SQRT : Int) (g_x g_y : Int) : Int :=
  let result :=
    if f.abs_magnitude then
      let result := c_abs g_x + c_abs g_y
      if !f.clamp then Int.tdiv (result * 255) SOBEL_MAX_ABS else result
    else
      let result := sqrt_times_255 (g_x * g_x + g_y * g_y)
      if !f.clamp then Int.tdiv (result * 255) SOBEL_MAX_SQRT else result
  if f.clamp then CLAMP result 0 255 else result

/-- The assignment `m[k] = v` with the index checked: `none` when `k` lies
outside the buffer. -/
def storeAt (m : Buffer) (k : Int) (v : Byte) : Option Buffer :=
  if 0 ≤ k ∧ k < (m.length : Int) then some (poke m k.toNat v) else none

/-- A loop `for (v = lo; v <= hi; v++) body` whose body can fail. -/
def forFromToM (lo hi : Int) (body : Int → Buffer → Option Buffer) (d : Buffer) :
    Option Buffer :=
  (fromTo lo hi).foldlM (fun acc v => body v acc) d

/-- The body of the pixel loop of `gst_sobel_chain` at `(i, j)`: two chroma
bytes are set to 127, then the gradient magnitude of `origdata` is stored in
the luma plane of `newdata`. -/
def sobel_pixel (f : GstSobel) (SOBEL_MAX_ABS SOBEL_MAX_SQRT : Int) (origdata : Buffer)
    (i j : Int) (newdata : Buffer) : Option Buffer :=
  let w : Int := f.width
  let h : Int := f.height
  let c := h * w + (Int.tdiv w 2 * Int.tdiv i 2 + Int.tdiv j 2)
  (storeAt newdata c 127).bind (fun d1 =>
    (storeAt d1 (c + Int.tdiv (h * w) 4) 127).bind (fun d2 =>
      let g_x := sobel_gradient sobel_x f origdata i j
      let g_y := sobel_gradient sobel_y f origdata i j
      let result := sobel_result f SOBEL_MAX_ABS SOBEL_MAX_SQRT g_x g_y
      storeAt d2 (i * w + j) (toByte result)))

/-- The block of `gst_sobel_chain` under "Zero out borders if not mirroring
border pixels". -/
def sobel_zero_borders (f : GstSobel) (newdata : Buffer) : Option Buffer :=
  let w : Int := f.width
  let h : Int := f.height
  (forFromToM 0 (h - 1) (fun i d =>
      (storeAt d (i * w) 0).bind (fun d1 => storeAt d1 (i * w + w - 1) 0)) newdata).bind
    (fun d =>
      forFromToM 0 (w - 1) (fun j d =>
        (storeAt d j 0).bind (fun d1 => storeAt d1 ((h - 1) * w + j) 0)) d)

/-- The function `gst_sobel_chain` on the bytes of the incoming buffer:
`newdata` starts as a copy of `origdata`, every pixel from `skip_border` to
`height - skip_border - 1` by `skip_border` to `width - skip_border - 1` is
processed, and the borders are zeroed when `mirror` is off.  The result is the
data of the buffer pushed downstream, or `none` when a store fell outside the
buffer. -/
def gst_sobel_chain (f : GstSobel) (SOBEL_MAX_ABS SOBEL_MAX_SQRT : Int) (origdata : Buffer) :
    Option Buffer :=
  let skip_border : Int := if f.mirror then 0 else 1
  let w : Int := f.width
  let h : Int := f.height
  (forFromToM skip_border (h - skip_border - 1) (fun i d =>
      forFromToM skip_border (w - skip_border - 1) (fun j d =>
        sobel_pixel f SOBEL_MAX_ABS SOBEL_MAX_SQRT origdata i j d) d) origdata).bind
    (fun newdata => if f.mirror then some newdata else sobel_zero_borders f newdata)

/-! ## gstgimpcontraststretch.c -/

/-- The struct `AutostretchData`. -/
structure AutostretchData where
  shi : Byte
  slo : Byte
  vhi : Byte
  vlo : Byte
deriving DecidableEq

/-- The function `find_max (src + pos, data)`. -/
def find_max (src : Buffer) (pos : Nat) (data : AutostretchData) : AutostretchData :=
  let s := peek src (pos + 1)
  let v := peek src (pos + 2)
  let data := if s > data.shi then { data with shi := s } else data
  let data := if s < data.slo then { data with slo := s } else data
  let data := if v > data.vhi then { data with vhi := v } else data
  if v < data.vlo then { data with vlo := v } else data

/-- The function `autostretch_hsv_func (src + spos, dest + dpos, data)`; both
channels are read before the three bytes are stored. -/
def autostretch_hsv_func (src : Buffer) (spos : Nat) (dest : Buffer) (dpos : Nat)
    (data : AutostretchData) : Buffer :=
  let s : Int := ((peek src (spos + 1)).val : Int)
  let v : Int := ((peek src (spos + 2)).val : Int)
  let s := if data.shi ≠ data.slo then
      Int.tdiv ((s - (data.slo.val : Int)) * 255) ((data.shi.val : Int) - (data.slo.val : Int))
    else s
  let v := if data.vhi ≠ data.vlo then
      Int.tdiv ((v - (data.vlo.val : Int)) * 255) ((data.vhi.val : Int) - (data.vlo.val : Int))
    else v
  let d0 := poke dest dpos (peek src spos)
  let d1 := poke d0 (dpos + 1) (toByte s)
  poke d1 (dpos + 2) (toByte v)

/-- The loop nest of `gst_gimpcontraststretch_chain` under "Find maximum and
minimum values and saturations", with the `memset` of `param` to zero before
it: `x` runs through `0, 3, .., 3*(width-1)`. -/
def autostretch_scan (width height : Nat) (data : Buffer) : AutostretchData :=
  (List.range height).foldl (fun param y =>
    (List.range width).foldl (fun param k => find_max data (y * width * 3 + 3 * k) param) param)
    ⟨0, 0, 0, 0⟩

/-- The loop nest of `gst_gimpcontraststretch_chain` under "Do the actual
stretching": `autostretch_hsv_func` is called with `src` and `dest` both
pointing at the pixel. -/
def autostretch_stretch (width height : Nat) (param : AutostretchData) (data : Buffer) : Buffer :=
  forRange height (fun y d =>
    forRange width (fun k d =>
      autostretch_hsv_func d (y * width * 3 + 3 * k) d (y * width * 3 + 3 * k) param) d) data

/-- The scan of the frame followed by the stretch, as
`gst_gimpcontraststretch_chain` runs them on the frame converted to HSV. -/
def autostretch_frame (width height : Nat) (data : Buffer) : Buffer :=
  autostretch_stretch width height (autostretch_scan width height data) data

/-! ## Vocabulary of the statements

The definitions below are not part of the source: they name the values and
relations the properties speak about. -/

/-- The byte the repacking loop stores at offset `k` of the output. -/
def repack_val (framedata maskdata : Buffer) (k : Nat) : Byte :=
  if k % 4 = 0 then peek maskdata (k / 4) else peek framedata (k / 4 * 3 + (k % 4 - 1))

/-- The HSV round trip: `gimp_rgb_to_hsv4` followed by `gimp_hsv_to_rgb4`. -/
def hsv_round_trip (r g b : Byte) : Byte × Byte × Byte :=
  gimp_hsv_to_rgb4 (gimp_rgb_to_hsv4 r g b).1 (gimp_rgb_to_hsv4 r g b).2.1
    (gimp_rgb_to_hsv4 r g b).2.2

/-- Channel `x` of a pixel whose largest channel is `M` and smallest `m` comes
back as `X`: exactly when `x` is the largest or the smallest channel, and
between `m` and `M` in any case. -/
def channel_kept (x X M m : Nat) : Prop :=
  (x = M → X = M) ∧ (x = m → X = m) ∧ m ≤ X ∧ X ≤ M

/-- Channel `x` comes back as `X`, at most `tol` away from `x`. -/
def channel_within (x X tol : Nat) : Prop := X ≤ x + tol ∧ x ≤ X + tol

/-- The value `v * (255 * 59 - s * k) / (255 * 59)` that `gimp_hsv_to_rgb4` computes
for `q` (with `k = f`) and for `t` (with `k = 59 - f`), for the value `v = M` and
the saturation `s = (M - m) * 255 / M` of a pixel whose largest channel is `M`
and smallest `m`. -/
def seg_value (M m k : Nat) : Nat := M * (255 * 59 - (M - m) * 255 / M * k) / (255 * 59)

/-- The step, out of the 59 between the smallest and the largest channel, at
which the round trip puts the middle channel when the hue grows with it (green
over blue under red, blue over red under green, red over green under blue):
`x` is the scaled difference `(mid - min) * 255 / (max - min)`, turned into
degrees, into a hue byte and back into degrees. -/
def mid_step_up (x : Nat) : Nat := x * 60 / 255 * 255 / 360 * 360 / 255 % 60

/-- The step at which the round trip puts the middle channel when the hue
falls with it from 120 or 240 degrees (red over blue under green, green over
red under blue). -/
def mid_step_down (x : Nat) : Nat :=
  if (510 - x) * 60 / 255 * 255 / 360 * 360 / 255 < 60
  then (510 - x) * 60 / 255 * 255 / 360 * 360 / 255
  else 119 - (510 - x) * 60 / 255 * 255 / 360 * 360 / 255

/-- The step at which the round trip puts the middle channel when the hue
falls with it from 360 degrees (blue over green under red): a negative hue is
wrapped by adding 360. -/
def mid_step_wrap (x : Nat) : Nat :=
  if x * 60 / 255 = 0 then 0 else 359 - (360 - x * 60 / 255) * 255 / 360 * 360 / 255

/-- The value `u` is at most 13 below and at most 12 above `a`. -/
def near_step (a u : Nat) : Bool := Nat.ble a (u + 13) && Nat.ble u (a + 12)

/-- The check of one channel range `d` and one offset `a` of the middle channel
above the smallest: step `F x` of the 59 steps of the range `d` is near `a`. -/
def mid_check (F : Nat → Nat) (d a : Nat) : Bool := near_step a (d * F (a * 255 / d) / 59)

/-- The check of the offsets `0 .. n` for the range `d`. -/
def mid_check_row (F : Nat → Nat) (d : Nat) : Nat → Bool
  | 0 => mid_check F d 0
  | a + 1 => mid_check F d (a + 1) && mid_check_row F d a

/-- The check of every offset `0 .. d` for the ranges `d = 1 .. n`. -/
def mid_check_all (F : Nat → Nat) : Nat → Bool
  | 0 => true
  | d + 1 => mid_check_row F (d + 1) (d + 1) && mid_check_all F d

/-- The three-way maximum of the spec, `max(r, g, b)`. -/
def max3 (r g b : Nat) : Nat := max r (max g b)

/-- The three-way minimum of the spec, `min(r, g, b)`. -/
def min3 (r g b : Nat) : Nat := min r (min g b)

/-- The saturation of the spec: `max == 0 ? 0 : (max-min)*255/max`. -/
def spec_saturation (r g b : Nat) : Nat :=
  if max3 r g b = 0 then 0 else (max3 r g b - min3 r g b) * 255 / max3 r g b

/-- The function `f` keeps the length of a buffer of `L` bytes, stores `val k`
at every offset `k` with `W k`, and leaves every other byte alone. -/
def Writes (f : Buffer → Buffer) (L : Nat) (W : Nat → Prop) (val : Nat → Byte) : Prop :=
  (∀ d, d.length = L → (f d).length = L) ∧
  (∀ d k, d.length = L → W k → peek (f d) k = val k) ∧
  (∀ d k, d.length = L → ¬ W k → peek (f d) k = peek d k)

/-- The value `blend_video_frames` computes from a weight and two bytes. -/
def blend_value (weight x y : Nat) : Nat := (weight * x + (255 - weight) * y) / 255

/-- The byte `blend_video_frames` stores at offset `k` of the destination. -/
def blend_byte (bpp : Nat) (a b blend_ratio_image : Buffer) (k : Nat) : Byte :=
  toByte ((blend_value (peek blend_ratio_image (k / bpp)).val (peek a k).val (peek b k).val : Nat) : Int)

/-- The index `k` after the exchange of the indices `x` and `y`. -/
def swapIdx (x y k : Int) : Int := if k = y then x else if k = x then y else k

/-- The key `i[k]` as a number. -/
def key (i : List Byte) (k : Int) : Nat := (i.getD k.toNat 0).val

/-- The arrays `s` have `n` entries each and hold the (key, pointer) pairs of
`s0` in some order. -/
def Linked (n : Nat) (s0 s : Sel) : Prop :=
  s.i.length = n ∧ s.p.length = n ∧ (s.i.zip s.p).Perm (s0.i.zip s0.p)

/-- Every key left of position `k` is at most every key at or right of `k`. -/
def Split (n : Nat) (i : List Byte) (k : Int) : Prop :=
  ∀ x y : Int, 0 ≤ x → x < k → k ≤ y → y < n → key i x ≤ key i y

/-- The keys `i'` agree with `i` outside the index range `lo..hi`, and every key
of `i'` inside the range is a key of `i` inside the range. -/
def Shuffle (lo hi : Int) (i i' : List Byte) : Prop :=
  (∀ k : Int, 0 ≤ k → (k < lo ∨ hi < k) → key i' k = key i k) ∧
  (∀ y : Int, lo ≤ y → y ≤ hi → ∃ y', lo ≤ y' ∧ y' ≤ hi ∧ key i' y = key i y')

/-- The loop invariant of the outer loop of `quick_median_select`: the active
partition `low..high` is fenced off from both sides, and either still holds the
median position or the median position is already settled. -/
def SelInv (n : Nat) (median : Int) (s0 s : Sel) (low high : Int) : Prop :=
  Linked n s0 s ∧ 0 ≤ low ∧ high < n ∧ Split n s.i low ∧ Split n s.i (high + 1) ∧
  ((low ≤ median ∧ median ≤ high) ∨
   (median < low ∧ Split n s.i median ∧ Split n s.i (median + 1)))

/-- The luminance of the sample at byte offset `pos` of `src`. -/
def sample_lum (lum : Byte → Byte → Byte → Byte) (src : Buffer) (bpp pos : Nat) : Byte :=
  pixel_luminance lum src pos bpp

/-- The byte offsets of the window samples, row by row:
rows `ymin..ymax`, columns `xmin..xmax`. -/
def window_samples (width bpp : Nat) (ymin ymax xmin xmax : Int) : List Nat :=
  (fromTo ymin ymax).flatMap (fun v =>
    (fromTo xmin xmax).map (fun u => ((u + v * (width : Int)) * (bpp : Int)).toNat))

/-- The candidates of the spec: the window samples whose luminance `L`
satisfies `blackLevel < L < whiteLevel`. -/
def candidates (lum : Byte → Byte → Byte → Byte) (f : GstGimpDespeckle) (src : Buffer)
    (width bpp : Nat) (ymin ymax xmin xmax : Int) : List Nat :=
  (window_samples width bpp ymin ymax xmin xmax).filter (fun pos =>
    decide (f.black_level < sample_lum lum src bpp pos
      ∧ sample_lum lum src bpp pos < f.white_level))

/-- The candidate list of the pixel in column `x` when the pass is in state
`st`: the window spans the rows `ymin..ymax` and the columns
`MAX (0, x - radius) .. MIN (width - 1, x + radius)`. -/
def pixel_candidates (lum : Byte → Byte → Byte → Byte) (f : GstGimpDespeckle) (st : Pass)
    (width bpp : Nat) (ymin ymax : Int) (x : Nat) : List Nat :=
  candidates lum f st.src width bpp ymin ymax (IMAX 0 ((x : Int) - (st.radius : Int)))
    (IMIN ((width : Int) - 1) ((x : Int) + (st.radius : Int)))

/-- The radius after the pixel in column `x` has been processed from state `st`. -/
def pixel_radius (lum : Byte → Byte → Byte → Byte) (f : GstGimpDespeckle) (st : Pass)
    (width bpp diameter : Nat) (ymin ymax : Int) (x : Nat) : Nat :=
  adapt_radius f diameter
    (scan_window lum f st.src width bpp ymin ymax (IMAX 0 ((x : Int) - (st.radius : Int)))
      (IMIN ((width : Int) - 1) ((x : Int) + (st.radius : Int)))) st.radius

/-- The pixel of `d` at `(x, y)` holds the bytes of `src` at an offset `cpos`
allowed by `Rule`. -/
def PixelDone (src : Buffer) (width bpp : Nat) (Rule : Nat → Nat → Nat → Prop)
    (x y : Nat) (d : Buffer) : Prop :=
  ∃ cpos, Rule x y cpos ∧
    ∀ c, c < bpp → peek d ((x + y * width) * bpp + c) = peek src (cpos + c)

/-- All pixels of the frame are byte-for-byte equal (to the first pixel). -/
def Uniform (width height bpp : Nat) (src : Buffer) : Prop :=
  ∀ q c, q < width * height → c < bpp → peek src (q * bpp + c) = peek src c

/-- The candidates of the pixel `(x, y)` for the radius `r`: the samples of the
window `[y-r, y+r] x [x-r, x+r]`, clamped to the frame, whose luminance lies
strictly between the black and the white level. -/
def median_candidates (lum : Byte → Byte → Byte → Byte) (f : GstGimpDespeckle) (src : Buffer)
    (width height bpp r x y : Nat) : List Nat :=
  candidates lum f src width bpp
    (IMAX 0 ((y : Int) - (r : Int))) (IMIN ((height : Int) - 1) ((y : Int) + (r : Int)))
    (IMAX 0 ((x : Int) - (r : Int))) (IMIN ((width : Int) - 1) ((x : Int) + (r : Int)))

/-- The per-pixel rule of the median filter for the pixel `(x, y)` of the
destination `dst'`, the radius being the configured one: the candidate array
the code builds holds exactly the window samples with
`blackLevel < L < whiteLevel`; with fewer than 2 candidates the destination
pixel is a byte-for-byte copy of the source pixel; otherwise it is a
byte-for-byte copy of a candidate whose luminance is the element of rank
`(n-1)/2` of the candidate luminances in ascending order. -/
def median_rule (lum : Byte → Byte → Byte → Byte) (f : GstGimpDespeckle) (src dst' : Buffer)
    (width height bpp x y : Nat) : Prop :=
  (scan_window lum f src width bpp
      (IMAX 0 ((y : Int) - (f.despeckle_radius.val : Int)))
      (IMIN ((height : Int) - 1) ((y : Int) + (f.despeckle_radius.val : Int)))
      (IMAX 0 ((x : Int) - (f.despeckle_radius.val : Int)))
      (IMIN ((width : Int) - 1) ((x : Int) + (f.despeckle_radius.val : Int)))).buf
    = (window_samples width bpp
        (IMAX 0 ((y : Int) - (f.despeckle_radius.val : Int)))
        (IMIN ((height : Int) - 1) ((y : Int) + (f.despeckle_radius.val : Int)))
        (IMAX 0 ((x : Int) - (f.despeckle_radius.val : Int)))
        (IMIN ((width : Int) - 1) ((x : Int) + (f.despeckle_radius.val : Int)))).filter
        (fun pos => decide (f.black_level < sample_lum lum src bpp pos
          ∧ sample_lum lum src bpp pos < f.white_level)) ∧
  ((median_candidates lum f src width height bpp f.despeckle_radius.val x y).length < 2 →
    ∀ c, c < bpp →
      dst'[(x + y * width) * bpp + c]? = src[(x + y * width) * bpp + c]?) ∧
  (2 ≤ (median_candidates lum f src width height bpp f.despeckle_radius.val x y).length →
    ∃ cpos, cpos ∈ median_candidates lum f src width height bpp f.despeckle_radius.val x y ∧
      (∀ c, c < bpp → dst'[(x + y * width) * bpp + c]? = src[cpos + c]?) ∧
      ∀ l : List Byte,
        l.Perm ((median_candidates lum f src width height bpp
          f.despeckle_radius.val x y).map (sample_lum lum src bpp)) →
        l.Sorted (· ≤ ·) →
        l[((median_candidates lum f src width height bpp
            f.despeckle_radius.val x y).length - 1) / 2]?
          = some (sample_lum lum src bpp cpos))

/-- The function `f` returns on every buffer of `L` bytes, keeps the length,
stores `val k` at every offset `k` with `W k`, and leaves every other byte
alone. -/
def WritesM (f : Buffer → Option Buffer) (L : Nat) (W : Nat → Prop) (val : Nat → Byte) : Prop :=
  ∀ d, d.length = L → ∃ d', f d = some d' ∧ d'.length = L ∧
    (∀ k, W k → peek d' k = val k) ∧ (∀ k, ¬ W k → peek d' k = peek d k)

/-- The first chroma offset `gst_sobel_chain` stores to at pixel `(i, j)`. -/
def sobel_chroma (f : GstSobel) (i j : Nat) : Nat :=
  f.height * f.width + (f.width / 2 * (i / 2) + j / 2)

/-- One more than the largest offset the pixel loop of `gst_sobel_chain`
stores to on a frame of at least one pixel with `mirror` on. -/
def sobel_extent (f : GstSobel) : Nat :=
  sobel_chroma f (f.height - 1) (f.width - 1) + f.height * f.width / 4 + 1

/-- The byte the source stores in the luma plane at pixel `(i, j)`: the
narrowed `result` for the two gradients accumulated there. -/
def sobel_luma (f : GstSobel) (SOBEL_MAX_ABS SOBEL_MAX_SQRT : Int) (origdata : Buffer)
    (i j : Nat) : Byte :=
  toByte (sobel_result f SOBEL_MAX_ABS SOBEL_MAX_SQRT
    (sobel_gradient sobel_x f origdata i j) (sobel_gradient sobel_y f origdata i j))

/-- The byte the pixel loop of `gst_sobel_chain` stores at offset `k`, when it
stores there: a luma byte inside the luma plane, 127 behind it. -/
def sobel_byte (f : GstSobel) (SOBEL_MAX_ABS SOBEL_MAX_SQRT : Int) (origdata : Buffer)
    (k : Nat) : Byte :=
  if k < f.height * f.width then
    sobel_luma f SOBEL_MAX_ABS SOBEL_MAX_SQRT origdata (k / f.width) (k % f.width)
  else 127

/-- The value of `skip_border` in `gst_sobel_chain`. -/
def skip_border (f : GstSobel) : Nat := if f.mirror then 0 else 1

/-- The clamp of the spec: `x` limited to the range `lo..hi`. -/
def spec_clamp (x lo hi : Int) : Int := max lo (min x hi)

/-- The kernel `Kx` of the spec. -/
def spec_Kx : List (List Int) := [[-1, 0, 1], [-2, 0, 2], [-1, 0, 1]]

/-- The kernel `Ky` of the spec. -/
def spec_Ky : List (List Int) := [[-1, -2, -1], [0, 0, 0], [1, 2, 1]]

/-- The gradient of the spec with border replication: the sum over `di`, `dj`
in `{-1, 0, 1}` of `K[di+1][dj+1] * luma[clamp(i+di,0,h-1)*w + clamp(j+dj,0,w-1)]`. -/
def spec_gradient_mirror (K : List (List Int)) (w h : Nat) (luma : Buffer) (i j : Nat) : Int :=
  (([-1, 0, 1] : List Int).map (fun di =>
    (([-1, 0, 1] : List Int).map (fun dj =>
      kernelAt K (di + 1) (dj + 1) *
        ((peek luma (spec_clamp ((i : Int) + di) 0 ((h : Int) - 1) * (w : Int)
            + spec_clamp ((j : Int) + dj) 0 ((w : Int) - 1)).toNat).val : Int))).sum)).sum

/-- The gradient of the spec on the unclamped 3x3 neighbourhood: the sum over
`di`, `dj` in `{-1, 0, 1}` of `K[di+1][dj+1] * luma[(i+di)*w + (j+dj)]`. -/
def spec_gradient_plain (K : List (List Int)) (w : Nat) (luma : Buffer) (i j : Nat) : Int :=
  (([-1, 0, 1] : List Int).map (fun di =>
    (([-1, 0, 1] : List Int).map (fun dj =>
      kernelAt K (di + 1) (dj + 1) *
        ((peek luma (((i : Int) + di) * (w : Int) + ((j : Int) + dj)).toNat).val : Int))).sum)).sum

/-- The first `n` iterations of the `x` loop of `despeckle_median` in row `y`,
entered in state `st`: the row bounds are computed from the radius at the head
of the row. -/
def despeckle_row (lum : Byte → Byte → Byte → Byte) (f : GstGimpDespeckle)
    (width height bpp diameter : Nat) (y n : Nat) (st : Pass) : Option Pass :=
  let ymin : Int := IMAX 0 ((y : Int) - (st.radius : Int))
  let ymax : Int := IMIN ((height : Int) - 1) ((y : Int) + (st.radius : Int))
  (List.range n).foldlM
    (fun (st : Pass) (x : Nat) => despeckle_pixel lum f width bpp diameter ymin ymax y x st) st

/-- The state of `despeckle_median` when its scan arrives at the pixel
`(x, y)`: the rows `0 .. y-1` and the first `x` pixels of row `y` have been
processed.  Its `radius` is the radius the window of the pixel `(x, y)` is
built with. -/
def despeckle_state_at (lum : Byte → Byte → Byte → Byte) (src dst : Buffer)
    (width height bpp : Nat) (f : GstGimpDespeckle) (y x : Nat) : Option Pass :=
  ((List.range y).foldlM (fun (st : Pass) (y' : Nat) =>
      despeckle_row lum f width height bpp (2 * f.despeckle_radius.val + 1) y' width st)
    ⟨src, dst, f.despeckle_radius.val⟩).bind
    (fun st => despeckle_row lum f width height bpp (2 * f.despeckle_radius.val + 1) y x st)

/-- The value of `delta` in `gimp_rgb_to_hsv4` when the hue is computed:
`max - min` narrowed to `guint8`, replaced by 255 when it is 0. -/
def rgb_delta (max min : Nat) : Int :=
  if toByte ((max : Int) - (min : Int)) = 0 then 255
  else ((toByte ((max : Int) - (min : Int))).val : Int)

/-- The value of `h` in `gimp_rgb_to_hsv4` after `h *= 60; h /= 255;` and the
wrap into the circle, for the sector value `h0`. -/
def hue_degrees (h0 : Int) : Int :=
  if Int.tdiv (h0 * 60) 255 < 0 then Int.tdiv (h0 * 60) 255 + 360
  else if Int.tdiv (h0 * 60) 255 > 360 then Int.tdiv (h0 * 60) 255 - 360
  else Int.tdiv (h0 * 60) 255

/-- The degrees of the spec: the sector value times 60 divided by 255 with
truncation toward zero, plus 360 if that is negative. -/
def spec_hue_degrees (h0 : Int) : Int :=
  if Int.tdiv (h0 * 60) 255 < 0 then Int.tdiv (h0 * 60) 255 + 360 else Int.tdiv (h0 * 60) 255

/-- The state `st` of a recursive pass that has processed the pixels before
`(x, y)` in raster order: both frames have the frame length, the source equals
the destination on every pixel processed, and the source equals the original
input `src` on every other pixel. -/
def FedBack (src : Buffer) (width height bpp : Nat) (y x : Nat) (st : Pass) : Prop :=
  st.src.length = width * height * bpp ∧ st.dst.length = width * height * bpp ∧
  (∀ x' y', x' < width → y' < height → (y' < y ∨ (y' = y ∧ x' < x)) → ∀ c, c < bpp →
    peek st.src ((x' + y' * width) * bpp + c) = peek st.dst ((x' + y' * width) * bpp + c)) ∧
  (∀ x' y', x' < width → y' < height → ¬ (y' < y ∨ (y' = y ∧ x' < x)) → ∀ c, c < bpp →
    peek st.src ((x' + y' * width) * bpp + c) = peek src ((x' + y' * width) * bpp + c))

/-- The largest of the bytes `g 0, .., g (n-1)`, and 0 when `n = 0`. -/
def channel_max (n : Nat) (g : Nat → Byte) : Byte :=
  (List.range n).foldl (fun m q => max m (g q)) 0

/-- The byte `colorspace_prepare` stores at offset `o` of the four-byte frame
for the three-byte frame `data`: a component of `prepare_pixel` of pixel
`o / 4`. -/
def prepared_byte (data : Buffer) (o : Nat) : Byte :=
  if o % 4 = 0 then
    (prepare_pixel (peek data (3 * (o / 4))) (peek data (3 * (o / 4) + 1))
      (peek data (3 * (o / 4) + 2))).1
  else if o % 4 = 1 then
    (prepare_pixel (peek data (3 * (o / 4))) (peek data (3 * (o / 4) + 1))
      (peek data (3 * (o / 4) + 2))).2.1
  else if o % 4 = 2 then
    (prepare_pixel (peek data (3 * (o / 4))) (peek data (3 * (o / 4) + 1))
      (peek data (3 * (o / 4) + 2))).2.2.1
  else
    (prepare_pixel (peek data (3 * (o / 4))) (peek data (3 * (o / 4) + 1))
      (peek data (3 * (o / 4) + 2))).2.2.2

/-- The byte `colorspace_prepare_reverse` stores at offset `o` of the
three-byte frame for the four-byte frame `hsvdata`: a component of
`reverse_pixel` of pixel `o / 3`. -/
def reversed_byte (hsvdata : Buffer) (o : Nat) : Byte :=
  if o % 3 = 0 then
    (reverse_pixel (peek hsvdata (4 * (o / 3))) (peek hsvdata (4 * (o / 3) + 1))
      (peek hsvdata (4 * (o / 3) + 2)) (peek hsvdata (4 * (o / 3) + 3))).1
  else if o % 3 = 1 then
    (reverse_pixel (peek hsvdata (4 * (o / 3))) (peek hsvdata (4 * (o / 3) + 1))
      (peek hsvdata (4 * (o / 3) + 2)) (peek hsvdata (4 * (o / 3) + 3))).2.1
  else
    (reverse_pixel (peek hsvdata (4 * (o / 3))) (peek hsvdata (4 * (o / 3) + 1))
      (peek hsvdata (4 * (o / 3) + 2)) (peek hsvdata (4 * (o / 3) + 3))).2.2

/-! # Properties -/

/-! ## Generic facts about buffers and loops -/

theorem peek_poke (m : Buffer) (k j : Nat) (v : Byte) :
    peek (poke m k v) j = if k = j ∧ k < m.length then v else peek m j := by
  unfold peek poke
  simp only [List.getD_eq_getElem?_getD, List.getElem?_set]
  by_cases hkj : k = j
  · subst hkj
    by_cases hk : k < m.length
    · simp [hk]
    · simp [hk]
      rw [List.getElem?_eq_none (by omega)]
      rfl
  · simp [hkj]

theorem length_poke (m : Buffer) (k : Nat) (v : Byte) : (poke m k v).length = m.length := by
  simp [poke]

theorem forRange_succ (n : Nat) (body : Nat → Buffer → Buffer) (d : Buffer) :
    forRange (n + 1) body d = body n (forRange n body d) := by
  simp [forRange, List.range_succ, List.foldl_append]

theorem forRange_zero (body : Nat → Buffer → Buffer) (d : Buffer) :
    forRange 0 body d = d := by
  simp [forRange]

theorem length_forRange (n : Nat) (body : Nat → Buffer → Buffer)
    (hlen : ∀ j d, (body j d).length = d.length) (d : Buffer) :
    (forRange n body d).length = d.length := by
  induction n with
  | zero => simp [forRange_zero]
  | succ n ih => rw [forRange_succ, hlen, ih]

/-- A loop whose iteration `j` stores `val k` at the offsets `k` with `W j k`
and leaves the other bytes alone stores `val k` at every offset some iteration
writes. -/
theorem forRange_written (n : Nat) (body : Nat → Buffer → Buffer) (W : Nat → Nat → Prop)
    (val : Nat → Byte) (L : Nat)
    (hlen : ∀ j d, (body j d).length = d.length)
    (hW : ∀ j, j < n → ∀ d k, d.length = L → W j k → peek (body j d) k = val k)
    (hF : ∀ j, j < n → ∀ d k, d.length = L → ¬ W j k → peek (body j d) k = peek d k)
    (d : Buffer) (hd : d.length = L) (k : Nat) (hk : ∃ j, j < n ∧ W j k) :
    peek (forRange n body d) k = val k := by
  induction n with
  | zero => obtain ⟨j, hj, _⟩ := hk; omega
  | succ n ih =>
    rw [forRange_succ]
    have hl : (forRange n body d).length = L := by rw [length_forRange n body hlen, hd]
    by_cases hn : W n k
    · exact hW n (by omega) _ k hl hn
    · rw [hF n (by omega) _ k hl hn]
      obtain ⟨j, hj, hjk⟩ := hk
      have hjn : j < n := by
        rcases Nat.lt_or_ge j n with h | h
        · exact h
        · have : j = n := by omega
          subst this; exact absurd hjk hn
      exact ih (fun j hj => hW j (by omega)) (fun j hj => hF j (by omega)) ⟨j, hjn, hjk⟩

/-- A loop leaves alone every byte none of its iterations writes. -/
theorem forRange_untouched (n : Nat) (body : Nat → Buffer → Buffer) (W : Nat → Nat → Prop)
    (L : Nat)
    (hlen : ∀ j d, (body j d).length = d.length)
    (hF : ∀ j, j < n → ∀ d k, d.length = L → ¬ W j k → peek (body j d) k = peek d k)
    (d : Buffer) (hd : d.length = L) (k : Nat) (hk : ∀ j, j < n → ¬ W j k) :
    peek (forRange n body d) k = peek d k := by
  induction n with
  | zero => simp [forRange_zero]
  | succ n ih =>
    rw [forRange_succ]
    have hl : (forRange n body d).length = L := by rw [length_forRange n body hlen, hd]
    rw [hF n (by omega) _ k hl (hk n (by omega))]
    exact ih (fun j hj => hF j (by omega)) (fun j hj => hk j (by omega))

/-! ## AlphaCompositor -/

theorem length_repack_pixel (framedata maskdata : Buffer) (j : Nat) (d : Buffer) :
    (repack_pixel framedata maskdata j d).length = d.length := by
  simp [repack_pixel, length_poke]

theorem repack_pixel_written (framedata maskdata : Buffer) (j : Nat) (d : Buffer) (k : Nat)
    (hd : j * 4 + 4 ≤ d.length) (hk : j * 4 ≤ k ∧ k < j * 4 + 4) :
    peek (repack_pixel framedata maskdata j d) k = repack_val framedata maskdata k := by
  have hcases : k = j * 4 ∨ k = j * 4 + 1 ∨ k = j * 4 + 2 ∨ k = j * 4 + 3 := by omega
  simp only [repack_pixel, repack_val, peek_poke, length_poke]
  rcases hcases with h | h | h | h <;> subst h
  · have h1 : (j * 4) % 4 = 0 := by omega
    have h2 : (j * 4) / 4 = j := by omega
    simp [h1, h2]
    omega
  · have h1 : (j * 4 + 1) % 4 = 1 := by omega
    have h2 : (j * 4 + 1) / 4 = j := by omega
    simp [h1, h2]
    omega
  · have h1 : (j * 4 + 2) % 4 = 2 := by omega
    have h2 : (j * 4 + 2) / 4 = j := by omega
    simp [h1, h2]
    omega
  · have h1 : (j * 4 + 3) % 4 = 3 := by omega
    have h2 : (j * 4 + 3) / 4 = j := by omega
    simp [h1, h2]
    omega

theorem repack_pixel_untouched (framedata maskdata : Buffer) (j : Nat) (d : Buffer) (k : Nat)
    (hk : ¬ (j * 4 ≤ k ∧ k < j * 4 + 4)) :
    peek (repack_pixel framedata maskdata j d) k = peek d k := by
  simp only [repack_pixel, peek_poke, length_poke]
  have h0 : ¬ (j * 4 = k) := by omega
  have h1 : ¬ (j * 4 + 1 = k) := by omega
  have h2 : ¬ (j * 4 + 2 = k) := by omega
  have h3 : ¬ (j * 4 + 3 = k) := by omega
  simp [h0, h1, h2, h3]

theorem add_alpha_repack_peek (width height : Nat) (framedata maskdata destdata : Buffer)
    (hd : destdata.length = width * height * 4) (k : Nat) (hk : k < width * height * 4) :
    peek (add_alpha_repack width height framedata maskdata destdata) k
      = repack_val framedata maskdata k := by
  unfold add_alpha_repack
  refine forRange_written (width * height) _ (fun j k => j * 4 ≤ k ∧ k < j * 4 + 4)
    (repack_val framedata maskdata) (width * height * 4)
    (length_repack_pixel framedata maskdata) ?_ ?_ destdata hd k ⟨k / 4, by omega, by omega⟩
  · intro j hj d k hdl hW
    exact repack_pixel_written framedata maskdata j d k (by omega) hW
  · intro j _ d k _ hW
    exact repack_pixel_untouched framedata maskdata j d k hW

/-- C1: the repacking loop of the alpha compositor yields `w*h*4` bytes, and
pixel `i` of the output is the mask byte `i` followed by the three bytes of
pixel `i` of the base frame. -/
theorem add_alpha_repack_spec (w h : Nat) (base mask dest : Buffer)
    (hbase : base.length = w * h * 3) (hmask : mask.length = w * h)
    (hdest : dest.length = w * h * 4) :
    (add_alpha_repack w h base mask dest).length = w * h * 4 ∧
    ∀ i, i < w * h →
      (add_alpha_repack w h base mask dest)[4 * i]? = mask[i]? ∧
      (add_alpha_repack w h base mask dest)[4 * i + 1]? = base[3 * i]? ∧
      (add_alpha_repack w h base mask dest)[4 * i + 2]? = base[3 * i + 1]? ∧
      (add_alpha_repack w h base mask dest)[4 * i + 3]? = base[3 * i + 2]? := by
  have hlen : (add_alpha_repack w h base mask dest).length = w * h * 4 := by
    unfold add_alpha_repack
    rw [length_forRange _ _ (length_repack_pixel base mask), hdest]
  refine ⟨hlen, ?_⟩
  intro i hi
  have key : ∀ k, k < w * h * 4 →
      (add_alpha_repack w h base mask dest)[k]? = some (repack_val base mask k) := by
    intro k hk
    have := add_alpha_repack_peek w h base mask dest hdest k hk
    rw [← this, peek, List.getD_eq_getElem?_getD, List.getElem?_eq_getElem (by omega)]
    rfl
  have rdm : ∀ k, k < mask.length → mask[k]? = some (peek mask k) := by
    intro k hk
    rw [peek, List.getD_eq_getElem?_getD, List.getElem?_eq_getElem hk]; rfl
  have rdb : ∀ k, k < base.length → base[k]? = some (peek base k) := by
    intro k hk
    rw [peek, List.getD_eq_getElem?_getD, List.getElem?_eq_getElem hk]; rfl
  refine ⟨?_, ?_, ?_, ?_⟩
  · rw [key _ (by omega), rdm i (by omega), repack_val]
    have h1 : (4 * i) % 4 = 0 := by omega
    have h2 : (4 * i) / 4 = i := by omega
    simp [h1, h2]
  · rw [key _ (by omega), rdb _ (by omega), repack_val]
    have h1 : (4 * i + 1) % 4 = 1 := by omega
    have h2 : (4 * i + 1) / 4 = i := by omega
    have h3 : i * 3 + (1 - 1) = 3 * i := by omega
    rw [h1, h2, if_neg (by omega), h3]
  · rw [key _ (by omega), rdb _ (by omega), repack_val]
    have h1 : (4 * i + 2) % 4 = 2 := by omega
    have h2 : (4 * i + 2) / 4 = i := by omega
    have h3 : i * 3 + (2 - 1) = 3 * i + 1 := by omega
    rw [h1, h2, if_neg (by omega), h3]
  · rw [key _ (by omega), rdb _ (by omega), repack_val]
    have h1 : (4 * i + 3) % 4 = 3 := by omega
    have h2 : (4 * i + 3) / 4 = i := by omega
    have h3 : i * 3 + (3 - 1) = 3 * i + 2 := by omega
    rw [h1, h2, if_neg (by omega), h3]

theorem add_alpha_repack_spec_witness :
    ([10, 20, 30, 40, 50, 60] : Buffer).length = 2 * 1 * 3 ∧
    ([200, 100] : Buffer).length = 2 * 1 ∧
    ([0, 0, 0, 0, 0, 0, 0, 0] : Buffer).length = 2 * 1 * 4 ∧
    add_alpha_repack 2 1 [10, 20, 30, 40, 50, 60] [200, 100] [0, 0, 0, 0, 0, 0, 0, 0]
      = [200, 10, 20, 30, 100, 40, 50, 60] ∧
    ((add_alpha_repack 2 1 [10, 20, 30, 40, 50, 60] [200, 100]
        [0, 0, 0, 0, 0, 0, 0, 0]).length = 2 * 1 * 4 ∧
     ∀ i, i < 2 * 1 →
      (add_alpha_repack 2 1 [10, 20, 30, 40, 50, 60] [200, 100]
          [0, 0, 0, 0, 0, 0, 0, 0])[4 * i]? = ([200, 100] : Buffer)[i]? ∧
      (add_alpha_repack 2 1 [10, 20, 30, 40, 50, 60] [200, 100]
          [0, 0, 0, 0, 0, 0, 0, 0])[4 * i + 1]? = ([10, 20, 30, 40, 50, 60] : Buffer)[3 * i]? ∧
      (add_alpha_repack 2 1 [10, 20, 30, 40, 50, 60] [200, 100]
          [0, 0, 0, 0, 0, 0, 0, 0])[4 * i + 2]?
        = ([10, 20, 30, 40, 50, 60] : Buffer)[3 * i + 1]? ∧
      (add_alpha_repack 2 1 [10, 20, 30, 40, 50, 60] [200, 100]
          [0, 0, 0, 0, 0, 0, 0, 0])[4 * i + 3]?
        = ([10, 20, 30, 40, 50, 60] : Buffer)[3 * i + 2]?) :=
  ⟨by decide, by decide, by decide, by decide,
   add_alpha_repack_spec 2 1 [10, 20, 30, 40, 50, 60] [200, 100] [0, 0, 0, 0, 0, 0, 0, 0]
     (by decide) (by decide) (by decide)⟩

/-! ## FrameArithmetic -/

theorem Writes.forRange {n : Nat} {body : Nat → Buffer → Buffer} {L : Nat}
    {W : Nat → Nat → Prop} {val : Nat → Byte}
    (hbody : ∀ j, j < n → Writes (body j) L (W j) val) :
    Writes (forRange n body) L (fun k => ∃ j, j < n ∧ W j k) val := by
  induction n with
  | zero =>
    refine ⟨fun d hd => by simpa [forRange_zero] using hd, ?_, fun d k _ _ => by simp [forRange_zero]⟩
    rintro d k _ ⟨j, hj, _⟩
    omega
  | succ n ih =>
    obtain ⟨ihl, ihw, ihf⟩ := ih (fun j hj => hbody j (by omega))
    obtain ⟨bl, bw, bf⟩ := hbody n (by omega)
    refine ⟨fun d hd => ?_, fun d k hd hk => ?_, fun d k hd hk => ?_⟩
    · rw [forRange_succ]; exact bl _ (ihl d hd)
    · rw [forRange_succ]
      by_cases hn : W n k
      · exact bw _ k (ihl d hd) hn
      · rw [bf _ k (ihl d hd) hn]
        obtain ⟨j, hj, hjk⟩ := hk
        have hjn : j < n := by
          rcases Nat.lt_or_ge j n with h | h
          · exact h
          · have : j = n := by omega
            subst this; exact absurd hjk hn
        exact ihw d k hd ⟨j, hjn, hjk⟩
    · rw [forRange_succ]
      have hn : ¬ W n k := fun h => hk ⟨n, by omega, h⟩
      rw [bf _ k (ihl d hd) hn]
      exact ihf d k hd (fun ⟨j, hj, hjk⟩ => hk ⟨j, by omega, hjk⟩)

theorem Writes.poke {L k : Nat} {v : Byte} {val : Nat → Byte} (hk : k < L) (hv : val k = v) :
    Writes (fun d => poke d k v) L (fun j => j = k) val := by
  refine ⟨fun d hd => by simpa [length_poke] using hd, fun d j hd hj => ?_, fun d j hd hj => ?_⟩
  · subst hj
    rw [peek_poke, if_pos ⟨rfl, by omega⟩, hv]
  · rw [peek_poke, if_neg (fun h => hj h.1.symm)]

theorem Writes.congr {f : Buffer → Buffer} {L : Nat} {W W' : Nat → Prop} {val : Nat → Byte}
    (h : Writes f L W val) (hW : ∀ k, W' k ↔ W k) : Writes f L W' val :=
  ⟨h.1, fun d k hd hk => h.2.1 d k hd ((hW k).1 hk),
   fun d k hd hk => h.2.2 d k hd (fun hk' => hk ((hW k).2 hk'))⟩

theorem pixel_index_lt {w h ch cw : Nat} (hch : ch < h) (hcw : cw < w) : ch * w + cw < w * h := by
  have : (ch + 1) * w ≤ h * w := Nat.mul_le_mul_right w hch
  rw [Nat.mul_comm w h]
  rw [Nat.add_mul] at this
  omega

theorem pixel_block_le (n p bpp : Nat) (hp : p < n) : p * bpp + bpp ≤ n * bpp := by
  have : (p + 1) * bpp ≤ n * bpp := Nat.mul_le_mul_right bpp hp
  rw [Nat.add_mul] at this
  omega

theorem pixel_of_offset {p bpp c : Nat} (hc : c < bpp) : (p * bpp + c) / bpp = p := by
  have hb : 0 < bpp := by omega
  rw [Nat.mul_comm, Nat.mul_add_div hb, Nat.div_eq_of_lt hc]
  rfl

theorem blend_value_le (weight x y : Nat) (hw : weight ≤ 255) (hx : x ≤ 255) (hy : y ≤ 255) :
    blend_value weight x y ≤ 255 := by
  unfold blend_value
  have h1 : weight * x ≤ weight * 255 := Nat.mul_le_mul_left _ hx
  have h2 : (255 - weight) * y ≤ (255 - weight) * 255 := Nat.mul_le_mul_left _ hy
  have h3 : weight * 255 + (255 - weight) * 255 = 255 * 255 := by
    rw [← Nat.add_mul]
    have : weight + (255 - weight) = 255 := by omega
    rw [this]
  have h4 : weight * x + (255 - weight) * y ≤ 255 * 255 := by omega
  calc (weight * x + (255 - weight) * y) / 255 ≤ (255 * 255) / 255 := Nat.div_le_div_right h4
    _ = 255 := by norm_num

theorem toByte_val_of_le (n : Nat) (hn : n ≤ 255) : (toByte (n : Int)).val = n := by
  simp only [toByte]
  omega

theorem blend_video_frames_writes (w h bpp : Nat) (a b blend_ratio_image : Buffer) :
    Writes (fun dest => blend_video_frames w h bpp a b dest blend_ratio_image) (w * h * bpp)
      (fun k => ∃ ch, ch < h ∧ ∃ cw, cw < w ∧ ∃ i, i < bpp ∧ k = (ch * w + cw) * bpp + i)
      (blend_byte bpp a b blend_ratio_image) := by
  unfold blend_video_frames
  refine Writes.forRange (fun ch hch => ?_)
  refine Writes.forRange (fun cw hcw => ?_)
  refine Writes.forRange (fun i hi => ?_)
  have hp := pixel_index_lt hch hcw
  have hblk := pixel_block_le _ _ bpp hp
  refine Writes.poke (by omega) ?_
  simp only [blend_byte, blend_value, pixel_of_offset hi]

/-- C2: every output byte of `blend_video_frames`, at pixel `p` and channel `c`,
is `(ratio[p]*a[p*bpp+c] + (255-ratio[p])*b[p*bpp+c]) / 255` with truncating
division, and that value fits in a byte. -/
theorem blend_video_frames_spec (w h bpp : Nat) (a b dest ratio : Buffer)
    (ha : a.length = w * h * bpp) (hb : b.length = w * h * bpp)
    (hr : ratio.length = w * h) (hd : dest.length = w * h * bpp) :
    (blend_video_frames w h bpp a b dest ratio).length = w * h * bpp ∧
    ∀ p c, p < w * h → c < bpp →
      ((blend_video_frames w h bpp a b dest ratio)[p * bpp + c]?).map Fin.val
        = some (((peek ratio p).val * (peek a (p * bpp + c)).val
                  + (255 - (peek ratio p).val) * (peek b (p * bpp + c)).val) / 255) ∧
      ((peek ratio p).val * (peek a (p * bpp + c)).val
          + (255 - (peek ratio p).val) * (peek b (p * bpp + c)).val) / 255 ≤ 255 := by
  obtain ⟨hl, hw, _⟩ := blend_video_frames_writes w h bpp a b ratio
  have hlen : (blend_video_frames w h bpp a b dest ratio).length = w * h * bpp := hl dest hd
  refine ⟨hlen, fun p c hp hc => ?_⟩
  have hle := blend_value_le (peek ratio p).val (peek a (p * bpp + c)).val
    (peek b (p * bpp + c)).val (by omega) (by omega) (by omega)
  refine ⟨?_, hle⟩
  have hw0 : 0 < w := by
    rcases Nat.eq_zero_or_pos w with h0 | h0
    · subst h0; simp at hp
    · exact h0
  have hch : p / w < h := by
    rw [Nat.div_lt_iff_lt_mul hw0, Nat.mul_comm]; exact hp
  have hk := hw dest (p * bpp + c) hd
    ⟨p / w, hch, p % w, Nat.mod_lt _ hw0, c, hc, by rw [Nat.div_add_mod' p w]⟩
  have hblk := pixel_block_le _ _ bpp hp
  have hget : (blend_video_frames w h bpp a b dest ratio)[p * bpp + c]?
      = some (peek (blend_video_frames w h bpp a b dest ratio) (p * bpp + c)) := by
    rw [peek, List.getD_eq_getElem?_getD, List.getElem?_eq_getElem (by omega)]; rfl
  rw [hget, hk, Option.map_some', blend_byte, pixel_of_offset hc, toByte_val_of_le _ hle]
  rfl

theorem blend_video_frames_spec_witness :
    ([200] : Buffer).length = 1 * 1 * 1 ∧ ([0] : Buffer).length = 1 * 1 * 1 ∧
    ([128] : Buffer).length = 1 * 1 ∧ blend_video_frames 1 1 1 [200] [0] [0] [128] = [100] ∧
    ((blend_video_frames 1 1 1 [200] [0] [0] [128]).length = 1 * 1 * 1 ∧
    ∀ p c, p < 1 * 1 → c < 1 →
      ((blend_video_frames 1 1 1 [200] [0] [0] [128])[p * 1 + c]?).map Fin.val
        = some (((peek [128] p).val * (peek [200] (p * 1 + c)).val
                  + (255 - (peek [128] p).val) * (peek [0] (p * 1 + c)).val) / 255) ∧
      ((peek [128] p).val * (peek [200] (p * 1 + c)).val
          + (255 - (peek [128] p).val) * (peek [0] (p * 1 + c)).val) / 255 ≤ 255) :=
  ⟨by decide, by decide, by decide, by decide,
   blend_video_frames_spec 1 1 1 [200] [0] [0] [128] (by decide) (by decide) (by decide)
     (by decide)⟩

theorem peek_eq_getElem (m : Buffer) (k : Nat) (hk : k < m.length) : peek m k = m[k] := by
  rw [peek, List.getD_eq_getElem?_getD, List.getElem?_eq_getElem hk]; rfl

theorem peek_mem (m : Buffer) (k : Nat) (hk : k < m.length) : peek m k ∈ m := by
  rw [peek_eq_getElem m k hk]; exact List.getElem_mem hk

theorem buffer_ext (m m' : Buffer) (hl : m.length = m'.length)
    (h : ∀ k, k < m.length → peek m k = peek m' k) : m = m' := by
  apply List.ext_getElem hl
  intro k h1 h2
  rw [← peek_eq_getElem m k h1, ← peek_eq_getElem m' k h2]
  exact h k h1

theorem offset_lt_pixels {n bpp k : Nat} (hk : k < n * bpp) : k / bpp < n := by
  have hb : 0 < bpp := by
    rcases Nat.eq_zero_or_pos bpp with h0 | h0
    · subst h0; simp at hk
    · exact h0
  exact (Nat.div_lt_iff_lt_mul hb).2 hk

theorem blend_video_frames_peek (w h bpp : Nat) (a b dest ratio : Buffer)
    (hd : dest.length = w * h * bpp) (k : Nat) (hk : k < w * h * bpp) :
    peek (blend_video_frames w h bpp a b dest ratio) k = blend_byte bpp a b ratio k := by
  obtain ⟨_, hw, _⟩ := blend_video_frames_writes w h bpp a b ratio
  have hp : k / bpp < w * h := offset_lt_pixels hk
  have hb : 0 < bpp := by
    rcases Nat.eq_zero_or_pos bpp with h0 | h0
    · subst h0; simp at hk
    · exact h0
  have hw0 : 0 < w := by
    rcases Nat.eq_zero_or_pos w with h0 | h0
    · subst h0; simp at hp
    · exact h0
  have hch : k / bpp / w < h := by
    rw [Nat.div_lt_iff_lt_mul hw0, Nat.mul_comm]; exact hp
  exact hw dest k hd ⟨k / bpp / w, hch, k / bpp % w, Nat.mod_lt _ hw0, k % bpp, Nat.mod_lt _ hb,
    by rw [Nat.div_add_mod' (k / bpp) w, Nat.div_add_mod' k bpp]⟩

theorem blend_value_full (x y : Nat) : blend_value 255 x y = x := by
  unfold blend_value
  simp

theorem blend_value_none (x y : Nat) : blend_value 0 x y = y := by
  unfold blend_value
  simp

theorem blend_video_frames_pixel (w h bpp : Nat) (a b dest ratio : Buffer)
    (hd : dest.length = w * h * bpp) (k : Nat) (hk : k < w * h * bpp) :
    (peek ratio (k / bpp) = 255 →
      peek (blend_video_frames w h bpp a b dest ratio) k = peek a k) ∧
    (peek ratio (k / bpp) = 0 →
      peek (blend_video_frames w h bpp a b dest ratio) k = peek b k) := by
  rw [blend_video_frames_peek w h bpp a b dest ratio hd k hk, blend_byte]
  constructor
  · intro hx
    rw [hx]
    have h255 : ((255 : Byte).val) = 255 := rfl
    rw [h255, blend_value_full]
    apply Fin.ext
    rw [toByte_val_of_le _ (by omega)]
  · intro hx
    rw [hx]
    have h0 : ((0 : Byte).val) = 0 := rfl
    rw [h0, blend_value_none]
    apply Fin.ext
    rw [toByte_val_of_le _ (by omega)]

/-- C3: for every `bpp` and all frame contents, `blend_video_frames` returns
frame `a` when every ratio byte is 255 and frame `b` when every ratio byte is 0;
pixel by pixel, a ratio byte of 255 yields the pixel of `a` and a ratio byte of
0 the pixel of `b`, and the masked sharpening element passes the sharpened
frame as `a` and the original frame as `b`. -/
theorem blend_video_frames_extremes (w h bpp : Nat) (a b dest ratio : Buffer)
    (ha : a.length = w * h * bpp) (hb : b.length = w * h * bpp)
    (hr : ratio.length = w * h) (hd : dest.length = w * h * bpp) :
    ((∀ x, x ∈ ratio → x = 255) → blend_video_frames w h bpp a b dest ratio = a) ∧
    ((∀ x, x ∈ ratio → x = 0) → blend_video_frames w h bpp a b dest ratio = b) ∧
    (∀ p c, p < w * h → c < bpp → ratio[p]? = some 255 →
      (blend_video_frames w h bpp a b dest ratio)[p * bpp + c]? = a[p * bpp + c]?) ∧
    (∀ p c, p < w * h → c < bpp → ratio[p]? = some 0 →
      (blend_video_frames w h bpp a b dest ratio)[p * bpp + c]? = b[p * bpp + c]?) ∧
    (bpp = 4 → masked_unsharp_blend w h a b dest ratio
      = blend_video_frames w h bpp a b dest ratio) := by
  have hlen : (blend_video_frames w h bpp a b dest ratio).length = w * h * bpp :=
    (blend_video_frames_writes w h bpp a b ratio).1 dest hd
  have hsome : ∀ (m : Buffer) k, k < m.length → m[k]? = some (peek m k) := by
    intro m k hk
    rw [peek_eq_getElem m k hk, List.getElem?_eq_getElem hk]
  refine ⟨?_, ?_, ?_, ?_, ?_⟩
  · intro hall
    apply buffer_ext _ _ (by rw [hlen, ha])
    intro k hk
    rw [hlen] at hk
    exact (blend_video_frames_pixel w h bpp a b dest ratio hd k hk).1
      (hall _ (peek_mem ratio _ (by rw [hr]; exact offset_lt_pixels hk)))
  · intro hall
    apply buffer_ext _ _ (by rw [hlen, hb])
    intro k hk
    rw [hlen] at hk
    exact (blend_video_frames_pixel w h bpp a b dest ratio hd k hk).2
      (hall _ (peek_mem ratio _ (by rw [hr]; exact offset_lt_pixels hk)))
  · intro p c hp hc hrp
    have hblk := pixel_block_le _ _ bpp hp
    have hk : p * bpp + c < w * h * bpp := by omega
    rw [hsome ratio p (by omega)] at hrp
    rw [hsome _ _ (by omega), hsome a _ (by omega)]
    have := (blend_video_frames_pixel w h bpp a b dest ratio hd _ hk).1
      (by rw [pixel_of_offset hc]; exact Option.some.inj hrp)
    rw [this]
  · intro p c hp hc hrp
    have hblk := pixel_block_le _ _ bpp hp
    have hk : p * bpp + c < w * h * bpp := by omega
    rw [hsome ratio p (by omega)] at hrp
    rw [hsome _ _ (by omega), hsome b _ (by omega)]
    have := (blend_video_frames_pixel w h bpp a b dest ratio hd _ hk).2
      (by rw [pixel_of_offset hc]; exact Option.some.inj hrp)
    rw [this]
  · intro h4
    subst h4
    rfl

theorem blend_video_frames_extremes_witness :
    ([10, 20, 30, 40] : Buffer).length = 2 * 1 * 2 ∧ ([5, 6, 7, 8] : Buffer).length = 2 * 1 * 2 ∧
    ([255, 255] : Buffer).length = 2 * 1 ∧ ([0, 0, 0, 0] : Buffer).length = 2 * 1 * 2 ∧
    (∀ x, x ∈ ([255, 255] : Buffer) → x = 255) ∧
    blend_video_frames 2 1 2 [10, 20, 30, 40] [5, 6, 7, 8] [0, 0, 0, 0] [255, 255]
      = [10, 20, 30, 40] :=
  ⟨by decide, by decide, by decide, by decide, by simp,
   (blend_video_frames_extremes 2 1 2 [10, 20, 30, 40] [5, 6, 7, 8] [0, 0, 0, 0] [255, 255]
     (by decide) (by decide) (by decide) (by decide)).1 (by simp)⟩

/-- C4: on a 2x1 frame of two bytes per pixel `subtract_frames` indexes by the
pixel number alone, so it stores the clamped differences at offsets 0, 1, 2 and
never reaches offset 3: the last byte of `dest` keeps its old value 7 where
`clamp(a[3] - b[3], 0, 255)` is 9. -/
theorem subtract_frames_misses_last_byte :
    subtract_frames 2 1 2 [5, 5, 5, 9] [0, 0, 0, 0] [7, 7, 7, 7] = [5, 5, 5, 7] ∧
    toByte (CLAMP (((peek [5, 5, 5, 9] 3).val : Int) - ((peek [0, 0, 0, 0] 3).val : Int)) 0 255)
      = 9 := by
  constructor
  · decide
  · decide

/-! ## ColorSpaceEnhancer: RGB and HSV -/

theorem rgb_max_min_eq (r g b : Byte) :
    rgb_max_min r g b = (max3 r.val g.val b.val, min3 r.val g.val b.val) := by
  unfold rgb_max_min max3 min3 MAX MIN
  by_cases h : r > g
  · have h' : g.val < r.val := h
    rw [if_pos h]
    ext
    · show (if r.val > b.val then r.val else b.val) = _
      split_ifs <;> omega
    · show (if g.val < b.val then g.val else b.val) = _
      split_ifs <;> omega
  · have h' : ¬ g.val < r.val := h
    rw [if_neg h]
    ext
    · show (if g.val > b.val then g.val else b.val) = _
      split_ifs <;> omega
    · show (if r.val < b.val then r.val else b.val) = _
      split_ifs <;> omega

theorem min3_le_max3 (r g b : Nat) : min3 r g b ≤ max3 r g b := by
  unfold min3 max3; omega

theorem max3_le (r g b : Byte) : max3 r.val g.val b.val ≤ 255 := by
  unfold max3; omega

theorem tdiv_natCast (a b : Nat) : Int.tdiv (a : Int) (b : Int) = ((a / b : Nat) : Int) :=
  (Int.ofNat_tdiv a b).symm

theorem saturation_int (M m : Nat) (hm : m ≤ M) :
    Int.tdiv (((M : Int) - (m : Int)) * 255) (M : Int) = (((M - m) * 255 / M : Nat) : Int) := by
  rw [← tdiv_natCast]
  push_cast [Nat.cast_sub hm]
  rfl

theorem saturation_le (M m : Nat) : (M - m) * 255 / M ≤ 255 := by
  rcases Nat.eq_zero_or_pos M with h0 | h0
  · subst h0; simp
  · apply Nat.div_le_of_le_mul
    rw [Nat.mul_comm M 255, Nat.mul_comm _ 255]
    exact Nat.mul_le_mul_left 255 (Nat.sub_le M m)

theorem hsv_value (r g b : Byte) :
    (gimp_rgb_to_hsv4 r g b).2.2.val = max3 r.val g.val b.val := by
  simp only [gimp_rgb_to_hsv4, rgb_max_min_eq]
  exact toByte_val_of_le _ (max3_le r g b)

theorem hsv_saturation (r g b : Byte) :
    (gimp_rgb_to_hsv4 r g b).2.1.val = spec_saturation r.val g.val b.val := by
  simp only [gimp_rgb_to_hsv4, rgb_max_min_eq, spec_saturation]
  by_cases hM : max3 r.val g.val b.val = 0
  · rw [if_neg (by simpa using hM), if_pos hM]
    rfl
  · rw [if_pos hM, if_neg hM, saturation_int _ _ (min3_le_max3 _ _ _)]
    exact toByte_val_of_le _ (saturation_le _ _)

/-- C6: the two-branch selection of `gimp_rgb_to_hsv4` is the three-way
`max(r,g,b)` and `min(r,g,b)`; the returned value is `max(r,g,b)` and the
returned saturation is 0 when `max = 0` and `(max-min)*255/max` otherwise; on
`(255,0,0)` saturation and value are both 255. -/
theorem rgb_to_hsv4_max_min_three_way (r g b : Byte) :
    rgb_max_min r g b = (max3 r.val g.val b.val, min3 r.val g.val b.val) ∧
    (gimp_rgb_to_hsv4 r g b).2.2.val = max3 r.val g.val b.val ∧
    (gimp_rgb_to_hsv4 r g b).2.1.val
      = (if max3 r.val g.val b.val = 0 then 0
         else (max3 r.val g.val b.val - min3 r.val g.val b.val) * 255 / max3 r.val g.val b.val) ∧
    gimp_rgb_to_hsv4 255 0 0 = (0, 255, 255) :=
  ⟨rgb_max_min_eq r g b, hsv_value r g b, hsv_saturation r g b, by decide⟩

/-! ### The HSV round trip -/

theorem seg_le (V S e : Nat) : V * (255 * 59 - S * e) / (255 * 59) ≤ V := by
  apply Nat.div_le_of_le_mul
  rw [Nat.mul_comm (255 * 59) V]
  exact Nat.mul_le_mul_left V (Nat.sub_le _ _)

theorem seg_full (V S : Nat) : V * (255 * 59 - S * 59) / (255 * 59) = V * (255 - S) / 255 := by
  have h1 : 255 * 59 - S * 59 = (255 - S) * 59 := by rw [Nat.sub_mul]
  rw [h1, ← Nat.mul_assoc]
  exact Nat.mul_div_mul_right _ _ (by norm_num)

theorem seg_zero (V S : Nat) : V * (255 * 59 - S * 0) / (255 * 59) = V := by
  rw [Nat.mul_zero, Nat.sub_zero]
  exact Nat.mul_div_cancel V (by norm_num)

theorem seg_ge (V S e : Nat) (he : e ≤ 59) :
    V * (255 - S) / 255 ≤ V * (255 * 59 - S * e) / (255 * 59) := by
  rw [← seg_full]
  apply Nat.div_le_div_right
  apply Nat.mul_le_mul_left
  apply Nat.sub_le_sub_left
  exact Nat.mul_le_mul_left S he

theorem seg_int (V S e : Nat) (hS : S ≤ 255) (he : e ≤ 59) :
    Int.tdiv ((V : Int) * (255 * 59 - (S : Int) * (e : Int))) (255 * 59)
      = ((V * (255 * 59 - S * e) / (255 * 59) : Nat) : Int) := by
  have hle : S * e ≤ 255 * 59 := Nat.mul_le_mul hS he
  have hc : (((255 * 59 - S * e : Nat)) : Int) = 255 * 59 - (S : Int) * (e : Int) := by
    rw [Nat.cast_sub hle]; push_cast; ring
  rw [← hc, ← tdiv_natCast]
  push_cast
  rfl

/-- What `gimp_hsv_to_rgb4` returns for a non-zero saturation, sector by sector. -/
theorem hsv_to_rgb4_sectors (H S V : Byte) (hS : S ≠ 0) :
    ∃ q t : Nat,
      V.val * (255 - S.val) / 255 ≤ q ∧ q ≤ V.val ∧
      V.val * (255 - S.val) / 255 ≤ t ∧ t ≤ V.val ∧
      (H.val * 360 / 255 % 60 = 59 → t = V.val) ∧
      (H.val * 360 / 255 % 60 = 0 → t = V.val * (255 - S.val) / 255) ∧
      (H.val * 360 / 255 / 60 = 0 → gimp_hsv_to_rgb4 H S V
        = (toByte V.val, toByte t, toByte ((V.val * (255 - S.val) / 255 : Nat) : Int))) ∧
      (H.val * 360 / 255 / 60 = 1 → gimp_hsv_to_rgb4 H S V
        = (toByte q, toByte V.val, toByte ((V.val * (255 - S.val) / 255 : Nat) : Int))) ∧
      (H.val * 360 / 255 / 60 = 2 → gimp_hsv_to_rgb4 H S V
        = (toByte ((V.val * (255 - S.val) / 255 : Nat) : Int), toByte V.val, toByte t)) ∧
      (H.val * 360 / 255 / 60 = 3 → gimp_hsv_to_rgb4 H S V
        = (toByte ((V.val * (255 - S.val) / 255 : Nat) : Int), toByte q, toByte V.val)) ∧
      (H.val * 360 / 255 / 60 = 4 → gimp_hsv_to_rgb4 H S V
        = (toByte t, toByte ((V.val * (255 - S.val) / 255 : Nat) : Int), toByte V.val)) ∧
      (H.val * 360 / 255 / 60 = 5 → gimp_hsv_to_rgb4 H S V
        = (toByte V.val, toByte ((V.val * (255 - S.val) / 255 : Nat) : Int), toByte q)) := by
  have hf : H.val * 360 / 255 % 60 ≤ 59 := by omega
  have hf' : 59 - H.val * 360 / 255 % 60 ≤ 59 := by omega
  have hSle : S.val ≤ 255 := by omega
  have hh : Int.tdiv ((H.val : Int) * 360) 255 = ((H.val * 360 / 255 : Nat) : Int) := by
    rw [← tdiv_natCast]; push_cast; rfl
  have hfm : Int.tmod ((H.val * 360 / 255 : Nat) : Int) 60
      = ((H.val * 360 / 255 % 60 : Nat) : Int) := by
    rw [Int.tmod_eq_emod (by omega) (by norm_num)]; push_cast; rfl
  have hk : Int.tdiv ((H.val * 360 / 255 : Nat) : Int) 60
      = ((H.val * 360 / 255 / 60 : Nat) : Int) := by
    rw [Int.tdiv_eq_ediv (by omega) (by norm_num)]; push_cast; rfl
  have hp : Int.tdiv ((V.val : Int) * (255 - (S.val : Int))) 255
      = ((V.val * (255 - S.val) / 255 : Nat) : Int) := by
    have hc : (((255 - S.val : Nat)) : Int) = 255 - (S.val : Int) := by omega
    rw [← hc, ← tdiv_natCast]; push_cast; rfl
  have hq := seg_int V.val S.val (H.val * 360 / 255 % 60) hSle hf
  have ht := seg_int V.val S.val (59 - H.val * 360 / 255 % 60) hSle hf'
  have hc59 : (((59 - H.val * 360 / 255 % 60 : Nat)) : Int)
      = 59 - ((H.val * 360 / 255 % 60 : Nat) : Int) := by omega
  rw [hc59] at ht
  refine ⟨V.val * (255 * 59 - S.val * (H.val * 360 / 255 % 60)) / (255 * 59),
    V.val * (255 * 59 - S.val * (59 - H.val * 360 / 255 % 60)) / (255 * 59),
    seg_ge _ _ _ hf, seg_le _ _ _, seg_ge _ _ _ hf', seg_le _ _ _, ?_, ?_, ?_⟩
  · intro h59
    rw [h59, Nat.sub_self]
    exact seg_zero _ _
  · intro h0
    rw [h0, Nat.sub_zero]
    exact seg_full _ _
  · simp only [gimp_hsv_to_rgb4, if_neg hS, hh, hfm, hk, hp, hq, ht]
    refine ⟨?_, ?_, ?_, ?_, ?_, ?_⟩ <;> intro hk' <;> simp [hk']

theorem scaled_le (n d : Nat) (hn : n ≤ d) : n * 255 / d ≤ 255 := by
  rcases Nat.eq_zero_or_pos d with h0 | h0
  · subst h0; simp
  · apply Nat.div_le_of_le_mul
    rw [Nat.mul_comm d 255, Nat.mul_comm n 255]
    exact Nat.mul_le_mul_left 255 hn

theorem scaled_full (d : Nat) (hd : 0 < d) : d * 255 / d = 255 :=
  Nat.mul_div_cancel_left 255 hd

theorem scaled_lt (n d : Nat) (hn : n < d) : n * 255 / d ≤ 254 := by
  have hd : 0 < d := by omega
  have : n * 255 / d < 255 := by
    rw [Nat.div_lt_iff_lt_mul hd]
    omega
  omega

theorem scaled_pos (n d : Nat) (hn : 1 ≤ n) (hd : 0 < d) (hd' : d ≤ 255) : 1 ≤ n * 255 / d := by
  rw [Nat.le_div_iff_mul_le hd]
  have : 1 * 255 ≤ n * 255 := Nat.mul_le_mul_right 255 hn
  omega

theorem tdiv_diff_nonneg (a c d : Nat) (h : c ≤ a) :
    Int.tdiv (((a : Int) - (c : Int)) * 255) (d : Int) = (((a - c) * 255 / d : Nat) : Int) := by
  rw [← tdiv_natCast]
  push_cast [Nat.cast_sub h]
  rfl

theorem tdiv_diff_neg (a c d : Nat) (h : a ≤ c) :
    Int.tdiv (((a : Int) - (c : Int)) * 255) (d : Int) = -(((c - a) * 255 / d : Nat) : Int) := by
  have h1 : ((a : Int) - (c : Int)) * 255 = -((((c - a) * 255 : Nat)) : Int) := by
    push_cast [Nat.cast_sub h]
    ring
  rw [h1, Int.neg_tdiv, tdiv_natCast]

theorem hue_of_sector_nonneg (h0 : Int) (h : 0 ≤ h0) (h' : h0 ≤ 1275) :
    hue_of_sector h0 = h0 * 60 / 255 * 255 / 360 := by
  simp only [hue_of_sector]
  have h1 : Int.tdiv (h0 * 60) 255 = h0 * 60 / 255 :=
    Int.tdiv_eq_ediv (by omega) (by norm_num)
  rw [h1, if_neg (by omega), if_neg (by omega)]
  exact Int.tdiv_eq_ediv (by omega) (by norm_num)

theorem hue_of_sector_neg (x : Int) (h : 0 ≤ x) (h' : x ≤ 255) :
    hue_of_sector (-x) = (if x * 60 / 255 = 0 then 0 else (360 - x * 60 / 255) * 255 / 360) := by
  simp only [hue_of_sector]
  have h1 : Int.tdiv (-x * 60) 255 = -(x * 60 / 255) := by
    rw [Int.neg_mul, Int.neg_tdiv, Int.tdiv_eq_ediv (by omega) (by norm_num)]
  rw [h1]
  by_cases hz : x * 60 / 255 = 0
  · rw [hz]
    simp
  · rw [if_pos (by omega), if_neg hz, Int.tdiv_eq_ediv (by omega) (by norm_num)]
    congr 2
    omega

theorem toByte_val_int (e : Int) (h0 : 0 ≤ e) (h1 : e ≤ 255) : ((toByte e).val : Int) = e := by
  simp only [toByte]
  omega

theorem rgb_sector_cases (r g b : Byte) (hlt : min3 r.val g.val b.val < max3 r.val g.val b.val) :
    ∃ x : Nat, x ≤ 255 ∧
      ((r.val = max3 r.val g.val b.val ∧ b.val ≤ g.val ∧
          rgb_sector r g b (max3 r.val g.val b.val) (min3 r.val g.val b.val) = (x : Int) ∧
          (g.val = max3 r.val g.val b.val → x = 255) ∧ (g.val = b.val → x = 0)) ∨
       (r.val = max3 r.val g.val b.val ∧ g.val < b.val ∧ 1 ≤ x ∧
          rgb_sector r g b (max3 r.val g.val b.val) (min3 r.val g.val b.val) = -(x : Int) ∧
          (b.val = max3 r.val g.val b.val → x = 255) ∧
          (b.val < max3 r.val g.val b.val → x ≤ 254)) ∨
       (r.val < max3 r.val g.val b.val ∧ g.val = max3 r.val g.val b.val ∧ r.val ≤ b.val ∧
          rgb_sector r g b (max3 r.val g.val b.val) (min3 r.val g.val b.val) = 510 + (x : Int) ∧
          (b.val = max3 r.val g.val b.val → x = 255) ∧ (b.val = r.val → x = 0)) ∨
       (r.val < max3 r.val g.val b.val ∧ g.val = max3 r.val g.val b.val ∧ b.val < r.val ∧
          1 ≤ x ∧ x ≤ 254 ∧
          rgb_sector r g b (max3 r.val g.val b.val) (min3 r.val g.val b.val) = 510 - (x : Int)) ∨
       (r.val < max3 r.val g.val b.val ∧ g.val < max3 r.val g.val b.val ∧
          b.val = max3 r.val g.val b.val ∧ g.val ≤ r.val ∧ x ≤ 254 ∧
          rgb_sector r g b (max3 r.val g.val b.val) (min3 r.val g.val b.val) = 1020 + (x : Int) ∧
          (r.val = g.val → x = 0)) ∨
       (r.val < max3 r.val g.val b.val ∧ g.val < max3 r.val g.val b.val ∧
          b.val = max3 r.val g.val b.val ∧ r.val < g.val ∧ 1 ≤ x ∧ x ≤ 254 ∧
          rgb_sector r g b (max3 r.val g.val b.val) (min3 r.val g.val b.val)
            = 1020 - (x : Int))) := by
  generalize hM : max3 r.val g.val b.val = M at *
  generalize hm : min3 r.val g.val b.val = m at *
  have hMdef : M = max r.val (max g.val b.val) := by rw [← hM]; rfl
  have hmdef : m = min r.val (min g.val b.val) := by rw [← hm]; rfl
  have hr := r.isLt
  have hg := g.isLt
  have hb := b.isLt
  have hdpos : 0 < M - m := by omega
  have hd255 : M - m ≤ 255 := by omega
  have hval : (toByte ((M : Int) - (m : Int))).val = M - m := by
    simp only [toByte]; omega
  have hne : toByte ((M : Int) - (m : Int)) ≠ 0 := by
    intro h
    have := congrArg Fin.val h
    rw [hval] at this
    have h0 : ((0 : Byte).val) = 0 := rfl
    omega
  simp only [rgb_sector, if_neg hne, hval]
  by_cases h1 : r.val = M
  · rw [if_pos h1]
    by_cases h2 : b.val ≤ g.val
    · refine ⟨(g.val - b.val) * 255 / (M - m), scaled_le _ _ (by omega), Or.inl ?_⟩
      refine ⟨h1, h2, tdiv_diff_nonneg _ _ _ h2, ?_, ?_⟩
      · intro hgM
        have : g.val - b.val = M - m := by omega
        rw [this]; exact scaled_full _ hdpos
      · intro hgb
        rw [hgb]; simp
    · refine ⟨(b.val - g.val) * 255 / (M - m), scaled_le _ _ (by omega), Or.inr (Or.inl ?_)⟩
      refine ⟨h1, by omega, scaled_pos _ _ (by omega) hdpos hd255,
        tdiv_diff_neg _ _ _ (by omega), ?_, ?_⟩
      · intro hbM
        have : b.val - g.val = M - m := by omega
        rw [this]; exact scaled_full _ hdpos
      · intro hbM
        exact scaled_lt _ _ (by omega)
  · rw [if_neg h1]
    by_cases h2 : g.val = M
    · rw [if_pos h2]
      by_cases h3 : r.val ≤ b.val
      · refine ⟨(b.val - r.val) * 255 / (M - m), scaled_le _ _ (by omega),
          Or.inr (Or.inr (Or.inl ?_))⟩
        refine ⟨by omega, h2, h3, by rw [tdiv_diff_nonneg _ _ _ h3], ?_, ?_⟩
        · intro hbM
          have : b.val - r.val = M - m := by omega
          rw [this]; exact scaled_full _ hdpos
        · intro hbr
          rw [hbr]; simp
      · refine ⟨(r.val - b.val) * 255 / (M - m), scaled_le _ _ (by omega),
          Or.inr (Or.inr (Or.inr (Or.inl ?_)))⟩
        refine ⟨by omega, h2, by omega, scaled_pos _ _ (by omega) hdpos hd255,
          scaled_lt _ _ (by omega), ?_⟩
        rw [tdiv_diff_neg _ _ _ (by omega)]
        omega
    · rw [if_neg h2]
      have h3 : b.val = M := by omega
      rw [if_pos h3]
      by_cases h4 : g.val ≤ r.val
      · refine ⟨(r.val - g.val) * 255 / (M - m), scaled_le _ _ (by omega),
          Or.inr (Or.inr (Or.inr (Or.inr (Or.inl ?_))))⟩
        refine ⟨by omega, by omega, h3, h4, scaled_lt _ _ (by omega),
          by rw [tdiv_diff_nonneg _ _ _ h4], ?_⟩
        intro hrg
        rw [hrg]; simp
      · refine ⟨(g.val - r.val) * 255 / (M - m), scaled_le _ _ (by omega),
          Or.inr (Or.inr (Or.inr (Or.inr (Or.inr ?_))))⟩
        refine ⟨by omega, by omega, h3, by omega, scaled_pos _ _ (by omega) hdpos hd255,
          scaled_lt _ _ (by omega), ?_⟩
        rw [tdiv_diff_neg _ _ _ (by omega)]
        omega

theorem value_floor_eq_min (M m : Nat) (hM : M ≤ 255) (h0 : 0 < M) (hm : m ≤ M) :
    M * (255 - (M - m) * 255 / M) / 255 = m := by
  have hs : (M - m) * 255 / M ≤ 255 := saturation_le M m
  have h1 : (M - m) * 255 / M * M ≤ (M - m) * 255 := Nat.div_mul_le_self _ _
  have h2 : (M - m) * 255 < ((M - m) * 255 / M + 1) * M := by
    have e1 := Nat.div_add_mod ((M - m) * 255) M
    have e2 := Nat.mod_lt ((M - m) * 255) h0
    rw [Nat.mul_comm M] at e1
    rw [Nat.add_mul]
    omega
  have h3 : M * (255 - (M - m) * 255 / M) = M * 255 - (M - m) * 255 / M * M := by
    rw [Nat.mul_sub, Nat.mul_comm M ((M - m) * 255 / M)]
  rw [h3]
  rw [Nat.add_mul] at h2
  have h4 : (M - m) * 255 / M * M ≤ M * 255 := by
    calc (M - m) * 255 / M * M ≤ 255 * M := Nat.mul_le_mul_right M hs
      _ = M * 255 := Nat.mul_comm _ _
  apply Nat.div_eq_of_lt_le
  · omega
  · omega

theorem hsv_hue (r g b : Byte) (hs : (gimp_rgb_to_hsv4 r g b).2.1 ≠ 0) :
    (gimp_rgb_to_hsv4 r g b).1
      = toByte (rgb_hue r g b (max3 r.val g.val b.val) (min3 r.val g.val b.val)) := by
  have hne : ¬ ((if max3 r.val g.val b.val ≠ 0 then
      Int.tdiv (((max3 r.val g.val b.val : Int) - (min3 r.val g.val b.val : Int)) * 255)
        (max3 r.val g.val b.val : Int) else 0) = 0) := by
    intro h0
    apply hs
    simp only [gimp_rgb_to_hsv4, rgb_max_min_eq]
    rw [h0]
    rfl
  simp only [gimp_rgb_to_hsv4, rgb_max_min_eq]
  rw [if_neg hne]

theorem channel_kept_of_byte (x M m : Nat) (a : Nat) (ha : a ≤ 255)
    (h : channel_kept x a M m) : channel_kept x (toByte (a : Int)).val M m := by
  rw [toByte_val_of_le a ha]; exact h

theorem sect_Rp (H x : Nat) (hx : x ≤ 255) (hH : (H : Int) = (x : Int) * 60 / 255 * 255 / 360) :
    H * 360 / 255 / 60 = 0 ∧ (x = 255 → H * 360 / 255 % 60 = 59) ∧
      (x = 0 → H * 360 / 255 % 60 = 0) := by
  omega

theorem sect_Rm (H x : Nat) (hx : x ≤ 255) (hx1 : 1 ≤ x)
    (hH : ((x : Int) * 60 / 255 = 0 ∧ (H : Int) = 0) ∨
      ((x : Int) * 60 / 255 ≠ 0 ∧ (H : Int) = (360 - (x : Int) * 60 / 255) * 255 / 360)) :
    (x = 255 → H * 360 / 255 / 60 = 4 ∧ H * 360 / 255 % 60 = 59) ∧
    (x ≤ 254 → (H * 360 / 255 / 60 = 0 ∧ H * 360 / 255 % 60 = 0) ∨ H * 360 / 255 / 60 = 5) := by
  omega

theorem sect_Gp (H x : Nat) (hx : x ≤ 255)
    (hH : (H : Int) = (510 + (x : Int)) * 60 / 255 * 255 / 360) :
    H * 360 / 255 / 60 = 2 ∧ (x = 255 → H * 360 / 255 % 60 = 59) ∧
      (x = 0 → H * 360 / 255 % 60 = 0) := by
  omega

theorem sect_Gm (H x : Nat) (hx : x ≤ 254) (hx1 : 1 ≤ x)
    (hH : (H : Int) = (510 - (x : Int)) * 60 / 255 * 255 / 360) :
    (H * 360 / 255 / 60 = 0 ∧ H * 360 / 255 % 60 = 59) ∨ H * 360 / 255 / 60 = 1 := by
  omega

theorem sect_Bp (H x : Nat) (hx : x ≤ 254)
    (hH : (H : Int) = (1020 + (x : Int)) * 60 / 255 * 255 / 360) :
    H * 360 / 255 / 60 = 4 ∧ (x = 0 → H * 360 / 255 % 60 = 0) := by
  omega

theorem sect_Bm (H x : Nat) (hx : x ≤ 254) (hx1 : 1 ≤ x)
    (hH : (H : Int) = (1020 - (x : Int)) * 60 / 255 * 255 / 360) :
    (H * 360 / 255 / 60 = 2 ∧ H * 360 / 255 % 60 = 59) ∨ H * 360 / 255 / 60 = 3 := by
  omega

/-- The round trip once the hue byte `H` is known as a function of the scaled
channel difference `x`. -/
theorem round_trip_sectors (r g b H S V : Byte) (M m : Nat)
    (hM : M = max r.val (max g.val b.val)) (hm : m = min r.val (min g.val b.val))
    (hlt : m < M) (hV : V.val = M) (hS : S.val = (M - m) * 255 / M) (hS0 : S ≠ 0)
    (x : Nat) (hx : x ≤ 255)
    (hcases :
      (r.val = M ∧ b.val ≤ g.val ∧ (H.val : Int) = (x : Int) * 60 / 255 * 255 / 360 ∧
          (g.val = M → x = 255) ∧ (g.val = b.val → x = 0)) ∨
      (r.val = M ∧ g.val < b.val ∧ 1 ≤ x ∧
          (((x : Int) * 60 / 255 = 0 ∧ (H.val : Int) = 0) ∨
            ((x : Int) * 60 / 255 ≠ 0 ∧
              (H.val : Int) = (360 - (x : Int) * 60 / 255) * 255 / 360)) ∧
          (b.val = M → x = 255) ∧ (b.val < M → x ≤ 254)) ∨
      (r.val < M ∧ g.val = M ∧ r.val ≤ b.val ∧
          (H.val : Int) = (510 + (x : Int)) * 60 / 255 * 255 / 360 ∧
          (b.val = M → x = 255) ∧ (b.val = r.val → x = 0)) ∨
      (r.val < M ∧ g.val = M ∧ b.val < r.val ∧ 1 ≤ x ∧ x ≤ 254 ∧
          (H.val : Int) = (510 - (x : Int)) * 60 / 255 * 255 / 360) ∨
      (r.val < M ∧ g.val < M ∧ b.val = M ∧ g.val ≤ r.val ∧ x ≤ 254 ∧
          (H.val : Int) = (1020 + (x : Int)) * 60 / 255 * 255 / 360 ∧
          (r.val = g.val → x = 0)) ∨
      (r.val < M ∧ g.val < M ∧ b.val = M ∧ r.val < g.val ∧ 1 ≤ x ∧ x ≤ 254 ∧
          (H.val : Int) = (1020 - (x : Int)) * 60 / 255 * 255 / 360)) :
    channel_kept r.val (gimp_hsv_to_rgb4 H S V).1.val M m ∧
    channel_kept g.val (gimp_hsv_to_rgb4 H S V).2.1.val M m ∧
    channel_kept b.val (gimp_hsv_to_rgb4 H S V).2.2.val M m := by
  have hM255 : M ≤ 255 := by clear hcases; omega
  obtain ⟨q, t, hq1, hq2, ht1, ht2, hf59, hf0, hk0, hk1, hk2, hk3, hk4, hk5⟩ :=
    hsv_to_rgb4_sectors H S V hS0
  have hp : V.val * (255 - S.val) / 255 = m := by
    rw [hV, hS]; exact value_floor_eq_min M m hM255 (by clear hcases; omega) (by clear hcases; omega)
  rw [hp] at hq1 ht1 hf0 hk0 hk1 hk2 hk3 hk4 hk5
  rw [hV] at hq2 ht2 hf59 hk0 hk1 hk2 hk3 hk4 hk5
  have hm255 : m ≤ 255 := by clear hcases; omega
  have hq255 : q ≤ 255 := by clear hcases; omega
  have ht255 : t ≤ 255 := by clear hcases; omega
  have fin : ∀ (a c e : Nat), a ≤ 255 → c ≤ 255 → e ≤ 255 →
      ∀ out : Byte × Byte × Byte, out = (toByte (a : Int), toByte (c : Int), toByte (e : Int)) →
      channel_kept r.val a M m → channel_kept g.val c M m → channel_kept b.val e M m →
      channel_kept r.val out.1.val M m ∧ channel_kept g.val out.2.1.val M m ∧
        channel_kept b.val out.2.2.val M m := by
    intro a c e ha hc he out hout h1 h2 h3
    subst hout
    exact ⟨channel_kept_of_byte _ _ _ a ha h1, channel_kept_of_byte _ _ _ c hc h2,
      channel_kept_of_byte _ _ _ e he h3⟩
  have bnd : r.val ≤ M ∧ g.val ≤ M ∧ b.val ≤ M ∧ m ≤ r.val ∧ m ≤ g.val ∧ m ≤ b.val ∧
      (m = r.val ∨ m = g.val ∨ m = b.val) := by clear hcases hk0 hk1 hk2 hk3 hk4 hk5 hf0 hf59; omega
  clear hM hm hp hV hS hS0
  rcases hcases with ⟨h1, h2, hH, h3, h4⟩ | ⟨h1, h2, hx1, hH, h3, h4⟩ | ⟨h1, h2, h3, hH, h4, h5⟩ |
    ⟨h1, h2, h3, hx1, hx2, hH⟩ | ⟨h1, h2, h3, h4, hx2, hH, h5⟩ | ⟨h1, h2, h3, h4, hx1, hx2, hH⟩
  · obtain ⟨k, e59, e0⟩ := sect_Rp H.val x hx hH
    have t59 := fun h => hf59 (e59 (h3 h))
    have t0 := fun h => hf0 (e0 (h4 h))
    refine fin M t m hM255 ht255 hm255 _ (hk0 k) ?_ ?_ ?_ <;> unfold channel_kept <;>
      clear hk0 hk1 hk2 hk3 hk4 hk5 fin hf59 hf0 e59 e0 hH <;> omega
  · obtain ⟨e255, e254⟩ := sect_Rm H.val x hx hx1 hH
    by_cases hbM : b.val = M
    · obtain ⟨k, f59⟩ := e255 (h3 hbM)
      have t59 := hf59 f59
      refine fin t m M ht255 hm255 hM255 _ (hk4 k) ?_ ?_ ?_ <;> unfold channel_kept <;>
        clear hk0 hk1 hk2 hk3 hk4 hk5 fin hf59 hf0 e255 e254 hH <;> omega
    · rcases e254 (h4 (by omega)) with ⟨k, f0⟩ | k
      · have t0 := hf0 f0
        refine fin M t m hM255 ht255 hm255 _ (hk0 k) ?_ ?_ ?_ <;> unfold channel_kept <;>
          clear hk0 hk1 hk2 hk3 hk4 hk5 fin hf59 hf0 e255 e254 hH <;> omega
      · refine fin M m q hM255 hm255 hq255 _ (hk5 k) ?_ ?_ ?_ <;> unfold channel_kept <;>
          clear hk0 hk1 hk2 hk3 hk4 hk5 fin hf59 hf0 e255 e254 hH <;> omega
  · obtain ⟨k, e59, e0⟩ := sect_Gp H.val x hx hH
    have t59 := fun h => hf59 (e59 (h4 h))
    have t0 := fun h => hf0 (e0 (h5 h))
    refine fin m M t hm255 hM255 ht255 _ (hk2 k) ?_ ?_ ?_ <;> unfold channel_kept <;>
      clear hk0 hk1 hk2 hk3 hk4 hk5 fin hf59 hf0 e59 e0 hH <;> omega
  · rcases sect_Gm H.val x hx2 hx1 hH with ⟨k, f59⟩ | k
    · have t59 := hf59 f59
      refine fin M t m hM255 ht255 hm255 _ (hk0 k) ?_ ?_ ?_ <;> unfold channel_kept <;>
        clear hk0 hk1 hk2 hk3 hk4 hk5 fin hf59 hf0 hH <;> omega
    · refine fin q M m hq255 hM255 hm255 _ (hk1 k) ?_ ?_ ?_ <;> unfold channel_kept <;>
        clear hk0 hk1 hk2 hk3 hk4 hk5 fin hf59 hf0 hH <;> omega
  · obtain ⟨k, e0⟩ := sect_Bp H.val x hx2 hH
    have t0 := fun h => hf0 (e0 (h5 h))
    refine fin t m M ht255 hm255 hM255 _ (hk4 k) ?_ ?_ ?_ <;> unfold channel_kept <;>
      clear hk0 hk1 hk2 hk3 hk4 hk5 fin hf59 hf0 e0 hH <;> omega
  · rcases sect_Bm H.val x hx2 hx1 hH with ⟨k, f59⟩ | k
    · have t59 := hf59 f59
      refine fin m M t hm255 hM255 ht255 _ (hk2 k) ?_ ?_ ?_ <;> unfold channel_kept <;>
        clear hk0 hk1 hk2 hk3 hk4 hk5 fin hf59 hf0 hH <;> omega
    · refine fin m q M hm255 hq255 hM255 _ (hk3 k) ?_ ?_ ?_ <;> unfold channel_kept <;>
        clear hk0 hk1 hk2 hk3 hk4 hk5 fin hf59 hf0 hH <;> omega

/-- C5 (as the claim states it, refuted): the pixel `(0, 232, 20)` has saturation
255 and comes back from the HSV round trip as `(0, 232, 7)`; its blue channel is
off by 13, so the round trip is not within 1 per channel. -/
theorem hsv_round_trip_not_within_one :
    ¬ (∀ r g b : Byte, (gimp_rgb_to_hsv4 r g b).2.1 ≠ 0 →
        (hsv_round_trip r g b).1.val ≤ r.val + 1 ∧ r.val ≤ (hsv_round_trip r g b).1.val + 1 ∧
        (hsv_round_trip r g b).2.1.val ≤ g.val + 1 ∧
        g.val ≤ (hsv_round_trip r g b).2.1.val + 1 ∧
        (hsv_round_trip r g b).2.2.val ≤ b.val + 1 ∧
        b.val ≤ (hsv_round_trip r g b).2.2.val + 1) := by
  intro h
  have h1 := h 0 232 20 (by decide)
  have h2 : hsv_round_trip 0 232 20 = (0, 232, 7) := by decide
  rw [h2] at h1
  have h3 := h1.2.2.2.2.2
  revert h3
  decide

/-- The HSV round trip of a pixel of non-zero saturation returns every channel
that is the largest or the smallest of the three exactly, and returns the
remaining channel as a value between the smallest and the largest. -/
theorem hsv_round_trip_keeps_extremes (r g b : Byte)
    (hs : (gimp_rgb_to_hsv4 r g b).2.1 ≠ 0) :
    channel_kept r.val (hsv_round_trip r g b).1.val
      (max3 r.val g.val b.val) (min3 r.val g.val b.val) ∧
    channel_kept g.val (hsv_round_trip r g b).2.1.val
      (max3 r.val g.val b.val) (min3 r.val g.val b.val) ∧
    channel_kept b.val (hsv_round_trip r g b).2.2.val
      (max3 r.val g.val b.val) (min3 r.val g.val b.val) := by
  have hS := hsv_saturation r g b
  have hV := hsv_value r g b
  have hH := hsv_hue r g b hs
  have hs' : (gimp_rgb_to_hsv4 r g b).2.1.val ≠ 0 := by
    intro h0
    exact hs (Fin.ext h0)
  have hmM := min3_le_max3 r.val g.val b.val
  have hM255 := max3_le r g b
  unfold hsv_round_trip
  unfold spec_saturation at hS
  generalize (gimp_rgb_to_hsv4 r g b).1 = H at *
  generalize (gimp_rgb_to_hsv4 r g b).2.1 = S at *
  generalize (gimp_rgb_to_hsv4 r g b).2.2 = V at *
  have hM0 : max3 r.val g.val b.val ≠ 0 := by
    intro h0
    rw [if_pos h0] at hS
    exact hs' hS
  rw [if_neg hM0] at hS
  have hlt : min3 r.val g.val b.val < max3 r.val g.val b.val := by
    rcases Nat.lt_or_ge (min3 r.val g.val b.val) (max3 r.val g.val b.val) with h | h
    · exact h
    · exfalso
      apply hs'
      rw [hS, Nat.sub_eq_zero_of_le h]
      simp
  obtain ⟨x, hx, hc⟩ := rgb_sector_cases r g b hlt
  have hHv : ∀ e : Int, rgb_hue r g b (max3 r.val g.val b.val) (min3 r.val g.val b.val) = e →
      0 ≤ e → e ≤ 255 → (H.val : Int) = e := by
    intro e he h0 h1
    rw [hH, he]
    exact toByte_val_int e h0 h1
  refine round_trip_sectors r g b H S V _ _ rfl rfl hlt hV hS hs x hx ?_
  unfold rgb_hue at hHv
  rcases hc with ⟨h1, h2, hsec, h3, h4⟩ | ⟨h1, h2, hx1, hsec, h3, h4⟩ |
    ⟨h1, h2, h3, hsec, h4, h5⟩ | ⟨h1, h2, h3, hx1, hx2, hsec⟩ |
    ⟨h1, h2, h3, h4, hx2, hsec, h5⟩ | ⟨h1, h2, h3, h4, hx1, hx2, hsec⟩
  · refine Or.inl ⟨h1, h2, ?_, h3, h4⟩
    exact hHv _ (by rw [hsec, hue_of_sector_nonneg _ (by omega) (by omega)])
      (by omega) (by omega)
  · refine Or.inr (Or.inl ⟨h1, h2, hx1, ?_, h3, h4⟩)
    have hn := hue_of_sector_neg (x : Int) (by omega) (by omega)
    by_cases hz : (x : Int) * 60 / 255 = 0
    · rw [if_pos hz] at hn
      exact Or.inl ⟨hz, hHv _ (by rw [hsec, hn]) (by omega) (by omega)⟩
    · rw [if_neg hz] at hn
      exact Or.inr ⟨hz, hHv _ (by rw [hsec, hn]) (by omega) (by omega)⟩
  · refine Or.inr (Or.inr (Or.inl ⟨h1, h2, h3, ?_, h4, h5⟩))
    exact hHv _ (by rw [hsec, hue_of_sector_nonneg _ (by omega) (by omega)])
      (by omega) (by omega)
  · refine Or.inr (Or.inr (Or.inr (Or.inl ⟨h1, h2, h3, hx1, hx2, ?_⟩)))
    exact hHv _ (by rw [hsec, hue_of_sector_nonneg _ (by omega) (by omega)])
      (by omega) (by omega)
  · refine Or.inr (Or.inr (Or.inr (Or.inr (Or.inl ⟨h1, h2, h3, h4, hx2, ?_, h5⟩))))
    exact hHv _ (by rw [hsec, hue_of_sector_nonneg _ (by omega) (by omega)])
      (by omega) (by omega)
  · refine Or.inr (Or.inr (Or.inr (Or.inr (Or.inr ⟨h1, h2, h3, h4, hx1, hx2, ?_⟩))))
    exact hHv _ (by rw [hsec, hue_of_sector_nonneg _ (by omega) (by omega)])
      (by omega) (by omega)

/-! ### The distance of the round trip

For a pixel with largest channel `M`, smallest `m` and range `d = M - m`, the
channel `gimp_hsv_to_rgb4` computes as `q` or `t` lies `d * k / 59` or one more
above `m`, where `k` is the step of the hue inside its sector (`seg_offset`).
The step is a function of the scaled difference `x = a * 255 / d` of the middle
channel `m + a` alone (`step_Rp` .. `step_Rm`), so the distance between
`d * k / 59` and `a` is a question about the pairs `(d, a)` with
`a ≤ d ≤ 255`, which `mid_check_all` evaluates one by one. -/

theorem seg_offset (M m k : Nat) (hM : M ≤ 255) (hm : m < M) (hk : k ≤ 59) :
    m + (M - m) * (59 - k) / 59 ≤ M * (255 * 59 - (M - m) * 255 / M * k) / (255 * 59) ∧
    M * (255 * 59 - (M - m) * 255 / M * k) / (255 * 59)
      ≤ m + (M - m) * (59 - k) / 59 + 1 := by
  have hM0 : 0 < M := by omega
  have hS255 : (M - m) * 255 / M ≤ 255 := saturation_le M m
  have e1 := Nat.div_add_mod ((M - m) * 255) M
  have e2 := Nat.mod_lt ((M - m) * 255) hM0
  generalize (M - m) * 255 / M = S at *
  generalize (M - m) * 255 % M = ρ at *
  have hSk : S * k ≤ 255 * 59 := Nat.mul_le_mul hS255 hk
  have hρk : ρ * k ≤ 254 * 59 := Nat.mul_le_mul (by omega) hk
  have key : M * (255 * 59 - S * k) = 15045 * m + 255 * ((M - m) * (59 - k)) + ρ * k := by
    have e1' : (M : Int) * S + ρ = ((M : Int) - m) * 255 := by
      have := congrArg (fun n : Nat => (n : Int)) e1
      push_cast [Nat.cast_sub hm.le] at this
      exact this
    zify [hSk, hk, hm.le]
    linear_combination (-(k : Int)) * e1'
  rw [key]
  generalize (M - m) * (59 - k) = E
  generalize ρ * k = Z at hρk
  omega

theorem mid_check_row_spec (F : Nat → Nat) (d n : Nat) (h : mid_check_row F d n = true)
    (a : Nat) (ha : a ≤ n) : mid_check F d a = true := by
  induction n with
  | zero =>
    have : a = 0 := by omega
    subst this
    exact h
  | succ n ih =>
    simp only [mid_check_row, Bool.and_eq_true] at h
    rcases Nat.lt_or_ge a (n + 1) with h1 | h1
    · exact ih h.2 (by omega)
    · have : a = n + 1 := by omega
      subst this
      exact h.1

theorem mid_check_all_spec (F : Nat → Nat) (n : Nat) (h : mid_check_all F n = true)
    (d a : Nat) (hd1 : 1 ≤ d) (hdn : d ≤ n) (ha : a ≤ d) :
    a ≤ d * F (a * 255 / d) / 59 + 13 ∧ d * F (a * 255 / d) / 59 ≤ a + 12 := by
  induction n with
  | zero => omega
  | succ n ih =>
    simp only [mid_check_all, Bool.and_eq_true] at h
    rcases Nat.lt_or_ge d (n + 1) with h1 | h1
    · exact ih h.2 (by omega)
    · have : d = n + 1 := by omega
      subst this
      have hc := mid_check_row_spec F (n + 1) (n + 1) h.1 a ha
      simp only [mid_check, near_step, Bool.and_eq_true, Nat.ble_eq] at hc
      exact hc

set_option maxRecDepth 100000 in
theorem mid_check_up : mid_check_all mid_step_up 255 = true := by decide!

set_option maxRecDepth 100000 in
theorem mid_check_down : mid_check_all mid_step_down 255 = true := by decide!

set_option maxRecDepth 100000 in
theorem mid_check_wrap : mid_check_all mid_step_wrap 255 = true := by decide!

theorem hsv_to_rgb4_sector_values (H S V : Byte) (hS : S ≠ 0) :
    (H.val * 360 / 255 / 60 = 0 → gimp_hsv_to_rgb4 H S V
      = (toByte V.val,
         toByte ((V.val * (255 * 59 - S.val * (59 - H.val * 360 / 255 % 60)) / (255 * 59) : Nat) : Int),
         toByte ((V.val * (255 - S.val) / 255 : Nat) : Int))) ∧
    (H.val * 360 / 255 / 60 = 1 → gimp_hsv_to_rgb4 H S V
      = (toByte ((V.val * (255 * 59 - S.val * (H.val * 360 / 255 % 60)) / (255 * 59) : Nat) : Int),
         toByte V.val,
         toByte ((V.val * (255 - S.val) / 255 : Nat) : Int))) ∧
    (H.val * 360 / 255 / 60 = 2 → gimp_hsv_to_rgb4 H S V
      = (toByte ((V.val * (255 - S.val) / 255 : Nat) : Int),
         toByte V.val,
         toByte ((V.val * (255 * 59 - S.val * (59 - H.val * 360 / 255 % 60)) / (255 * 59) : Nat) : Int))) ∧
    (H.val * 360 / 255 / 60 = 3 → gimp_hsv_to_rgb4 H S V
      = (toByte ((V.val * (255 - S.val) / 255 : Nat) : Int),
         toByte ((V.val * (255 * 59 - S.val * (H.val * 360 / 255 % 60)) / (255 * 59) : Nat) : Int),
         toByte V.val)) ∧
    (H.val * 360 / 255 / 60 = 4 → gimp_hsv_to_rgb4 H S V
      = (toByte ((V.val * (255 * 59 - S.val * (59 - H.val * 360 / 255 % 60)) / (255 * 59) : Nat) : Int),
         toByte ((V.val * (255 - S.val) / 255 : Nat) : Int),
         toByte V.val)) ∧
    (H.val * 360 / 255 / 60 = 5 → gimp_hsv_to_rgb4 H S V
      = (toByte V.val,
         toByte ((V.val * (255 - S.val) / 255 : Nat) : Int),
         toByte ((V.val * (255 * 59 - S.val * (H.val * 360 / 255 % 60)) / (255 * 59) : Nat) : Int))) := by
  have hf : H.val * 360 / 255 % 60 ≤ 59 := by omega
  have hf' : 59 - H.val * 360 / 255 % 60 ≤ 59 := by omega
  have hSle : S.val ≤ 255 := by omega
  have hh : Int.tdiv ((H.val : Int) * 360) 255 = ((H.val * 360 / 255 : Nat) : Int) := by
    rw [← tdiv_natCast]; push_cast; rfl
  have hfm : Int.tmod ((H.val * 360 / 255 : Nat) : Int) 60
      = ((H.val * 360 / 255 % 60 : Nat) : Int) := by
    rw [Int.tmod_eq_emod (by omega) (by norm_num)]; push_cast; rfl
  have hk : Int.tdiv ((H.val * 360 / 255 : Nat) : Int) 60
      = ((H.val * 360 / 255 / 60 : Nat) : Int) := by
    rw [Int.tdiv_eq_ediv (by omega) (by norm_num)]; push_cast; rfl
  have hp : Int.tdiv ((V.val : Int) * (255 - (S.val : Int))) 255
      = ((V.val * (255 - S.val) / 255 : Nat) : Int) := by
    have hc : (((255 - S.val : Nat)) : Int) = 255 - (S.val : Int) := by omega
    rw [← hc, ← tdiv_natCast]; push_cast; rfl
  have hq := seg_int V.val S.val (H.val * 360 / 255 % 60) hSle hf
  have ht := seg_int V.val S.val (59 - H.val * 360 / 255 % 60) hSle hf'
  have hc59 : (((59 - H.val * 360 / 255 % 60 : Nat)) : Int)
      = 59 - ((H.val * 360 / 255 % 60 : Nat) : Int) := by omega
  rw [hc59] at ht
  simp only [gimp_hsv_to_rgb4, if_neg hS, hh, hfm, hk, hp, hq, ht]
  refine ⟨?_, ?_, ?_, ?_, ?_, ?_⟩ <;> intro hk' <;> simp [hk']

theorem mid_value_near (F : Nat → Nat) (hF : mid_check_all F 255 = true) (M m a k : Nat)
    (hM : M ≤ 255) (hm : m < M) (ha : a ≤ M - m) (hk : k ≤ 59)
    (hk' : 59 - k = F (a * 255 / (M - m))) :
    M * (255 * 59 - (M - m) * 255 / M * k) / (255 * 59) ≤ m + a + 13 ∧
    m + a ≤ M * (255 * 59 - (M - m) * 255 / M * k) / (255 * 59) + 13 := by
  have h1 := seg_offset M m k hM hm hk
  have h2 := mid_check_all_spec F 255 hF (M - m) a (by omega) (by omega) ha
  rw [← hk'] at h2
  generalize M * (255 * 59 - (M - m) * 255 / M * k) / (255 * 59) = w at h1 ⊢
  generalize (M - m) * (59 - k) / 59 = u at h1 h2
  omega

set_option maxRecDepth 100000 in
theorem step_Rp : ∀ x, x < 256 →
    x * 60 / 255 * 255 / 360 * 360 / 255 / 60 = 0 ∧
    x * 60 / 255 * 255 / 360 * 360 / 255 % 60 = mid_step_up x := by
  decide!

set_option maxRecDepth 100000 in
theorem step_Gp : ∀ x, x < 256 →
    (510 + x) * 60 / 255 * 255 / 360 * 360 / 255 / 60 = 2 ∧
    (510 + x) * 60 / 255 * 255 / 360 * 360 / 255 % 60 = mid_step_up x := by
  decide!

set_option maxRecDepth 100000 in
theorem step_Bp : ∀ x, x < 255 →
    (1020 + x) * 60 / 255 * 255 / 360 * 360 / 255 / 60 = 4 ∧
    (1020 + x) * 60 / 255 * 255 / 360 * 360 / 255 % 60 = mid_step_up x := by
  decide!

set_option maxRecDepth 100000 in
theorem step_Gm : ∀ x, x < 255 → 1 ≤ x →
    ((510 - x) * 60 / 255 * 255 / 360 * 360 / 255 / 60 = 0 ∧
      (510 - x) * 60 / 255 * 255 / 360 * 360 / 255 % 60 = mid_step_down x) ∨
    ((510 - x) * 60 / 255 * 255 / 360 * 360 / 255 / 60 = 1 ∧
      59 - (510 - x) * 60 / 255 * 255 / 360 * 360 / 255 % 60 = mid_step_down x) := by
  decide!

set_option maxRecDepth 100000 in
theorem step_Bm : ∀ x, x < 255 → 1 ≤ x →
    ((1020 - x) * 60 / 255 * 255 / 360 * 360 / 255 / 60 = 2 ∧
      (1020 - x) * 60 / 255 * 255 / 360 * 360 / 255 % 60 = mid_step_down x) ∨
    ((1020 - x) * 60 / 255 * 255 / 360 * 360 / 255 / 60 = 3 ∧
      59 - (1020 - x) * 60 / 255 * 255 / 360 * 360 / 255 % 60 = mid_step_down x) := by
  decide!

set_option maxRecDepth 100000 in
theorem step_Rm : ∀ x, x < 255 → 1 ≤ x →
    (x * 60 / 255 = 0 ∧ mid_step_wrap x = 0) ∨
    (x * 60 / 255 ≠ 0 ∧ (360 - x * 60 / 255) * 255 / 360 * 360 / 255 / 60 = 5 ∧
      59 - (360 - x * 60 / 255) * 255 / 360 * 360 / 255 % 60 = mid_step_wrap x) := by
  decide!

theorem hue_byte_nonneg (n : Nat) (hn : n ≤ 1275) :
    (toByte (hue_of_sector (n : Int))).val = n * 60 / 255 * 255 / 360 := by
  rw [hue_of_sector_nonneg _ (by omega) (by omega)]
  have h : (n : Int) * 60 / 255 * 255 / 360 = ((n * 60 / 255 * 255 / 360 : Nat) : Int) := by
    push_cast; rfl
  rw [h]
  exact toByte_val_of_le _ (by omega)

theorem hue_byte_neg (x : Nat) (hx : x ≤ 255) :
    (toByte (hue_of_sector (-(x : Int)))).val
      = if x * 60 / 255 = 0 then 0 else (360 - x * 60 / 255) * 255 / 360 := by
  rw [hue_of_sector_neg _ (by omega) (by omega)]
  have h0 : (x : Int) * 60 / 255 = ((x * 60 / 255 : Nat) : Int) := by push_cast; rfl
  rw [h0]
  by_cases hz : x * 60 / 255 = 0
  · rw [if_pos hz, if_pos (by omega)]
    rfl
  · rw [if_neg hz, if_neg (by omega)]
    have h1 : (360 - ((x * 60 / 255 : Nat) : Int)) * 255 / 360
        = (((360 - x * 60 / 255) * 255 / 360 : Nat) : Int) := by
      have hle : x * 60 / 255 ≤ 360 := by omega
      push_cast [Nat.cast_sub hle]; rfl
    rw [h1]
    exact toByte_val_of_le _ (by omega)

/-- The hue byte of a pixel of non-zero saturation, case by case, as a function
of the scaled difference `(mid - min) * 255 / (max - min)`. -/
theorem hue_byte_cases (r g b : Byte) (M m : Nat) (hM : M = max3 r.val g.val b.val)
    (hm : m = min3 r.val g.val b.val) (hlt : m < M) :
    (r.val = M ∧ b.val ≤ g.val ∧ (toByte (rgb_hue r g b M m)).val
        = (g.val - b.val) * 255 / (M - m) * 60 / 255 * 255 / 360) ∨
    (r.val = M ∧ g.val < b.val ∧ (toByte (rgb_hue r g b M m)).val
        = (if (b.val - g.val) * 255 / (M - m) * 60 / 255 = 0 then 0
           else (360 - (b.val - g.val) * 255 / (M - m) * 60 / 255) * 255 / 360)) ∨
    (r.val < M ∧ g.val = M ∧ r.val ≤ b.val ∧ (toByte (rgb_hue r g b M m)).val
        = (510 + (b.val - r.val) * 255 / (M - m)) * 60 / 255 * 255 / 360) ∨
    (r.val < M ∧ g.val = M ∧ b.val < r.val ∧ (toByte (rgb_hue r g b M m)).val
        = (510 - (r.val - b.val) * 255 / (M - m)) * 60 / 255 * 255 / 360) ∨
    (r.val < M ∧ g.val < M ∧ b.val = M ∧ g.val ≤ r.val ∧ (toByte (rgb_hue r g b M m)).val
        = (1020 + (r.val - g.val) * 255 / (M - m)) * 60 / 255 * 255 / 360) ∨
    (r.val < M ∧ g.val < M ∧ b.val = M ∧ r.val < g.val ∧ (toByte (rgb_hue r g b M m)).val
        = (1020 - (g.val - r.val) * 255 / (M - m)) * 60 / 255 * 255 / 360) := by
  have hMdef : M = max r.val (max g.val b.val) := by rw [hM]; rfl
  have hmdef : m = min r.val (min g.val b.val) := by rw [hm]; rfl
  clear hM hm
  have hr := r.isLt
  have hg := g.isLt
  have hb := b.isLt
  have hdpos : 0 < M - m := by omega
  have hd255 : M - m ≤ 255 := by omega
  have hval : (toByte ((M : Int) - (m : Int))).val = M - m := by
    simp only [toByte]; omega
  have hne : toByte ((M : Int) - (m : Int)) ≠ 0 := by
    intro h
    have := congrArg Fin.val h
    rw [hval] at this
    have h0 : ((0 : Byte).val) = 0 := rfl
    omega
  simp only [rgb_hue, rgb_sector, if_neg hne, hval]
  by_cases h1 : r.val = M
  · rw [if_pos h1]
    by_cases h2 : b.val ≤ g.val
    · refine Or.inl ⟨h1, h2, ?_⟩
      rw [tdiv_diff_nonneg _ _ _ h2]
      have := scaled_le (g.val - b.val) (M - m) (by omega)
      exact hue_byte_nonneg _ (by omega)
    · refine Or.inr (Or.inl ⟨h1, by omega, ?_⟩)
      rw [tdiv_diff_neg _ _ _ (by omega)]
      exact hue_byte_neg _ (scaled_le _ _ (by omega))
  · rw [if_neg h1]
    by_cases h2 : g.val = M
    · rw [if_pos h2]
      by_cases h3 : r.val ≤ b.val
      · refine Or.inr (Or.inr (Or.inl ⟨by omega, h2, h3, ?_⟩))
        rw [tdiv_diff_nonneg _ _ _ h3]
        have hx := scaled_le (b.val - r.val) (M - m) (by omega)
        have hc : (510 : Int) + (((b.val - r.val) * 255 / (M - m) : Nat) : Int)
            = ((510 + (b.val - r.val) * 255 / (M - m) : Nat) : Int) := by push_cast; rfl
        rw [hc]
        exact hue_byte_nonneg _ (by omega)
      · refine Or.inr (Or.inr (Or.inr (Or.inl ⟨by omega, h2, by omega, ?_⟩)))
        rw [tdiv_diff_neg _ _ _ (by omega)]
        have hx := scaled_le (r.val - b.val) (M - m) (by omega)
        generalize (r.val - b.val) * 255 / (M - m) = x at hx ⊢
        have hc : (510 : Int) + -(x : Int) = ((510 - x : Nat) : Int) := by omega
        rw [hc]
        exact hue_byte_nonneg (510 - x) (by omega)
    · rw [if_neg h2]
      have h3 : b.val = M := by omega
      rw [if_pos h3]
      by_cases h4 : g.val ≤ r.val
      · refine Or.inr (Or.inr (Or.inr (Or.inr (Or.inl ⟨by omega, by omega, h3, h4, ?_⟩))))
        rw [tdiv_diff_nonneg _ _ _ h4]
        have hx := scaled_le (r.val - g.val) (M - m) (by omega)
        have hc : (1020 : Int) + (((r.val - g.val) * 255 / (M - m) : Nat) : Int)
            = ((1020 + (r.val - g.val) * 255 / (M - m) : Nat) : Int) := by push_cast; rfl
        rw [hc]
        exact hue_byte_nonneg _ (by omega)
      · refine Or.inr (Or.inr (Or.inr (Or.inr (Or.inr ⟨by omega, by omega, h3, by omega, ?_⟩))))
        rw [tdiv_diff_neg _ _ _ (by omega)]
        have hx := scaled_le (g.val - r.val) (M - m) (by omega)
        generalize (g.val - r.val) * 255 / (M - m) = x at hx ⊢
        have hc : (1020 : Int) + -(x : Int) = ((1020 - x : Nat) : Int) := by omega
        rw [hc]
        exact hue_byte_nonneg (1020 - x) (by omega)

theorem seg_value_near (F : Nat → Nat) (hF : mid_check_all F 255 = true) (M m a k : Nat)
    (hM : M ≤ 255) (hm : m < M) (ha : a ≤ M - m) (hk : k ≤ 59)
    (hk' : 59 - k = F (a * 255 / (M - m))) :
    seg_value M m k ≤ 255 ∧ seg_value M m k ≤ m + a + 13 ∧ m + a ≤ seg_value M m k + 13 :=
  ⟨Nat.le_trans (seg_le M _ k) hM, mid_value_near F hF M m a k hM hm ha hk hk'⟩

/-- What `gimp_hsv_to_rgb4` returns, sector by sector, for the value and the
saturation of a pixel whose largest channel is `M` and smallest `m < M`. -/
theorem sector_out (H S V : Byte) (M m : Nat) (hM : M ≤ 255) (hlt : m < M)
    (hV : V.val = M) (hS : S.val = (M - m) * 255 / M) (hS0 : S ≠ 0) :
    (H.val * 360 / 255 / 60 = 0 → gimp_hsv_to_rgb4 H S V
      = (toByte (M : Int), toByte (seg_value M m (59 - H.val * 360 / 255 % 60) : Int),
         toByte (m : Int))) ∧
    (H.val * 360 / 255 / 60 = 1 → gimp_hsv_to_rgb4 H S V
      = (toByte (seg_value M m (H.val * 360 / 255 % 60) : Int), toByte (M : Int),
         toByte (m : Int))) ∧
    (H.val * 360 / 255 / 60 = 2 → gimp_hsv_to_rgb4 H S V
      = (toByte (m : Int), toByte (M : Int),
         toByte (seg_value M m (59 - H.val * 360 / 255 % 60) : Int))) ∧
    (H.val * 360 / 255 / 60 = 3 → gimp_hsv_to_rgb4 H S V
      = (toByte (m : Int), toByte (seg_value M m (H.val * 360 / 255 % 60) : Int),
         toByte (M : Int))) ∧
    (H.val * 360 / 255 / 60 = 4 → gimp_hsv_to_rgb4 H S V
      = (toByte (seg_value M m (59 - H.val * 360 / 255 % 60) : Int), toByte (m : Int),
         toByte (M : Int))) ∧
    (H.val * 360 / 255 / 60 = 5 → gimp_hsv_to_rgb4 H S V
      = (toByte (M : Int), toByte (m : Int),
         toByte (seg_value M m (H.val * 360 / 255 % 60) : Int))) := by
  have hp : M * (255 - (M - m) * 255 / M) / 255 = m :=
    value_floor_eq_min M m hM (by omega) (by omega)
  have v := hsv_to_rgb4_sector_values H S V hS0
  rw [hV, hS, hp] at v
  exact v

theorem within_of_out (r g b M m a c e : Nat) (out : Byte × Byte × Byte)
    (kept : channel_kept r out.1.val M m ∧ channel_kept g out.2.1.val M m ∧
      channel_kept b out.2.2.val M m)
    (hout : out = (toByte (a : Int), toByte (c : Int), toByte (e : Int)))
    (ha : a ≤ 255) (hc : c ≤ 255) (he : e ≤ 255)
    (h : channel_kept r a M m → channel_kept g c M m → channel_kept b e M m →
      (a ≤ r + 13 ∧ r ≤ a + 13) ∧ (c ≤ g + 13 ∧ g ≤ c + 13) ∧ (e ≤ b + 13 ∧ b ≤ e + 13)) :
    channel_within r out.1.val 13 ∧ channel_within g out.2.1.val 13 ∧
      channel_within b out.2.2.val 13 := by
  subst hout
  simp only [toByte_val_of_le a ha, toByte_val_of_le c hc, toByte_val_of_le e he] at kept
  simp only [channel_within, toByte_val_of_le a ha, toByte_val_of_le c hc,
    toByte_val_of_le e he]
  exact h kept.1 kept.2.1 kept.2.2

/-- The round trip when red is the largest channel: every channel comes back at
most 13 away. -/
theorem round_trip_near_red (r g b H S V : Byte) (M m : Nat) (hM255 : M ≤ 255)
    (hlt : m < M)
    (bnd : r.val ≤ M ∧ g.val ≤ M ∧ b.val ≤ M ∧ m ≤ r.val ∧ m ≤ g.val ∧ m ≤ b.val ∧
      (m = r.val ∨ m = g.val ∨ m = b.val))
    (hV : V.val = M) (hS : S.val = (M - m) * 255 / M) (hS0 : S ≠ 0)
    (kept : channel_kept r.val (gimp_hsv_to_rgb4 H S V).1.val M m ∧
      channel_kept g.val (gimp_hsv_to_rgb4 H S V).2.1.val M m ∧
      channel_kept b.val (gimp_hsv_to_rgb4 H S V).2.2.val M m)
    (hc :
      (r.val = M ∧ b.val ≤ g.val ∧ H.val
          = (g.val - b.val) * 255 / (M - m) * 60 / 255 * 255 / 360) ∨
      (r.val = M ∧ g.val < b.val ∧ H.val
          = (if (b.val - g.val) * 255 / (M - m) * 60 / 255 = 0 then 0
             else (360 - (b.val - g.val) * 255 / (M - m) * 60 / 255) * 255 / 360))) :
    channel_within r.val (gimp_hsv_to_rgb4 H S V).1.val 13 ∧
    channel_within g.val (gimp_hsv_to_rgb4 H S V).2.1.val 13 ∧
    channel_within b.val (gimp_hsv_to_rgb4 H S V).2.2.val 13 := by
  have hm255 : m ≤ 255 := by omega
  have hd0 : 0 < M - m := by omega
  have hd255 : M - m ≤ 255 := by omega
  have hf : H.val * 360 / 255 % 60 ≤ 59 := Nat.le_of_lt_succ (Nat.mod_lt _ (by norm_num))
  have hf' : 59 - H.val * 360 / 255 % 60 ≤ 59 := Nat.sub_le _ _
  have hff : 59 - (59 - H.val * 360 / 255 % 60) = H.val * 360 / 255 % 60 :=
    Nat.sub_sub_self hf
  rcases hc with ⟨h1, h2, hHv⟩ | ⟨h1, h2, hHv⟩
  · have hab : g.val - b.val ≤ M - m := by omega
    have hmb : m = b.val := by omega
    obtain ⟨k0, e0⟩ := step_Rp _ (Nat.lt_succ_of_le (scaled_le _ _ hab))
    rw [← hHv] at k0 e0
    obtain ⟨n0, n1, n2⟩ := seg_value_near mid_step_up mid_check_up M m (g.val - b.val) _
      hM255 hlt hab hf' (hff.trans e0)
    refine within_of_out _ _ _ M m _ _ _ _ kept
      ((sector_out H S V M m hM255 hlt hV hS hS0).1 k0) hM255 n0 hm255 ?_
    clear hHv kept hV hS hS0 hff hf hf' k0 e0 n0 hd0 hd255
    generalize seg_value M m (59 - H.val * 360 / 255 % 60) = w at *
    intro _ _ _
    omega
  · have hmg : m = g.val := by omega
    by_cases hbM : b.val = M
    · clear hHv hV hS hS0 hf hf' hff
      unfold channel_kept at kept
      unfold channel_within
      omega
    · have hab : b.val - g.val ≤ M - m := by omega
      have hx := scaled_lt (b.val - g.val) (M - m) (by omega)
      have hx1 := scaled_pos (b.val - g.val) (M - m) (by omega) hd0 hd255
      rcases step_Rm _ (Nat.lt_succ_of_le hx) hx1 with ⟨z, e0⟩ | ⟨z, k5, e5⟩
      · rw [if_pos z] at hHv
        have k0 : H.val * 360 / 255 / 60 = 0 := by rw [hHv]
        have f0 : H.val * 360 / 255 % 60 = mid_step_wrap ((b.val - g.val) * 255 / (M - m)) := by
          rw [hHv, e0]
        clear hx hx1 z e0
        obtain ⟨n0, n1, n2⟩ := seg_value_near mid_step_wrap mid_check_wrap M m (b.val - g.val) _
          hM255 hlt hab hf' (hff.trans f0)
        refine within_of_out _ _ _ M m _ _ _ _ kept
          ((sector_out H S V M m hM255 hlt hV hS hS0).1 k0) hM255 n0 hm255 ?_
        clear hHv kept hV hS hS0 hff hf hf' k0 f0 n0 hd0 hd255
        generalize seg_value M m (59 - H.val * 360 / 255 % 60) = w at *
        intro _ kg _
        unfold channel_kept at kg
        omega
      · rw [if_neg z] at hHv
        rw [← hHv] at k5 e5
        clear hx hx1 z
        obtain ⟨n0, n1, n2⟩ := seg_value_near mid_step_wrap mid_check_wrap M m (b.val - g.val) _
          hM255 hlt hab hf e5
        refine within_of_out _ _ _ M m _ _ _ _ kept
          ((sector_out H S V M m hM255 hlt hV hS hS0).2.2.2.2.2 k5) hM255 hm255 n0 ?_
        clear hHv kept hV hS hS0 hff hf hf' k5 e5 n0 hd0 hd255
        generalize seg_value M m (H.val * 360 / 255 % 60) = w at *
        intro _ _ _
        omega

/-- The round trip when green is the largest channel and red is not: every
channel comes back at most 13 away. -/
theorem round_trip_near_green (r g b H S V : Byte) (M m : Nat) (hM255 : M ≤ 255)
    (hlt : m < M)
    (bnd : r.val ≤ M ∧ g.val ≤ M ∧ b.val ≤ M ∧ m ≤ r.val ∧ m ≤ g.val ∧ m ≤ b.val ∧
      (m = r.val ∨ m = g.val ∨ m = b.val))
    (hV : V.val = M) (hS : S.val = (M - m) * 255 / M) (hS0 : S ≠ 0)
    (kept : channel_kept r.val (gimp_hsv_to_rgb4 H S V).1.val M m ∧
      channel_kept g.val (gimp_hsv_to_rgb4 H S V).2.1.val M m ∧
      channel_kept b.val (gimp_hsv_to_rgb4 H S V).2.2.val M m)
    (hc :
      (r.val < M ∧ g.val = M ∧ r.val ≤ b.val ∧ H.val
          = (510 + (b.val - r.val) * 255 / (M - m)) * 60 / 255 * 255 / 360) ∨
      (r.val < M ∧ g.val = M ∧ b.val < r.val ∧ H.val
          = (510 - (r.val - b.val) * 255 / (M - m)) * 60 / 255 * 255 / 360)) :
    channel_within r.val (gimp_hsv_to_rgb4 H S V).1.val 13 ∧
    channel_within g.val (gimp_hsv_to_rgb4 H S V).2.1.val 13 ∧
    channel_within b.val (gimp_hsv_to_rgb4 H S V).2.2.val 13 := by
  have hm255 : m ≤ 255 := by omega
  have hd0 : 0 < M - m := by omega
  have hd255 : M - m ≤ 255 := by omega
  have hf : H.val * 360 / 255 % 60 ≤ 59 := Nat.le_of_lt_succ (Nat.mod_lt _ (by norm_num))
  have hf' : 59 - H.val * 360 / 255 % 60 ≤ 59 := Nat.sub_le _ _
  have hff : 59 - (59 - H.val * 360 / 255 % 60) = H.val * 360 / 255 % 60 :=
    Nat.sub_sub_self hf
  rcases hc with ⟨h1, h2, h3, hHv⟩ | ⟨h1, h2, h3, hHv⟩
  · have hab : b.val - r.val ≤ M - m := by omega
    have hmr : m = r.val := by omega
    obtain ⟨k2, e2⟩ := step_Gp _ (Nat.lt_succ_of_le (scaled_le _ _ hab))
    rw [← hHv] at k2 e2
    obtain ⟨n0, n1, n2⟩ := seg_value_near mid_step_up mid_check_up M m (b.val - r.val) _
      hM255 hlt hab hf' (hff.trans e2)
    refine within_of_out _ _ _ M m _ _ _ _ kept
      ((sector_out H S V M m hM255 hlt hV hS hS0).2.2.1 k2) hm255 hM255 n0 ?_
    clear hHv kept hV hS hS0 hff hf hf' k2 e2 n0 hd0 hd255
    generalize seg_value M m (59 - H.val * 360 / 255 % 60) = w at *
    intro _ _ _
    omega
  · have hab : r.val - b.val ≤ M - m := by omega
    have hmb : m = b.val := by omega
    have hx := scaled_lt (r.val - b.val) (M - m) (by omega)
    have hx1 := scaled_pos (r.val - b.val) (M - m) (by omega) hd0 hd255
    rcases step_Gm _ (Nat.lt_succ_of_le hx) hx1 with ⟨k0, e0⟩ | ⟨k1, e1⟩
    · rw [← hHv] at k0 e0
      clear hx hx1
      obtain ⟨n0, n1, n2⟩ := seg_value_near mid_step_down mid_check_down M m (r.val - b.val) _
        hM255 hlt hab hf' (hff.trans e0)
      refine within_of_out _ _ _ M m _ _ _ _ kept
        ((sector_out H S V M m hM255 hlt hV hS hS0).1 k0) hM255 n0 hm255 ?_
      clear hHv kept hV hS hS0 hff hf hf' k0 e0 n0 hd0 hd255
      generalize seg_value M m (59 - H.val * 360 / 255 % 60) = w at *
      intro _ kg _
      unfold channel_kept at kg
      omega
    · rw [← hHv] at k1 e1
      clear hx hx1
      obtain ⟨n0, n1, n2⟩ := seg_value_near mid_step_down mid_check_down M m (r.val - b.val) _
        hM255 hlt hab hf e1
      refine within_of_out _ _ _ M m _ _ _ _ kept
        ((sector_out H S V M m hM255 hlt hV hS hS0).2.1 k1) n0 hM255 hm255 ?_
      clear hHv kept hV hS hS0 hff hf hf' k1 e1 n0 hd0 hd255
      generalize seg_value M m (H.val * 360 / 255 % 60) = w at *
      intro _ _ _
      omega

/-- The round trip when blue alone is the largest channel: every channel comes
back at most 13 away. -/
theorem round_trip_near_blue (r g b H S V : Byte) (M m : Nat) (hM255 : M ≤ 255)
    (hlt : m < M)
    (bnd : r.val ≤ M ∧ g.val ≤ M ∧ b.val ≤ M ∧ m ≤ r.val ∧ m ≤ g.val ∧ m ≤ b.val ∧
      (m = r.val ∨ m = g.val ∨ m = b.val))
    (hV : V.val = M) (hS : S.val = (M - m) * 255 / M) (hS0 : S ≠ 0)
    (kept : channel_kept r.val (gimp_hsv_to_rgb4 H S V).1.val M m ∧
      channel_kept g.val (gimp_hsv_to_rgb4 H S V).2.1.val M m ∧
      channel_kept b.val (gimp_hsv_to_rgb4 H S V).2.2.val M m)
    (hc :
      (r.val < M ∧ g.val < M ∧ b.val = M ∧ g.val ≤ r.val ∧ H.val
          = (1020 + (r.val - g.val) * 255 / (M - m)) * 60 / 255 * 255 / 360) ∨
      (r.val < M ∧ g.val < M ∧ b.val = M ∧ r.val < g.val ∧ H.val
          = (1020 - (g.val - r.val) * 255 / (M - m)) * 60 / 255 * 255 / 360)) :
    channel_within r.val (gimp_hsv_to_rgb4 H S V).1.val 13 ∧
    channel_within g.val (gimp_hsv_to_rgb4 H S V).2.1.val 13 ∧
    channel_within b.val (gimp_hsv_to_rgb4 H S V).2.2.val 13 := by
  have hm255 : m ≤ 255 := by omega
  have hd0 : 0 < M - m := by omega
  have hd255 : M - m ≤ 255 := by omega
  have hf : H.val * 360 / 255 % 60 ≤ 59 := Nat.le_of_lt_succ (Nat.mod_lt _ (by norm_num))
  have hf' : 59 - H.val * 360 / 255 % 60 ≤ 59 := Nat.sub_le _ _
  have hff : 59 - (59 - H.val * 360 / 255 % 60) = H.val * 360 / 255 % 60 :=
    Nat.sub_sub_self hf
  rcases hc with ⟨h1, h2, h3, h4, hHv⟩ | ⟨h1, h2, h3, h4, hHv⟩
  · have hab : r.val - g.val ≤ M - m := by omega
    have hmg : m = g.val := by omega
    have hx := scaled_lt (r.val - g.val) (M - m) (by omega)
    obtain ⟨k4, e4⟩ := step_Bp _ (Nat.lt_succ_of_le hx)
    rw [← hHv] at k4 e4
    clear hx
    obtain ⟨n0, n1, n2⟩ := seg_value_near mid_step_up mid_check_up M m (r.val - g.val) _
      hM255 hlt hab hf' (hff.trans e4)
    refine within_of_out _ _ _ M m _ _ _ _ kept
      ((sector_out H S V M m hM255 hlt hV hS hS0).2.2.2.2.1 k4) n0 hm255 hM255 ?_
    clear hHv kept hV hS hS0 hff hf hf' k4 e4 n0 hd0 hd255
    generalize seg_value M m (59 - H.val * 360 / 255 % 60) = w at *
    intro _ _ _
    omega
  · have hab : g.val - r.val ≤ M - m := by omega
    have hmr : m = r.val := by omega
    have hx := scaled_lt (g.val - r.val) (M - m) (by omega)
    have hx1 := scaled_pos (g.val - r.val) (M - m) (by omega) hd0 hd255
    rcases step_Bm _ (Nat.lt_succ_of_le hx) hx1 with ⟨k2, e2⟩ | ⟨k3, e3⟩
    · rw [← hHv] at k2 e2
      clear hx hx1
      obtain ⟨n0, n1, n2⟩ := seg_value_near mid_step_down mid_check_down M m (g.val - r.val) _
        hM255 hlt hab hf' (hff.trans e2)
      refine within_of_out _ _ _ M m _ _ _ _ kept
        ((sector_out H S V M m hM255 hlt hV hS hS0).2.2.1 k2) hm255 hM255 n0 ?_
      clear hHv kept hV hS hS0 hff hf hf' k2 e2 n0 hd0 hd255
      generalize seg_value M m (59 - H.val * 360 / 255 % 60) = w at *
      intro _ _ kb
      unfold channel_kept at kb
      omega
    · rw [← hHv] at k3 e3
      clear hx hx1
      obtain ⟨n0, n1, n2⟩ := seg_value_near mid_step_down mid_check_down M m (g.val - r.val) _
        hM255 hlt hab hf e3
      refine within_of_out _ _ _ M m _ _ _ _ kept
        ((sector_out H S V M m hM255 hlt hV hS hS0).2.2.2.1 k3) hm255 n0 hM255 ?_
      clear hHv kept hV hS hS0 hff hf hf' k3 e3 n0 hd0 hd255
      generalize seg_value M m (H.val * 360 / 255 % 60) = w at *
      intro _ _ _
      omega

/-- The round trip of a pixel of non-zero saturation returns every channel at
most 13 away from its value. -/
theorem hsv_round_trip_near (r g b : Byte) (hs : (gimp_rgb_to_hsv4 r g b).2.1 ≠ 0) :
    channel_within r.val (hsv_round_trip r g b).1.val 13 ∧
    channel_within g.val (hsv_round_trip r g b).2.1.val 13 ∧
    channel_within b.val (hsv_round_trip r g b).2.2.val 13 := by
  have kept := hsv_round_trip_keeps_extremes r g b hs
  have hS := hsv_saturation r g b
  have hV := hsv_value r g b
  have hH := hsv_hue r g b hs
  have hs' : (gimp_rgb_to_hsv4 r g b).2.1.val ≠ 0 := by
    intro h0
    exact hs (Fin.ext h0)
  have hmM := min3_le_max3 r.val g.val b.val
  have hM255 := max3_le r g b
  unfold hsv_round_trip at kept ⊢
  unfold spec_saturation at hS
  have hM0 : max3 r.val g.val b.val ≠ 0 := by
    intro h0
    rw [if_pos h0] at hS
    exact hs' hS
  rw [if_neg hM0] at hS
  have hlt : min3 r.val g.val b.val < max3 r.val g.val b.val := by
    rcases Nat.lt_or_ge (min3 r.val g.val b.val) (max3 r.val g.val b.val) with h | h
    · exact h
    · exfalso
      apply hs'
      rw [hS, Nat.sub_eq_zero_of_le h]
      simp
  have hc := hue_byte_cases r g b _ _ rfl rfl hlt
  rw [← hH] at hc
  have bnd : r.val ≤ max3 r.val g.val b.val ∧ g.val ≤ max3 r.val g.val b.val ∧
      b.val ≤ max3 r.val g.val b.val ∧ min3 r.val g.val b.val ≤ r.val ∧
      min3 r.val g.val b.val ≤ g.val ∧ min3 r.val g.val b.val ≤ b.val ∧
      (min3 r.val g.val b.val = r.val ∨ min3 r.val g.val b.val = g.val ∨
        min3 r.val g.val b.val = b.val) := by
    unfold max3 min3; omega
  rcases hc with h | h | h | h | h | h
  · exact round_trip_near_red r g b _ _ _ _ _ hM255 hlt bnd hV hS hs kept (Or.inl h)
  · exact round_trip_near_red r g b _ _ _ _ _ hM255 hlt bnd hV hS hs kept (Or.inr h)
  · exact round_trip_near_green r g b _ _ _ _ _ hM255 hlt bnd hV hS hs kept (Or.inl h)
  · exact round_trip_near_green r g b _ _ _ _ _ hM255 hlt bnd hV hS hs kept (Or.inr h)
  · exact round_trip_near_blue r g b _ _ _ _ _ hM255 hlt bnd hV hS hs kept (Or.inl h)
  · exact round_trip_near_blue r g b _ _ _ _ _ hM255 hlt bnd hV hS hs kept (Or.inr h)

/-- C5 (amended): for every pixel of non-zero saturation the HSV round trip
returns every channel at most 13 away from its value, the distance the pixel
`(0, 232, 20)` attains, and it returns every channel that is the largest or the
smallest of the three exactly. -/
theorem hsv_round_trip_within_13 (r g b : Byte)
    (hs : (gimp_rgb_to_hsv4 r g b).2.1 ≠ 0) :
    ((hsv_round_trip r g b).1.val ≤ r.val + 13 ∧ r.val ≤ (hsv_round_trip r g b).1.val + 13 ∧
      (hsv_round_trip r g b).2.1.val ≤ g.val + 13 ∧
      g.val ≤ (hsv_round_trip r g b).2.1.val + 13 ∧
      (hsv_round_trip r g b).2.2.val ≤ b.val + 13 ∧
      b.val ≤ (hsv_round_trip r g b).2.2.val + 13) ∧
    channel_kept r.val (hsv_round_trip r g b).1.val
      (max3 r.val g.val b.val) (min3 r.val g.val b.val) ∧
    channel_kept g.val (hsv_round_trip r g b).2.1.val
      (max3 r.val g.val b.val) (min3 r.val g.val b.val) ∧
    channel_kept b.val (hsv_round_trip r g b).2.2.val
      (max3 r.val g.val b.val) (min3 r.val g.val b.val) := by
  obtain ⟨⟨h1, h2⟩, ⟨h3, h4⟩, h5, h6⟩ := hsv_round_trip_near r g b hs
  exact ⟨⟨h1, h2, h3, h4, h5, h6⟩, hsv_round_trip_keeps_extremes r g b hs⟩

theorem hsv_round_trip_within_13_witness :
    (gimp_rgb_to_hsv4 0 232 20).2.1 ≠ 0 ∧ hsv_round_trip 0 232 20 = (0, 232, 7) ∧
    (((hsv_round_trip 0 232 20).1.val ≤ (0 : Byte).val + 13 ∧
      (0 : Byte).val ≤ (hsv_round_trip 0 232 20).1.val + 13 ∧
      (hsv_round_trip 0 232 20).2.1.val ≤ (232 : Byte).val + 13 ∧
      (232 : Byte).val ≤ (hsv_round_trip 0 232 20).2.1.val + 13 ∧
      (hsv_round_trip 0 232 20).2.2.val ≤ (20 : Byte).val + 13 ∧
      (20 : Byte).val ≤ (hsv_round_trip 0 232 20).2.2.val + 13) ∧
    channel_kept (0 : Byte).val (hsv_round_trip 0 232 20).1.val
      (max3 (0 : Byte).val (232 : Byte).val (20 : Byte).val)
      (min3 (0 : Byte).val (232 : Byte).val (20 : Byte).val) ∧
    channel_kept (232 : Byte).val (hsv_round_trip 0 232 20).2.1.val
      (max3 (0 : Byte).val (232 : Byte).val (20 : Byte).val)
      (min3 (0 : Byte).val (232 : Byte).val (20 : Byte).val) ∧
    channel_kept (20 : Byte).val (hsv_round_trip 0 232 20).2.2.val
      (max3 (0 : Byte).val (232 : Byte).val (20 : Byte).val)
      (min3 (0 : Byte).val (232 : Byte).val (20 : Byte).val)) :=
  ⟨by decide, by decide, hsv_round_trip_within_13 0 232 20 (by decide)⟩

/-! ## AdaptiveMedianFilter: quick_median_select -/

theorem rdAt_eq {α : Type} (a : List α) (k : Int) (h0 : 0 ≤ k) (h1 : k < a.length) (d : α) :
    rdAt a k = some (a.getD k.toNat d) := by
  have hk : k.toNat < a.length := by omega
  rw [rdAt, if_pos h0, List.getD_eq_getElem?_getD, List.getElem?_eq_getElem hk]
  rfl

theorem set_set_perm {α : Type} (a : List α) (x y : Nat) (hx : x < a.length)
    (hy : y < a.length) : ((a.set x a[y]).set y a[x]).Perm a := by
  have h : (a.set x a[y]).set y a[x]
      = List.ofFn (a.get ∘ Equiv.swap (⟨x, hx⟩ : Fin a.length) ⟨y, hy⟩) := by
    apply List.ext_getElem
    · simp
    · intro k h1 h2
      simp only [List.length_set] at h1
      simp only [List.getElem_set, List.getElem_ofFn, Function.comp, List.get_eq_getElem]
      by_cases hky : y = k
      · subst hky
        simp [Equiv.swap_apply_right]
      · by_cases hkx : x = k
        · subst hkx
          simp [hky, Equiv.swap_apply_left]
        · have hne1 : (⟨k, h1⟩ : Fin a.length) ≠ ⟨x, hx⟩ := by
            intro h; exact hkx (Fin.mk.inj h).symm
          have hne2 : (⟨k, h1⟩ : Fin a.length) ≠ ⟨y, hy⟩ := by
            intro h; exact hky (Fin.mk.inj h).symm
          simp [hky, hkx, Equiv.swap_apply_of_ne_of_ne hne1 hne2]
  rw [h]
  have := Equiv.Perm.ofFn_comp_perm (Equiv.swap (⟨x, hx⟩ : Fin a.length) ⟨y, hy⟩) a.get
  rw [List.ofFn_get] at this
  exact this

theorem swapAt_spec {α : Type} (a : List α) (x y : Int) (hx0 : 0 ≤ x) (hx1 : x < a.length)
    (hy0 : 0 ≤ y) (hy1 : y < a.length) (d : α) :
    ∃ a', swapAt a x y = some a' ∧ a'.length = a.length ∧ a'.Perm a ∧
      a' = (a.set x.toNat (a.getD y.toNat d)).set y.toNat (a.getD x.toNat d) ∧
      ∀ k : Int, 0 ≤ k → a'.getD k.toNat d = a.getD (swapIdx x y k).toNat d := by
  have hx : x.toNat < a.length := by omega
  have hy : y.toNat < a.length := by omega
  have gx : a.getD x.toNat d = a[x.toNat] := by
    rw [List.getD_eq_getElem?_getD, List.getElem?_eq_getElem hx]; rfl
  have gy : a.getD y.toNat d = a[y.toNat] := by
    rw [List.getD_eq_getElem?_getD, List.getElem?_eq_getElem hy]; rfl
  refine ⟨(a.set x.toNat (a.getD y.toNat d)).set y.toNat (a.getD x.toNat d), ?_, ?_, ?_, rfl, ?_⟩
  · rw [swapAt, rdAt_eq a x hx0 hx1 d, rdAt_eq a y hy0 hy1 d]
  · simp
  · rw [gx, gy]; exact set_set_perm a x.toNat y.toNat hx hy
  · intro k hk
    simp only [List.getD_eq_getElem?_getD, List.getElem?_set, List.length_set, swapIdx]
    by_cases hky : k = y
    · subst hky
      simp [hy, List.getElem?_eq_getElem hx]
    · have hky' : ¬ y.toNat = k.toNat := by omega
      by_cases hkx : k = x
      · subst hkx
        simp [hky, hky', hx, List.getElem?_eq_getElem hy]
      · have hkx' : ¬ x.toNat = k.toNat := by omega
        simp [hky, hkx, hky', hkx']

theorem zip_set {α β : Type} (a : List α) (b : List β) (x : Nat) (u : α) (v : β) :
    (a.set x u).zip (b.set x v) = (a.zip b).set x (u, v) := by
  induction a generalizing b x with
  | nil => simp
  | cons h t ih =>
    cases b with
    | nil => simp
    | cons h' t' =>
      cases x with
      | zero => simp
      | succ x => simp [ih]

theorem getD_zip {α β : Type} (a : List α) (b : List β) (k : Nat) (ha : k < a.length)
    (hb : k < b.length) (da : α) (db : β) :
    (a.zip b).getD k (da, db) = (a.getD k da, b.getD k db) := by
  have hz : k < (a.zip b).length := by simp; omega
  rw [List.getD_eq_getElem?_getD, List.getD_eq_getElem?_getD, List.getD_eq_getElem?_getD,
    List.getElem?_eq_getElem hz, List.getElem?_eq_getElem ha, List.getElem?_eq_getElem hb,
    List.getElem_zip]
  rfl

theorem rdAt_key (i : List Byte) (k : Int) (h0 : 0 ≤ k) (h1 : k < i.length) :
    ∃ u : Byte, rdAt i k = some u ∧ u.val = key i k :=
  ⟨i.getD k.toNat 0, rdAt_eq i k h0 h1 0, rfl⟩

theorem SWAP_spec (n : Nat) (s0 s : Sel) (x y : Int) (hs : Linked n s0 s)
    (hx0 : 0 ≤ x) (hx1 : x < n) (hy0 : 0 ≤ y) (hy1 : y < n) :
    ∃ s', SWAP s x y = some s' ∧ Linked n s0 s' ∧
      ∀ k : Int, 0 ≤ k → key s'.i k = key s.i (swapIdx x y k) := by
  obtain ⟨hi, hp, hperm⟩ := hs
  obtain ⟨i', hi1, hi2, _, hi4, hi5⟩ :=
    swapAt_spec s.i x y hx0 (by omega) hy0 (by omega) (0 : Byte)
  obtain ⟨p', hp1, hp2, _, hp4, _⟩ :=
    swapAt_spec s.p x y hx0 (by omega) hy0 (by omega) (0 : Nat)
  obtain ⟨z', _, _, hz3, hz4, _⟩ :=
    swapAt_spec (s.i.zip s.p) x y hx0 (by simp; omega) hy0 (by simp; omega) ((0 : Byte), (0 : Nat))
  refine ⟨⟨p', i'⟩, ?_, ⟨by rw [hi2, hi], by rw [hp2, hp], ?_⟩, ?_⟩
  · rw [SWAP, hi1, hp1]
  · have hz : i'.zip p' = z' := by
      rw [hi4, hp4, hz4, zip_set, zip_set,
        getD_zip s.i s.p x.toNat (by omega) (by omega),
        getD_zip s.i s.p y.toNat (by omega) (by omega)]
    show (i'.zip p').Perm _
    rw [hz]
    exact hz3.trans hperm
  · intro k hk
    show (i'.getD k.toNat 0).val = _
    rw [hi5 k hk]
    rfl

theorem Shuffle.refl (lo hi : Int) (i : List Byte) : Shuffle lo hi i i :=
  ⟨fun _ _ _ => rfl, fun y h1 h2 => ⟨y, h1, h2, rfl⟩⟩

theorem Shuffle.trans {lo hi : Int} {i i' i'' : List Byte} (h1 : Shuffle lo hi i i')
    (h2 : Shuffle lo hi i' i'') : Shuffle lo hi i i'' := by
  refine ⟨fun k hk ho => ?_, fun y hy1 hy2 => ?_⟩
  · rw [h2.1 k hk ho, h1.1 k hk ho]
  · obtain ⟨y', a1, a2, a3⟩ := h2.2 y hy1 hy2
    obtain ⟨y'', b1, b2, b3⟩ := h1.2 y' a1 a2
    exact ⟨y'', b1, b2, by rw [a3, b3]⟩

theorem Shuffle.mono {lo hi lo' hi' : Int} {i i' : List Byte} (h : Shuffle lo hi i i')
    (h0 : 0 ≤ lo') (hlo : lo' ≤ lo) (hhi : hi ≤ hi') : Shuffle lo' hi' i i' := by
  refine ⟨fun k hk ho => h.1 k hk (by omega), fun y hy1 hy2 => ?_⟩
  by_cases hin : lo ≤ y ∧ y ≤ hi
  · obtain ⟨y', a1, a2, a3⟩ := h.2 y hin.1 hin.2
    exact ⟨y', by omega, by omega, a3⟩
  · exact ⟨y, hy1, hy2, h.1 y (by omega) (by omega)⟩

theorem Shuffle.of_swap {lo hi x y : Int} {i i' : List Byte}
    (h : ∀ k : Int, 0 ≤ k → key i' k = key i (swapIdx x y k)) (h0 : 0 ≤ lo)
    (hx : lo ≤ x ∧ x ≤ hi) (hy : lo ≤ y ∧ y ≤ hi) : Shuffle lo hi i i' := by
  refine ⟨fun k hk ho => ?_, fun z hz1 hz2 => ?_⟩
  · rw [h k hk, swapIdx, if_neg (by omega), if_neg (by omega)]
  · refine ⟨swapIdx x y z, ?_, ?_, h z (by omega)⟩
    · unfold swapIdx; split_ifs <;> omega
    · unfold swapIdx; split_ifs <;> omega

theorem Split.shuffle {n : Nat} {lo hi k : Int} {i i' : List Byte} (hS : Split n i k)
    (h : Shuffle lo hi i i') (h0 : 0 ≤ lo) (hn : hi < n) (hk : k ≤ lo ∨ hi < k) :
    Split n i' k := by
  intro x y hx0 hxk hky hyn
  rcases hk with hk | hk
  · rw [h.1 x hx0 (by omega)]
    by_cases hin : lo ≤ y ∧ y ≤ hi
    · obtain ⟨y', a1, a2, a3⟩ := h.2 y hin.1 hin.2
      rw [a3]
      exact hS x y' hx0 hxk (by omega) (by omega)
    · rw [h.1 y (by omega) (by omega)]
      exact hS x y hx0 hxk hky hyn
  · rw [h.1 y (by omega) (by omega)]
    by_cases hin : lo ≤ x ∧ x ≤ hi
    · obtain ⟨x', a1, a2, a3⟩ := h.2 x hin.1 hin.2
      rw [a3]
      exact hS x' y (by omega) (by omega) hky hyn
    · rw [h.1 x hx0 (by omega)]
      exact hS x y hx0 hxk hky hyn

theorem swapIfGreater_spec (n : Nat) (s0 s : Sel) (x y : Int) (hs : Linked n s0 s)
    (hx0 : 0 ≤ x) (hx1 : x < n) (hy0 : 0 ≤ y) (hy1 : y < n) :
    ∃ s', swapIfGreater s x y = some s' ∧ Linked n s0 s' ∧ key s'.i x ≤ key s'.i y ∧
      ((∀ k : Int, 0 ≤ k → key s'.i k = key s.i k) ∨
       (∀ k : Int, 0 ≤ k → key s'.i k = key s.i (swapIdx x y k))) := by
  have hi := hs.1
  obtain ⟨u, hu1, hu2⟩ := rdAt_key s.i x hx0 (by omega)
  obtain ⟨v, hv1, hv2⟩ := rdAt_key s.i y hy0 (by omega)
  by_cases hgt : u > v
  · obtain ⟨s', h1, h2, h3⟩ := SWAP_spec n s0 s x y hs hx0 hx1 hy0 hy1
    refine ⟨s', ?_, h2, ?_, Or.inr h3⟩
    · rw [swapIfGreater, hu1, hv1]
      simp only [if_pos hgt]
      exact h1
    · rw [h3 x hx0, h3 y hy0]
      have hgt' : v.val < u.val := hgt
      have e1 : swapIdx x y y = x := by simp [swapIdx]
      have e2 : swapIdx x y x = y := by
        unfold swapIdx; split_ifs <;> omega
      rw [e1, e2]
      omega
  · refine ⟨s, ?_, hs, ?_, Or.inl (fun _ _ => rfl)⟩
    · rw [swapIfGreater, hu1, hv1]
      simp only [if_neg hgt]
    · have hgt' : ¬ v.val < u.val := hgt
      omega

theorem scanUp_spec (i : List Byte) (low : Int) (hl0 : 0 ≤ low) (hl1 : low < i.length)
    (stop : Int) (hs1 : stop < i.length) (hs2 : key i low ≤ key i stop) :
    ∀ (fuel : Nat) (ll : Int), -1 ≤ ll → ll < stop → (stop - ll).toNat ≤ fuel →
      ∃ ll', scanUp i low fuel ll = some ll' ∧ ll < ll' ∧ ll' ≤ stop ∧
        key i low ≤ key i ll' ∧ ∀ k : Int, ll < k → k < ll' → key i k < key i low := by
  intro fuel
  induction fuel with
  | zero => intro ll _ h2 h3; omega
  | succ fuel ih =>
    intro ll h1 h2 h3
    obtain ⟨u, hu1, hu2⟩ := rdAt_key i low hl0 hl1
    obtain ⟨v, hv1, hv2⟩ := rdAt_key i (ll + 1) (by omega) (by omega)
    by_cases hgt : u > v
    · have hgt' : v.val < u.val := hgt
      have hne : ll + 1 ≠ stop := by
        intro h; rw [h] at hv2; omega
      obtain ⟨ll', a1, a2, a3, a4, a5⟩ := ih (ll + 1) (by omega) (by omega) (by omega)
      refine ⟨ll', ?_, by omega, a3, a4, ?_⟩
      · rw [scanUp, hu1, hv1]
        simp only [if_pos hgt]
        exact a1
      · intro k hk1 hk2
        by_cases hk : k = ll + 1
        · subst hk; omega
        · exact a5 k (by omega) hk2
    · have hgt' : ¬ v.val < u.val := hgt
      refine ⟨ll + 1, ?_, by omega, by omega, by omega, ?_⟩
      · rw [scanUp, hu1, hv1]
        simp only [if_neg hgt]
      · intro k hk1 hk2; omega

theorem scanDown_spec (i : List Byte) (low : Int) (hl0 : 0 ≤ low) (hl1 : low < i.length)
    (stop : Int) (hs0 : 0 ≤ stop) (hs2 : key i stop ≤ key i low) :
    ∀ (fuel : Nat) (hh : Int), hh ≤ i.length → stop < hh → (hh - stop).toNat ≤ fuel →
      ∃ hh', scanDown i low fuel hh = some hh' ∧ hh' < hh ∧ stop ≤ hh' ∧
        key i hh' ≤ key i low ∧ ∀ k : Int, hh' < k → k < hh → key i low < key i k := by
  intro fuel
  induction fuel with
  | zero => intro hh _ h2 h3; omega
  | succ fuel ih =>
    intro hh h1 h2 h3
    obtain ⟨v, hv1, hv2⟩ := rdAt_key i low hl0 hl1
    obtain ⟨u, hu1, hu2⟩ := rdAt_key i (hh - 1) (by omega) (by omega)
    by_cases hgt : u > v
    · have hgt' : v.val < u.val := hgt
      have hne : hh - 1 ≠ stop := by
        intro h; rw [h] at hu2; omega
      obtain ⟨hh', a1, a2, a3, a4, a5⟩ := ih (hh - 1) (by omega) (by omega) (by omega)
      refine ⟨hh', ?_, by omega, a3, a4, ?_⟩
      · rw [scanDown, hu1, hv1]
        simp only [if_pos hgt]
        exact a1
      · intro k hk1 hk2
        by_cases hk : k = hh - 1
        · subst hk; omega
        · exact a5 k hk1 (by omega)
    · have hgt' : ¬ v.val < u.val := hgt
      refine ⟨hh - 1, ?_, by omega, by omega, by omega, ?_⟩
      · rw [scanDown, hu1, hv1]
        simp only [if_neg hgt]
      · intro k hk1 hk2; omega

theorem swapIdx_left (x y : Int) : swapIdx x y x = y := by
  unfold swapIdx; split_ifs <;> omega

theorem swapIdx_right (x y : Int) : swapIdx x y y = x := by
  simp [swapIdx]

theorem swapIdx_other (x y k : Int) (hx : k ≠ x) (hy : k ≠ y) : swapIdx x y k = k := by
  simp [swapIdx, hx, hy]

theorem nibble_spec (n : Nat) (s0 : Sel) (low high : Int) (hl0 : 0 ≤ low) (hh1 : high < n) :
    ∀ (fuel : Nat) (s : Sel) (ll hh : Int), Linked n s0 s →
      low + 1 ≤ ll → ll ≤ hh → hh ≤ high → ll < high → low + 1 < hh →
      (∀ k : Int, low < k → k ≤ ll → key s.i k ≤ key s.i low) →
      (∀ k : Int, hh ≤ k → k ≤ high → key s.i low ≤ key s.i k) →
      (high - ll).toNat ≤ fuel →
      ∃ s' ll' hh', nibble low fuel s ll hh = some (s', ll', hh') ∧ Linked n s0 s' ∧
        Shuffle (low + 1) (high - 1) s.i s'.i ∧
        low ≤ hh' ∧ hh' < ll' ∧ ll' ≤ high ∧ low + 2 ≤ ll' ∧ hh' < high ∧
        (∀ k : Int, low < k → k < ll' → key s'.i k ≤ key s'.i low) ∧
        (∀ k : Int, hh' < k → k ≤ high → key s'.i low ≤ key s'.i k) ∧
        key s'.i hh' ≤ key s'.i low ∧ low + 1 ≤ hh' := by
  intro fuel
  induction fuel with
  | zero => intro s ll hh _ _ _ _ h5 _ _ _ h8; omega
  | succ fuel ih =>
    intro s ll hh hs h1 h2 h3 h4 hlh I2 I3 hf
    have hlen : s.i.length = n := hs.1
    obtain ⟨ll', u1, u2, u3, u4, u5⟩ := scanUp_spec s.i low hl0 (by omega) high (by omega)
      (I3 high h3 (le_refl _)) s.i.length ll (by omega) h4 (by omega)
    obtain ⟨hh', d1, d2, d3, d4, d5⟩ := scanDown_spec s.i low hl0 (by omega) (low + 1)
      (by omega) (I2 (low + 1) (by omega) h1) s.i.length hh (by omega) hlh (by omega)
    by_cases hbrk : hh' < ll'
    · refine ⟨s, ll', hh', ?_, hs, Shuffle.refl _ _ _, by omega, hbrk, u3, by omega, by omega,
        ?_, ?_, d4, d3⟩
      · rw [nibble, u1, d1]
        simp only [if_pos hbrk]
      · intro k hk1 hk2
        by_cases hk : k ≤ ll
        · exact I2 k hk1 hk
        · exact Nat.le_of_lt (u5 k (by omega) hk2)
      · intro k hk1 hk2
        by_cases hk : hh ≤ k
        · exact I3 k hk hk2
        · exact Nat.le_of_lt (d5 k hk1 (by omega))
    · obtain ⟨s1, w1, w2, w3⟩ := SWAP_spec n s0 s ll' hh' hs (by omega) (by omega)
        (by omega) (by omega)
      have klow : key s1.i low = key s.i low := by
        rw [w3 low hl0, swapIdx_other _ _ _ (by omega) (by omega)]
      obtain ⟨s', ll'', hh'', r1, r2, r3, r4, r5, r6, r7, r8, r9, r10, r11, r12⟩ :=
        ih s1 ll' hh' w2 (by omega) (by omega) (by omega) (by omega) (by omega)
          (by
            intro k hk1 hk2
            rw [klow, w3 k (by omega)]
            by_cases hk : k = ll'
            · subst hk
              rw [swapIdx_left]; exact d4
            · rw [swapIdx_other _ _ _ hk (by omega)]
              by_cases hk' : k ≤ ll
              · exact I2 k hk1 hk'
              · exact Nat.le_of_lt (u5 k (by omega) (by omega)))
          (by
            intro k hk1 hk2
            rw [klow, w3 k (by omega)]
            by_cases hk : k = hh'
            · subst hk
              rw [swapIdx_right]; exact u4
            · rw [swapIdx_other _ _ _ (by omega) hk]
              by_cases hk' : hh ≤ k
              · exact I3 k hk' hk2
              · exact Nat.le_of_lt (d5 k (by omega) (by omega)))
          (by omega)
      refine ⟨s', ll'', hh'', ?_, r2, ?_, r4, r5, r6, r7, r8, r9, r10, r11, r12⟩
      · rw [nibble, u1, d1]
        simp only [if_neg hbrk, w1]
        exact r1
      · exact (Shuffle.of_swap w3 (by omega) ⟨by omega, by omega⟩ ⟨by omega, by omega⟩).trans r3

theorem Shuffle.of_either {lo hi x y : Int} {i i' : List Byte}
    (h : (∀ k : Int, 0 ≤ k → key i' k = key i k) ∨
         (∀ k : Int, 0 ≤ k → key i' k = key i (swapIdx x y k))) (h0 : 0 ≤ lo)
    (hx : lo ≤ x ∧ x ≤ hi) (hy : lo ≤ y ∧ y ≤ hi) : Shuffle lo hi i i' := by
  rcases h with h | h
  · exact ⟨fun k hk _ => h k hk, fun z hz1 hz2 => ⟨z, hz1, hz2, h z (by omega)⟩⟩
  · exact Shuffle.of_swap h h0 hx hy

theorem partition_pass_spec (n : Nat) (s0 s : Sel) (low high : Int) (hs : Linked n s0 s)
    (hl0 : 0 ≤ low) (h2 : low + 2 ≤ high) (hh1 : high < n) :
    ∃ s' ll hh, partition_pass s low high = some (s', ll, hh) ∧ Linked n s0 s' ∧
      Shuffle low high s.i s'.i ∧
      low ≤ hh ∧ hh < ll ∧ ll ≤ high ∧ low + 2 ≤ ll ∧ hh < high ∧
      (∀ k : Int, low ≤ k → k < ll → key s'.i k ≤ key s'.i hh) ∧
      (∀ k : Int, hh ≤ k → k ≤ high → key s'.i hh ≤ key s'.i k) ∧ low + 1 ≤ hh := by
  have hmid : Int.tdiv (low + high) 2 = (low + high) / 2 :=
    Int.tdiv_eq_ediv (by omega) (by norm_num)
  generalize hm : (low + high) / 2 = middle at hmid
  have hm1 : low + 1 ≤ middle := by omega
  have hm2 : middle < high := by omega
  obtain ⟨s1, a1, a2, a3, a4⟩ := swapIfGreater_spec n s0 s middle high hs (by omega) (by omega)
    (by omega) hh1
  obtain ⟨s2, b1, b2, b3, b4⟩ := swapIfGreater_spec n s0 s1 low high a2 hl0 (by omega)
    (by omega) hh1
  obtain ⟨s3, c1, c2, c3, c4⟩ := swapIfGreater_spec n s0 s2 middle low b2 (by omega) (by omega)
    hl0 (by omega)
  obtain ⟨s4, d1, d2, d3⟩ := SWAP_spec n s0 s3 middle (low + 1) c2 (by omega) (by omega)
    (by omega) (by omega)
  have b5 : key s2.i middle ≤ key s2.i high := by
    rcases b4 with h | h
    · rw [h middle (by omega), h high (by omega)]; exact a3
    · rw [h low hl0, h high (by omega), swapIdx_left, swapIdx_right] at b3
      rw [h middle (by omega), h high (by omega), swapIdx_right,
        swapIdx_other _ _ _ (by omega) (by omega)]
      omega
  have c5 : key s3.i low ≤ key s3.i high := by
    rcases c4 with h | h
    · rw [h low hl0, h high (by omega)]; exact b3
    · rw [h low hl0, h high (by omega), swapIdx_right,
        swapIdx_other _ _ _ (by omega) (by omega)]
      exact b5
  have e1 : key s4.i (low + 1) = key s3.i middle := by
    rw [d3 _ (by omega), swapIdx_right]
  have e2 : key s4.i low = key s3.i low := by
    rw [d3 _ hl0, swapIdx_other _ _ _ (by omega) (by omega)]
  have e3 : key s4.i high = key s3.i high := by
    rw [d3 _ (by omega), swapIdx_other _ _ _ (by omega) (by omega)]
  obtain ⟨s5, ll, hh, r1, r2, r3, r4, r5, r6, r7, r8, r9, r10, r11, r12⟩ :=
    nibble_spec n s0 low high hl0 hh1 s4.i.length s4 (low + 1) high d2 (le_refl _) (by omega)
      (le_refl _) (by omega) (by omega)
      (by
        intro k hk1 hk2
        have : k = low + 1 := by omega
        subst this
        rw [e1, e2]; exact c3)
      (by
        intro k hk1 hk2
        have : k = high := by omega
        subst this
        rw [e2, e3]; exact c5)
      (by rw [d2.1]; omega)
  obtain ⟨s6, f1, f2, f3⟩ := SWAP_spec n s0 s5 low hh r2 hl0 (by omega) (by omega) (by omega)
  have khh : key s6.i hh = key s5.i low := by
    rw [f3 hh (by omega), swapIdx_right]
  refine ⟨s6, ll, hh, ?_, f2, ?_, r4, r5, r6, r7, r8, ?_, ?_, r12⟩
  · simp only [partition_pass, hmid, a1, b1, c1, d1, r1, f1]
  · have t1 : Shuffle low high s.i s1.i :=
      Shuffle.of_either a4 hl0 ⟨by omega, by omega⟩ ⟨by omega, by omega⟩
    have t2 : Shuffle low high s1.i s2.i :=
      Shuffle.of_either b4 hl0 ⟨by omega, by omega⟩ ⟨by omega, by omega⟩
    have t3 : Shuffle low high s2.i s3.i :=
      Shuffle.of_either c4 hl0 ⟨by omega, by omega⟩ ⟨by omega, by omega⟩
    have t4 : Shuffle low high s3.i s4.i :=
      Shuffle.of_swap d3 hl0 ⟨by omega, by omega⟩ ⟨by omega, by omega⟩
    have t5 : Shuffle low high s4.i s5.i := r3.mono hl0 (by omega) (by omega)
    have t6 : Shuffle low high s5.i s6.i :=
      Shuffle.of_swap f3 hl0 ⟨by omega, by omega⟩ ⟨by omega, by omega⟩
    exact ((((t1.trans t2).trans t3).trans t4).trans t5).trans t6
  · intro k hk1 hk2
    rw [khh, f3 k (by omega)]
    by_cases hk : k = low
    · subst hk
      rw [swapIdx_left]; exact r11
    · by_cases hk' : k = hh
      · subst hk'
        rw [swapIdx_right]
      · rw [swapIdx_other _ _ _ hk hk']
        exact r9 k (by omega) hk2
  · intro k hk1 hk2
    rw [khh, f3 k (by omega)]
    by_cases hk' : k = hh
    · subst hk'
      rw [swapIdx_right]
    · rw [swapIdx_other _ _ _ (by omega) hk']
      exact r10 k (by omega) hk2

theorem split_between {n : Nat} {i : List Byte} {low high ll hh : Int}
    (hlow : Split n i low) (hhigh : Split n i (high + 1)) (h1 : low ≤ hh) (h2 : ll ≤ high)
    (P1 : ∀ k : Int, low ≤ k → k < ll → key i k ≤ key i hh)
    (P2 : ∀ k : Int, hh ≤ k → k ≤ high → key i hh ≤ key i k)
    (k : Int) (hk1 : hh ≤ k) (hk2 : k ≤ ll) : Split n i k := by
  intro x y hx0 hxk hky hyn
  by_cases hx : x < low
  · exact hlow x y hx0 hx (by omega) hyn
  · by_cases hy : y ≤ high
    · exact Nat.le_trans (P1 x (by omega) (by omega)) (P2 y (by omega) hy)
    · exact hhigh x y hx0 (by omega) (by omega) hyn

theorem select_loop_spec (n : Nat) (median : Int) (s0 : Sel) :
    ∀ (fuel : Nat) (s : Sel) (low high : Int), SelInv n median s0 s low high →
      (high - low + 1).toNat < fuel →
      ∃ s', select_loop median fuel s low high = some (median, s') ∧ Linked n s0 s' ∧
        Split n s'.i median ∧ Split n s'.i (median + 1) := by
  intro fuel
  induction fuel with
  | zero => intro s low high _ h; omega
  | succ fuel ih =>
    intro s low high hinv hf
    obtain ⟨hs, hl0, hh1, hSlow, hShigh, hmed⟩ := hinv
    by_cases hle : high ≤ low
    · refine ⟨s, ?_, hs, ?_⟩
      · rw [select_loop, if_pos hle]
      · rcases hmed with ⟨m1, m2⟩ | ⟨_, m2, m3⟩
        · have e1 : median = low := by omega
          have e2 : median + 1 = high + 1 := by omega
          rw [e2, e1]
          exact ⟨hSlow, hShigh⟩
        · exact ⟨m2, m3⟩
    · by_cases h2 : high = low + 1
      · obtain ⟨s', a1, a2, a3, a4⟩ := swapIfGreater_spec n s0 s low high hs hl0 (by omega)
          (by omega) hh1
        have hsh : Shuffle low high s.i s'.i :=
          Shuffle.of_either a4 hl0 ⟨by omega, by omega⟩ ⟨by omega, by omega⟩
        have hSlow' := hSlow.shuffle hsh hl0 hh1 (Or.inl (le_refl _))
        have hShigh' := hShigh.shuffle hsh hl0 hh1 (Or.inr (by omega))
        have hSmid : Split n s'.i (low + 1) := by
          intro x y hx0 hxk hky hyn
          by_cases hx : x < low
          · exact hSlow' x y hx0 hx (by omega) hyn
          · have ex : x = low := by omega
            by_cases hy : y ≤ high
            · have ey : y = high := by omega
              rw [ex, ey]; exact a3
            · exact hShigh' x y hx0 (by omega) (by omega) hyn
        refine ⟨s', ?_, a2, ?_⟩
        · rw [select_loop, if_neg hle, if_pos h2]
          simp only [a1]
        · rcases hmed with ⟨m1, m2⟩ | ⟨m1, m2, m3⟩
          · by_cases hm : median = low
            · rw [hm]; exact ⟨hSlow', hSmid⟩
            · have e1 : median = low + 1 := by omega
              have e2 : median + 1 = high + 1 := by omega
              rw [e2, e1]; exact ⟨hSmid, hShigh'⟩
          · exact ⟨m2.shuffle hsh hl0 hh1 (Or.inl (by omega)),
              m3.shuffle hsh hl0 hh1 (Or.inl (by omega))⟩
      · obtain ⟨s', ll, hh, r1, r2, r3, r4, r5, r6, r7, r8, P1, P2, _⟩ :=
          partition_pass_spec n s0 s low high hs hl0 (by omega) hh1
        have hSlow' := hSlow.shuffle r3 hl0 hh1 (Or.inl (le_refl _))
        have hShigh' := hShigh.shuffle r3 hl0 hh1 (Or.inr (by omega))
        have hbetween := split_between hSlow' hShigh' r4 r6 P1 P2
        have hnext : SelInv n median s0 s' (if hh ≤ median then ll else low)
            (if hh ≥ median then hh - 1 else high) := by
          refine ⟨r2, ?_, ?_, ?_, ?_, ?_⟩
          · split_ifs <;> omega
          · split_ifs <;> omega
          · split_ifs
            · exact hbetween ll (by omega) (le_refl _)
            · exact hSlow'
          · split_ifs
            · have e : hh - 1 + 1 = hh := by omega
              rw [e]; exact hbetween hh (le_refl _) (by omega)
            · exact hShigh'
          · rcases hmed with ⟨m1, m2⟩ | ⟨m1, m2, m3⟩
            · by_cases c1 : hh ≤ median
              · by_cases c2 : ll ≤ median
                · left
                  rw [if_pos c1]
                  split_ifs <;> omega
                · right
                  rw [if_pos c1]
                  exact ⟨by omega, hbetween median c1 (by omega),
                    hbetween (median + 1) (by omega) (by omega)⟩
              · left
                rw [if_neg c1, if_pos (by omega)]
                omega
            · right
              refine ⟨by split_ifs <;> omega, m2.shuffle r3 hl0 hh1 (Or.inl (by omega)),
                m3.shuffle r3 hl0 hh1 (Or.inl (by omega))⟩
        have hmeasure : ((if hh ≥ median then hh - 1 else high)
            - (if hh ≤ median then ll else low) + 1).toNat < fuel := by
          split_ifs <;> omega
        obtain ⟨s'', q1, q2, q3⟩ := ih s' _ _ hnext hmeasure
        refine ⟨s'', ?_, q2, q3⟩
        rw [select_loop, if_neg hle, if_neg h2]
        simp only [r1]
        exact q1

theorem key_eq_getElem (a : List Byte) (j : Nat) (hj : j < a.length) :
    key a (j : Int) = (a[j]).val := by
  simp only [key, Int.toNat_ofNat, List.getD_eq_getElem?_getD, List.getElem?_eq_getElem hj]
  rfl

theorem quick_median_select_core (p : List Nat) (i : List Byte) (n : Nat) (hn : 1 ≤ n)
    (hp : p.length = n) (hi : i.length = n) :
    ∃ s', quick_median_select p i (n : Int) = some ((((n - 1) / 2 : Nat) : Int), s') ∧
      Linked n ⟨p, i⟩ s' ∧ Split n s'.i (((n - 1) / 2 : Nat) : Int) ∧
      Split n s'.i ((((n - 1) / 2 : Nat) : Int) + 1) := by
  have hmed : Int.tdiv (0 + ((n : Int) - 1)) 2 = (((n - 1) / 2 : Nat) : Int) := by
    rw [Int.tdiv_eq_ediv (by omega) (by norm_num)]
    omega
  have hinv : SelInv n (((n - 1) / 2 : Nat) : Int) ⟨p, i⟩ ⟨p, i⟩ 0 ((n : Int) - 1) := by
    refine ⟨⟨hi, hp, List.Perm.refl _⟩, le_refl _, by omega, ?_, ?_, Or.inl ⟨by omega, by omega⟩⟩
    · intro x y hx0 hxk _ _; omega
    · intro x y _ _ hky hyn; omega
  obtain ⟨s', h1, h2, h3, h4⟩ := select_loop_spec n _ ⟨p, i⟩ ((n : Int).toNat + 1) ⟨p, i⟩ 0
    ((n : Int) - 1) hinv (by omega)
  refine ⟨s', ?_, h2, h3, h4⟩
  simp only [quick_median_select, hmed]
  exact h1

/-- A position that splits an array (everything before it is at most it,
everything after it is at least it) holds the element of that rank. -/
theorem rank_of_split (a : List Byte) (m : Nat) (hm : m < a.length)
    (h1 : Split a.length a (m : Int)) (h2 : Split a.length a ((m : Int) + 1))
    (l : List Byte) (hperm : l.Perm a) (hsorted : l.Sorted (· ≤ ·)) :
    l[m]? = a[m]? := by
  have hL : ∀ x ∈ a.take m, x ≤ a[m] := by
    intro x hx
    obtain ⟨j, hj, rfl⟩ := List.mem_iff_getElem.1 hx
    have hj' : j < m := by
      have := List.length_take_le m a
      omega
    rw [List.getElem_take]
    have := h1 (j : Int) (m : Int) (by omega) (by omega) (le_refl _) (by omega)
    rw [key_eq_getElem a j (by omega), key_eq_getElem a m hm] at this
    exact this
  have hR : ∀ x ∈ a.drop (m + 1), a[m] ≤ x := by
    intro x hx
    obtain ⟨j, hj, rfl⟩ := List.mem_iff_getElem.1 hx
    rw [List.length_drop] at hj
    rw [List.getElem_drop]
    have := h2 (m : Int) ((m + 1 + j : Nat) : Int) (by omega) (by omega) (by omega) (by omega)
    rw [key_eq_getElem a m hm, key_eq_getElem a (m + 1 + j) (by omega)] at this
    exact this
  have hsplit : a = a.take m ++ a[m] :: a.drop (m + 1) := by
    rw [List.getElem_cons_drop a m hm, List.take_append_drop]
  have hpL := List.perm_insertionSort (· ≤ ·) (a.take m)
  have hpR := List.perm_insertionSort (· ≤ ·) (a.drop (m + 1))
  have hsL := List.sorted_insertionSort (· ≤ ·) (a.take m)
  have hsR := List.sorted_insertionSort (· ≤ ·) (a.drop (m + 1))
  have hs' : List.Sorted (· ≤ ·) (List.insertionSort (· ≤ ·) (a.take m)
      ++ a[m] :: List.insertionSort (· ≤ ·) (a.drop (m + 1))) := by
    unfold List.Sorted
    rw [List.pairwise_append]
    refine ⟨hsL, ?_, ?_⟩
    · rw [List.pairwise_cons]
      exact ⟨fun x hx => hR x (hpR.mem_iff.1 hx), hsR⟩
    · intro x hx y hy
      have hx' := hL x (hpL.mem_iff.1 hx)
      rcases List.mem_cons.1 hy with hy | hy
      · rw [hy]; exact hx'
      · exact le_trans hx' (hR y (hpR.mem_iff.1 hy))
  have hp' : l.Perm (List.insertionSort (· ≤ ·) (a.take m)
      ++ a[m] :: List.insertionSort (· ≤ ·) (a.drop (m + 1))) := by
    refine hperm.trans ?_
    conv_lhs => rw [hsplit]
    exact (hpL.symm).append ((hpR.symm).cons _)
  have heq := List.eq_of_perm_of_sorted hp' hsorted hs'
  have hlenL : (List.insertionSort (· ≤ ·) (a.take m)).length = m := by
    rw [hpL.length_eq, List.length_take]
    omega
  rw [heq, List.getElem?_append_right (by omega), hlenL, Nat.sub_self,
    List.getElem?_eq_getElem hm, List.getElem?_cons_zero]

theorem perm_keys_of_linked (n : Nat) (s0 s : Sel) (h0 : s0.i.length = s0.p.length)
    (h : Linked n s0 s) : s.i.Perm s0.i := by
  have h1 : (s.i.zip s.p).map Prod.fst = s.i :=
    List.map_fst_zip _ _ (by rw [h.1, h.2.1])
  have h2 : (s0.i.zip s0.p).map Prod.fst = s0.i :=
    List.map_fst_zip _ _ (by rw [h0])
  rw [← h1, ← h2]
  exact h.2.2.map _

/-- C7: for `n >= 1` entries `quick_median_select` returns `(n-1)/2`; the
(key, pointer) pairs it leaves are a permutation of the pairs it was given;
every key left of the returned index is at most the key there, every key right
of it is at least that key, and that key is the element of rank `(n-1)/2` of
the keys in ascending order. -/
theorem quick_median_select_spec (p : List Nat) (i : List Byte) (n : Nat) (hn : 1 ≤ n)
    (hp : p.length = n) (hi : i.length = n) :
    ∃ (p' : List Nat) (i' : List Byte),
      quick_median_select p i (n : Int) = some ((((n - 1) / 2 : Nat) : Int), ⟨p', i'⟩) ∧
      p'.length = n ∧ i'.length = n ∧
      (i'.zip p').Perm (i.zip p) ∧
      (∀ j : Nat, j < (n - 1) / 2 → i'.getD j 0 ≤ i'.getD ((n - 1) / 2) 0) ∧
      (∀ j : Nat, (n - 1) / 2 < j → j < n → i'.getD ((n - 1) / 2) 0 ≤ i'.getD j 0) ∧
      (∀ l : List Byte, l.Perm i → l.Sorted (· ≤ ·) → l[(n - 1) / 2]? = i'[(n - 1) / 2]?) := by
  obtain ⟨s', h1, h2, h3, h4⟩ := quick_median_select_core p i n hn hp hi
  have hlen : s'.i.length = n := h2.1
  refine ⟨s'.p, s'.i, h1, h2.2.1, h2.1, h2.2.2, ?_, ?_, ?_⟩
  · intro j hj
    have := h3 (j : Int) (((n - 1) / 2 : Nat) : Int) (by omega) (by omega) (le_refl _) (by omega)
    simpa [key] using this
  · intro j hj1 hj2
    have := h4 (((n - 1) / 2 : Nat) : Int) (j : Int) (by omega) (by omega) (by omega) (by omega)
    simpa [key] using this
  · intro l hl hs
    have hperm : s'.i.Perm i := perm_keys_of_linked n ⟨p, i⟩ s' (by rw [hi, hp]) h2
    have h3' : Split s'.i.length s'.i (((n - 1) / 2 : Nat) : Int) := by rw [hlen]; exact h3
    have h4' : Split s'.i.length s'.i ((((n - 1) / 2 : Nat) : Int) + 1) := by
      rw [hlen]; exact h4
    exact rank_of_split s'.i ((n - 1) / 2) (by omega) h3' h4' l (hl.trans hperm.symm) hs

theorem quick_median_select_spec_witness :
    1 ≤ 5 ∧ ([0, 3, 6, 9, 12] : List Nat).length = 5 ∧
    ([50, 10, 40, 20, 30] : List Byte).length = 5 ∧
    quick_median_select [0, 3, 6, 9, 12] [50, 10, 40, 20, 30] 5
      = some (2, ⟨[3, 9, 12, 6, 0], [10, 20, 30, 40, 50]⟩) ∧
    ∃ (p' : List Nat) (i' : List Byte),
      quick_median_select [0, 3, 6, 9, 12] [50, 10, 40, 20, 30] ((5 : Nat) : Int)
        = some ((((5 - 1) / 2 : Nat) : Int), ⟨p', i'⟩) ∧
      p'.length = 5 ∧ i'.length = 5 ∧
      (i'.zip p').Perm (([50, 10, 40, 20, 30] : List Byte).zip [0, 3, 6, 9, 12]) ∧
      (∀ j : Nat, j < (5 - 1) / 2 → i'.getD j 0 ≤ i'.getD ((5 - 1) / 2) 0) ∧
      (∀ j : Nat, (5 - 1) / 2 < j → j < 5 → i'.getD ((5 - 1) / 2) 0 ≤ i'.getD j 0) ∧
      (∀ l : List Byte, l.Perm [50, 10, 40, 20, 30] → l.Sorted (· ≤ ·) →
        l[(5 - 1) / 2]? = i'[(5 - 1) / 2]?) :=
  ⟨by decide, by decide, by decide, by decide,
   quick_median_select_spec [0, 3, 6, 9, 12] [50, 10, 40, 20, 30] 5 (by decide) (by decide)
     (by decide)⟩

/-! ## AdaptiveMedianFilter: despeckle_median -/

theorem memcpy_writes (L dpos : Nat) (src : Buffer) (spos n : Nat) (h : dpos + n ≤ L) :
    Writes (fun dst => memcpy dst dpos src spos n) L (fun j => dpos ≤ j ∧ j < dpos + n)
      (fun j => peek src (spos + (j - dpos))) := by
  unfold memcpy
  have hw : Writes (forRange n (fun k d => poke d (dpos + k) (peek src (spos + k)))) L
      (fun j => ∃ k, k < n ∧ j = dpos + k) (fun j => peek src (spos + (j - dpos))) := by
    refine Writes.forRange (fun k hk => ?_)
    refine Writes.poke (by omega) ?_
    simp
  refine hw.congr (fun j => ⟨fun hj => ⟨j - dpos, by omega, by omega⟩, ?_⟩)
  rintro ⟨k, hk, rfl⟩
  omega

theorem length_memcpy (dst : Buffer) (dpos : Nat) (src : Buffer) (spos n : Nat) :
    (memcpy dst dpos src spos n).length = dst.length := by
  unfold memcpy
  exact length_forRange _ _ (fun j d => length_poke _ _ _) dst

theorem peek_memcpy_in (dst : Buffer) (dpos : Nat) (src : Buffer) (spos n c : Nat)
    (h : dpos + n ≤ dst.length) (hc : c < n) :
    peek (memcpy dst dpos src spos n) (dpos + c) = peek src (spos + c) := by
  have := (memcpy_writes dst.length dpos src spos n h).2.1 dst (dpos + c) rfl (by omega)
  have e : dpos + c - dpos = c := by omega
  rw [this]
  show peek src (spos + (dpos + c - dpos)) = peek src (spos + c)
  rw [e]

theorem peek_memcpy_out (dst : Buffer) (dpos : Nat) (src : Buffer) (spos n k : Nat)
    (h : dpos + n ≤ dst.length) (hk : ¬ (dpos ≤ k ∧ k < dpos + n)) :
    peek (memcpy dst dpos src spos n) k = peek dst k :=
  (memcpy_writes dst.length dpos src spos n h).2.2 dst k rfl hk

theorem classify_fold (lum : Byte → Byte → Byte → Byte) (f : GstGimpDespeckle) (src : Buffer)
    (width bpp : Nat) (v : Int) (us : List Int) (st : Window) :
    (us.foldl (fun st u => classify lum f src width bpp v u st) st).buf
      = st.buf ++ ((us.map (fun u => ((u + v * (width : Int)) * (bpp : Int)).toNat)).filter
          (fun pos => decide (f.black_level < sample_lum lum src bpp pos
            ∧ sample_lum lum src bpp pos < f.white_level))) ∧
    (us.foldl (fun st u => classify lum f src width bpp v u st) st).ibuf
      = st.ibuf ++ (((us.map (fun u => ((u + v * (width : Int)) * (bpp : Int)).toNat)).filter
          (fun pos => decide (f.black_level < sample_lum lum src bpp pos
            ∧ sample_lum lum src bpp pos < f.white_level))).map (sample_lum lum src bpp)) := by
  induction us generalizing st with
  | nil => simp
  | cons u us ih =>
    rw [List.foldl_cons, List.map_cons, List.filter_cons]
    obtain ⟨ih1, ih2⟩ := ih (classify lum f src width bpp v u st)
    rw [ih1, ih2]
    by_cases hc : f.black_level < sample_lum lum src bpp ((u + v * (width : Int)) * (bpp : Int)).toNat
        ∧ sample_lum lum src bpp ((u + v * (width : Int)) * (bpp : Int)).toNat < f.white_level
    · have hc' : pixel_luminance lum src ((u + v * (width : Int)) * (bpp : Int)).toNat bpp
          > f.black_level ∧ pixel_luminance lum src
            ((u + v * (width : Int)) * (bpp : Int)).toNat bpp < f.white_level := hc
      rw [if_pos (decide_eq_true hc)]
      simp only [classify, if_pos hc', List.map_cons, List.append_assoc, List.singleton_append,
        sample_lum]
      exact ⟨trivial, trivial⟩
    · have hc' : ¬ (pixel_luminance lum src ((u + v * (width : Int)) * (bpp : Int)).toNat bpp
          > f.black_level ∧ pixel_luminance lum src
            ((u + v * (width : Int)) * (bpp : Int)).toNat bpp < f.white_level) := hc
      rw [if_neg (by rw [decide_eq_false hc]; simp)]
      simp only [classify, if_neg hc']
      exact ⟨trivial, trivial⟩

theorem scan_window_buf (lum : Byte → Byte → Byte → Byte) (f : GstGimpDespeckle) (src : Buffer)
    (width bpp : Nat) (ymin ymax xmin xmax : Int) :
    (scan_window lum f src width bpp ymin ymax xmin xmax).buf
      = candidates lum f src width bpp ymin ymax xmin xmax ∧
    (scan_window lum f src width bpp ymin ymax xmin xmax).ibuf
      = (candidates lum f src width bpp ymin ymax xmin xmax).map (sample_lum lum src bpp) := by
  unfold scan_window candidates window_samples
  have gen : ∀ (vs : List Int) (st : Window),
      (vs.foldl (fun st v =>
        (fromTo xmin xmax).foldl (fun st u => classify lum f src width bpp v u st) st) st).buf
        = st.buf ++ ((vs.flatMap (fun v => (fromTo xmin xmax).map
            (fun u => ((u + v * (width : Int)) * (bpp : Int)).toNat))).filter
          (fun pos => decide (f.black_level < sample_lum lum src bpp pos
            ∧ sample_lum lum src bpp pos < f.white_level))) ∧
      (vs.foldl (fun st v =>
        (fromTo xmin xmax).foldl (fun st u => classify lum f src width bpp v u st) st) st).ibuf
        = st.ibuf ++ (((vs.flatMap (fun v => (fromTo xmin xmax).map
            (fun u => ((u + v * (width : Int)) * (bpp : Int)).toNat))).filter
          (fun pos => decide (f.black_level < sample_lum lum src bpp pos
            ∧ sample_lum lum src bpp pos < f.white_level))).map (sample_lum lum src bpp)) := by
    intro vs
    induction vs with
    | nil => intro st; simp
    | cons v vs ih =>
      intro st
      rw [List.foldl_cons, List.flatMap_cons, List.filter_append, List.map_append]
      obtain ⟨i1, i2⟩ := ih ((fromTo xmin xmax).foldl
        (fun st u => classify lum f src width bpp v u st) st)
      obtain ⟨c1, c2⟩ := classify_fold lum f src width bpp v (fromTo xmin xmax) st
      rw [i1, i2, c1, c2]
      simp
  have := gen (fromTo ymin ymax) ⟨[], [], 0, 0⟩
  simpa using this

theorem zip_map_self {α β : Type} (g : α → β) (l : List α) :
    (l.map g).zip l = l.map (fun c => (g c, c)) := by
  induction l with
  | nil => rfl
  | cons a l ih => simp [ih]

theorem getD_eq_getElem {α : Type} (l : List α) (k : Nat) (hk : k < l.length) (d : α) :
    l.getD k d = l[k] := by
  rw [List.getD_eq_getElem?_getD, List.getElem?_eq_getElem hk]; rfl

/-- What the pixel loop body does: it stores at the pixel the bytes found at
offset `cpos` of the source, where `cpos` is the pixel itself when there are
fewer than two candidates and otherwise a candidate of median luminance. -/
theorem despeckle_pixel_spec (lum : Byte → Byte → Byte → Byte) (f : GstGimpDespeckle)
    (width bpp diameter : Nat) (ymin ymax : Int) (y x : Nat) (st : Pass) :
    ∃ (cpos : Nat) (src' : Buffer),
      despeckle_pixel lum f width bpp diameter ymin ymax y x st
        = some ⟨src', memcpy st.dst ((x + y * width) * bpp) src' cpos bpp,
            pixel_radius lum f st width bpp diameter ymin ymax x⟩ ∧
      (((pixel_candidates lum f st width bpp ymin ymax x).length < 2 ∧
          cpos = (x + y * width) * bpp ∧ src' = st.src) ∨
       (2 ≤ (pixel_candidates lum f st width bpp ymin ymax x).length ∧
          cpos ∈ pixel_candidates lum f st width bpp ymin ymax x ∧
          src' = (if is_recursive f then memcpy st.src ((x + y * width) * bpp) st.src cpos bpp
                  else st.src) ∧
          ∀ l : List Byte,
            l.Perm ((pixel_candidates lum f st width bpp ymin ymax x).map
              (sample_lum lum st.src bpp)) →
            l.Sorted (· ≤ ·) →
            l[((pixel_candidates lum f st width bpp ymin ymax x).length - 1) / 2]?
              = some (sample_lum lum st.src bpp cpos))) := by
  obtain ⟨hbuf, hibuf⟩ := scan_window_buf lum f st.src width bpp ymin ymax
    (IMAX 0 ((x : Int) - (st.radius : Int)))
    (IMIN ((width : Int) - 1) ((x : Int) + (st.radius : Int)))
  unfold pixel_candidates pixel_radius
  generalize hc : candidates lum f st.src width bpp ymin ymax
    (IMAX 0 ((x : Int) - (st.radius : Int)))
    (IMIN ((width : Int) - 1) ((x : Int) + (st.radius : Int))) = cands at hbuf hibuf
  generalize hw : scan_window lum f st.src width bpp ymin ymax
    (IMAX 0 ((x : Int) - (st.radius : Int)))
    (IMIN ((width : Int) - 1) ((x : Int) + (st.radius : Int))) = w at hbuf hibuf
  by_cases hlen : cands.length < 2
  · refine ⟨(x + y * width) * bpp, st.src, ?_, Or.inl ⟨hlen, rfl, rfl⟩⟩
    simp only [despeckle_pixel, hw, hbuf]
    rw [if_pos (by omega)]
  · have hn : 1 ≤ cands.length := by omega
    obtain ⟨s', q1, q2, q3, q4⟩ := quick_median_select_core cands
      (cands.map (sample_lum lum st.src bpp)) cands.length hn rfl (by simp)
    have hm : (cands.length - 1) / 2 < cands.length := by omega
    have hpl : s'.p.length = cands.length := q2.2.1
    have hil : s'.i.length = cands.length := q2.1
    have hrd : rdAt s'.p (((cands.length - 1) / 2 : Nat) : Int)
        = some (s'.p.getD ((cands.length - 1) / 2) 0) := by
      have := rdAt_eq s'.p (((cands.length - 1) / 2 : Nat) : Int) (by omega) (by omega) 0
      simpa using this
    have hzl : (cands.length - 1) / 2 < (s'.i.zip s'.p).length := by
      simp; omega
    have hmem : (s'.i.zip s'.p)[(cands.length - 1) / 2] ∈ s'.i.zip s'.p :=
      List.getElem_mem hzl
    rw [List.getElem_zip] at hmem
    have hmem' := q2.2.2.mem_iff.1 hmem
    simp only [zip_map_self, List.mem_map] at hmem'
    obtain ⟨c, hc1, hc2⟩ := hmem'
    have hci : sample_lum lum st.src bpp c = s'.i[(cands.length - 1) / 2] :=
      congrArg Prod.fst hc2
    have hcp : c = s'.p[(cands.length - 1) / 2] := congrArg Prod.snd hc2
    have hpix : s'.p.getD ((cands.length - 1) / 2) 0 = c := by
      rw [getD_eq_getElem _ _ (by omega), hcp]
    refine ⟨c, if is_recursive f then memcpy st.src ((x + y * width) * bpp) st.src c bpp
      else st.src, ?_, Or.inr ⟨by omega, hc1, rfl, ?_⟩⟩
    · simp only [despeckle_pixel, hw, hbuf, hibuf]
      rw [if_neg (by omega)]
      have e : ((cands.length : Int) - 1 + 1) = ((cands.length : Nat) : Int) := by omega
      rw [e, q1]
      simp only [hrd, hpix]
    · intro l hl hs
      have hperm : s'.i.Perm (cands.map (sample_lum lum st.src bpp)) :=
        perm_keys_of_linked cands.length ⟨cands, cands.map (sample_lum lum st.src bpp)⟩ s'
          (by simp) q2
      have h3' : Split s'.i.length s'.i (((cands.length - 1) / 2 : Nat) : Int) := by
        rw [hil]; exact q3
      have h4' : Split s'.i.length s'.i ((((cands.length - 1) / 2 : Nat) : Int) + 1) := by
        rw [hil]; exact q4
      rw [rank_of_split s'.i ((cands.length - 1) / 2) (by omega) h3' h4' l
        (hl.trans hperm.symm) hs, List.getElem?_eq_getElem (by omega), hci]

theorem foldlM_range_inv {σ : Type} (n : Nat) (body : σ → Nat → Option σ)
    (Inv : Nat → σ → Prop) (s0 : σ) (h0 : Inv 0 s0)
    (hstep : ∀ k s, k < n → Inv k s → ∃ s', body s k = some s' ∧ Inv (k + 1) s') :
    ∃ s', (List.range n).foldlM body s0 = some s' ∧ Inv n s' := by
  induction n with
  | zero => exact ⟨s0, rfl, h0⟩
  | succ n ih =>
    obtain ⟨s1, h1, h2⟩ := ih (fun k s hk hi => hstep k s (by omega) hi)
    obtain ⟨s2, h3, h4⟩ := hstep n s1 (by omega) h2
    refine ⟨s2, ?_, h4⟩
    rw [List.range_succ, List.foldlM_append, h1]
    simp [h3]

theorem raster_lt {w x x' y y' : Nat} (hx' : x' < w)
    (h : y' < y ∨ (y' = y ∧ x' < x)) : x' + y' * w < x + y * w := by
  rcases h with h | ⟨h1, h2⟩
  · have : (y' + 1) * w ≤ y * w := Nat.mul_le_mul_right w h
    rw [Nat.add_mul] at this
    omega
  · subst h1; omega

theorem block_disjoint {q q' bpp c : Nat} (hq : q ≠ q') (hc : c < bpp) :
    ¬ (q * bpp ≤ q' * bpp + c ∧ q' * bpp + c < q * bpp + bpp) := by
  rintro ⟨h1, h2⟩
  have e1 : (q' * bpp + c) / bpp = q' := pixel_of_offset hc
  have e2 : (q' * bpp + c) / bpp = q :=
    Nat.div_eq_of_lt_le h1 (by rw [Nat.add_mul]; omega)
  omega

theorem raster_index_lt {w h x y : Nat} (hx : x < w) (hy : y < h) : x + y * w < w * h := by
  have := pixel_index_lt hy hx
  omega

/-- A pass whose pixel steps never change the source: if every step from a
state with an admissible radius stores at its pixel the source bytes at an
offset allowed by `Rule` and leaves an admissible radius, the whole call
returns, and every pixel of the destination holds source bytes allowed by
`Rule`. -/
theorem despeckle_frame (lum : Byte → Byte → Byte → Byte) (f : GstGimpDespeckle)
    (width height bpp : Nat) (src dst : Buffer) (hdst : dst.length = width * height * bpp)
    (Good : Nat → Prop) (Rule : Nat → Nat → Nat → Prop)
    (hgood : Good f.despeckle_radius.val)
    (hpix : ∀ x y r0 r d, x < width → y < height → Good r0 → Good r →
      d.length = width * height * bpp →
      ∃ cpos r', despeckle_pixel lum f width bpp (2 * f.despeckle_radius.val + 1)
          (IMAX 0 ((y : Int) - (r0 : Int))) (IMIN ((height : Int) - 1) ((y : Int) + (r0 : Int)))
          y x ⟨src, d, r⟩
          = some ⟨src, memcpy d ((x + y * width) * bpp) src cpos bpp, r'⟩ ∧
        Good r' ∧ Rule x y cpos) :
    ∃ dst' r', despeckle_median lum src dst width height bpp f = some ⟨src, dst', r'⟩ ∧
      dst'.length = width * height * bpp ∧ Good r' ∧
      ∀ x y, x < width → y < height → PixelDone src width bpp Rule x y dst' := by
  have hrows := foldlM_range_inv height
    (fun (st : Pass) (y : Nat) =>
      (List.range width).foldlM
        (fun (st' : Pass) (x : Nat) =>
          despeckle_pixel lum f width bpp (2 * f.despeckle_radius.val + 1)
            (IMAX 0 ((y : Int) - (st.radius : Int)))
            (IMIN ((height : Int) - 1) ((y : Int) + (st.radius : Int))) y x st') st)
    (fun y st => st.src = src ∧ Good st.radius ∧ st.dst.length = width * height * bpp ∧
      ∀ x' y', x' < width → y' < y → PixelDone src width bpp Rule x' y' st.dst)
    ⟨src, dst, f.despeckle_radius.val⟩
    ⟨rfl, hgood, hdst, fun x' y' _ hy' => absurd hy' (Nat.not_lt_zero _)⟩
    (by
      intro y st hy ⟨hs, hg, hl, hdone⟩
      have hcols := foldlM_range_inv width
        (fun (st' : Pass) (x : Nat) =>
          despeckle_pixel lum f width bpp (2 * f.despeckle_radius.val + 1)
            (IMAX 0 ((y : Int) - (st.radius : Int)))
            (IMIN ((height : Int) - 1) ((y : Int) + (st.radius : Int))) y x st')
        (fun x st' => st'.src = src ∧ Good st'.radius ∧
          st'.dst.length = width * height * bpp ∧
          ∀ x' y', x' < width → (y' < y ∨ (y' = y ∧ x' < x)) →
            PixelDone src width bpp Rule x' y' st'.dst)
        st
        ⟨hs, hg, hl, fun x' y' hx' h => by
          rcases h with h | ⟨_, h⟩
          · exact hdone x' y' hx' h
          · exact absurd h (Nat.not_lt_zero _)⟩
        (by
          intro x st' hx ⟨hs', hg', hl', hdone'⟩
          obtain ⟨cpos, r', e1, e2, e3⟩ := hpix x y st.radius st'.radius st'.dst hx hy hg hg' hl'
          have hst' : st' = ⟨src, st'.dst, st'.radius⟩ := by
            cases st'; simp only at hs'; rw [hs']
          rw [hst']
          refine ⟨_, e1, rfl, e2, by rw [length_memcpy]; exact hl', ?_⟩
          intro x' y' hx' h
          have hblk := pixel_block_le _ _ bpp (raster_index_lt hx hy)
          by_cases hsame : y' = y ∧ x' = x
          · obtain ⟨rfl, rfl⟩ := hsame
            refine ⟨cpos, e3, fun c hc => ?_⟩
            exact peek_memcpy_in _ _ _ _ _ _ (by rw [hl']; exact hblk) hc
          · have hprev : y' < y ∨ (y' = y ∧ x' < x) := by omega
            obtain ⟨cp, hr, hb⟩ := hdone' x' y' hx' hprev
            refine ⟨cp, hr, fun c hc => ?_⟩
            rw [← hb c hc]
            apply peek_memcpy_out _ _ _ _ _ _ (by rw [hl']; exact hblk)
            have hne : x + y * width ≠ x' + y' * width :=
              Nat.ne_of_gt (raster_lt hx' hprev)
            have := block_disjoint hne hc
            omega)
      obtain ⟨st2, c1, c2, c3, c4, c5⟩ := hcols
      refine ⟨st2, c1, c2, c3, c4, fun x' y' hx' hy' => ?_⟩
      apply c5 x' y' hx'
      by_cases h : y' < y
      · exact Or.inl h
      · exact Or.inr ⟨by omega, hx'⟩)
  obtain ⟨st, h1, h2, h3, h4, h5⟩ := hrows
  have hst : st = ⟨src, st.dst, st.radius⟩ := by
    cases st; simp only at h2; rw [h2]
  refine ⟨st.dst, st.radius, ?_, h4, h3, h5⟩
  rw [← hst]
  exact h1

theorem mem_fromTo (lo hi v : Int) : v ∈ fromTo lo hi ↔ lo ≤ v ∧ v ≤ hi := by
  unfold fromTo
  simp only [List.mem_map, List.mem_range]
  constructor
  · rintro ⟨k, hk, rfl⟩
    omega
  · rintro ⟨h1, h2⟩
    exact ⟨(v - lo).toNat, by omega, by omega⟩

theorem fromTo_self (a : Int) : fromTo a a = [a] := by
  unfold fromTo
  have : (a - a + 1).toNat = 1 := by omega
  rw [this]
  simp [List.range_succ]

theorem IMAX_nonneg (a : Int) : 0 ≤ IMAX 0 a := by
  unfold IMAX; split_ifs <;> omega

theorem IMIN_le (a b : Int) : IMIN a b ≤ a := by
  unfold IMIN; split_ifs <;> omega

theorem offset_pixel (width height bpp k : Nat) (hk : k < width * height * bpp) :
    ∃ x y c, x < width ∧ y < height ∧ c < bpp ∧ k = (x + y * width) * bpp + c := by
  have hp : k / bpp < width * height := offset_lt_pixels hk
  have hb : 0 < bpp := by
    rcases Nat.eq_zero_or_pos bpp with h0 | h0
    · subst h0; simp at hk
    · exact h0
  have hw0 : 0 < width := by
    rcases Nat.eq_zero_or_pos width with h0 | h0
    · subst h0; simp at hp
    · exact h0
  have hy : k / bpp / width < height := by
    rw [Nat.div_lt_iff_lt_mul hw0, Nat.mul_comm]; exact hp
  refine ⟨k / bpp % width, k / bpp / width, k % bpp, Nat.mod_lt _ hw0, hy, Nat.mod_lt _ hb, ?_⟩
  have e1 : k / bpp % width + k / bpp / width * width = k / bpp := by
    rw [Nat.add_comm]; exact Nat.div_add_mod' _ _
  rw [e1]
  exact (Nat.div_add_mod' k bpp).symm

/-- A destination all of whose pixels hold the source bytes of the same pixel
is the source. -/
theorem dst_eq_src_of_pixels (width height bpp : Nat) (src dst : Buffer)
    (hsrc : src.length = width * height * bpp) (hdst : dst.length = width * height * bpp)
    (h : ∀ x y c, x < width → y < height → c < bpp →
      peek dst ((x + y * width) * bpp + c) = peek src ((x + y * width) * bpp + c)) :
    dst = src := by
  apply buffer_ext _ _ (by rw [hsrc, hdst])
  intro k hk
  rw [hdst] at hk
  obtain ⟨x, y, c, hx, hy, hc, rfl⟩ := offset_pixel width height bpp k hk
  exact h x y c hx hy hc

theorem adapt_radius_zero (f : GstGimpDespeckle) (w : Window) :
    adapt_radius f (2 * 0 + 1) w 0 = 0 := by
  unfold adapt_radius
  split_ifs <;> omega

theorem candidates_single (lum : Byte → Byte → Byte → Byte) (f : GstGimpDespeckle)
    (src : Buffer) (width bpp : Nat) (y x : Int) :
    (candidates lum f src width bpp y y x x).length < 2 := by
  unfold candidates window_samples
  rw [fromTo_self, fromTo_self]
  simp only [List.flatMap_cons, List.flatMap_nil, List.map_cons, List.map_nil, List.append_nil]
  have := List.length_filter_le (fun pos =>
    decide (f.black_level < sample_lum lum src bpp pos
      ∧ sample_lum lum src bpp pos < f.white_level))
    [((x + y * (width : Int)) * (bpp : Int)).toNat]
  simp only [List.length_singleton] at this
  omega

/-- C9: with a configured radius of 0 `despeckle_median` returns, leaves the
source alone and makes the destination equal to the source, whatever the
dimensions, the bytes per pixel, the levels and the adaptive and recursive
settings. -/
theorem despeckle_median_radius_zero (lum : Byte → Byte → Byte → Byte) (f : GstGimpDespeckle)
    (width height bpp : Nat) (src dst : Buffer) (hr : f.despeckle_radius = 0)
    (hsrc : src.length = width * height * bpp) (hdst : dst.length = width * height * bpp) :
    despeckle_median lum src dst width height bpp f = some ⟨src, src, 0⟩ := by
  have hr0 : f.despeckle_radius.val = 0 := by rw [hr]; rfl
  obtain ⟨dst', r', h1, h2, h3, h4⟩ := despeckle_frame lum f width height bpp src dst hdst
    (fun r => r = 0) (fun x y cpos => cpos = (x + y * width) * bpp) hr0
    (by
      intro x y r0 r d hx hy hr0' hr' hd
      subst hr0' hr'
      obtain ⟨cpos, src', e1, e2⟩ := despeckle_pixel_spec lum f width bpp
        (2 * f.despeckle_radius.val + 1)
        (IMAX 0 ((y : Int) - ((0 : Nat) : Int)))
        (IMIN ((height : Int) - 1) ((y : Int) + ((0 : Nat) : Int))) y x ⟨src, d, 0⟩
      have hymin : IMAX 0 ((y : Int) - ((0 : Nat) : Int)) = (y : Int) := by
        unfold IMAX; split_ifs <;> omega
      have hymax : IMIN ((height : Int) - 1) ((y : Int) + ((0 : Nat) : Int)) = (y : Int) := by
        unfold IMIN; split_ifs <;> omega
      have hxmin : IMAX 0 ((x : Int) - ((0 : Nat) : Int)) = (x : Int) := by
        unfold IMAX; split_ifs <;> omega
      have hxmax : IMIN ((width : Int) - 1) ((x : Int) + ((0 : Nat) : Int)) = (x : Int) := by
        unfold IMIN; split_ifs <;> omega
      have hlen : (pixel_candidates lum f ⟨src, d, 0⟩ width bpp
          (IMAX 0 ((y : Int) - ((0 : Nat) : Int)))
          (IMIN ((height : Int) - 1) ((y : Int) + ((0 : Nat) : Int))) x).length < 2 := by
        unfold pixel_candidates
        simp only [hymin, hymax, hxmin, hxmax]
        exact candidates_single lum f src width bpp y x
      have hrad : pixel_radius lum f ⟨src, d, 0⟩ width bpp (2 * f.despeckle_radius.val + 1)
          (IMAX 0 ((y : Int) - ((0 : Nat) : Int)))
          (IMIN ((height : Int) - 1) ((y : Int) + ((0 : Nat) : Int))) x = 0 := by
        unfold pixel_radius
        rw [hr0]
        exact adapt_radius_zero f _
      rcases e2 with ⟨_, e3, e4⟩ | ⟨e3, _⟩
      · subst e3 e4
        exact ⟨_, 0, by rw [e1, hrad], rfl, rfl⟩
      · omega)
  subst h3
  have hd : dst' = src := by
    apply dst_eq_src_of_pixels width height bpp src dst' hsrc h2
    intro x y c hx hy hc
    obtain ⟨cpos, e1, e2⟩ := h4 x y hx hy
    subst e1
    exact e2 c hc
  rw [h1, hd]

theorem despeckle_median_radius_zero_witness :
    (⟨0, true, true, 7, 248⟩ : GstGimpDespeckle).despeckle_radius = 0 ∧
    ([10, 200, 30, 40] : Buffer).length = 2 * 2 * 1 ∧
    ([0, 0, 0, 0] : Buffer).length = 2 * 2 * 1 ∧
    despeckle_median (fun r _ _ => r) [10, 200, 30, 40] [0, 0, 0, 0] 2 2 1
      ⟨0, true, true, 7, 248⟩ = some ⟨[10, 200, 30, 40], [10, 200, 30, 40], 0⟩ :=
  ⟨rfl, by decide, by decide,
   despeckle_median_radius_zero (fun r _ _ => r) ⟨0, true, true, 7, 248⟩ 2 2 1
     [10, 200, 30, 40] [0, 0, 0, 0] rfl (by decide) (by decide)⟩

theorem candidates_in_frame (lum : Byte → Byte → Byte → Byte) (f : GstGimpDespeckle)
    (src : Buffer) (width height bpp : Nat) (ymin ymax xmin xmax : Int)
    (hy0 : 0 ≤ ymin) (hy1 : ymax ≤ (height : Int) - 1)
    (hx0 : 0 ≤ xmin) (hx1 : xmax ≤ (width : Int) - 1)
    (cpos : Nat) (h : cpos ∈ candidates lum f src width bpp ymin ymax xmin xmax) :
    ∃ q, q < width * height ∧ cpos = q * bpp := by
  unfold candidates window_samples at h
  have h' := (List.mem_filter.1 h).1
  rw [List.mem_flatMap] at h'
  obtain ⟨v, hv, hu⟩ := h'
  rw [List.mem_map] at hu
  obtain ⟨u, hu, rfl⟩ := hu
  rw [mem_fromTo] at hv hu
  have hu0 : u.toNat < width := by omega
  have hv0 : v.toNat < height := by omega
  refine ⟨u.toNat + v.toNat * width, raster_index_lt hu0 hv0, ?_⟩
  have e : (u + v * (width : Int)) * (bpp : Int)
      = (((u.toNat + v.toNat * width) * bpp : Nat) : Int) := by
    push_cast
    rw [Int.toNat_of_nonneg (by omega : 0 ≤ u), Int.toNat_of_nonneg (by omega : 0 ≤ v)]
  rw [e, Int.toNat_ofNat]

theorem memcpy_uniform (width height bpp : Nat) (src : Buffer)
    (hsrc : src.length = width * height * bpp) (hu : Uniform width height bpp src)
    (q q' : Nat) (hq : q < width * height) (hq' : q' < width * height) :
    memcpy src (q * bpp) src (q' * bpp) bpp = src := by
  have hblk := pixel_block_le _ _ bpp hq
  apply buffer_ext _ _ (length_memcpy _ _ _ _ _)
  intro k _
  by_cases hk : q * bpp ≤ k ∧ k < q * bpp + bpp
  · have e : k = q * bpp + (k - q * bpp) := by omega
    rw [e, peek_memcpy_in _ _ _ _ _ _ (by omega) (by omega),
      hu q' _ hq' (by omega), hu q _ hq (by omega)]
  · exact peek_memcpy_out _ _ _ _ _ _ (by omega) hk

/-- C10: on a frame all of whose pixels are byte-for-byte equal
`despeckle_median` returns, leaves the source alone and makes the destination
equal to the source, for every radius, every black and white level and every
setting of adaptive and recursive. -/
theorem despeckle_median_uniform (lum : Byte → Byte → Byte → Byte) (f : GstGimpDespeckle)
    (width height bpp : Nat) (src dst : Buffer)
    (hsrc : src.length = width * height * bpp) (hdst : dst.length = width * height * bpp)
    (hu : ∀ q, q < width * height → ∀ c, c < bpp → src[q * bpp + c]? = src[c]?) :
    ∃ r, despeckle_median lum src dst width height bpp f = some ⟨src, src, r⟩ := by
  have hu' : Uniform width height bpp src := by
    intro q c hq hc
    have := hu q hq c hc
    unfold peek
    rw [List.getD_eq_getElem?_getD, List.getD_eq_getElem?_getD, this]
  obtain ⟨dst', r', h1, h2, _, h4⟩ := despeckle_frame lum f width height bpp src dst hdst
    (fun _ => True) (fun _ _ cpos => ∃ q, q < width * height ∧ cpos = q * bpp) trivial
    (by
      intro x y r0 r d hx hy _ _ hd
      obtain ⟨cpos, src', e1, e2⟩ := despeckle_pixel_spec lum f width bpp
        (2 * f.despeckle_radius.val + 1)
        (IMAX 0 ((y : Int) - (r0 : Int)))
        (IMIN ((height : Int) - 1) ((y : Int) + (r0 : Int))) y x ⟨src, d, r⟩
      have hq := raster_index_lt hx hy
      rcases e2 with ⟨_, e3, e4⟩ | ⟨_, e3, e4, _⟩
      · subst e3 e4
        exact ⟨_, _, e1, trivial, x + y * width, hq, rfl⟩
      · obtain ⟨q, hq1, hq2⟩ := candidates_in_frame lum f src width height bpp _ _ _ _
          (IMAX_nonneg _) (IMIN_le _ _) (IMAX_nonneg _) (IMIN_le _ _) cpos e3
        have hs : src' = src := by
          rw [e4]
          split_ifs
          · show memcpy src ((x + y * width) * bpp) src cpos bpp = src
            rw [hq2]
            exact memcpy_uniform width height bpp src hsrc hu' _ _ hq hq1
          · rfl
        rw [hs] at e1
        exact ⟨cpos, _, e1, trivial, q, hq1, hq2⟩)
  have hd : dst' = src := by
    apply dst_eq_src_of_pixels width height bpp src dst' hsrc h2
    intro x y c hx hy hc
    obtain ⟨cpos, ⟨q, hq1, hq2⟩, e2⟩ := h4 x y hx hy
    rw [e2 c hc, hq2, hu' q c hq1 hc, hu' _ c (raster_index_lt hx hy) hc]
  exact ⟨r', by rw [h1, hd]⟩

theorem despeckle_median_uniform_witness :
    ([100, 100, 100, 100, 100, 100, 100, 100, 100] : Buffer).length = 3 * 3 * 1 ∧
    ([0, 0, 0, 0, 0, 0, 0, 0, 0] : Buffer).length = 3 * 3 * 1 ∧
    (∀ q, q < 3 * 3 → ∀ c, c < 1 →
      ([100, 100, 100, 100, 100, 100, 100, 100, 100] : Buffer)[q * 1 + c]?
        = ([100, 100, 100, 100, 100, 100, 100, 100, 100] : Buffer)[c]?) ∧
    despeckle_median (fun r _ _ => r) [100, 100, 100, 100, 100, 100, 100, 100, 100]
      [0, 0, 0, 0, 0, 0, 0, 0, 0] 3 3 1 ⟨1, false, false, 7, 248⟩
      = some ⟨[100, 100, 100, 100, 100, 100, 100, 100, 100],
              [100, 100, 100, 100, 100, 100, 100, 100, 100], 1⟩ ∧
    ∃ r, despeckle_median (fun r _ _ => r) [100, 100, 100, 100, 100, 100, 100, 100, 100]
      [0, 0, 0, 0, 0, 0, 0, 0, 0] 3 3 1 ⟨1, false, false, 7, 248⟩
      = some ⟨[100, 100, 100, 100, 100, 100, 100, 100, 100],
              [100, 100, 100, 100, 100, 100, 100, 100, 100], r⟩ :=
  ⟨by decide, by decide, by decide, by decide,
   despeckle_median_uniform (fun r _ _ => r) ⟨1, false, false, 7, 248⟩ 3 3 1
     [100, 100, 100, 100, 100, 100, 100, 100, 100] [0, 0, 0, 0, 0, 0, 0, 0, 0]
     (by decide) (by decide) (by decide)⟩

theorem getElem?_eq_some_peek (m : Buffer) (k : Nat) (hk : k < m.length) :
    m[k]? = some (peek m k) := by
  rw [peek_eq_getElem m k hk, List.getElem?_eq_getElem hk]

theorem filter_bits_adaptive : ∀ a r : Bool,
    decide ((((a.toNat <<< 1) ||| r.toNat) &&& FILTER_ADAPTIVE) ≠ 0) = a := by decide

theorem filter_bits_recursive : ∀ a r : Bool,
    decide ((((a.toNat <<< 1) ||| r.toNat) &&& FILTER_RECURSIVE) ≠ 0) = r := by decide

theorem is_adaptive_eq (f : GstGimpDespeckle) : is_adaptive f = f.adaptive :=
  filter_bits_adaptive f.adaptive f.recursive

theorem is_recursive_eq (f : GstGimpDespeckle) : is_recursive f = f.recursive :=
  filter_bits_recursive f.adaptive f.recursive

theorem adapt_radius_off (f : GstGimpDespeckle) (diameter : Nat) (w : Window) (r : Nat)
    (ha : f.adaptive = false) : adapt_radius f diameter w r = r := by
  unfold adapt_radius
  rw [is_adaptive_eq, ha]
  simp

/-- C8: with adaptive and recursive off `despeckle_median` returns and leaves
the source alone; for every pixel the candidates are exactly the window samples
with `blackLevel < L < whiteLevel`; with fewer than 2 candidates the
destination pixel is a copy of the source pixel, and otherwise it is a copy of
a candidate whose luminance is the element of rank `(n-1)/2` of the candidate
luminances in ascending order. -/
theorem despeckle_median_pixel_rule (lum : Byte → Byte → Byte → Byte) (f : GstGimpDespeckle)
    (width height bpp : Nat) (src dst : Buffer) (ha : f.adaptive = false)
    (hrec : f.recursive = false)
    (hsrc : src.length = width * height * bpp) (hdst : dst.length = width * height * bpp) :
    ∃ dst', despeckle_median lum src dst width height bpp f
        = some ⟨src, dst', f.despeckle_radius.val⟩ ∧
      dst'.length = width * height * bpp ∧
      ∀ x y, x < width → y < height → median_rule lum f src dst' width height bpp x y := by
  obtain ⟨dst', r', h1, h2, h3, h4⟩ := despeckle_frame lum f width height bpp src dst hdst
    (fun r => r = f.despeckle_radius.val)
    (fun x y cpos => (∃ q, q < width * height ∧ cpos = q * bpp) ∧
      (((median_candidates lum f src width height bpp f.despeckle_radius.val x y).length < 2 ∧
          cpos = (x + y * width) * bpp) ∨
       (2 ≤ (median_candidates lum f src width height bpp f.despeckle_radius.val x y).length ∧
          cpos ∈ median_candidates lum f src width height bpp f.despeckle_radius.val x y ∧
          ∀ l : List Byte,
            l.Perm ((median_candidates lum f src width height bpp
              f.despeckle_radius.val x y).map (sample_lum lum src bpp)) →
            l.Sorted (· ≤ ·) →
            l[((median_candidates lum f src width height bpp
                f.despeckle_radius.val x y).length - 1) / 2]?
              = some (sample_lum lum src bpp cpos)))) rfl
    (by
      intro x y r0 r d hx hy hr0 hr hd
      subst hr0 hr
      obtain ⟨cpos, src', e1, e2⟩ := despeckle_pixel_spec lum f width bpp
        (2 * f.despeckle_radius.val + 1)
        (IMAX 0 ((y : Int) - (f.despeckle_radius.val : Int)))
        (IMIN ((height : Int) - 1) ((y : Int) + (f.despeckle_radius.val : Int))) y x
        ⟨src, d, f.despeckle_radius.val⟩
      have hrad : pixel_radius lum f ⟨src, d, f.despeckle_radius.val⟩ width bpp
          (2 * f.despeckle_radius.val + 1)
          (IMAX 0 ((y : Int) - (f.despeckle_radius.val : Int)))
          (IMIN ((height : Int) - 1) ((y : Int) + (f.despeckle_radius.val : Int))) x
          = f.despeckle_radius.val := adapt_radius_off f _ _ _ ha
      rw [hrad] at e1
      rcases e2 with ⟨e3, e4, e5⟩ | ⟨e3, e4, e5, e6⟩
      · subst e4 e5
        exact ⟨_, _, e1, rfl, ⟨x + y * width, raster_index_lt hx hy, rfl⟩, Or.inl ⟨e3, rfl⟩⟩
      · have hs : src' = src := by
          rw [e5, is_recursive_eq, hrec]; rfl
        rw [hs] at e1
        exact ⟨cpos, _, e1, rfl,
          candidates_in_frame lum f src width height bpp _ _ _ _
            (IMAX_nonneg _) (IMIN_le _ _) (IMAX_nonneg _) (IMIN_le _ _) cpos e4,
          Or.inr ⟨e3, e4, e6⟩⟩)
  subst h3
  refine ⟨dst', h1, h2, fun x y hx hy => ?_⟩
  unfold median_rule
  refine ⟨?_, ?_, ?_⟩
  · exact (scan_window_buf lum f src width bpp _ _ _ _).1
  · intro hlt c hc
    obtain ⟨cpos, ⟨_, hrule⟩, hb⟩ := h4 x y hx hy
    have hblk := pixel_block_le _ _ bpp (raster_index_lt hx hy)
    rcases hrule with ⟨_, e⟩ | ⟨e, _⟩
    · subst e
      rw [getElem?_eq_some_peek dst' _ (by omega), getElem?_eq_some_peek src _ (by omega),
        hb c hc]
    · omega
  · intro hge
    obtain ⟨cpos, ⟨⟨q, hq1, hq2⟩, hrule⟩, hb⟩ := h4 x y hx hy
    have hblk := pixel_block_le _ _ bpp (raster_index_lt hx hy)
    have hblk' := pixel_block_le _ _ bpp hq1
    rcases hrule with ⟨e, _⟩ | ⟨_, e1, e2⟩
    · omega
    · refine ⟨cpos, e1, fun c hc => ?_, e2⟩
      rw [getElem?_eq_some_peek dst' _ (by omega), getElem?_eq_some_peek src _ (by omega),
        hb c hc]

theorem despeckle_median_pixel_rule_witness :
    (⟨1, false, false, 7, 248⟩ : GstGimpDespeckle).adaptive = false ∧
    (⟨1, false, false, 7, 248⟩ : GstGimpDespeckle).recursive = false ∧
    ([10, 50, 30, 20] : Buffer).length = 2 * 2 * 1 ∧
    ([0, 0, 0, 0] : Buffer).length = 2 * 2 * 1 ∧
    despeckle_median (fun r _ _ => r) [10, 50, 30, 20] [0, 0, 0, 0] 2 2 1
      ⟨1, false, false, 7, 248⟩ = some ⟨[10, 50, 30, 20], [20, 20, 20, 20], 1⟩ ∧
    ∃ dst', despeckle_median (fun r _ _ => r) [10, 50, 30, 20] [0, 0, 0, 0] 2 2 1
        ⟨1, false, false, 7, 248⟩
        = some ⟨[10, 50, 30, 20], dst',
            (⟨1, false, false, 7, 248⟩ : GstGimpDespeckle).despeckle_radius.val⟩ ∧
      dst'.length = 2 * 2 * 1 ∧
      ∀ x y, x < 2 → y < 2 →
        median_rule (fun r _ _ => r) ⟨1, false, false, 7, 248⟩ [10, 50, 30, 20] dst' 2 2 1 x y :=
  ⟨rfl, rfl, by decide, by decide, by decide,
   despeckle_median_pixel_rule (fun r _ _ => r) ⟨1, false, false, 7, 248⟩ 2 2 1
     [10, 50, 30, 20] [0, 0, 0, 0] rfl rfl (by decide) (by decide)⟩

/-! ## EdgeDetector: gst_sobel_chain -/

theorem storeAt_nat (m : Buffer) (n : Nat) (v : Byte) (hn : n < m.length) :
    storeAt m (n : Int) v = some (poke m n v) := by
  unfold storeAt
  rw [if_pos ⟨by omega, by omega⟩]
  simp

theorem WritesM.of_iff {f : Buffer → Option Buffer} {L : Nat} {W W' : Nat → Prop}
    {val : Nat → Byte} (h : WritesM f L W val) (hW : ∀ k, W' k ↔ W k) : WritesM f L W' val := by
  intro d hd
  obtain ⟨d', h1, h2, h3, h4⟩ := h d hd
  exact ⟨d', h1, h2, fun k hk => h3 k ((hW k).1 hk), fun k hk => h4 k (fun hk' => hk ((hW k).2 hk'))⟩

theorem WritesM.storeAt (L n : Nat) (v : Byte) (val : Nat → Byte) (k : Int) (hk : k = (n : Int))
    (hn : n < L) (hv : val n = v) :
    WritesM (fun d => storeAt d k v) L (fun j => j = n) val := by
  intro d hd
  subst hk
  refine ⟨poke d n v, storeAt_nat d n v (by omega), by rw [length_poke, hd], fun j hj => ?_,
    fun j hj => ?_⟩
  · subst hj
    rw [peek_poke, if_pos ⟨rfl, by omega⟩, hv]
  · rw [peek_poke, if_neg (fun h => hj h.1.symm)]

theorem WritesM.bind {f g : Buffer → Option Buffer} {L : Nat} {W W' : Nat → Prop}
    {val : Nat → Byte} (hf : WritesM f L W val) (hg : WritesM g L W' val) :
    WritesM (fun d => (f d).bind g) L (fun k => W k ∨ W' k) val := by
  intro d hd
  obtain ⟨d1, h1, h2, h3, h4⟩ := hf d hd
  obtain ⟨d2, g1, g2, g3, g4⟩ := hg d1 h2
  refine ⟨d2, by simp [h1, g1], g2, fun k hk => ?_, fun k hk => ?_⟩
  · by_cases hk' : W' k
    · exact g3 k hk'
    · rw [g4 k hk']
      exact h3 k (hk.resolve_right hk')
  · rw [g4 k (fun h => hk (Or.inr h)), h4 k (fun h => hk (Or.inl h))]

theorem WritesM.foldlM {α : Type} (l : List α) (body : α → Buffer → Option Buffer) {L : Nat}
    (W : α → Nat → Prop) {val : Nat → Byte} (h : ∀ a, a ∈ l → WritesM (body a) L (W a) val) :
    WritesM (fun d => l.foldlM (fun acc a => body a acc) d) L (fun k => ∃ a, a ∈ l ∧ W a k) val := by
  induction l with
  | nil =>
    intro d hd
    exact ⟨d, rfl, hd, fun k hk => by simp at hk, fun k _ => rfl⟩
  | cons a l ih =>
    have h1 := WritesM.bind (h a (List.mem_cons_self a l))
      (ih (fun b hb => h b (List.mem_cons_of_mem a hb)))
    intro d hd
    obtain ⟨d', e1, e2, e3, e4⟩ := h1 d hd
    refine ⟨d', ?_, e2, fun k hk => e3 k ?_, fun k hk => e4 k ?_⟩
    · show List.foldlM (fun acc a => body a acc) d (a :: l) = some d'
      rw [List.foldlM_cons]
      exact e1
    · obtain ⟨b, hb, hbk⟩ := hk
      rcases List.mem_cons.1 hb with rfl | hb'
      · exact Or.inl hbk
      · exact Or.inr ⟨b, hb', hbk⟩
    · rintro (hk' | ⟨b, hb, hbk⟩)
      · exact hk ⟨a, List.mem_cons_self a l, hk'⟩
      · exact hk ⟨b, List.mem_cons_of_mem a hb, hbk⟩

theorem WritesM.forFromToM (lo hi : Int) (body : Int → Buffer → Option Buffer) (L : Nat)
    (W : Int → Nat → Prop) (val : Nat → Byte)
    (h : ∀ v, lo ≤ v → v ≤ hi → WritesM (body v) L (W v) val) :
    WritesM (forFromToM lo hi body) L (fun k => ∃ v, lo ≤ v ∧ v ≤ hi ∧ W v k) val := by
  have h1 := WritesM.foldlM (fromTo lo hi) body W
    (fun a ha => h a ((mem_fromTo lo hi a).1 ha).1 ((mem_fromTo lo hi a).1 ha).2)
  refine WritesM.of_iff h1 (fun k => ?_)
  constructor
  · rintro ⟨v, h1, h2, h3⟩
    exact ⟨v, (mem_fromTo lo hi v).2 ⟨h1, h2⟩, h3⟩
  · rintro ⟨v, h1, h3⟩
    exact ⟨v, ((mem_fromTo lo hi v).1 h1).1, ((mem_fromTo lo hi v).1 h1).2, h3⟩

theorem tdiv_two (n : Nat) : Int.tdiv (n : Int) 2 = ((n / 2 : Nat) : Int) := by
  rw [Int.tdiv_eq_ediv (by omega) (by omega)]
  omega

theorem sobel_chroma_cast (f : GstSobel) (i j : Nat) :
    (f.height : Int) * (f.width : Int)
        + (Int.tdiv (f.width : Int) 2 * Int.tdiv (i : Int) 2 + Int.tdiv (j : Int) 2)
      = ((sobel_chroma f i j : Nat) : Int) := by
  rw [tdiv_two, tdiv_two, tdiv_two]
  unfold sobel_chroma
  push_cast
  rfl

theorem sobel_chroma_le (f : GstSobel) {i j : Nat} (hi : i < f.height) (hj : j < f.width) :
    sobel_chroma f i j ≤ sobel_chroma f (f.height - 1) (f.width - 1) := by
  unfold sobel_chroma
  have h1 : i / 2 ≤ (f.height - 1) / 2 := Nat.div_le_div_right (by omega)
  have h2 : j / 2 ≤ (f.width - 1) / 2 := Nat.div_le_div_right (by omega)
  have h3 : f.width / 2 * (i / 2) ≤ f.width / 2 * ((f.height - 1) / 2) :=
    Nat.mul_le_mul_left _ h1
  omega

theorem sobel_byte_chroma (f : GstSobel) (A S : Int) (origdata : Buffer) (k : Nat)
    (hk : f.height * f.width ≤ k) : sobel_byte f A S origdata k = 127 := by
  unfold sobel_byte
  rw [if_neg (by omega)]

theorem sobel_byte_luma (f : GstSobel) (A S : Int) (origdata : Buffer) {i j : Nat}
    (hi : i < f.height) (hj : j < f.width) :
    sobel_byte f A S origdata (i * f.width + j) = sobel_luma f A S origdata i j := by
  unfold sobel_byte
  have h1 : i * f.width + j < f.height * f.width := by
    have := pixel_index_lt hi hj
    rw [Nat.mul_comm f.height]
    exact this
  rw [if_pos h1]
  have h2 : (i * f.width + j) / f.width = i := pixel_of_offset hj
  have h3 : (i * f.width + j) % f.width = j := by
    rw [Nat.mul_comm, Nat.mul_add_mod, Nat.mod_eq_of_lt hj]
  rw [h2, h3]

theorem sobel_pixel_writes (f : GstSobel) (A S : Int) (origdata : Buffer) (L : Nat)
    (hL : sobel_extent f ≤ L) (i j : Nat) (hi : i < f.height) (hj : j < f.width) :
    WritesM (sobel_pixel f A S origdata (i : Int) (j : Int)) L
      (fun k => k = sobel_chroma f i j ∨ k = sobel_chroma f i j + f.height * f.width / 4
        ∨ k = i * f.width + j)
      (sobel_byte f A S origdata) := by
  have hc := sobel_chroma_le f hi hj
  have hlow : f.height * f.width ≤ sobel_chroma f i j := by
    unfold sobel_chroma
    omega
  have hpix : i * f.width + j < f.height * f.width := by
    have := pixel_index_lt hi hj
    rw [Nat.mul_comm f.height]
    exact this
  unfold sobel_extent at hL
  have e1 := sobel_chroma_cast f i j
  have e2 : ((sobel_chroma f i j : Nat) : Int) + Int.tdiv ((f.height : Int) * (f.width : Int)) 4
      = ((sobel_chroma f i j + f.height * f.width / 4 : Nat) : Int) := by
    rw [Int.tdiv_eq_ediv (by positivity) (by omega)]
    push_cast
    rfl
  have e3 : (i : Int) * (f.width : Int) + (j : Int) = ((i * f.width + j : Nat) : Int) := by
    push_cast
    rfl
  have key := WritesM.bind
    (WritesM.storeAt L (sobel_chroma f i j) 127 (sobel_byte f A S origdata) _ e1 (by omega)
      (sobel_byte_chroma f A S origdata _ hlow))
    (WritesM.bind
      (WritesM.storeAt L (sobel_chroma f i j + f.height * f.width / 4) 127
        (sobel_byte f A S origdata)
        ((f.height : Int) * (f.width : Int)
          + (Int.tdiv (f.width : Int) 2 * Int.tdiv (i : Int) 2 + Int.tdiv (j : Int) 2)
          + Int.tdiv ((f.height : Int) * (f.width : Int)) 4)
        (by rw [e1]; exact e2) (by omega)
        (sobel_byte_chroma f A S origdata _ (by omega)))
      (WritesM.storeAt L (i * f.width + j) (sobel_luma f A S origdata i j)
        (sobel_byte f A S origdata) _ e3 (by omega)
        (sobel_byte_luma f A S origdata hi hj)))
  exact key

theorem sobel_pixels_writes (f : GstSobel) (A S : Int) (origdata : Buffer) (L sk : Nat)
    (hL : sobel_extent f ≤ L) :
    WritesM
      (forFromToM (sk : Int) ((f.height : Int) - (sk : Int) - 1) (fun i d =>
        forFromToM (sk : Int) ((f.width : Int) - (sk : Int) - 1) (fun j d =>
          sobel_pixel f A S origdata i j d) d)) L
      (fun k => ∃ i j : Nat, sk ≤ i ∧ i + sk < f.height ∧ sk ≤ j ∧ j + sk < f.width ∧
        (k = sobel_chroma f i j ∨ k = sobel_chroma f i j + f.height * f.width / 4
          ∨ k = i * f.width + j))
      (sobel_byte f A S origdata) := by
  refine WritesM.of_iff
    (WritesM.forFromToM _ _ _ L
      (fun (vi : Int) (k : Nat) => ∃ vj : Int, (sk : Int) ≤ vj ∧ vj ≤ (f.width : Int) - (sk : Int) - 1 ∧
        (k = sobel_chroma f vi.toNat vj.toNat
          ∨ k = sobel_chroma f vi.toNat vj.toNat + f.height * f.width / 4
          ∨ k = vi.toNat * f.width + vj.toNat))
      (sobel_byte f A S origdata)
      (fun vi h1 h2 => WritesM.forFromToM _ _ _ L
        (fun (vj : Int) (k : Nat) => k = sobel_chroma f vi.toNat vj.toNat
          ∨ k = sobel_chroma f vi.toNat vj.toNat + f.height * f.width / 4
          ∨ k = vi.toNat * f.width + vj.toNat)
        (sobel_byte f A S origdata)
        (fun vj h3 h4 => ?_))) (fun k => ?_)
  · obtain ⟨i, rfl⟩ := Int.eq_ofNat_of_zero_le (show 0 ≤ vi by omega)
    obtain ⟨j, rfl⟩ := Int.eq_ofNat_of_zero_le (show 0 ≤ vj by omega)
    simp only [Int.toNat_ofNat]
    exact sobel_pixel_writes f A S origdata L hL i j (by omega) (by omega)
  · constructor
    · rintro ⟨i, j, h1, h2, h3, h4, h5⟩
      exact ⟨(i : Int), by omega, by omega, (j : Int), by omega, by omega,
        by simpa only [Int.toNat_ofNat] using h5⟩
    · rintro ⟨vi, h1, h2, vj, h3, h4, h5⟩
      obtain ⟨i, rfl⟩ := Int.eq_ofNat_of_zero_le (show 0 ≤ vi by omega)
      obtain ⟨j, rfl⟩ := Int.eq_ofNat_of_zero_le (show 0 ≤ vj by omega)
      simp only [Int.toNat_ofNat] at h5
      exact ⟨i, j, by omega, by omega, by omega, by omega, h5⟩

theorem sobel_zero_borders_writes (f : GstSobel) (L : Nat) (hw : 1 ≤ f.width)
    (hh : 1 ≤ f.height) (hL : f.height * f.width ≤ L) :
    WritesM (sobel_zero_borders f) L
      (fun k => ∃ i j : Nat, i < f.height ∧ j < f.width ∧
        (i = 0 ∨ i + 1 = f.height ∨ j = 0 ∨ j + 1 = f.width) ∧ k = i * f.width + j)
      (fun _ => 0) := by
  have hlast : (f.height - 1) * f.width + f.width = f.height * f.width := by
    have : f.height - 1 + 1 = f.height := by omega
    calc (f.height - 1) * f.width + f.width = (f.height - 1 + 1) * f.width := by
          rw [Nat.add_mul, Nat.one_mul]
      _ = f.height * f.width := by rw [this]
  have rows := WritesM.forFromToM 0 ((f.height : Int) - 1)
    (fun i d =>
      (storeAt d (i * (f.width : Int)) 0).bind
        (fun d1 => storeAt d1 (i * (f.width : Int) + (f.width : Int) - 1) 0)) L
    (fun (vi : Int) (k : Nat) => k = vi.toNat * f.width ∨ k = vi.toNat * f.width + (f.width - 1))
    (fun _ => 0)
    (fun vi h1 h2 => by
      obtain ⟨i, rfl⟩ := Int.eq_ofNat_of_zero_le h1
      simp only [Int.toNat_ofNat]
      have hi : i < f.height := by omega
      have := pixel_index_lt hi (show f.width - 1 < f.width by omega)
      rw [Nat.mul_comm f.width] at this
      exact WritesM.bind
        (WritesM.storeAt L (i * f.width) 0 (fun _ => 0) _ (by push_cast; rfl) (by omega) rfl)
        (WritesM.storeAt L (i * f.width + (f.width - 1)) 0 (fun _ => 0) _
          (by push_cast [Nat.cast_sub hw]; omega) (by omega) rfl))
  have cols := WritesM.forFromToM 0 ((f.width : Int) - 1)
    (fun j d =>
      (storeAt d j 0).bind
        (fun d1 => storeAt d1 (((f.height : Int) - 1) * (f.width : Int) + j) 0)) L
    (fun (vj : Int) (k : Nat) => k = vj.toNat ∨ k = (f.height - 1) * f.width + vj.toNat)
    (fun _ => 0)
    (fun vj h1 h2 => by
      obtain ⟨j, rfl⟩ := Int.eq_ofNat_of_zero_le h1
      simp only [Int.toNat_ofNat]
      have hj : j < f.width := by omega
      exact WritesM.bind
        (WritesM.storeAt L j 0 (fun _ => 0) _ rfl (by omega) rfl)
        (WritesM.storeAt L ((f.height - 1) * f.width + j) 0 (fun _ => 0) _
          (by push_cast [Nat.cast_sub hh]; rfl) (by omega) rfl))
  refine WritesM.of_iff (WritesM.bind rows cols) (fun k => ?_)
  constructor
  · rintro ⟨i, j, hi, hj, hb, rfl⟩
    rcases hb with rfl | hb | rfl | hb
    · exact Or.inr ⟨(j : Int), by omega, by omega, Or.inl (by simp)⟩
    · refine Or.inr ⟨(j : Int), by omega, by omega, Or.inr ?_⟩
      have : f.height - 1 = i := by omega
      simp [this]
    · exact Or.inl ⟨(i : Int), by omega, by omega, Or.inl (by simp)⟩
    · refine Or.inl ⟨(i : Int), by omega, by omega, Or.inr ?_⟩
      have : f.width - 1 = j := by omega
      simp [this]
  · rintro (⟨vi, h1, h2, h3⟩ | ⟨vj, h1, h2, h3⟩)
    · obtain ⟨i, rfl⟩ := Int.eq_ofNat_of_zero_le h1
      simp only [Int.toNat_ofNat] at h3
      rcases h3 with h3 | h3
      · exact ⟨i, 0, by omega, by omega, Or.inr (Or.inr (Or.inl rfl)), h3⟩
      · exact ⟨i, f.width - 1, by omega, by omega, Or.inr (Or.inr (Or.inr (by omega))), h3⟩
    · obtain ⟨j, rfl⟩ := Int.eq_ofNat_of_zero_le h1
      simp only [Int.toNat_ofNat] at h3
      rcases h3 with h3 | h3
      · exact ⟨0, j, by omega, by omega, Or.inl rfl, by rw [h3]; simp⟩
      · exact ⟨f.height - 1, j, by omega, by omega, Or.inr (Or.inl (by omega)), h3⟩

theorem sobel_extent_ge (f : GstSobel) : f.height * f.width < sobel_extent f := by
  unfold sobel_extent sobel_chroma
  omega

/-- A frame of `w*h` luma bytes followed by two chroma planes of
`ceil(w/2) * ceil(h/2)` bytes holds every offset the pixel loop stores to. -/
theorem sobel_extent_le_planar (f : GstSobel) (hw : 1 ≤ f.width) (hh : 1 ≤ f.height) :
    sobel_extent f
      ≤ f.height * f.width + 2 * (((f.width + 1) / 2) * ((f.height + 1) / 2)) := by
  unfold sobel_extent sobel_chroma
  obtain ⟨a, ha⟩ : ∃ a, (f.width + 1) / 2 = a + 1 := ⟨(f.width + 1) / 2 - 1, by omega⟩
  obtain ⟨b, hb⟩ : ∃ b, (f.height + 1) / 2 = b + 1 := ⟨(f.height + 1) / 2 - 1, by omega⟩
  rw [ha, hb]
  have h1 : f.width / 2 ≤ a + 1 := by omega
  have h2 : (f.height - 1) / 2 = b := by omega
  have h3 : (f.width - 1) / 2 = a := by omega
  have h4 : f.width / 2 * ((f.height - 1) / 2) ≤ (a + 1) * b := by
    rw [h2]
    exact Nat.mul_le_mul_right b h1
  have h5 : f.height * f.width ≤ 4 * ((a + 1) * (b + 1)) := by
    have q1 : f.height ≤ 2 * (b + 1) := by omega
    have q2 : f.width ≤ 2 * (a + 1) := by omega
    calc f.height * f.width ≤ (2 * (b + 1)) * (2 * (a + 1)) := Nat.mul_le_mul q1 q2
      _ = 4 * ((a + 1) * (b + 1)) := by ring
  have h6 : f.height * f.width / 4 ≤ (a + 1) * (b + 1) := by
    exact Nat.div_le_of_le_mul h5
  have h7 : (a + 1) * (b + 1) = (a + 1) * b + a + 1 := by ring
  rw [h3]
  omega

/-- On a frame of at least one pixel whose buffer holds every offset the pixel
loop stores to, `gst_sobel_chain` returns a buffer of the same length; every
processed pixel holds the narrowed magnitude of the gradients of the input,
with `mirror` off the outermost ring of the luma plane is zero, and no byte at
or behind `sobel_extent` is changed. -/
theorem sobel_frame (f : GstSobel) (A S : Int) (origdata : Buffer)
    (hw : 1 ≤ f.width) (hh : 1 ≤ f.height) (hL : sobel_extent f ≤ origdata.length) :
    ∃ out, gst_sobel_chain f A S origdata = some out ∧ out.length = origdata.length ∧
      (∀ i j, skip_border f ≤ i → i + skip_border f < f.height →
        skip_border f ≤ j → j + skip_border f < f.width →
        peek out (i * f.width + j) = sobel_luma f A S origdata i j) ∧
      (f.mirror = false → ∀ i j, i < f.height → j < f.width →
        (i = 0 ∨ i + 1 = f.height ∨ j = 0 ∨ j + 1 = f.width) →
        peek out (i * f.width + j) = 0) ∧
      (∀ k, sobel_extent f ≤ k → peek out k = peek origdata k) := by
  have hge := sobel_extent_ge f
  have hW1 : ∀ (sk k : Nat), sobel_extent f ≤ k →
      ¬ ∃ i j : Nat, sk ≤ i ∧ i + sk < f.height ∧ sk ≤ j ∧ j + sk < f.width ∧
        (k = sobel_chroma f i j ∨ k = sobel_chroma f i j + f.height * f.width / 4
          ∨ k = i * f.width + j) := by
    rintro sk k hk ⟨i, j, h1, h2, h3, h4, h5⟩
    have hc := sobel_chroma_le f (show i < f.height by omega) (show j < f.width by omega)
    have hp := pixel_index_lt (show i < f.height by omega) (show j < f.width by omega)
    rw [Nat.mul_comm f.width] at hp
    unfold sobel_extent at hk hge
    omega
  cases hm : f.mirror with
  | true =>
    obtain ⟨d1, e1, e2, e3, e4⟩ :=
      sobel_pixels_writes f A S origdata origdata.length 0 hL origdata rfl
    simp only [Nat.cast_zero, Int.sub_zero] at e1
    refine ⟨d1, ?_, e2, fun i j h1 h2 h3 h4 => ?_, fun h => by simp at h,
      fun k hk => e4 k (hW1 0 k hk)⟩
    · unfold gst_sobel_chain
      simp only [hm, if_true, Int.sub_zero]
      rw [e1]
      rfl
    · simp only [skip_border, hm, if_true, Nat.add_zero] at h1 h2 h3 h4
      rw [e3 _ ⟨i, j, by omega, by omega, by omega, by omega, Or.inr (Or.inr rfl)⟩]
      exact sobel_byte_luma f A S origdata h2 h4
  | false =>
    obtain ⟨d1, e1, e2, e3, e4⟩ :=
      sobel_pixels_writes f A S origdata origdata.length 1 hL origdata rfl
    simp only [Nat.cast_one] at e1
    obtain ⟨d2, g1, g2, g3, g4⟩ :=
      sobel_zero_borders_writes f origdata.length hw hh (by omega) d1 e2
    refine ⟨d2, ?_, g2, fun i j h1 h2 h3 h4 => ?_, fun _ i j hi hj hb => ?_, fun k hk => ?_⟩
    · unfold gst_sobel_chain
      simp only [hm, Bool.false_eq_true, if_false]
      rw [e1]
      exact g1
    · simp only [skip_border, hm, Bool.false_eq_true, if_false] at h1 h2 h3 h4
      have hnb : ¬ ∃ i' j' : Nat, i' < f.height ∧ j' < f.width ∧
          (i' = 0 ∨ i' + 1 = f.height ∨ j' = 0 ∨ j' + 1 = f.width) ∧
          i * f.width + j = i' * f.width + j' := by
        rintro ⟨i', j', hi', hj', hb, heq⟩
        have q1 : (i * f.width + j) / f.width = i := pixel_of_offset (by omega)
        have q2 : (i' * f.width + j') / f.width = i' := pixel_of_offset hj'
        rw [heq, q2] at q1
        subst q1
        omega
      rw [g4 _ hnb, e3 _ ⟨i, j, by omega, by omega, by omega, by omega, Or.inr (Or.inr rfl)⟩]
      exact sobel_byte_luma f A S origdata (by omega) (by omega)
    · exact g3 _ ⟨i, j, hi, hj, hb, rfl⟩
    · have hnb : ¬ ∃ i' j' : Nat, i' < f.height ∧ j' < f.width ∧
          (i' = 0 ∨ i' + 1 = f.height ∨ j' = 0 ∨ j' + 1 = f.width) ∧
          k = i' * f.width + j' := by
        rintro ⟨i', j', hi', hj', _, heq⟩
        have hp := pixel_index_lt hi' hj'
        rw [Nat.mul_comm f.width] at hp
        omega
      rw [g4 k hnb, e4 k (hW1 1 k hk)]

theorem fromTo_neg_one_one : fromTo (-1) 1 = [-1, 0, 1] := by decide

theorem sobel_gradient_expand (kernel : List (List Int)) (f : GstSobel) (origdata : Buffer)
    (i j : Int) :
    sobel_gradient kernel f origdata i j
      = kernelAt kernel 0 0 * sobel_sample f origdata i j (-1) (-1)
        + kernelAt kernel 0 1 * sobel_sample f origdata i j (-1) 0
        + kernelAt kernel 0 2 * sobel_sample f origdata i j (-1) 1
        + kernelAt kernel 1 0 * sobel_sample f origdata i j 0 (-1)
        + kernelAt kernel 1 1 * sobel_sample f origdata i j 0 0
        + kernelAt kernel 1 2 * sobel_sample f origdata i j 0 1
        + kernelAt kernel 2 0 * sobel_sample f origdata i j 1 (-1)
        + kernelAt kernel 2 1 * sobel_sample f origdata i j 1 0
        + kernelAt kernel 2 2 * sobel_sample f origdata i j 1 1 := by
  unfold sobel_gradient
  rw [fromTo_neg_one_one]
  simp only [List.foldl_cons, List.foldl_nil]
  norm_num

theorem CLAMP_eq_spec_clamp (x hi : Int) (hhi : 0 ≤ hi) : CLAMP x 0 hi = spec_clamp x 0 hi := by
  unfold CLAMP spec_clamp
  split_ifs <;> omega

theorem sobel_sample_mirror (f : GstSobel) (origdata : Buffer) (i j : Nat) (mi mj : Int)
    (hm : f.mirror = true) (hw : 1 ≤ f.width) (hh : 1 ≤ f.height) :
    sobel_sample f origdata i j mi mj
      = ((peek origdata (spec_clamp ((i : Int) + mi) 0 ((f.height : Int) - 1) * (f.width : Int)
          + spec_clamp ((j : Int) + mj) 0 ((f.width : Int) - 1)).toNat).val : Int) := by
  unfold sobel_sample
  rw [if_pos hm, CLAMP_eq_spec_clamp _ _ (by omega), CLAMP_eq_spec_clamp _ _ (by omega),
    Int.mul_comm]

theorem sobel_sample_plain (f : GstSobel) (origdata : Buffer) (i j : Nat) (mi mj : Int)
    (hm : f.mirror = false) :
    sobel_sample f origdata i j mi mj
      = ((peek origdata (((i : Int) + mi) * (f.width : Int) + ((j : Int) + mj)).toNat).val : Int) := by
  unfold sobel_sample
  rw [if_neg (by simp [hm]), Int.mul_comm]

theorem sobel_gradient_mirror (K : List (List Int)) (f : GstSobel) (origdata : Buffer)
    (i j : Nat) (hm : f.mirror = true) (hw : 1 ≤ f.width) (hh : 1 ≤ f.height) :
    sobel_gradient K f origdata i j = spec_gradient_mirror K f.width f.height origdata i j := by
  rw [sobel_gradient_expand]
  simp only [sobel_sample_mirror f origdata i j _ _ hm hw hh]
  unfold spec_gradient_mirror
  simp only [List.map_cons, List.map_nil, List.sum_cons, List.sum_nil]
  norm_num
  ring

theorem sobel_gradient_plain (K : List (List Int)) (f : GstSobel) (origdata : Buffer)
    (i j : Nat) (hm : f.mirror = false) :
    sobel_gradient K f origdata i j = spec_gradient_plain K f.width origdata i j := by
  rw [sobel_gradient_expand]
  simp only [sobel_sample_plain f origdata i j _ _ hm]
  unfold spec_gradient_plain
  simp only [List.map_cons, List.map_nil, List.sum_cons, List.sum_nil]
  norm_num
  ring

theorem sobel_x_sum (s : Int) :
    kernelAt sobel_x 0 0 * s + kernelAt sobel_x 0 1 * s + kernelAt sobel_x 0 2 * s
      + kernelAt sobel_x 1 0 * s + kernelAt sobel_x 1 1 * s + kernelAt sobel_x 1 2 * s
      + kernelAt sobel_x 2 0 * s + kernelAt sobel_x 2 1 * s + kernelAt sobel_x 2 2 * s = 0 := by
  have e : kernelAt sobel_x 0 0 = -1 ∧ kernelAt sobel_x 0 1 = 0 ∧ kernelAt sobel_x 0 2 = 1 ∧
      kernelAt sobel_x 1 0 = -2 ∧ kernelAt sobel_x 1 1 = 0 ∧ kernelAt sobel_x 1 2 = 2 ∧
      kernelAt sobel_x 2 0 = -1 ∧ kernelAt sobel_x 2 1 = 0 ∧ kernelAt sobel_x 2 2 = 1 := by
    decide
  obtain ⟨e1, e2, e3, e4, e5, e6, e7, e8, e9⟩ := e
  rw [e1, e2, e3, e4, e5, e6, e7, e8, e9]
  ring

theorem sobel_y_sum (s : Int) :
    kernelAt sobel_y 0 0 * s + kernelAt sobel_y 0 1 * s + kernelAt sobel_y 0 2 * s
      + kernelAt sobel_y 1 0 * s + kernelAt sobel_y 1 1 * s + kernelAt sobel_y 1 2 * s
      + kernelAt sobel_y 2 0 * s + kernelAt sobel_y 2 1 * s + kernelAt sobel_y 2 2 * s = 0 := by
  have e : kernelAt sobel_y 0 0 = -1 ∧ kernelAt sobel_y 0 1 = -2 ∧ kernelAt sobel_y 0 2 = -1 ∧
      kernelAt sobel_y 1 0 = 0 ∧ kernelAt sobel_y 1 1 = 0 ∧ kernelAt sobel_y 1 2 = 0 ∧
      kernelAt sobel_y 2 0 = 1 ∧ kernelAt sobel_y 2 1 = 2 ∧ kernelAt sobel_y 2 2 = 1 := by
    decide
  obtain ⟨e1, e2, e3, e4, e5, e6, e7, e8, e9⟩ := e
  rw [e1, e2, e3, e4, e5, e6, e7, e8, e9]
  ring

/-- Every sample taken at a processed pixel lies inside the luma plane. -/
theorem sobel_sample_in_plane (f : GstSobel) (origdata : Buffer) (i j : Nat) (mi mj : Int)
    (h1 : skip_border f ≤ i) (h2 : i + skip_border f < f.height)
    (h3 : skip_border f ≤ j) (h4 : j + skip_border f < f.width)
    (hmi : -1 ≤ mi ∧ mi ≤ 1) (hmj : -1 ≤ mj ∧ mj ≤ 1) :
    ∃ k, k < f.height * f.width ∧ sobel_sample f origdata i j mi mj = ((peek origdata k).val : Int) := by
  unfold sobel_sample
  cases hm : f.mirror with
  | true =>
    simp only [skip_border, hm, if_true, Nat.add_zero] at h1 h2 h3 h4
    obtain ⟨a, ha⟩ := Int.eq_ofNat_of_zero_le
      (show 0 ≤ CLAMP ((i : Int) + mi) 0 ((f.height : Int) - 1) by
        unfold CLAMP; split_ifs <;> omega)
    obtain ⟨b, hb⟩ := Int.eq_ofNat_of_zero_le
      (show 0 ≤ CLAMP ((j : Int) + mj) 0 ((f.width : Int) - 1) by
        unfold CLAMP; split_ifs <;> omega)
    have ha' : a < f.height := by
      have : CLAMP ((i : Int) + mi) 0 ((f.height : Int) - 1) ≤ (f.height : Int) - 1 := by
        unfold CLAMP; split_ifs <;> omega
      omega
    have hb' : b < f.width := by
      have : CLAMP ((j : Int) + mj) 0 ((f.width : Int) - 1) ≤ (f.width : Int) - 1 := by
        unfold CLAMP; split_ifs <;> omega
      omega
    refine ⟨a * f.width + b, ?_, ?_⟩
    · have := pixel_index_lt ha' hb'
      rw [Nat.mul_comm f.width] at this
      exact this
    · simp only [if_true, ha, hb]
      have e : (f.width : Int) * (a : Int) + (b : Int) = ((a * f.width + b : Nat) : Int) := by
        push_cast
        ring
      rw [e, Int.toNat_ofNat]
  | false =>
    simp only [skip_border, hm, Bool.false_eq_true, if_false] at h1 h2 h3 h4
    obtain ⟨a, ha⟩ := Int.eq_ofNat_of_zero_le (show 0 ≤ (i : Int) + mi by omega)
    obtain ⟨b, hb⟩ := Int.eq_ofNat_of_zero_le (show 0 ≤ (j : Int) + mj by omega)
    refine ⟨a * f.width + b, ?_, ?_⟩
    · have := pixel_index_lt (show a < f.height by omega) (show b < f.width by omega)
      rw [Nat.mul_comm f.width] at this
      exact this
    · simp only [Bool.false_eq_true, if_false, ha, hb]
      have e : (f.width : Int) * (a : Int) + (b : Int) = ((a * f.width + b : Nat) : Int) := by
        push_cast
        ring
      rw [e, Int.toNat_ofNat]

theorem sobel_gradient_const (f : GstSobel) (origdata : Buffer) (c : Byte) (i j : Nat)
    (h1 : skip_border f ≤ i) (h2 : i + skip_border f < f.height)
    (h3 : skip_border f ≤ j) (h4 : j + skip_border f < f.width)
    (hc : ∀ k, k < f.height * f.width → peek origdata k = c) :
    sobel_gradient sobel_x f origdata i j = 0 ∧ sobel_gradient sobel_y f origdata i j = 0 := by
  have hs : ∀ mi mj : Int, -1 ≤ mi ∧ mi ≤ 1 → -1 ≤ mj ∧ mj ≤ 1 →
      sobel_sample f origdata i j mi mj = (c.val : Int) := by
    intro mi mj hmi hmj
    obtain ⟨k, hk, e⟩ := sobel_sample_in_plane f origdata i j mi mj h1 h2 h3 h4 hmi hmj
    rw [e, hc k hk]
  rw [sobel_gradient_expand, sobel_gradient_expand]
  rw [hs (-1) (-1) (by omega) (by omega), hs (-1) 0 (by omega) (by omega),
    hs (-1) 1 (by omega) (by omega), hs 0 (-1) (by omega) (by omega),
    hs 0 0 (by omega) (by omega), hs 0 1 (by omega) (by omega),
    hs 1 (-1) (by omega) (by omega), hs 1 0 (by omega) (by omega),
    hs 1 1 (by omega) (by omega)]
  exact ⟨sobel_x_sum _, sobel_y_sum _⟩

theorem sobel_result_zero (f : GstSobel) (A S : Int) : sobel_result f A S 0 0 = 0 := by
  unfold sobel_result c_abs sqrt_times_255 CLAMP
  cases f.abs_magnitude <;> cases f.clamp <;> simp

theorem sobel_offset_pixel (f : GstSobel) (k : Nat) (hk : k < f.height * f.width) :
    k / f.width < f.height ∧ k % f.width < f.width ∧ k = k / f.width * f.width + k % f.width := by
  have hw : 0 < f.width := by
    rcases Nat.eq_zero_or_pos f.width with h | h
    · rw [h] at hk
      simp at hk
    · exact h
  refine ⟨?_, Nat.mod_lt _ hw, ?_⟩
  · exact Nat.div_lt_of_lt_mul (by rw [Nat.mul_comm]; exact hk)
  · have := Nat.div_add_mod k f.width
    rw [Nat.mul_comm] at this
    omega

/-- C11: on a frame of at least one pixel whose luma plane is constant, the
two gradients `g_x` and `g_y` are 0 at every pixel `gst_sobel_chain`
processes, the call returns, and every luma byte of its output is 0, whatever
the settings of `mirror`, `abs_magnitude` and `clamp` and whatever the
non-zero constants `SOBEL_MAX_ABS` and `SOBEL_MAX_SQRT`. -/
theorem sobel_constant_plane (f : GstSobel) (SOBEL_MAX_ABS SOBEL_MAX_SQRT : Int)
    (origdata : Buffer) (c : Byte)
    (_hA : SOBEL_MAX_ABS ≠ 0) (_hS : SOBEL_MAX_SQRT ≠ 0)
    (hw : 1 ≤ f.width) (hh : 1 ≤ f.height) (hL : sobel_extent f ≤ origdata.length)
    (hc : ∀ k, k < f.height * f.width → peek origdata k = c) :
    (∀ i j, skip_border f ≤ i → i + skip_border f < f.height →
      skip_border f ≤ j → j + skip_border f < f.width →
      sobel_gradient sobel_x f origdata i j = 0 ∧ sobel_gradient sobel_y f origdata i j = 0) ∧
    ∃ out, gst_sobel_chain f SOBEL_MAX_ABS SOBEL_MAX_SQRT origdata = some out ∧
      out.length = origdata.length ∧ ∀ k, k < f.height * f.width → peek out k = 0 := by
  have hg : ∀ i j, skip_border f ≤ i → i + skip_border f < f.height →
      skip_border f ≤ j → j + skip_border f < f.width →
      sobel_gradient sobel_x f origdata i j = 0 ∧ sobel_gradient sobel_y f origdata i j = 0 :=
    fun i j h1 h2 h3 h4 => sobel_gradient_const f origdata c i j h1 h2 h3 h4 hc
  refine ⟨hg, ?_⟩
  obtain ⟨out, e1, e2, e3, e4, _⟩ :=
    sobel_frame f SOBEL_MAX_ABS SOBEL_MAX_SQRT origdata hw hh hL
  refine ⟨out, e1, e2, fun k hk => ?_⟩
  obtain ⟨q1, q2, q3⟩ := sobel_offset_pixel f k hk
  have hproc : ∀ i j, skip_border f ≤ i → i + skip_border f < f.height →
      skip_border f ≤ j → j + skip_border f < f.width → peek out (i * f.width + j) = 0 := by
    intro i j h1 h2 h3 h4
    rw [e3 i j h1 h2 h3 h4]
    unfold sobel_luma
    rw [(hg i j h1 h2 h3 h4).1, (hg i j h1 h2 h3 h4).2, sobel_result_zero]
    rfl
  generalize k / f.width = a at q1 q3
  generalize k % f.width = b at q2 q3
  rw [q3]
  cases hm : f.mirror with
  | true =>
    exact hproc a b (by simp [skip_border, hm]) (by simpa [skip_border, hm] using q1)
      (by simp [skip_border, hm]) (by simpa [skip_border, hm] using q2)
  | false =>
    by_cases hb : a = 0 ∨ a + 1 = f.height ∨ b = 0 ∨ b + 1 = f.width
    · exact e4 hm a b q1 q2 hb
    · have hs : skip_border f = 1 := by simp [skip_border, hm]
      exact hproc a b (by omega) (by omega) (by omega) (by omega)

/-- C12: with `mirror` on, at every pixel `(i, j)` of the luma plane the
accumulated `g_x` is the sum over `di`, `dj` in `-1..1` of
`Kx[di+1][dj+1] * luma[clamp(i+di,0,h-1)*w + clamp(j+dj,0,w-1)]` and `g_y` the
same sum with `Ky`, the samples being bytes of the input buffer; and on a
buffer that holds every offset stored to, the call returns, the output byte at
`(i, j)` being the narrowed magnitude of these two sums over the input. -/
theorem sobel_gradient_mirror_spec (f : GstSobel) (SOBEL_MAX_ABS SOBEL_MAX_SQRT : Int)
    (origdata : Buffer) (i j : Nat) (hm : f.mirror = true)
    (hi : i < f.height) (hj : j < f.width) :
    sobel_gradient sobel_x f origdata i j
        = spec_gradient_mirror spec_Kx f.width f.height origdata i j ∧
    sobel_gradient sobel_y f origdata i j
        = spec_gradient_mirror spec_Ky f.width f.height origdata i j ∧
    (sobel_extent f ≤ origdata.length →
      ∃ out, gst_sobel_chain f SOBEL_MAX_ABS SOBEL_MAX_SQRT origdata = some out ∧
        peek out (i * f.width + j)
          = toByte (sobel_result f SOBEL_MAX_ABS SOBEL_MAX_SQRT
              (spec_gradient_mirror spec_Kx f.width f.height origdata i j)
              (spec_gradient_mirror spec_Ky f.width f.height origdata i j))) := by
  have gx : sobel_gradient sobel_x f origdata i j
      = spec_gradient_mirror spec_Kx f.width f.height origdata i j :=
    sobel_gradient_mirror sobel_x f origdata i j hm (by omega) (by omega)
  have gy : sobel_gradient sobel_y f origdata i j
      = spec_gradient_mirror spec_Ky f.width f.height origdata i j :=
    sobel_gradient_mirror sobel_y f origdata i j hm (by omega) (by omega)
  refine ⟨gx, gy, fun hL => ?_⟩
  obtain ⟨out, e1, _, e3, _, _⟩ :=
    sobel_frame f SOBEL_MAX_ABS SOBEL_MAX_SQRT origdata (by omega) (by omega) hL
  refine ⟨out, e1, ?_⟩
  rw [e3 i j (by simp [skip_border, hm]) (by simpa [skip_border, hm] using hi)
    (by simp [skip_border, hm]) (by simpa [skip_border, hm] using hj)]
  unfold sobel_luma
  rw [gx, gy]

/-- C13: with `mirror` off, on a frame of at least one pixel whose buffer
holds every offset stored to, `gst_sobel_chain` returns; every luma byte of
the output in row 0, row `h-1`, column 0 and column `w-1` is 0, and every
other luma byte is the narrowed magnitude of the two gradients summed over the
unclamped 3x3 neighbourhood `luma[(i+di)*w + (j+dj)]` of the input. -/
theorem sobel_no_mirror_spec (f : GstSobel) (SOBEL_MAX_ABS SOBEL_MAX_SQRT : Int)
    (origdata : Buffer) (hm : f.mirror = false)
    (hw : 1 ≤ f.width) (hh : 1 ≤ f.height) (hL : sobel_extent f ≤ origdata.length) :
    ∃ out, gst_sobel_chain f SOBEL_MAX_ABS SOBEL_MAX_SQRT origdata = some out ∧
      (∀ i j, i < f.height → j < f.width →
        (i = 0 ∨ i + 1 = f.height ∨ j = 0 ∨ j + 1 = f.width) →
        peek out (i * f.width + j) = 0) ∧
      (∀ i j, 1 ≤ i → i + 1 < f.height → 1 ≤ j → j + 1 < f.width →
        peek out (i * f.width + j)
          = toByte (sobel_result f SOBEL_MAX_ABS SOBEL_MAX_SQRT
              (spec_gradient_plain spec_Kx f.width origdata i j)
              (spec_gradient_plain spec_Ky f.width origdata i j))) := by
  obtain ⟨out, e1, _, e3, e4, _⟩ :=
    sobel_frame f SOBEL_MAX_ABS SOBEL_MAX_SQRT origdata hw hh hL
  have hs : skip_border f = 1 := by simp [skip_border, hm]
  refine ⟨out, e1, e4 hm, fun i j h1 h2 h3 h4 => ?_⟩
  rw [e3 i j (by omega) (by omega) (by omega) (by omega)]
  unfold sobel_luma
  rw [sobel_gradient_plain sobel_x f origdata i j hm,
    sobel_gradient_plain sobel_y f origdata i j hm]
  rfl

theorem sobel_constant_plane_witness :
    (2040 : Int) ≠ 0 ∧ (1443 : Int) ≠ 0 ∧
    1 ≤ (⟨5, 5, true, false, true⟩ : GstSobel).width ∧
    1 ≤ (⟨5, 5, true, false, true⟩ : GstSobel).height ∧
    sobel_extent ⟨5, 5, true, false, true⟩
      ≤ (List.replicate 25 128 ++ List.replicate 18 0 : Buffer).length ∧
    (∀ k, k < 5 * 5 → peek (List.replicate 25 128 ++ List.replicate 18 0) k = 128) ∧
    ((∀ i j, skip_border ⟨5, 5, true, false, true⟩ ≤ i →
        i + skip_border ⟨5, 5, true, false, true⟩ < 5 →
        skip_border ⟨5, 5, true, false, true⟩ ≤ j →
        j + skip_border ⟨5, 5, true, false, true⟩ < 5 →
        sobel_gradient sobel_x ⟨5, 5, true, false, true⟩
            (List.replicate 25 128 ++ List.replicate 18 0) i j = 0 ∧
        sobel_gradient sobel_y ⟨5, 5, true, false, true⟩
            (List.replicate 25 128 ++ List.replicate 18 0) i j = 0) ∧
      ∃ out, gst_sobel_chain ⟨5, 5, true, false, true⟩ 2040 1443
            (List.replicate 25 128 ++ List.replicate 18 0) = some out ∧
        out.length = (List.replicate 25 128 ++ List.replicate 18 0 : Buffer).length ∧
        ∀ k, k < 5 * 5 → peek out k = 0) :=
  ⟨by decide, by decide, by decide, by decide, by decide, by decide,
   sobel_constant_plane ⟨5, 5, true, false, true⟩ 2040 1443
     (List.replicate 25 128 ++ List.replicate 18 0) 128
     (by decide) (by decide) (by decide) (by decide) (by decide) (by decide)⟩

theorem sobel_gradient_mirror_spec_witness :
    (⟨3, 3, true, true, true⟩ : GstSobel).mirror = true ∧ 0 < 3 ∧ 1 < 3 ∧
    sobel_gradient sobel_x ⟨3, 3, true, true, true⟩
        [0, 0, 1, 0, 0, 1, 0, 0, 1, 9, 9, 9, 9, 9, 9, 9, 9] (0 : Nat) (1 : Nat)
      = spec_gradient_mirror spec_Kx 3 3
        [0, 0, 1, 0, 0, 1, 0, 0, 1, 9, 9, 9, 9, 9, 9, 9, 9] 0 1 ∧
    sobel_gradient sobel_y ⟨3, 3, true, true, true⟩
        [0, 0, 1, 0, 0, 1, 0, 0, 1, 9, 9, 9, 9, 9, 9, 9, 9] (0 : Nat) (1 : Nat)
      = spec_gradient_mirror spec_Ky 3 3
        [0, 0, 1, 0, 0, 1, 0, 0, 1, 9, 9, 9, 9, 9, 9, 9, 9] 0 1 ∧
    (sobel_extent ⟨3, 3, true, true, true⟩
        ≤ ([0, 0, 1, 0, 0, 1, 0, 0, 1, 9, 9, 9, 9, 9, 9, 9, 9] : Buffer).length →
      ∃ out, gst_sobel_chain ⟨3, 3, true, true, true⟩ 2040 1443
            [0, 0, 1, 0, 0, 1, 0, 0, 1, 9, 9, 9, 9, 9, 9, 9, 9] = some out ∧
        peek out (0 * 3 + 1)
          = toByte (sobel_result ⟨3, 3, true, true, true⟩ 2040 1443
              (spec_gradient_mirror spec_Kx 3 3
                [0, 0, 1, 0, 0, 1, 0, 0, 1, 9, 9, 9, 9, 9, 9, 9, 9] 0 1)
              (spec_gradient_mirror spec_Ky 3 3
                [0, 0, 1, 0, 0, 1, 0, 0, 1, 9, 9, 9, 9, 9, 9, 9, 9] 0 1))) :=
  ⟨rfl, by decide, by decide,
   sobel_gradient_mirror_spec ⟨3, 3, true, true, true⟩ 2040 1443
     [0, 0, 1, 0, 0, 1, 0, 0, 1, 9, 9, 9, 9, 9, 9, 9, 9] 0 1 rfl (by decide) (by decide)⟩

theorem sobel_no_mirror_spec_witness :
    (⟨3, 3, false, true, true⟩ : GstSobel).mirror = false ∧
    1 ≤ (⟨3, 3, false, true, true⟩ : GstSobel).width ∧
    1 ≤ (⟨3, 3, false, true, true⟩ : GstSobel).height ∧
    sobel_extent ⟨3, 3, false, true, true⟩
      ≤ ([0, 0, 1, 0, 0, 1, 0, 0, 1, 9, 9, 9, 9, 9, 9, 9, 9] : Buffer).length ∧
    ∃ out, gst_sobel_chain ⟨3, 3, false, true, true⟩ 2040 1443
          [0, 0, 1, 0, 0, 1, 0, 0, 1, 9, 9, 9, 9, 9, 9, 9, 9] = some out ∧
      (∀ i j, i < 3 → j < 3 → (i = 0 ∨ i + 1 = 3 ∨ j = 0 ∨ j + 1 = 3) →
        peek out (i * 3 + j) = 0) ∧
      (∀ i j, 1 ≤ i → i + 1 < 3 → 1 ≤ j → j + 1 < 3 →
        peek out (i * 3 + j)
          = toByte (sobel_result ⟨3, 3, false, true, true⟩ 2040 1443
              (spec_gradient_plain spec_Kx 3
                [0, 0, 1, 0, 0, 1, 0, 0, 1, 9, 9, 9, 9, 9, 9, 9, 9] i j)
              (spec_gradient_plain spec_Ky 3
                [0, 0, 1, 0, 0, 1, 0, 0, 1, 9, 9, 9, 9, 9, 9, 9, 9] i j))) :=
  ⟨rfl, by decide, by decide, by decide,
   sobel_no_mirror_spec ⟨3, 3, false, true, true⟩ 2040 1443
     [0, 0, 1, 0, 0, 1, 0, 0, 1, 9, 9, 9, 9, 9, 9, 9, 9] rfl (by decide) (by decide)
     (by decide)⟩

theorem c_abs_eq_abs (x : Int) : c_abs x = |x| := by
  unfold c_abs
  split_ifs with h
  · rw [abs_of_neg h]
  · rw [abs_of_nonneg (by omega)]

theorem sobel_result_abs_clamp (f : GstSobel) (A S g_x g_y : Int)
    (ha : f.abs_magnitude = true) (hc : f.clamp = true) :
    ((toByte (sobel_result f A S g_x g_y)).val : Int) = min 255 (|g_x| + |g_y|) := by
  unfold sobel_result
  simp only [ha, hc, if_true, Bool.not_true, Bool.false_eq_true, if_false]
  rw [c_abs_eq_abs, c_abs_eq_abs]
  have h1 := abs_nonneg g_x
  have h2 := abs_nonneg g_y
  have h3 : 0 ≤ CLAMP (|g_x| + |g_y|) 0 255 ∧ CLAMP (|g_x| + |g_y|) 0 255 ≤ 255 ∧
      CLAMP (|g_x| + |g_y|) 0 255 = min 255 (|g_x| + |g_y|) := by
    unfold CLAMP
    split_ifs <;> omega
  rw [toByte_val_int _ h3.1 h3.2.1, h3.2.2]

/-- C15: with `abs_magnitude` and `clamp` both on, on a frame of at least one
pixel whose buffer holds every offset stored to, `gst_sobel_chain` returns and
the output byte of every processed luma pixel is `min(255, |g_x| + |g_y|)`,
`g_x` and `g_y` being the gradients accumulated at that pixel. -/
theorem sobel_abs_clamp (f : GstSobel) (SOBEL_MAX_ABS SOBEL_MAX_SQRT : Int)
    (origdata : Buffer) (ha : f.abs_magnitude = true) (hc : f.clamp = true)
    (hw : 1 ≤ f.width) (hh : 1 ≤ f.height) (hL : sobel_extent f ≤ origdata.length) :
    ∃ out, gst_sobel_chain f SOBEL_MAX_ABS SOBEL_MAX_SQRT origdata = some out ∧
      ∀ i j, skip_border f ≤ i → i + skip_border f < f.height →
        skip_border f ≤ j → j + skip_border f < f.width →
        ((peek out (i * f.width + j)).val : Int)
          = min 255 (|sobel_gradient sobel_x f origdata i j|
              + |sobel_gradient sobel_y f origdata i j|) := by
  obtain ⟨out, e1, _, e3, _, _⟩ :=
    sobel_frame f SOBEL_MAX_ABS SOBEL_MAX_SQRT origdata hw hh hL
  refine ⟨out, e1, fun i j h1 h2 h3 h4 => ?_⟩
  rw [e3 i j h1 h2 h3 h4]
  exact sobel_result_abs_clamp f _ _ _ _ ha hc

theorem sobel_abs_clamp_witness :
    (⟨3, 3, true, true, true⟩ : GstSobel).abs_magnitude = true ∧
    (⟨3, 3, true, true, true⟩ : GstSobel).clamp = true ∧
    1 ≤ (⟨3, 3, true, true, true⟩ : GstSobel).width ∧
    1 ≤ (⟨3, 3, true, true, true⟩ : GstSobel).height ∧
    sobel_extent ⟨3, 3, true, true, true⟩
      ≤ ([0, 0, 200, 0, 0, 200, 0, 0, 1, 9, 9, 9, 9, 9, 9, 9, 9] : Buffer).length ∧
    ∃ out, gst_sobel_chain ⟨3, 3, true, true, true⟩ 2040 1443
          [0, 0, 200, 0, 0, 200, 0, 0, 1, 9, 9, 9, 9, 9, 9, 9, 9] = some out ∧
      ∀ i j, skip_border ⟨3, 3, true, true, true⟩ ≤ i →
        i + skip_border ⟨3, 3, true, true, true⟩ < 3 →
        skip_border ⟨3, 3, true, true, true⟩ ≤ j →
        j + skip_border ⟨3, 3, true, true, true⟩ < 3 →
        ((peek out (i * 3 + j)).val : Int)
          = min 255 (|sobel_gradient sobel_x ⟨3, 3, true, true, true⟩
                [0, 0, 200, 0, 0, 200, 0, 0, 1, 9, 9, 9, 9, 9, 9, 9, 9] i j|
              + |sobel_gradient sobel_y ⟨3, 3, true, true, true⟩
                [0, 0, 200, 0, 0, 200, 0, 0, 1, 9, 9, 9, 9, 9, 9, 9, 9] i j|) :=
  ⟨rfl, rfl, by decide, by decide, by decide,
   sobel_abs_clamp ⟨3, 3, true, true, true⟩ 2040 1443
     [0, 0, 200, 0, 0, 200, 0, 0, 1, 9, 9, 9, 9, 9, 9, 9, 9] rfl rfl (by decide) (by decide)
     (by decide)⟩

theorem sqrt_times_255_ge (n : Int) (hn : 1 ≤ n) : 255 ≤ sqrt_times_255 n := by
  unfold sqrt_times_255
  have h : 255 ≤ Nat.sqrt (n.toNat * (255 * 255)) := by
    rw [Nat.le_sqrt]
    have : 1 ≤ n.toNat := by omega
    nlinarith
  exact_mod_cast h

theorem sobel_result_sqrt_clamp (f : GstSobel) (A S g_x g_y : Int)
    (ha : f.abs_magnitude = false) (hc : f.clamp = true) :
    sobel_result f A S g_x g_y = if g_x = 0 ∧ g_y = 0 then 0 else 255 := by
  unfold sobel_result
  simp only [ha, hc, if_true, Bool.not_true, Bool.false_eq_true, if_false]
  split_ifs with h
  · obtain ⟨h1, h2⟩ := h
    subst h1 h2
    unfold sqrt_times_255 CLAMP
    simp
  · have hpos : 1 ≤ g_x * g_x + g_y * g_y := by
      have hx := mul_self_nonneg g_x
      have hy := mul_self_nonneg g_y
      by_cases hx0 : g_x = 0
      · have hy0 : g_y ≠ 0 := fun h0 => h ⟨hx0, h0⟩
        have := mul_self_pos.2 hy0
        omega
      · have := mul_self_pos.2 hx0
        omega
    have := sqrt_times_255_ge _ hpos
    unfold CLAMP
    split_ifs <;> omega

/-- C16: with `abs_magnitude` off and `clamp` on the value stored is not
`min(255, round(sqrt(g_x*g_x + g_y*g_y)))`: the square root is multiplied by
255 before the clamp, so `result` is 0 when both gradients are 0 and 255
otherwise.  For `g_x = 3`, `g_y = 4` it is 255, and on the 3x3 frame with luma
rows `0 0 1` the pixel `(0, 1)`, where `g_x = 4` and `g_y = 0`, receives
255. -/
theorem sobel_sqrt_clamp_saturates (SOBEL_MAX_ABS SOBEL_MAX_SQRT : Int) :
    (∀ (w h : Nat) (m : Bool) (g_x g_y : Int),
      sobel_result ⟨w, h, m, false, true⟩ SOBEL_MAX_ABS SOBEL_MAX_SQRT g_x g_y
        = if g_x = 0 ∧ g_y = 0 then 0 else 255) ∧
    sobel_result ⟨3, 3, true, false, true⟩ SOBEL_MAX_ABS SOBEL_MAX_SQRT 3 4 = 255 ∧
    sobel_gradient sobel_x ⟨3, 3, true, false, true⟩
      [0, 0, 1, 0, 0, 1, 0, 0, 1, 9, 9, 9, 9, 9, 9, 9, 9] 0 1 = 4 ∧
    sobel_gradient sobel_y ⟨3, 3, true, false, true⟩
      [0, 0, 1, 0, 0, 1, 0, 0, 1, 9, 9, 9, 9, 9, 9, 9, 9] 0 1 = 0 ∧
    ∃ out, gst_sobel_chain ⟨3, 3, true, false, true⟩ SOBEL_MAX_ABS SOBEL_MAX_SQRT
        [0, 0, 1, 0, 0, 1, 0, 0, 1, 9, 9, 9, 9, 9, 9, 9, 9] = some out ∧
      peek out 1 = 255 := by
  have hgx : sobel_gradient sobel_x ⟨3, 3, true, false, true⟩
      [0, 0, 1, 0, 0, 1, 0, 0, 1, 9, 9, 9, 9, 9, 9, 9, 9] ((0 : Nat) : Int) ((1 : Nat) : Int)
        = 4 := by decide
  have hgy : sobel_gradient sobel_y ⟨3, 3, true, false, true⟩
      [0, 0, 1, 0, 0, 1, 0, 0, 1, 9, 9, 9, 9, 9, 9, 9, 9] ((0 : Nat) : Int) ((1 : Nat) : Int)
        = 0 := by decide
  refine ⟨fun w h m g_x g_y => sobel_result_sqrt_clamp _ _ _ _ _ rfl rfl, ?_, hgx, hgy, ?_⟩
  · rw [sobel_result_sqrt_clamp _ _ _ _ _ rfl rfl]
    decide
  · obtain ⟨out, e1, _, e3, _, _⟩ :=
      sobel_frame ⟨3, 3, true, false, true⟩ SOBEL_MAX_ABS SOBEL_MAX_SQRT
        [0, 0, 1, 0, 0, 1, 0, 0, 1, 9, 9, 9, 9, 9, 9, 9, 9] (by decide) (by decide) (by decide)
    refine ⟨out, e1, ?_⟩
    have h := e3 0 1 (by decide) (by decide) (by decide) (by decide)
    have h' : peek out 1 = sobel_luma ⟨3, 3, true, false, true⟩ SOBEL_MAX_ABS SOBEL_MAX_SQRT
        [0, 0, 1, 0, 0, 1, 0, 0, 1, 9, 9, 9, 9, 9, 9, 9, 9] 0 1 := h
    rw [h']
    unfold sobel_luma
    rw [hgx, hgy, sobel_result_sqrt_clamp _ _ _ _ _ rfl rfl]
    decide

/-- C14: on a 5x5 frame with `mirror` on not every chroma byte becomes 127.
The pixel loop stores 127 at the offsets 25 to 37 only: with two chroma planes
of 3x3 bytes behind the 25 luma bytes the call returns and the last five bytes
of the second plane, offsets 38 to 42, keep their input value; with two planes
of 2x2 bytes the stores at the offsets 33 to 37 fall outside the buffer. -/
theorem sobel_chroma_odd_frame (SOBEL_MAX_ABS SOBEL_MAX_SQRT : Int) :
    (∃ out, gst_sobel_chain ⟨5, 5, true, false, true⟩ SOBEL_MAX_ABS SOBEL_MAX_SQRT
        (List.replicate 25 128 ++ List.replicate 18 0) = some out ∧
      out.length = 43 ∧ ∀ k, 38 ≤ k → k < 43 → peek out k = 0) ∧
    gst_sobel_chain ⟨5, 5, true, false, true⟩ SOBEL_MAX_ABS SOBEL_MAX_SQRT
      (List.replicate 25 128 ++ List.replicate 8 0) = none := by
  refine ⟨?_, rfl⟩
  obtain ⟨out, e1, e2, _, _, e5⟩ :=
    sobel_frame ⟨5, 5, true, false, true⟩ SOBEL_MAX_ABS SOBEL_MAX_SQRT
      (List.replicate 25 128 ++ List.replicate 18 0) (by decide) (by decide) (by decide)
  refine ⟨out, e1, by rw [e2]; rfl, fun k h1 h2 => ?_⟩
  have hx : sobel_extent ⟨5, 5, true, false, true⟩ = 38 := by decide
  rw [e5 k (by rw [hx]; exact h1)]
  have hall : ∀ k, k < 43 → 38 ≤ k →
      peek (List.replicate 25 128 ++ List.replicate 18 0) k = 0 := by decide
  exact hall k h2 h1

/-! ## HistogramStretcher: find_max and autostretch_hsv_func -/

theorem find_max_lo (src : Buffer) (pos : Nat) (data : AutostretchData)
    (h : data.slo = 0 ∧ data.vlo = 0) :
    (find_max src pos data).slo = 0 ∧ (find_max src pos data).vlo = 0 := by
  obtain ⟨h1, h2⟩ := h
  have n1 : ¬ peek src (pos + 1) < (0 : Byte) := by
    intro h
    exact absurd h (by simp [Fin.lt_def])
  have n2 : ¬ peek src (pos + 2) < (0 : Byte) := by
    intro h
    exact absurd h (by simp [Fin.lt_def])
  constructor
  · simp only [find_max]
    split_ifs <;> simp_all
  · simp only [find_max]
    split_ifs <;> simp_all

theorem autostretch_scan_lo (width height : Nat) (data : Buffer) :
    (autostretch_scan width height data).slo = 0 ∧
    (autostretch_scan width height data).vlo = 0 := by
  unfold autostretch_scan
  have inner : ∀ (n y : Nat) (p : AutostretchData), (p.slo = 0 ∧ p.vlo = 0) →
      (((List.range n).foldl (fun param k => find_max data (y * width * 3 + 3 * k) param) p).slo
          = 0 ∧
        ((List.range n).foldl (fun param k => find_max data (y * width * 3 + 3 * k) param) p).vlo
          = 0) := by
    intro n y p hp
    induction n with
    | zero => simpa using hp
    | succ n ih =>
      rw [List.range_succ, List.foldl_append]
      exact find_max_lo _ _ _ ih
  induction height with
  | zero => exact ⟨rfl, rfl⟩
  | succ n ih =>
    rw [List.range_succ, List.foldl_append]
    exact inner width n _ ih

/-- C17: the scan does not find the smallest value of a channel: `param` is
zeroed before the scan and `find_max` only lowers `slo` and `vlo`, so both stay
0 on every frame, and the stretch maps the smallest value `lo` of a channel to
`lo * 255 / hi` instead of 0.  On the frame of two pixels with S and V equal to
100 and to 200 the smallest S and V of the result are 127.  The same happens on
a frame that `gimp_rgb_to_hsv4` produces (gstgimpcontraststretch.c holds the
same copy of the function): the grey pixels `(100, 100, 100)` and
`(200, 200, 200)` give the HSV frame `[0, 0, 100, 0, 0, 200]`, whose smallest V
comes out as 127. -/
theorem autostretch_low_bound_stuck :
    (∀ (width height : Nat) (data : Buffer),
      (autostretch_scan width height data).slo = 0 ∧
      (autostretch_scan width height data).vlo = 0) ∧
    autostretch_scan 2 1 [0, 100, 100, 0, 200, 200] = ⟨200, 0, 200, 0⟩ ∧
    autostretch_frame 2 1 [0, 100, 100, 0, 200, 200] = [0, 127, 127, 0, 255, 255] ∧
    gimp_rgb_to_hsv4 100 100 100 = (0, 0, 100) ∧
    gimp_rgb_to_hsv4 200 200 200 = (0, 0, 200) ∧
    autostretch_scan 2 1 [0, 0, 100, 0, 0, 200] = ⟨0, 0, 200, 0⟩ ∧
    autostretch_frame 2 1 [0, 0, 100, 0, 0, 200] = [0, 0, 127, 0, 0, 255] :=
  ⟨autostretch_scan_lo, by decide, by decide, by decide, by decide, by decide, by decide⟩

/-- C18: a channel with one value over the whole frame is not left alone
unless that value is 0: the scan leaves `vlo = 0` and `vhi` at the common
value, the guard `vhi != vlo` holds, and every V byte becomes 255 (likewise
for S).  On the frame of two pixels with S and V all equal to 100 every S and
V byte of the result is 255.  The same happens on a frame that
`gimp_rgb_to_hsv4` produces (gstgimpcontraststretch.c holds the same copy of
the function): two grey pixels `(100, 100, 100)` give the HSV frame
`[0, 0, 100, 0, 0, 100]`, whose constant V comes out as 255. -/
theorem autostretch_constant_channel_changes :
    autostretch_scan 2 1 [0, 100, 100, 0, 100, 100] = ⟨100, 0, 100, 0⟩ ∧
    autostretch_frame 2 1 [0, 100, 100, 0, 100, 100] = [0, 255, 255, 0, 255, 255] ∧
    gimp_rgb_to_hsv4 100 100 100 = (0, 0, 100) ∧
    autostretch_scan 2 1 [0, 0, 100, 0, 0, 100] = ⟨0, 0, 100, 0⟩ ∧
    autostretch_frame 2 1 [0, 0, 100, 0, 0, 100] = [0, 0, 255, 0, 0, 255] :=
  ⟨by decide, by decide, by decide, by decide, by decide⟩

/-! ## AdaptiveMedianFilter: the adaptive radius -/

theorem adapt_radius_bounds (f : GstGimpDespeckle) (R : Nat) (w : Window) (radius : Nat)
    (hR : R ≤ 255) (h1 : min 1 R ≤ radius) (h2 : radius ≤ R) :
    min 1 R ≤ adapt_radius f (2 * R + 1) w radius ∧ adapt_radius f (2 * R + 1) w radius ≤ R := by
  have hd : (2 * R + 1) / 2 = R := by omega
  have hm : min 1 R ≤ 1 := Nat.min_le_left 1 R
  have hm' : min 1 R ≤ R := Nat.min_le_right 1 R
  unfold adapt_radius
  rw [hd]
  split_ifs <;> omega

theorem despeckle_row_radius (lum : Byte → Byte → Byte → Byte) (f : GstGimpDespeckle)
    (width height bpp : Nat) (y n : Nat) (st : Pass)
    (h1 : min 1 f.despeckle_radius.val ≤ st.radius) (h2 : st.radius ≤ f.despeckle_radius.val) :
    ∃ st', despeckle_row lum f width height bpp (2 * f.despeckle_radius.val + 1) y n st
        = some st' ∧
      min 1 f.despeckle_radius.val ≤ st'.radius ∧ st'.radius ≤ f.despeckle_radius.val := by
  unfold despeckle_row
  refine foldlM_range_inv n _
    (fun (_ : Nat) (s : Pass) => min 1 f.despeckle_radius.val ≤ s.radius ∧ s.radius ≤ f.despeckle_radius.val)
    st ⟨h1, h2⟩ ?_
  intro x s _ hs
  obtain ⟨cpos, src', e, _⟩ := despeckle_pixel_spec lum f width bpp
    (2 * f.despeckle_radius.val + 1)
    (IMAX 0 ((y : Int) - (st.radius : Int)))
    (IMIN ((height : Int) - 1) ((y : Int) + (st.radius : Int))) y x s
  refine ⟨_, e, ?_⟩
  exact adapt_radius_bounds f f.despeckle_radius.val _ s.radius
    (by have := f.despeckle_radius.isLt; omega) hs.1 hs.2

theorem despeckle_rows_radius (lum : Byte → Byte → Byte → Byte) (src dst : Buffer)
    (width height bpp : Nat) (f : GstGimpDespeckle) (y : Nat) :
    ∃ st, (List.range y).foldlM (fun (st : Pass) (y' : Nat) =>
        despeckle_row lum f width height bpp (2 * f.despeckle_radius.val + 1) y' width st)
        ⟨src, dst, f.despeckle_radius.val⟩ = some st ∧
      min 1 f.despeckle_radius.val ≤ st.radius ∧ st.radius ≤ f.despeckle_radius.val := by
  refine foldlM_range_inv y _
    (fun (_ : Nat) (s : Pass) => min 1 f.despeckle_radius.val ≤ s.radius ∧ s.radius ≤ f.despeckle_radius.val)
    ⟨src, dst, f.despeckle_radius.val⟩ ⟨Nat.min_le_right _ _, Nat.le_refl _⟩ ?_
  intro y' s _ hs
  exact despeckle_row_radius lum f width height bpp y' width s hs.1 hs.2

theorem despeckle_median_eq_rows (lum : Byte → Byte → Byte → Byte) (src dst : Buffer)
    (width height bpp : Nat) (f : GstGimpDespeckle) :
    despeckle_median lum src dst width height bpp f
      = (List.range height).foldlM (fun (st : Pass) (y' : Nat) =>
          despeckle_row lum f width height bpp (2 * f.despeckle_radius.val + 1) y' width st)
          ⟨src, dst, f.despeckle_radius.val⟩ := rfl

/-- At the end of the scan the state is the result of `despeckle_median`. -/
theorem despeckle_state_at_end (lum : Byte → Byte → Byte → Byte) (src dst : Buffer)
    (width height bpp : Nat) (f : GstGimpDespeckle) :
    despeckle_state_at lum src dst width height bpp f height 0
      = despeckle_median lum src dst width height bpp f := by
  rw [despeckle_median_eq_rows]
  unfold despeckle_state_at
  generalize (List.range height).foldlM (fun (st : Pass) (y' : Nat) =>
      despeckle_row lum f width height bpp (2 * f.despeckle_radius.val + 1) y' width st)
      ⟨src, dst, f.despeckle_radius.val⟩ = r
  cases r with
  | none => rfl
  | some st => rfl

/-- C19: for every frame, every configured radius `R` in 0..255 and every
setting of the filter, adaptive or not, the scan of `despeckle_median` arrives
at every pixel `(x, y)` of the frame, and the radius it uses there satisfies
`min(1, R) <= r <= R`; the call returns, and the radius it ends with satisfies
the same bounds. -/
theorem despeckle_radius_bounds (lum : Byte → Byte → Byte → Byte) (src dst : Buffer)
    (width height bpp : Nat) (f : GstGimpDespeckle) (y x : Nat)
    (_hy : y < height) (_hx : x < width) :
    (∃ st, despeckle_state_at lum src dst width height bpp f y x = some st ∧
      min 1 f.despeckle_radius.val ≤ st.radius ∧ st.radius ≤ f.despeckle_radius.val) ∧
    (∃ st, despeckle_median lum src dst width height bpp f = some st ∧
      min 1 f.despeckle_radius.val ≤ st.radius ∧ st.radius ≤ f.despeckle_radius.val) := by
  constructor
  · obtain ⟨st, e, h1, h2⟩ := despeckle_rows_radius lum src dst width height bpp f y
    obtain ⟨st', e', h1', h2'⟩ := despeckle_row_radius lum f width height bpp y x st h1 h2
    refine ⟨st', ?_, h1', h2'⟩
    unfold despeckle_state_at
    rw [e]
    exact e'
  · rw [despeckle_median_eq_rows]
    exact despeckle_rows_radius lum src dst width height bpp f height

theorem despeckle_radius_bounds_witness :
    1 < 2 ∧ 1 < 2 ∧
    (∃ st, despeckle_state_at (fun r _ _ => r) [10, 200, 30, 40] [0, 0, 0, 0] 2 2 1
        ⟨1, true, false, 7, 248⟩ 1 1 = some st ∧
      min 1 (⟨1, true, false, 7, 248⟩ : GstGimpDespeckle).despeckle_radius.val ≤ st.radius ∧
      st.radius ≤ (⟨1, true, false, 7, 248⟩ : GstGimpDespeckle).despeckle_radius.val) ∧
    (∃ st, despeckle_median (fun r _ _ => r) [10, 200, 30, 40] [0, 0, 0, 0] 2 2 1
        ⟨1, true, false, 7, 248⟩ = some st ∧
      min 1 (⟨1, true, false, 7, 248⟩ : GstGimpDespeckle).despeckle_radius.val ≤ st.radius ∧
      st.radius ≤ (⟨1, true, false, 7, 248⟩ : GstGimpDespeckle).despeckle_radius.val) :=
  ⟨by decide, by decide,
   despeckle_radius_bounds (fun r _ _ => r) [10, 200, 30, 40] [0, 0, 0, 0] 2 2 1
     ⟨1, true, false, 7, 248⟩ 1 1 (by decide) (by decide)⟩

/-! ## AlphaCompositor: gst_add_alpha_collect_func -/

/-- C20, the claim as worded fails: with a base frame of 2x1 pixels and a mask
frame of 2x2 pixels `gst_add_alpha_collect_func` reports no error and pushes a
frame, built from the first two mask bytes. -/
theorem add_alpha_no_dimension_check :
    ([200, 100, 50, 25] : Buffer).length = 2 * 2 ∧
    ([10, 20, 30, 40, 50, 60] : Buffer).length = 2 * 1 * 3 ∧
    gst_add_alpha_collect_func 2 1 [10, 20, 30, 40, 50, 60] [200, 100, 50, 25] GST_FLOW_OK
        [0, 0, 0, 0, 0, 0, 0, 0]
      = Except.ok [200, 10, 20, 30, 100, 40, 50, 60] :=
  ⟨by decide, by decide, rfl⟩

/-- C20, amended: `gst_add_alpha_collect_func` compares no dimensions.  It
fails only when the output buffer could not be allocated, with the error of
the allocation and before any output byte is written; otherwise, for a mask
buffer of any size of at least `w*h` bytes, it pushes a frame of `w*h*4` bytes
whose pixel `i` is mask byte `i` followed by the three bytes of pixel `i` of
the base frame, `w` and `h` being the dimensions of the base frame. -/
theorem add_alpha_collect_ignores_mask_size (w h : Nat) (base mask dest : Buffer)
    (buf_alloc_ret : Int) (hbase : base.length = w * h * 3) (hmask : w * h ≤ mask.length)
    (hdest : dest.length = w * h * 4) :
    (buf_alloc_ret ≠ GST_FLOW_OK →
      gst_add_alpha_collect_func w h base mask buf_alloc_ret dest = Except.error buf_alloc_ret) ∧
    (buf_alloc_ret = GST_FLOW_OK →
      ∃ out, gst_add_alpha_collect_func w h base mask buf_alloc_ret dest = Except.ok out ∧
        out.length = w * h * 4 ∧
        ∀ i, i < w * h →
          out[4 * i]? = mask[i]? ∧ out[4 * i + 1]? = base[3 * i]? ∧
          out[4 * i + 2]? = base[3 * i + 1]? ∧ out[4 * i + 3]? = base[3 * i + 2]?) := by
  constructor
  · intro hne
    unfold gst_add_alpha_collect_func
    rw [if_pos hne]
  · intro heq
    have hlen : (add_alpha_repack w h base mask dest).length = w * h * 4 := by
      unfold add_alpha_repack
      rw [length_forRange _ _ (length_repack_pixel base mask), hdest]
    refine ⟨add_alpha_repack w h base mask dest, ?_, hlen, fun i hi => ?_⟩
    · unfold gst_add_alpha_collect_func
      rw [if_neg (by simp [heq])]
    · have key : ∀ k, k < w * h * 4 →
          (add_alpha_repack w h base mask dest)[k]? = some (repack_val base mask k) := by
        intro k hk
        rw [getElem?_eq_some_peek _ _ (by omega),
          add_alpha_repack_peek w h base mask dest hdest k hk]
      have e0 : repack_val base mask (4 * i) = peek mask i := by
        unfold repack_val
        rw [if_pos (by omega)]
        congr 1
        omega
      have e1 : repack_val base mask (4 * i + 1) = peek base (3 * i) := by
        unfold repack_val
        rw [if_neg (by omega)]
        congr 1
        omega
      have e2 : repack_val base mask (4 * i + 2) = peek base (3 * i + 1) := by
        unfold repack_val
        rw [if_neg (by omega)]
        congr 1
        omega
      have e3 : repack_val base mask (4 * i + 3) = peek base (3 * i + 2) := by
        unfold repack_val
        rw [if_neg (by omega)]
        congr 1
        omega
      rw [key _ (by omega), key _ (by omega), key _ (by omega), key _ (by omega),
        getElem?_eq_some_peek mask i (by omega), getElem?_eq_some_peek base _ (by omega),
        getElem?_eq_some_peek base _ (by omega), getElem?_eq_some_peek base _ (by omega),
        e0, e1, e2, e3]
      exact ⟨rfl, rfl, rfl, rfl⟩

theorem add_alpha_collect_ignores_mask_size_witness :
    ([10, 20, 30, 40, 50, 60] : Buffer).length = 2 * 1 * 3 ∧
    2 * 1 ≤ ([200, 100, 50, 25] : Buffer).length ∧
    ([0, 0, 0, 0, 0, 0, 0, 0] : Buffer).length = 2 * 1 * 4 ∧
    ((0 : Int) ≠ GST_FLOW_OK →
      gst_add_alpha_collect_func 2 1 [10, 20, 30, 40, 50, 60] [200, 100, 50, 25] 0
        [0, 0, 0, 0, 0, 0, 0, 0] = Except.error 0) ∧
    ((0 : Int) = GST_FLOW_OK →
      ∃ out, gst_add_alpha_collect_func 2 1 [10, 20, 30, 40, 50, 60] [200, 100, 50, 25] 0
          [0, 0, 0, 0, 0, 0, 0, 0] = Except.ok out ∧
        out.length = 2 * 1 * 4 ∧
        ∀ i, i < 2 * 1 →
          out[4 * i]? = ([200, 100, 50, 25] : Buffer)[i]? ∧
          out[4 * i + 1]? = ([10, 20, 30, 40, 50, 60] : Buffer)[3 * i]? ∧
          out[4 * i + 2]? = ([10, 20, 30, 40, 50, 60] : Buffer)[3 * i + 1]? ∧
          out[4 * i + 3]? = ([10, 20, 30, 40, 50, 60] : Buffer)[3 * i + 2]?) :=
  ⟨by decide, by decide, by decide,
   add_alpha_collect_ignores_mask_size 2 1 [10, 20, 30, 40, 50, 60] [200, 100, 50, 25]
     [0, 0, 0, 0, 0, 0, 0, 0] 0 (by decide) (by decide) (by decide)⟩

/-! ## FrameArithmetic: the footprint of subtract_frames -/

theorem subtract_frames_writes (w h bpp : Nat) (a b : Buffer) (L : Nat)
    (hL : w * h + bpp ≤ L + 1) :
    Writes (fun dest => subtract_frames w h bpp a b dest) L
      (fun k => ∃ ch, ch < h ∧ ∃ cw, cw < w ∧ ∃ i, i < bpp ∧ k = ch * w + cw + i)
      (fun k => toByte (CLAMP (((peek a k).val : Int) - ((peek b k).val : Int)) 0 255)) := by
  unfold subtract_frames
  refine Writes.forRange (fun ch hch => ?_)
  refine Writes.forRange (fun cw hcw => ?_)
  refine Writes.forRange (fun i hi => ?_)
  have hp := pixel_index_lt hch hcw
  exact Writes.poke (by omega) rfl

theorem subtract_footprint (w h bpp k : Nat) (hwh : 1 ≤ w * h) (hbpp : 1 ≤ bpp) :
    (∃ ch, ch < h ∧ ∃ cw, cw < w ∧ ∃ i, i < bpp ∧ k = ch * w + cw + i)
      ↔ k < w * h + bpp - 1 := by
  constructor
  · rintro ⟨ch, hch, cw, hcw, i, hi, rfl⟩
    have hp := pixel_index_lt hch hcw
    omega
  · intro hk
    have hw : 0 < w := by
      rcases Nat.eq_zero_or_pos w with h0 | h0
      · rw [h0] at hwh
        simp at hwh
      · exact h0
    obtain ⟨q, hq, i, hi, rfl⟩ : ∃ q, q < w * h ∧ ∃ i, i < bpp ∧ k = q + i := by
      by_cases hlt : k < w * h
      · exact ⟨k, hlt, 0, by omega, rfl⟩
      · exact ⟨w * h - 1, by omega, k - (w * h - 1), by omega, by omega⟩
    refine ⟨q / w, Nat.div_lt_of_lt_mul hq, q % w, Nat.mod_lt _ hw, i, hi, ?_⟩
    have := Nat.div_add_mod q w
    rw [Nat.mul_comm] at this
    omega

theorem frame_holds_footprint (n bpp : Nat) (hn : 1 ≤ n) (hbpp : 1 ≤ bpp) :
    n + bpp ≤ n * bpp + 1 := by
  obtain ⟨n', rfl⟩ : ∃ n', n = n' + 1 := ⟨n - 1, by omega⟩
  obtain ⟨b', rfl⟩ : ∃ b', bpp = b' + 1 := ⟨bpp - 1, by omega⟩
  have : (n' + 1) * (b' + 1) = n' * b' + n' + b' + 1 := by ring
  omega

/-- C24: on a frame of at least one pixel and at least one byte per pixel
`subtract_frames` keeps the length of `dest`, stores
`clamp(a[k] - b[k], 0, 255)` at exactly the offsets `k < w*h + bpp - 1`, a
value that fits a byte, and leaves every byte of `dest` at an offset
`k >= w*h + bpp - 1` as it was; for one byte per pixel the offsets written are
those of the whole frame. -/
theorem subtract_frames_footprint (w h bpp : Nat) (a b dest : Buffer)
    (hwh : 1 ≤ w * h) (hbpp : 1 ≤ bpp) (hd : dest.length = w * h * bpp) :
    (subtract_frames w h bpp a b dest).length = w * h * bpp ∧
    (∀ k, k < w * h + bpp - 1 →
      ((peek (subtract_frames w h bpp a b dest) k).val : Int)
        = max 0 (min 255 (((peek a k).val : Int) - ((peek b k).val : Int)))) ∧
    (∀ k, w * h + bpp - 1 ≤ k →
      peek (subtract_frames w h bpp a b dest) k = peek dest k) ∧
    (bpp = 1 → w * h + bpp - 1 = dest.length) := by
  have hfit := frame_holds_footprint (w * h) bpp hwh hbpp
  obtain ⟨hl, hw, hu⟩ := subtract_frames_writes w h bpp a b (w * h * bpp) hfit
  refine ⟨hl dest hd, fun k hk => ?_, fun k hk => ?_, fun h1 => ?_⟩
  · have e : peek (subtract_frames w h bpp a b dest) k
        = toByte (CLAMP (((peek a k).val : Int) - ((peek b k).val : Int)) 0 255) :=
      hw dest k hd ((subtract_footprint w h bpp k hwh hbpp).2 hk)
    rw [e]
    have hc : 0 ≤ CLAMP (((peek a k).val : Int) - ((peek b k).val : Int)) 0 255 ∧
        CLAMP (((peek a k).val : Int) - ((peek b k).val : Int)) 0 255 ≤ 255 ∧
        CLAMP (((peek a k).val : Int) - ((peek b k).val : Int)) 0 255
          = max 0 (min 255 (((peek a k).val : Int) - ((peek b k).val : Int))) := by
      unfold CLAMP
      split_ifs <;> omega
    rw [toByte_val_int _ hc.1 hc.2.1, hc.2.2]
  · exact hu dest k hd (fun hW => by
      have := (subtract_footprint w h bpp k hwh hbpp).1 hW
      omega)
  · rw [hd, h1]
    omega

theorem subtract_frames_footprint_witness :
    1 ≤ 2 * 1 ∧ 1 ≤ 2 ∧ ([7, 7, 7, 7] : Buffer).length = 2 * 1 * 2 ∧
    (subtract_frames 2 1 2 [5, 5, 5, 9] [0, 9, 0, 0] [7, 7, 7, 7]).length = 2 * 1 * 2 ∧
    (∀ k, k < 2 * 1 + 2 - 1 →
      ((peek (subtract_frames 2 1 2 [5, 5, 5, 9] [0, 9, 0, 0] [7, 7, 7, 7]) k).val : Int)
        = max 0 (min 255 (((peek [5, 5, 5, 9] k).val : Int) - ((peek [0, 9, 0, 0] k).val : Int)))) ∧
    (∀ k, 2 * 1 + 2 - 1 ≤ k →
      peek (subtract_frames 2 1 2 [5, 5, 5, 9] [0, 9, 0, 0] [7, 7, 7, 7]) k
        = peek [7, 7, 7, 7] k) ∧
    ((2 : Nat) = 1 → 2 * 1 + 2 - 1 = ([7, 7, 7, 7] : Buffer).length) :=
  ⟨by decide, by decide, by decide,
   subtract_frames_footprint 2 1 2 [5, 5, 5, 9] [0, 9, 0, 0] [7, 7, 7, 7]
     (by decide) (by decide) (by decide)⟩

/-! ## ColorSpaceEnhancer: saturation, hue range and sectors -/

theorem rgb_sector_delta (red green blue : Byte) (max min : Nat) :
    rgb_sector red green blue max min
      = (if red.val = max then
          Int.tdiv (((green.val : Int) - (blue.val : Int)) * 255) (rgb_delta max min)
        else if green.val = max then
          510 + Int.tdiv (((blue.val : Int) - (red.val : Int)) * 255) (rgb_delta max min)
        else if blue.val = max then
          1020 + Int.tdiv (((red.val : Int) - (green.val : Int)) * 255) (rgb_delta max min)
        else 0) := rfl

theorem hue_of_sector_degrees (h0 : Int) :
    hue_of_sector h0 = Int.tdiv (hue_degrees h0 * 255) 360 := rfl

theorem spec_saturation_zero_iff (r g b : Nat) (hr : r ≤ 255) (hg : g ≤ 255) (hb : b ≤ 255) :
    spec_saturation r g b = 0 ↔ max3 r g b = min3 r g b := by
  have hle := min3_le_max3 r g b
  have hM : max3 r g b ≤ 255 := by unfold max3; omega
  unfold spec_saturation
  by_cases h0 : max3 r g b = 0
  · rw [if_pos h0]
    constructor
    · intro _; omega
    · intro _; rfl
  · rw [if_neg h0]
    constructor
    · intro hz
      by_contra hne
      have hpos : 1 ≤ max3 r g b - min3 r g b := by omega
      have := scaled_pos _ _ hpos (by omega) hM
      omega
    · intro he
      rw [he, Nat.sub_self]
      simp

theorem saturation_zero_iff (r g b : Byte) :
    (gimp_rgb_to_hsv4 r g b).2.1 = 0 ↔ max3 r.val g.val b.val = min3 r.val g.val b.val := by
  rw [← spec_saturation_zero_iff r.val g.val b.val (by omega) (by omega) (by omega),
    ← hsv_saturation]
  constructor
  · intro h; rw [h]; rfl
  · intro h; exact Fin.ext h

/-- C30: `gimp_rgb_to_hsv4` returns saturation 0 exactly when
`max(r,g,b) = min(r,g,b)`; whenever the saturation is not 0, that is whenever
the hue is computed, `max` is not 0, `max - min` narrowed to `guint8` is not
0, and `delta` is `max - min` itself, so the substitution of 255 does not
happen and both divisors of the function are non-zero. -/
theorem rgb_to_hsv4_saturation_zero_iff (r g b : Byte) :
    ((gimp_rgb_to_hsv4 r g b).2.1 = 0 ↔ max3 r.val g.val b.val = min3 r.val g.val b.val) ∧
    ((gimp_rgb_to_hsv4 r g b).2.1 ≠ 0 →
      max3 r.val g.val b.val ≠ 0 ∧
      toByte ((max3 r.val g.val b.val : Int) - (min3 r.val g.val b.val : Int)) ≠ 0 ∧
      rgb_delta (max3 r.val g.val b.val) (min3 r.val g.val b.val)
        = (max3 r.val g.val b.val : Int) - (min3 r.val g.val b.val : Int) ∧
      rgb_delta (max3 r.val g.val b.val) (min3 r.val g.val b.val) ≠ 0 ∧
      (gimp_rgb_to_hsv4 r g b).1
        = toByte (rgb_hue r g b (max3 r.val g.val b.val) (min3 r.val g.val b.val))) := by
  refine ⟨saturation_zero_iff r g b, fun hs => ?_⟩
  have hne : max3 r.val g.val b.val ≠ min3 r.val g.val b.val :=
    fun h => hs ((saturation_zero_iff r g b).2 h)
  have hle := min3_le_max3 r.val g.val b.val
  have hM := max3_le r g b
  have hval : (toByte ((max3 r.val g.val b.val : Int) - (min3 r.val g.val b.val : Int))).val
      = max3 r.val g.val b.val - min3 r.val g.val b.val := by
    simp only [toByte]
    omega
  have hnz : toByte ((max3 r.val g.val b.val : Int) - (min3 r.val g.val b.val : Int)) ≠ 0 := by
    intro h
    have := congrArg Fin.val h
    rw [hval] at this
    have h0 : ((0 : Byte).val) = 0 := rfl
    omega
  have hd : rgb_delta (max3 r.val g.val b.val) (min3 r.val g.val b.val)
      = (max3 r.val g.val b.val : Int) - (min3 r.val g.val b.val : Int) := by
    unfold rgb_delta
    rw [if_neg hnz, hval]
    omega
  refine ⟨by omega, hnz, hd, by rw [hd]; omega, hsv_hue r g b hs⟩

theorem rgb_to_hsv4_saturation_zero_iff_witness :
    (gimp_rgb_to_hsv4 10 200 30).2.1 ≠ 0 ∧
    max3 (10 : Byte).val (200 : Byte).val (30 : Byte).val ≠ 0 ∧
    toByte ((max3 (10 : Byte).val (200 : Byte).val (30 : Byte).val : Int)
      - (min3 (10 : Byte).val (200 : Byte).val (30 : Byte).val : Int)) ≠ 0 ∧
    rgb_delta (max3 (10 : Byte).val (200 : Byte).val (30 : Byte).val)
        (min3 (10 : Byte).val (200 : Byte).val (30 : Byte).val)
      = (max3 (10 : Byte).val (200 : Byte).val (30 : Byte).val : Int)
        - (min3 (10 : Byte).val (200 : Byte).val (30 : Byte).val : Int) ∧
    rgb_delta (max3 (10 : Byte).val (200 : Byte).val (30 : Byte).val)
        (min3 (10 : Byte).val (200 : Byte).val (30 : Byte).val) ≠ 0 ∧
    (gimp_rgb_to_hsv4 10 200 30).1
      = toByte (rgb_hue 10 200 30 (max3 (10 : Byte).val (200 : Byte).val (30 : Byte).val)
          (min3 (10 : Byte).val (200 : Byte).val (30 : Byte).val)) :=
  ⟨by decide, (rgb_to_hsv4_saturation_zero_iff 10 200 30).2 (by decide)⟩

theorem hue_degrees_range (h0 : Int) (hlo : -255 ≤ h0) (hhi : h0 ≤ 1274) :
    0 ≤ hue_degrees h0 ∧ hue_degrees h0 < 360 ∧ hue_degrees h0 = spec_hue_degrees h0 := by
  unfold hue_degrees spec_hue_degrees
  by_cases hs : 0 ≤ h0
  · have h1 : Int.tdiv (h0 * 60) 255 = h0 * 60 / 255 :=
      Int.tdiv_eq_ediv (by omega) (by norm_num)
    rw [h1]
    split_ifs <;> omega
  · obtain ⟨x, hx⟩ : ∃ x : Int, h0 = -x := ⟨-h0, by omega⟩
    subst hx
    have h1 : Int.tdiv (-x * 60) 255 = -(x * 60 / 255) := by
      rw [Int.neg_mul, Int.neg_tdiv, Int.tdiv_eq_ediv (by omega) (by norm_num)]
    rw [h1]
    split_ifs <;> omega

theorem rgb_sector_range (r g b : Byte) (hlt : min3 r.val g.val b.val < max3 r.val g.val b.val) :
    -255 ≤ rgb_sector r g b (max3 r.val g.val b.val) (min3 r.val g.val b.val) ∧
    rgb_sector r g b (max3 r.val g.val b.val) (min3 r.val g.val b.val) ≤ 1274 := by
  obtain ⟨x, hx, hc⟩ := rgb_sector_cases r g b hlt
  rcases hc with ⟨_, _, e, _⟩ | ⟨_, _, _, e, _⟩ | ⟨_, _, _, e, _⟩ | ⟨_, _, _, _, _, e⟩ |
    ⟨_, _, _, _, _, e, _⟩ | ⟨_, _, _, _, _, _, e⟩ <;> rw [e] <;> omega

/-- C25: for a pixel of non-zero saturation the value of `h` in degrees after
the scale-and-wrap step of `gimp_rgb_to_hsv4`, which is the sector value times
60 divided by 255 with truncation toward zero plus 360 if negative, lies in
`[0, 360)`; the hue computed is that value times 255 divided by 360, lies in
`[0, 254]`, and is the hue byte returned; for zero saturation the hue byte is
0. -/
theorem rgb_to_hsv4_hue_range (r g b : Byte) :
    ((gimp_rgb_to_hsv4 r g b).2.1 = 0 → (gimp_rgb_to_hsv4 r g b).1 = 0) ∧
    ((gimp_rgb_to_hsv4 r g b).2.1 ≠ 0 →
      0 ≤ hue_degrees (rgb_sector r g b (max3 r.val g.val b.val) (min3 r.val g.val b.val)) ∧
      hue_degrees (rgb_sector r g b (max3 r.val g.val b.val) (min3 r.val g.val b.val)) < 360 ∧
      hue_degrees (rgb_sector r g b (max3 r.val g.val b.val) (min3 r.val g.val b.val))
        = spec_hue_degrees
            (rgb_sector r g b (max3 r.val g.val b.val) (min3 r.val g.val b.val)) ∧
      ((gimp_rgb_to_hsv4 r g b).1.val : Int)
        = hue_degrees (rgb_sector r g b (max3 r.val g.val b.val) (min3 r.val g.val b.val))
            * 255 / 360 ∧
      (gimp_rgb_to_hsv4 r g b).1.val ≤ 254) := by
  constructor
  · intro hs
    have hz : max3 r.val g.val b.val = min3 r.val g.val b.val := (saturation_zero_iff r g b).1 hs
    have hle := min3_le_max3 r.val g.val b.val
    simp only [gimp_rgb_to_hsv4, rgb_max_min_eq]
    have hsat : (if max3 r.val g.val b.val ≠ 0 then
        Int.tdiv (((max3 r.val g.val b.val : Int) - (min3 r.val g.val b.val : Int)) * 255)
          (max3 r.val g.val b.val : Int) else 0) = 0 := by
      rw [hz]
      simp
    rw [if_pos hsat]
    rfl
  · intro hs
    have hne : max3 r.val g.val b.val ≠ min3 r.val g.val b.val :=
      fun h => hs ((saturation_zero_iff r g b).2 h)
    have hle := min3_le_max3 r.val g.val b.val
    obtain ⟨q1, q2⟩ := rgb_sector_range r g b (by omega)
    obtain ⟨d1, d2, d3⟩ := hue_degrees_range _ q1 q2
    have hh : rgb_hue r g b (max3 r.val g.val b.val) (min3 r.val g.val b.val)
        = hue_degrees (rgb_sector r g b (max3 r.val g.val b.val) (min3 r.val g.val b.val))
            * 255 / 360 := by
      unfold rgb_hue
      rw [hue_of_sector_degrees]
      exact Int.tdiv_eq_ediv (by omega) (by norm_num)
    have hv : ((gimp_rgb_to_hsv4 r g b).1.val : Int)
        = hue_degrees (rgb_sector r g b (max3 r.val g.val b.val) (min3 r.val g.val b.val))
            * 255 / 360 := by
      rw [hsv_hue r g b hs, hh]
      exact toByte_val_int _ (by omega) (by omega)
    refine ⟨d1, d2, d3, hv, ?_⟩
    omega

theorem rgb_to_hsv4_hue_range_witness :
    (gimp_rgb_to_hsv4 200 10 30).2.1 ≠ 0 ∧
    0 ≤ hue_degrees (rgb_sector 200 10 30 (max3 (200 : Byte).val (10 : Byte).val (30 : Byte).val)
        (min3 (200 : Byte).val (10 : Byte).val (30 : Byte).val)) ∧
    hue_degrees (rgb_sector 200 10 30 (max3 (200 : Byte).val (10 : Byte).val (30 : Byte).val)
        (min3 (200 : Byte).val (10 : Byte).val (30 : Byte).val)) < 360 ∧
    hue_degrees (rgb_sector 200 10 30 (max3 (200 : Byte).val (10 : Byte).val (30 : Byte).val)
        (min3 (200 : Byte).val (10 : Byte).val (30 : Byte).val))
      = spec_hue_degrees
          (rgb_sector 200 10 30 (max3 (200 : Byte).val (10 : Byte).val (30 : Byte).val)
            (min3 (200 : Byte).val (10 : Byte).val (30 : Byte).val)) ∧
    ((gimp_rgb_to_hsv4 200 10 30).1.val : Int)
      = hue_degrees (rgb_sector 200 10 30 (max3 (200 : Byte).val (10 : Byte).val (30 : Byte).val)
          (min3 (200 : Byte).val (10 : Byte).val (30 : Byte).val)) * 255 / 360 ∧
    (gimp_rgb_to_hsv4 200 10 30).1.val ≤ 254 :=
  ⟨by decide, (rgb_to_hsv4_hue_range 200 10 30).2 (by decide)⟩

/-- C27: for `n >= 1` and arrays of `n` entries `quick_median_select` returns:
no read or swap of `i[]` or `p[]` leaves the index range `0..n-1` and the
outer loop and both scans come to an end within the fuel of the model; the
index returned lies in `0..n-1` and the arrays keep their length.  In every
pass on a partition `low..high` of three or more entries the scans end with
`low + 1 <= hh < ll <= high`, the `ll` scan being stopped by the key at `high`
and the `hh` scan by the key at `low + 1` at the latest. -/
theorem quick_median_select_total (p : List Nat) (i : List Byte) (n : Nat) (hn : 1 ≤ n)
    (hp : p.length = n) (hi : i.length = n) :
    (∃ r, quick_median_select p i (n : Int) = some r ∧ 0 ≤ r.1 ∧ r.1 ≤ (n : Int) - 1 ∧
      r.2.p.length = n ∧ r.2.i.length = n) ∧
    (∀ (s : Sel) (low high : Int), s.i.length = n → s.p.length = n →
      0 ≤ low → low + 2 ≤ high → high < n →
      ∃ s' ll hh, partition_pass s low high = some (s', ll, hh) ∧
        low + 1 ≤ hh ∧ hh < ll ∧ ll ≤ high ∧ s'.p.length = n ∧ s'.i.length = n) := by
  constructor
  · obtain ⟨s', h1, h2, _, _⟩ := quick_median_select_core p i n hn hp hi
    exact ⟨_, h1, by show (0 : Int) ≤ (((n - 1) / 2 : Nat) : Int); omega,
      by show (((n - 1) / 2 : Nat) : Int) ≤ (n : Int) - 1; omega, h2.2.1, h2.1⟩
  · intro s low high hsi hsp hl0 h2 hh1
    obtain ⟨s', ll, hh, r1, r2, _, _, r5, r6, _, _, _, _, r12⟩ :=
      partition_pass_spec n s s low high ⟨hsi, hsp, List.Perm.refl _⟩ hl0 h2 hh1
    exact ⟨s', ll, hh, r1, r12, r5, r6, r2.2.1, r2.1⟩

theorem quick_median_select_total_witness :
    1 ≤ 5 ∧ ([0, 3, 6, 9, 12] : List Nat).length = 5 ∧
    ([50, 10, 40, 20, 30] : List Byte).length = 5 ∧
    (∃ r, quick_median_select [0, 3, 6, 9, 12] [50, 10, 40, 20, 30] ((5 : Nat) : Int) = some r ∧
      0 ≤ r.1 ∧ r.1 ≤ ((5 : Nat) : Int) - 1 ∧ r.2.p.length = 5 ∧ r.2.i.length = 5) ∧
    (∀ (s : Sel) (low high : Int), s.i.length = 5 → s.p.length = 5 →
      0 ≤ low → low + 2 ≤ high → high < (5 : Nat) →
      ∃ s' ll hh, partition_pass s low high = some (s', ll, hh) ∧
        low + 1 ≤ hh ∧ hh < ll ∧ ll ≤ high ∧ s'.p.length = 5 ∧ s'.i.length = 5) :=
  ⟨by decide, by decide, by decide,
   quick_median_select_total [0, 3, 6, 9, 12] [50, 10, 40, 20, 30] 5 (by decide) (by decide)
     (by decide)⟩

/-! ## AdaptiveMedianFilter: where the output pixels come from -/

theorem candidates_in_window (lum : Byte → Byte → Byte → Byte) (f : GstGimpDespeckle)
    (src : Buffer) (width bpp : Nat) (ymin ymax xmin xmax : Int)
    (hy0 : 0 ≤ ymin) (hx0 : 0 ≤ xmin)
    (cpos : Nat) (h : cpos ∈ candidates lum f src width bpp ymin ymax xmin xmax) :
    ∃ x' y' : Nat, ymin ≤ (y' : Int) ∧ (y' : Int) ≤ ymax ∧ xmin ≤ (x' : Int) ∧
      (x' : Int) ≤ xmax ∧ cpos = (x' + y' * width) * bpp := by
  unfold candidates window_samples at h
  have h' := (List.mem_filter.1 h).1
  rw [List.mem_flatMap] at h'
  obtain ⟨v, hv, hu⟩ := h'
  rw [List.mem_map] at hu
  obtain ⟨u, hu, rfl⟩ := hu
  rw [mem_fromTo] at hv hu
  refine ⟨u.toNat, v.toNat, by omega, by omega, by omega, by omega, ?_⟩
  have e : (u + v * (width : Int)) * (bpp : Int)
      = (((u.toNat + v.toNat * width) * bpp : Nat) : Int) := by
    push_cast
    rw [Int.toNat_of_nonneg (by omega : 0 ≤ u), Int.toNat_of_nonneg (by omega : 0 ≤ v)]
  rw [e, Int.toNat_ofNat]

theorem window_bounds (n r : Nat) (k : Nat) :
    0 ≤ IMAX 0 ((k : Int) - (r : Int)) ∧ (k : Int) - (r : Int) ≤ IMAX 0 ((k : Int) - (r : Int)) ∧
    IMIN ((n : Int) - 1) ((k : Int) + (r : Int)) ≤ (n : Int) - 1 ∧
    IMIN ((n : Int) - 1) ((k : Int) + (r : Int)) ≤ (k : Int) + (r : Int) := by
  unfold IMAX IMIN
  split_ifs <;> omega

/-- C28: with recursive off, adaptive on or off, on a destination of
`width*height*bpp` bytes `despeckle_median` returns and leaves the source as it
was, and every destination pixel `(x, y)` is byte for byte the source pixel
at some `(x', y')` of the frame with `|x' - x| <= R` and `|y' - y| <= R`, `R`
being the configured radius. -/
theorem despeckle_no_new_values (lum : Byte → Byte → Byte → Byte) (f : GstGimpDespeckle)
    (width height bpp : Nat) (src dst : Buffer) (hrec : f.recursive = false)
    (hdst : dst.length = width * height * bpp) :
    ∃ dst' r', despeckle_median lum src dst width height bpp f = some ⟨src, dst', r'⟩ ∧
      dst'.length = width * height * bpp ∧
      ∀ x y, x < width → y < height →
        ∃ x' y', x' < width ∧ y' < height ∧
          |(x' : Int) - (x : Int)| ≤ (f.despeckle_radius.val : Int) ∧
          |(y' : Int) - (y : Int)| ≤ (f.despeckle_radius.val : Int) ∧
          ∀ c, c < bpp →
            peek dst' ((x + y * width) * bpp + c) = peek src ((x' + y' * width) * bpp + c) := by
  have hR : f.despeckle_radius.val ≤ 255 := by
    have := f.despeckle_radius.isLt
    omega
  obtain ⟨dst', r', h1, h2, _, h4⟩ := despeckle_frame lum f width height bpp src dst hdst
    (fun r => min 1 f.despeckle_radius.val ≤ r ∧ r ≤ f.despeckle_radius.val)
    (fun x y cpos => ∃ x' y', x' < width ∧ y' < height ∧
      |(x' : Int) - (x : Int)| ≤ (f.despeckle_radius.val : Int) ∧
      |(y' : Int) - (y : Int)| ≤ (f.despeckle_radius.val : Int) ∧
      cpos = (x' + y' * width) * bpp)
    ⟨Nat.min_le_right _ _, Nat.le_refl _⟩
    (by
      intro x y r0 r d hx hy hr0 hr hd
      obtain ⟨cpos, src', e1, e2⟩ := despeckle_pixel_spec lum f width bpp
        (2 * f.despeckle_radius.val + 1)
        (IMAX 0 ((y : Int) - (r0 : Int)))
        (IMIN ((height : Int) - 1) ((y : Int) + (r0 : Int))) y x ⟨src, d, r⟩
      have hgood := adapt_radius_bounds f f.despeckle_radius.val
        (scan_window lum f src width bpp
          (IMAX 0 ((y : Int) - (r0 : Int)))
          (IMIN ((height : Int) - 1) ((y : Int) + (r0 : Int)))
          (IMAX 0 ((x : Int) - (r : Int)))
          (IMIN ((width : Int) - 1) ((x : Int) + (r : Int)))) r hR hr.1 hr.2
      obtain ⟨by1, by2, by3, by4⟩ := window_bounds height r0 y
      obtain ⟨bx1, bx2, bx3, bx4⟩ := window_bounds width r x
      have hsrc : src' = src := by
        rcases e2 with ⟨_, _, hs⟩ | ⟨_, _, hs, _⟩
        · exact hs
        · rw [hs, is_recursive_eq, hrec]
          rfl
      rw [hsrc] at e1
      refine ⟨cpos, _, e1, hgood, ?_⟩
      rcases e2 with ⟨_, hc, _⟩ | ⟨_, hc, _, _⟩
      · exact ⟨x, y, hx, hy, by simp, by simp, hc⟩
      · have hc' : cpos ∈ candidates lum f src width bpp
            (IMAX 0 ((y : Int) - (r0 : Int)))
            (IMIN ((height : Int) - 1) ((y : Int) + (r0 : Int)))
            (IMAX 0 ((x : Int) - (r : Int)))
            (IMIN ((width : Int) - 1) ((x : Int) + (r : Int))) := hc
        obtain ⟨x', y', q1, q2, q3, q4, q5⟩ := candidates_in_window lum f src width bpp _ _ _ _
          by1 bx1 cpos hc'
        have hr0' := hr0.2
        have hr' := hr.2
        exact ⟨x', y', by omega, by omega, abs_le.2 ⟨by omega, by omega⟩,
          abs_le.2 ⟨by omega, by omega⟩, q5⟩)
  refine ⟨dst', r', h1, h2, fun x y hx hy => ?_⟩
  obtain ⟨cpos, ⟨x', y', a1, a2, a3, a4, a5⟩, hb⟩ := h4 x y hx hy
  refine ⟨x', y', a1, a2, a3, a4, fun c hc => ?_⟩
  rw [hb c hc, a5]

theorem despeckle_no_new_values_witness :
    (⟨2, true, false, 7, 248⟩ : GstGimpDespeckle).recursive = false ∧
    ([0, 0, 0, 0, 0, 0] : Buffer).length = 2 * 3 * 1 ∧
    ∃ dst' r', despeckle_median (fun r _ _ => r) [10, 20, 30, 40, 100, 110] [0, 0, 0, 0, 0, 0]
        2 3 1 ⟨2, true, false, 7, 248⟩ = some ⟨[10, 20, 30, 40, 100, 110], dst', r'⟩ ∧
      dst'.length = 2 * 3 * 1 ∧
      ∀ x y : Nat, x < 2 → y < 3 →
        ∃ x' y' : Nat, x' < 2 ∧ y' < 3 ∧
          |(x' : Int) - (x : Int)|
            ≤ ((⟨2, true, false, 7, 248⟩ : GstGimpDespeckle).despeckle_radius.val : Int) ∧
          |(y' : Int) - (y : Int)|
            ≤ ((⟨2, true, false, 7, 248⟩ : GstGimpDespeckle).despeckle_radius.val : Int) ∧
          ∀ c, c < 1 →
            peek dst' ((x + y * 2) * 1 + c)
              = peek [10, 20, 30, 40, 100, 110] ((x' + y' * 2) * 1 + c) :=
  ⟨rfl, by decide,
   despeckle_no_new_values (fun r _ _ => r) ⟨2, true, false, 7, 248⟩ 2 3 1
     [10, 20, 30, 40, 100, 110] [0, 0, 0, 0, 0, 0] rfl (by decide)⟩

/-! ## AdaptiveMedianFilter: the window rows under the adaptive radius -/

/-- C21: the rows of the window do not follow the radius in force at the
pixel.  `ymin` and `ymax` are computed at the head of the `y` loop, `xmin` and
`xmax` at every pixel, and the adaptive radius changes inside the row.  On the
2x3 frame `10 20 / 30 40 / 100 110` of one byte per pixel with radius 2 and
adaptive on, the radius is 1 when pixel `(1, 0)` is processed, yet the step
taken there is the one with the row bounds of radius 2: it scans the rows 0 to
2, all six samples, and stores 30, where the rows 0 to 1 of radius 1 hold four
samples and give 20. -/
theorem despeckle_window_rows_stale :
    despeckle_state_at (fun r _ _ => r) [10, 20, 30, 40, 100, 110] [0, 0, 0, 0, 0, 0] 2 3 1
        ⟨2, true, false, 7, 248⟩ 0 1
      = some ⟨[10, 20, 30, 40, 100, 110], [30, 0, 0, 0, 0, 0], 1⟩ ∧
    despeckle_state_at (fun r _ _ => r) [10, 20, 30, 40, 100, 110] [0, 0, 0, 0, 0, 0] 2 3 1
        ⟨2, true, false, 7, 248⟩ 0 2
      = despeckle_pixel (fun r _ _ => r) ⟨2, true, false, 7, 248⟩ 2 1 5
          (IMAX 0 (0 - 2)) (IMIN (3 - 1) (0 + 2)) 0 1
          ⟨[10, 20, 30, 40, 100, 110], [30, 0, 0, 0, 0, 0], 1⟩ ∧
    despeckle_pixel (fun r _ _ => r) ⟨2, true, false, 7, 248⟩ 2 1 5
        (IMAX 0 (0 - 2)) (IMIN (3 - 1) (0 + 2)) 0 1
        ⟨[10, 20, 30, 40, 100, 110], [30, 0, 0, 0, 0, 0], 1⟩
      = some ⟨[10, 20, 30, 40, 100, 110], [30, 30, 0, 0, 0, 0], 1⟩ ∧
    despeckle_pixel (fun r _ _ => r) ⟨2, true, false, 7, 248⟩ 2 1 5
        (IMAX 0 (0 - 1)) (IMIN (3 - 1) (0 + 1)) 0 1
        ⟨[10, 20, 30, 40, 100, 110], [30, 0, 0, 0, 0, 0], 1⟩
      = some ⟨[10, 20, 30, 40, 100, 110], [30, 20, 0, 0, 0, 0], 1⟩ ∧
    window_samples 2 1 (IMAX 0 (0 - 2)) (IMIN (3 - 1) (0 + 2)) (IMAX 0 (1 - 1))
        (IMIN (2 - 1) (1 + 1)) = [0, 1, 2, 3, 4, 5] ∧
    window_samples 2 1 (IMAX 0 (0 - 1)) (IMIN (3 - 1) (0 + 1)) (IMAX 0 (1 - 1))
        (IMIN (2 - 1) (1 + 1)) = [0, 1, 2, 3] := by
  refine ⟨by decide, by decide, by decide, by decide, by decide, by decide⟩

/-! ## AdaptiveMedianFilter: the recursive filter -/

theorem raster_ne {w x x' y y' : Nat} (hx : x < w) (hx' : x' < w)
    (h : ¬ (x' = x ∧ y' = y)) : x + y * w ≠ x' + y' * w := by
  by_cases h1 : y' < y ∨ (y' = y ∧ x' < x)
  · exact Nat.ne_of_gt (raster_lt hx' h1)
  · have h2 : y < y' ∨ (y = y' ∧ x < x') := by omega
    exact Nat.ne_of_lt (raster_lt hx h2)

/-- One pixel step of the recursive filter: it returns, keeps the lengths,
leaves source and destination equal on the pixel it processes, and changes no
other pixel of either frame. -/
theorem despeckle_pixel_recursive (lum : Byte → Byte → Byte → Byte) (f : GstGimpDespeckle)
    (width height bpp diameter : Nat) (hrec : f.recursive = true) (x y r0 : Nat) (st : Pass)
    (hx : x < width) (hy : y < height)
    (hs : st.src.length = width * height * bpp) (hd : st.dst.length = width * height * bpp) :
    ∃ st', despeckle_pixel lum f width bpp diameter
        (IMAX 0 ((y : Int) - (r0 : Int))) (IMIN ((height : Int) - 1) ((y : Int) + (r0 : Int)))
        y x st = some st' ∧
      st'.src.length = width * height * bpp ∧ st'.dst.length = width * height * bpp ∧
      (∀ c, c < bpp →
        peek st'.src ((x + y * width) * bpp + c) = peek st'.dst ((x + y * width) * bpp + c)) ∧
      (∀ x' y', x' < width → y' < height → ¬ (x' = x ∧ y' = y) → ∀ c, c < bpp →
        peek st'.src ((x' + y' * width) * bpp + c) = peek st.src ((x' + y' * width) * bpp + c) ∧
        peek st'.dst ((x' + y' * width) * bpp + c)
          = peek st.dst ((x' + y' * width) * bpp + c)) := by
  obtain ⟨cpos, src', e1, e2⟩ := despeckle_pixel_spec lum f width bpp diameter
    (IMAX 0 ((y : Int) - (r0 : Int)))
    (IMIN ((height : Int) - 1) ((y : Int) + (r0 : Int))) y x st
  obtain ⟨by1, _, by3, _⟩ := window_bounds height r0 y
  obtain ⟨bx1, _, bx3, _⟩ := window_bounds width st.radius x
  have hblk := pixel_block_le _ _ bpp (raster_index_lt hx hy)
  have hsrc' : src' = st.src ∨ src' = memcpy st.src ((x + y * width) * bpp) st.src cpos bpp := by
    rcases e2 with ⟨_, _, h⟩ | ⟨_, _, h, _⟩
    · exact Or.inl h
    · rw [is_recursive_eq, hrec] at h
      exact Or.inr h
  have hcpos : ∃ q, q < width * height ∧ cpos = q * bpp := by
    rcases e2 with ⟨_, h, _⟩ | ⟨_, h, _, _⟩
    · exact ⟨x + y * width, raster_index_lt hx hy, h⟩
    · exact candidates_in_frame lum f st.src width height bpp _ _ _ _ by1 by3 bx1 bx3 cpos h
  have hsame : src' = st.src → ∀ c, c < bpp →
      peek st.src (cpos + c) = peek st.src ((x + y * width) * bpp + c) := by
    intro h c _
    rcases e2 with ⟨_, hc, _⟩ | ⟨_, _, h', _⟩
    · rw [hc]
    · rw [is_recursive_eq, hrec] at h'
      have e : peek (memcpy st.src ((x + y * width) * bpp) st.src cpos bpp)
          ((x + y * width) * bpp + c) = peek st.src (cpos + c) :=
        peek_memcpy_in _ _ _ _ _ _ (by rw [hs]; exact hblk) (by assumption)
      rw [← e]
      have h'' : src' = memcpy st.src ((x + y * width) * bpp) st.src cpos bpp := h'
      have e' : memcpy st.src ((x + y * width) * bpp) st.src cpos bpp = st.src := by
        rw [← h'', h]
      rw [e']
  obtain ⟨q, hq, hqc⟩ := hcpos
  have hlen' : src'.length = width * height * bpp := by
    rcases hsrc' with h | h
    · rw [h]; exact hs
    · rw [h, length_memcpy]; exact hs
  refine ⟨_, e1, hlen', by rw [length_memcpy]; exact hd, fun c hc => ?_,
    fun x' y' hx' hy' hne c hc => ?_⟩
  · show peek src' ((x + y * width) * bpp + c)
      = peek (memcpy st.dst ((x + y * width) * bpp) src' cpos bpp) ((x + y * width) * bpp + c)
    rw [peek_memcpy_in _ _ _ _ _ _ (by rw [hd]; exact hblk) hc]
    rcases hsrc' with h | h
    · rw [h]
      exact (hsame h c hc).symm
    · rw [h, peek_memcpy_in _ _ _ _ _ _ (by rw [hs]; exact hblk) hc]
      by_cases hqq : x + y * width = q
      · rw [hqc, ← hqq, peek_memcpy_in _ _ _ _ _ _ (by rw [hs]; exact hblk) hc]
      · rw [hqc, peek_memcpy_out _ _ _ _ _ _ (by rw [hs]; exact hblk)
          (block_disjoint hqq hc)]
  · have hne' : x + y * width ≠ x' + y' * width := raster_ne hx hx' hne
    have hdis := block_disjoint hne' hc
    constructor
    · show peek src' ((x' + y' * width) * bpp + c) = _
      rcases hsrc' with h | h
      · rw [h]
      · rw [h]
        exact peek_memcpy_out _ _ _ _ _ _ (by rw [hs]; exact hblk) hdis
    · exact peek_memcpy_out _ _ _ _ _ _ (by rw [hd]; exact hblk) hdis

theorem despeckle_row_recursive (lum : Byte → Byte → Byte → Byte) (f : GstGimpDespeckle)
    (src : Buffer) (width height bpp diameter : Nat) (hrec : f.recursive = true)
    (y n : Nat) (st : Pass) (hy : y < height) (hn : n ≤ width)
    (h : FedBack src width height bpp y 0 st) :
    ∃ st', despeckle_row lum f width height bpp diameter y n st = some st' ∧
      FedBack src width height bpp y n st' := by
  unfold despeckle_row
  refine foldlM_range_inv n _ (fun (x : Nat) (s : Pass) => FedBack src width height bpp y x s)
    st h ?_
  intro x s hx ⟨hs, hd, hdone, hrest⟩
  obtain ⟨s', e1, e2, e3, e4, e5⟩ := despeckle_pixel_recursive lum f width height bpp diameter
    hrec x y st.radius s (by omega) hy hs hd
  refine ⟨s', e1, e2, e3, fun x' y' hx' hy' hprev c hc => ?_, fun x' y' hx' hy' hnot c hc => ?_⟩
  · by_cases hsame : x' = x ∧ y' = y
    · obtain ⟨rfl, rfl⟩ := hsame
      exact e4 c hc
    · obtain ⟨q1, q2⟩ := e5 x' y' hx' hy' hsame c hc
      rw [q1, q2]
      exact hdone x' y' hx' hy' (by omega) c hc
  · have hsame : ¬ (x' = x ∧ y' = y) := by omega
    rw [(e5 x' y' hx' hy' hsame c hc).1]
    exact hrest x' y' hx' hy' (by omega) c hc

theorem despeckle_rows_recursive (lum : Byte → Byte → Byte → Byte) (f : GstGimpDespeckle)
    (src dst : Buffer) (width height bpp : Nat) (hrec : f.recursive = true)
    (hsrc : src.length = width * height * bpp) (hdst : dst.length = width * height * bpp)
    (y : Nat) (hy : y ≤ height) :
    ∃ st, (List.range y).foldlM (fun (st : Pass) (y' : Nat) =>
        despeckle_row lum f width height bpp (2 * f.despeckle_radius.val + 1) y' width st)
        ⟨src, dst, f.despeckle_radius.val⟩ = some st ∧
      FedBack src width height bpp y 0 st := by
  refine foldlM_range_inv y _ (fun (y' : Nat) (s : Pass) => FedBack src width height bpp y' 0 s)
    ⟨src, dst, f.despeckle_radius.val⟩
    ⟨hsrc, hdst, fun x' y' _ _ hprev => by omega, fun _ _ _ _ _ _ _ => rfl⟩ ?_
  intro y' s hy' hs
  obtain ⟨s', e1, e2, e3, e4, e5⟩ := despeckle_row_recursive lum f src width height bpp
    (2 * f.despeckle_radius.val + 1) hrec y' width s (by omega) (Nat.le_refl _) hs
  refine ⟨s', e1, e2, e3, fun x' y'' hx' hy'' hprev c hc => ?_,
    fun x' y'' hx' hy'' hnot c hc => ?_⟩
  · exact e4 x' y'' hx' hy'' (by omega) c hc
  · exact e5 x' y'' hx' hy'' (by omega) c hc

/-- C22: with recursive on, on frames of `width*height*bpp` bytes, the scan of
`despeckle_median` arrives at every pixel `(x, y)`, and in the state it has
then (or, for `x = width`, after the last row pixel) the source equals the
destination on every pixel before `(x, y)` in raster order and equals the
original input on every other pixel; the call returns, and the source it
leaves equals the destination. -/
theorem despeckle_recursive_feedback (lum : Byte → Byte → Byte → Byte) (f : GstGimpDespeckle)
    (width height bpp : Nat) (src dst : Buffer) (hrec : f.recursive = true)
    (hsrc : src.length = width * height * bpp) (hdst : dst.length = width * height * bpp) :
    (∀ y x, y < height → x ≤ width →
      ∃ st, despeckle_state_at lum src dst width height bpp f y x = some st ∧
        FedBack src width height bpp y x st) ∧
    ∃ st, despeckle_median lum src dst width height bpp f = some st ∧ st.src = st.dst := by
  constructor
  · intro y x hy hx
    obtain ⟨st, e1, e2⟩ := despeckle_rows_recursive lum f src dst width height bpp hrec hsrc hdst
      y (by omega)
    obtain ⟨st', e3, e4⟩ := despeckle_row_recursive lum f src width height bpp
      (2 * f.despeckle_radius.val + 1) hrec y x st hy hx e2
    refine ⟨st', ?_, e4⟩
    unfold despeckle_state_at
    rw [e1]
    exact e3
  · obtain ⟨st, e1, e2, e3, e4, _⟩ := despeckle_rows_recursive lum f src dst width height bpp
      hrec hsrc hdst height (Nat.le_refl _)
    refine ⟨st, by rw [despeckle_median_eq_rows]; exact e1, ?_⟩
    exact dst_eq_src_of_pixels width height bpp st.dst st.src e3 e2
      (fun x y c hx hy hc => e4 x y hx hy (Or.inl hy) c hc)

theorem despeckle_recursive_feedback_witness :
    (⟨1, false, true, 7, 248⟩ : GstGimpDespeckle).recursive = true ∧
    ([10, 200, 30, 40] : Buffer).length = 2 * 2 * 1 ∧
    ([0, 0, 0, 0] : Buffer).length = 2 * 2 * 1 ∧
    (∀ y x, y < 2 → x ≤ 2 →
      ∃ st, despeckle_state_at (fun r _ _ => r) [10, 200, 30, 40] [0, 0, 0, 0] 2 2 1
          ⟨1, false, true, 7, 248⟩ y x = some st ∧
        FedBack [10, 200, 30, 40] 2 2 1 y x st) ∧
    ∃ st, despeckle_median (fun r _ _ => r) [10, 200, 30, 40] [0, 0, 0, 0] 2 2 1
        ⟨1, false, true, 7, 248⟩ = some st ∧ st.src = st.dst :=
  ⟨rfl, by decide, by decide,
   despeckle_recursive_feedback (fun r _ _ => r) ⟨1, false, true, 7, 248⟩ 2 2 1
     [10, 200, 30, 40] [0, 0, 0, 0] rfl (by decide) (by decide)⟩

/-! ## HistogramStretcher and ColorSpaceEnhancer: the scans and the stretch -/

/-- Two nested loops over the rows and the columns are one loop over the pixel
number `y * w + k`. -/
theorem foldl_range_nested {σ : Type} (h w : Nat) (F : Nat → σ → σ) (s : σ) :
    (List.range h).foldl (fun s y => (List.range w).foldl (fun s k => F (y * w + k) s) s) s
      = (List.range (h * w)).foldl (fun s q => F q s) s := by
  induction h with
  | zero => simp
  | succ h ih =>
    rw [List.range_succ, List.foldl_append, ih, Nat.succ_mul, List.range_add,
      List.foldl_append, List.foldl_map]
    rfl

theorem forRange_nested (h w : Nat) (body : Nat → Buffer → Buffer) (d : Buffer) :
    forRange h (fun y d => forRange w (fun k d => body (y * w + k) d) d) d
      = forRange (h * w) body d := by
  unfold forRange
  exact foldl_range_nested h w body d

/-- A loop whose iteration `q` keeps the length and changes the bytes of block
`q` only, each as a function `G` of its offset and its old value, changes
every byte of the first `n` blocks in that way and no other byte. -/
theorem forRange_pointwise (n blk L : Nat) (body : Nat → Buffer → Buffer)
    (G : Nat → Byte → Byte)
    (hbody : ∀ q, q < n → ∀ d, d.length = L → (body q d).length = L ∧
      ∀ o, peek (body q d) o
        = if q * blk ≤ o ∧ o < q * blk + blk then G o (peek d o) else peek d o) :
    ∀ d, d.length = L → (forRange n body d).length = L ∧
      ∀ o, peek (forRange n body d) o = if o < n * blk then G o (peek d o) else peek d o := by
  induction n with
  | zero =>
    intro d hd
    refine ⟨by rw [forRange_zero]; exact hd, fun o => ?_⟩
    rw [forRange_zero, if_neg (by omega)]
  | succ n ih =>
    intro d hd
    obtain ⟨l1, p1⟩ := ih (fun q hq => hbody q (by omega)) d hd
    obtain ⟨l2, p2⟩ := hbody n (by omega) (forRange n body d) l1
    rw [forRange_succ]
    refine ⟨l2, fun o => ?_⟩
    rw [p2 o, p1 o, Nat.succ_mul]
    by_cases h1 : n * blk ≤ o ∧ o < n * blk + blk
    · rw [if_pos h1, if_neg (by omega), if_pos (by omega)]
    · rw [if_neg h1]
      by_cases h2 : o < n * blk
      · rw [if_pos h2, if_pos (by omega)]
      · rw [if_neg h2, if_neg (by omega)]

theorem channel_max_succ (n : Nat) (g : Nat → Byte) :
    channel_max (n + 1) g = max (channel_max n g) (g n) := by
  unfold channel_max
  rw [List.range_succ, List.foldl_append]
  rfl

theorem channel_max_ge (n : Nat) (g : Nat → Byte) (q : Nat) (hq : q < n) :
    g q ≤ channel_max n g := by
  induction n with
  | zero => omega
  | succ n ih =>
    rw [channel_max_succ]
    by_cases h : q = n
    · subst h
      exact le_max_right _ _
    · exact le_trans (ih (by omega)) (le_max_left _ _)

theorem channel_max_attained (n : Nat) (g : Nat → Byte) :
    channel_max n g = 0 ∨ ∃ q, q < n ∧ g q = channel_max n g := by
  induction n with
  | zero => exact Or.inl rfl
  | succ n ih =>
    rw [channel_max_succ]
    rcases le_total (channel_max n g) (g n) with h | h
    · rw [max_eq_right h]
      exact Or.inr ⟨n, by omega, rfl⟩
    · rw [max_eq_left h]
      rcases ih with h0 | ⟨q, hq, e⟩
      · exact Or.inl h0
      · exact Or.inr ⟨q, by omega, e⟩

theorem toByte_val (b : Byte) : toByte (b.val : Int) = b := by
  apply Fin.ext
  simp only [toByte]
  omega

theorem byte_not_lt_zero (b : Byte) : ¬ b < (0 : Byte) := by
  intro h
  exact absurd h (by simp [Fin.lt_def])

/-- The stretch with a low bound of 0 and a high bound that no value exceeds:
`value * 255 / hi` when `hi` is not 0, and no change when it is. -/
theorem enhance_value_zero_low (v hi : Byte) (hv : v ≤ hi) :
    (enhance_value v 0 hi).val = if hi ≠ 0 then v.val * 255 / hi.val else v.val := by
  have hv' : v.val ≤ hi.val := hv
  have h0 : ((0 : Byte).val : Int) = 0 := rfl
  unfold enhance_value
  by_cases hz : hi = 0
  · rw [if_neg (by simp [hz]), if_neg (by simp [hz])]
  · rw [if_pos hz, if_pos hz, h0]
    have e : Int.tdiv (((v.val : Int) - 0) * 255) ((hi.val : Int) - 0)
        = ((v.val * 255 / hi.val : Nat) : Int) := by
      rw [← tdiv_natCast]
      push_cast
      simp
    rw [e]
    exact toByte_val_of_le _ (scaled_le _ _ hv')

theorem ite_gt_eq_max (a b : Byte) : (if b > a then b else a) = max a b := by
  by_cases h : b > a
  · rw [if_pos h, max_eq_right (le_of_lt h)]
  · rw [if_neg h, max_eq_left (not_lt.1 h)]

theorem find_max_fields (src : Buffer) (pos : Nat) (data : AutostretchData)
    (h1 : data.slo = 0) (h2 : data.vlo = 0) :
    find_max src pos data
      = ⟨max data.shi (peek src (pos + 1)), 0, max data.vhi (peek src (pos + 2)), 0⟩ := by
  have n1 := byte_not_lt_zero (peek src (pos + 1))
  have n2 := byte_not_lt_zero (peek src (pos + 2))
  obtain ⟨shi, slo, vhi, vlo⟩ := data
  simp only at h1 h2
  subst h1 h2
  rw [← ite_gt_eq_max, ← ite_gt_eq_max]
  by_cases hs : peek src (pos + 1) > shi <;> by_cases hv : peek src (pos + 2) > vhi <;>
    simp [find_max, hs, hv, n1, n2]

theorem autostretch_scan_flat (width height : Nat) (data : Buffer) :
    autostretch_scan width height data
      = (List.range (height * width)).foldl (fun p q => find_max data (3 * q) p)
          ⟨0, 0, 0, 0⟩ := by
  unfold autostretch_scan
  rw [← foldl_range_nested height width (fun q p => find_max data (3 * q) p)]
  have e : ∀ y k : Nat, y * width * 3 + 3 * k = 3 * (y * width + k) := by
    intro y k
    omega
  simp only [e]

theorem autostretch_scan_prefix (data : Buffer) (n : Nat) :
    (List.range n).foldl (fun p q => find_max data (3 * q) p) ⟨0, 0, 0, 0⟩
      = ⟨channel_max n (fun q => peek data (3 * q + 1)), 0,
          channel_max n (fun q => peek data (3 * q + 2)), 0⟩ := by
  induction n with
  | zero => rfl
  | succ n ih =>
    rw [List.range_succ, List.foldl_append, ih, channel_max_succ, channel_max_succ]
    exact find_max_fields data (3 * n) _ rfl rfl

theorem autostretch_scan_eq (width height : Nat) (data : Buffer) :
    autostretch_scan width height data
      = ⟨channel_max (height * width) (fun q => peek data (3 * q + 1)), 0,
          channel_max (height * width) (fun q => peek data (3 * q + 2)), 0⟩ := by
  rw [autostretch_scan_flat, autostretch_scan_prefix]

theorem autostretch_hsv_func_eq (src : Buffer) (spos : Nat) (dest : Buffer) (dpos : Nat)
    (p : AutostretchData) :
    autostretch_hsv_func src spos dest dpos p
      = poke (poke (poke dest dpos (peek src spos)) (dpos + 1)
            (enhance_value (peek src (spos + 1)) p.slo p.shi)) (dpos + 2)
          (enhance_value (peek src (spos + 2)) p.vlo p.vhi) := by
  have key : ∀ (c : Prop) [Decidable c] (a : Int) (b : Byte),
      toByte (if c then a else (b.val : Int)) = if c then toByte a else b := by
    intro c _ a b
    split_ifs
    · rfl
    · exact toByte_val b
  simp only [autostretch_hsv_func, enhance_value, key]

/-- The byte the stretch of a three-byte pixel makes of the byte `b` at offset
`o`: hue bytes stay, saturation and value bytes are stretched. -/
theorem autostretch_pixel_pointwise (p : AutostretchData) (L q : Nat) (d : Buffer)
    (hd : d.length = L) (hq : q * 3 + 3 ≤ L) :
    (autostretch_hsv_func d (3 * q) d (3 * q) p).length = L ∧
    ∀ o, peek (autostretch_hsv_func d (3 * q) d (3 * q) p) o
      = if q * 3 ≤ o ∧ o < q * 3 + 3 then
          (if o % 3 = 0 then peek d o
           else if o % 3 = 1 then enhance_value (peek d o) p.slo p.shi
           else enhance_value (peek d o) p.vlo p.vhi)
        else peek d o := by
  rw [autostretch_hsv_func_eq]
  refine ⟨by simp only [length_poke]; exact hd, fun o => ?_⟩
  simp only [peek_poke, length_poke]
  by_cases h0 : o = 3 * q
  · subst h0
    have m : 3 * q % 3 = 0 := by omega
    rw [if_neg (by omega), if_neg (by omega), if_pos ⟨rfl, by omega⟩, if_pos (by omega),
      if_pos m]
  · by_cases h1 : o = 3 * q + 1
    · subst h1
      have m : (3 * q + 1) % 3 = 1 := by omega
      rw [if_neg (by omega), if_pos ⟨rfl, by omega⟩, if_pos (by omega), if_neg (by omega),
        if_pos m]
    · by_cases h2 : o = 3 * q + 2
      · subst h2
        have m : (3 * q + 2) % 3 = 2 := by omega
        rw [if_pos ⟨rfl, by omega⟩, if_pos (by omega), if_neg (by omega), if_neg (by omega)]
      · rw [if_neg (by omega), if_neg (by omega), if_neg (by omega), if_neg (by omega)]

theorem autostretch_stretch_pointwise (width height : Nat) (p : AutostretchData)
    (data : Buffer) (hd : data.length = width * height * 3) :
    (autostretch_stretch width height p data).length = width * height * 3 ∧
    ∀ o, peek (autostretch_stretch width height p data) o
      = if o < height * width * 3 then
          (if o % 3 = 0 then peek data o
           else if o % 3 = 1 then enhance_value (peek data o) p.slo p.shi
           else enhance_value (peek data o) p.vlo p.vhi)
        else peek data o := by
  have hflat : autostretch_stretch width height p data
      = forRange (height * width) (fun q d => autostretch_hsv_func d (3 * q) d (3 * q) p)
          data := by
    unfold autostretch_stretch
    rw [← forRange_nested height width (fun q d => autostretch_hsv_func d (3 * q) d (3 * q) p)]
    have e : ∀ y k : Nat, y * width * 3 + 3 * k = 3 * (y * width + k) := by
      intro y k
      omega
    simp only [e]
  rw [hflat]
  refine forRange_pointwise (height * width) 3 (width * height * 3) _
    (fun o b => if o % 3 = 0 then b
      else if o % 3 = 1 then enhance_value b p.slo p.shi
      else enhance_value b p.vlo p.vhi) ?_ data hd
  intro q hq d hdl
  have hq' : q * 3 + 3 ≤ width * height * 3 := by
    rw [Nat.mul_comm width height]
    omega
  exact autostretch_pixel_pointwise p _ q d hdl hq'

theorem find_vhi_vlo_fields (src : Buffer) (pos : Nat) (param : ColorEnhanceParam_t)
    (h : param.vlo = 0) :
    find_vhi_vlo src pos param = ⟨max param.vhi (peek src (pos + 2)), 0⟩ := by
  have n2 := byte_not_lt_zero (peek src (pos + 2))
  obtain ⟨vhi, vlo⟩ := param
  simp only at h
  subst h
  rw [← ite_gt_eq_max]
  by_cases hv : peek src (pos + 2) > vhi <;> simp [find_vhi_vlo, hv, n2]

theorem color_enhance_scan_eq (width height : Nat) (hsvdata : Buffer) :
    color_enhance_scan width height hsvdata
      = ⟨channel_max (height * width) (fun q => peek hsvdata (4 * q + 2)), 0⟩ := by
  have hflat : color_enhance_scan width height hsvdata
      = (List.range (height * width)).foldl (fun p q => find_vhi_vlo hsvdata (4 * q) p)
          ⟨0, 0⟩ := by
    unfold color_enhance_scan
    rw [← foldl_range_nested height width (fun q p => find_vhi_vlo hsvdata (4 * q) p)]
    have e : ∀ y k : Nat, y * (width * 4) + 4 * k = 4 * (y * width + k) := by
      intro y k
      ring
    simp only [e]
  rw [hflat]
  generalize height * width = n
  induction n with
  | zero => rfl
  | succ n ih =>
    rw [List.range_succ, List.foldl_append, ih, channel_max_succ]
    exact find_vhi_vlo_fields hsvdata (4 * n) _ rfl

theorem color_enhance_stretch_pointwise (width height : Nat) (p : ColorEnhanceParam_t)
    (hsvdata : Buffer) (hd : hsvdata.length = width * height * 4) :
    (color_enhance_stretch width height p hsvdata).length = width * height * 4 ∧
    ∀ o, peek (color_enhance_stretch width height p hsvdata) o
      = if o < height * width * 4 then
          (if o % 4 = 2 then enhance_value (peek hsvdata o) p.vlo p.vhi else peek hsvdata o)
        else peek hsvdata o := by
  have hflat : color_enhance_stretch width height p hsvdata
      = forRange (height * width) (fun q d => enhance_it d (4 * q) d (4 * q) p.vlo p.vhi)
          hsvdata := by
    unfold color_enhance_stretch
    rw [← forRange_nested height width (fun q d => enhance_it d (4 * q) d (4 * q) p.vlo p.vhi)]
    have e : ∀ y k : Nat, y * (width * 4) + 4 * k = 4 * (y * width + k) := by
      intro y k
      ring
    simp only [e]
  rw [hflat]
  refine forRange_pointwise (height * width) 4 (width * height * 4) _
    (fun o b => if o % 4 = 2 then enhance_value b p.vlo p.vhi else b) ?_ hsvdata hd
  intro q hq d hdl
  have hq' : q * 4 + 4 ≤ width * height * 4 := by
    rw [Nat.mul_comm width height]
    omega
  refine ⟨by simp only [enhance_it, length_poke]; exact hdl, fun o => ?_⟩
  simp only [enhance_it, peek_poke]
  by_cases h2 : o = 4 * q + 2
  · subst h2
    have m : (4 * q + 2) % 4 = 2 := by omega
    rw [if_pos ⟨rfl, by omega⟩, if_pos (by omega), if_pos m]
  · by_cases hin : q * 4 ≤ o ∧ o < q * 4 + 4
    · rw [if_neg (by omega), if_pos hin, if_neg (by omega)]
    · rw [if_neg (by omega), if_neg hin]

theorem color_enhance_prepare_pointwise (width height : Nat) (data hsvdata : Buffer)
    (hd : hsvdata.length = width * height * 4) :
    (color_enhance_prepare width height data hsvdata).length = width * height * 4 ∧
    ∀ o, peek (color_enhance_prepare width height data hsvdata) o
      = if o < height * width * 4 then prepared_byte data o else peek hsvdata o := by
  have hflat : color_enhance_prepare width height data hsvdata
      = forRange (height * width) (fun q d => colorspace_prepare data (3 * q) d (4 * q))
          hsvdata := by
    unfold color_enhance_prepare
    rw [← forRange_nested height width (fun q d => colorspace_prepare data (3 * q) d (4 * q))]
    have e1 : ∀ y k : Nat, y * (width * 3) + 3 * k = 3 * (y * width + k) := by
      intro y k
      ring
    have e2 : ∀ y k : Nat, y * (width * 4) + 3 * k * 4 / 3 = 4 * (y * width + k) := by
      intro y k
      have : 3 * k * 4 / 3 = 4 * k := by omega
      rw [this]
      ring
    simp only [e1, e2]
  rw [hflat]
  refine forRange_pointwise (height * width) 4 (width * height * 4) _
    (fun o _ => prepared_byte data o) ?_ hsvdata hd
  intro q hq d hdl
  have hq' : q * 4 + 4 ≤ width * height * 4 := by
    rw [Nat.mul_comm width height]
    omega
  refine ⟨by simp only [colorspace_prepare, length_poke]; exact hdl, fun o => ?_⟩
  simp only [colorspace_prepare, peek_poke, length_poke, prepared_byte]
  by_cases h0 : o = 4 * q
  · subst h0
    have m : 4 * q % 4 = 0 := by omega
    have dv : 4 * q / 4 = q := by omega
    rw [if_neg (by omega), if_neg (by omega), if_neg (by omega), if_pos ⟨rfl, by omega⟩,
      if_pos (by omega), if_pos m, dv]
  · by_cases h1 : o = 4 * q + 1
    · subst h1
      have m : (4 * q + 1) % 4 = 1 := by omega
      have dv : (4 * q + 1) / 4 = q := by omega
      rw [if_neg (by omega), if_neg (by omega), if_pos ⟨rfl, by omega⟩, if_pos (by omega),
        if_neg (by omega), if_pos m, dv]
    · by_cases h2 : o = 4 * q + 2
      · subst h2
        have m : (4 * q + 2) % 4 = 2 := by omega
        have dv : (4 * q + 2) / 4 = q := by omega
        rw [if_neg (by omega), if_pos ⟨rfl, by omega⟩, if_pos (by omega), if_neg (by omega),
          if_neg (by omega), if_pos m, dv]
      · by_cases h3 : o = 4 * q + 3
        · subst h3
          have dv : (4 * q + 3) / 4 = q := by omega
          rw [if_pos ⟨rfl, by omega⟩, if_pos (by omega), if_neg (by omega), if_neg (by omega),
            if_neg (by omega), dv]
        · rw [if_neg (by omega), if_neg (by omega), if_neg (by omega), if_neg (by omega),
            if_neg (by omega)]

theorem color_enhance_reverse_pointwise (width height : Nat) (hsvdata data : Buffer)
    (hd : data.length = width * height * 3) :
    (color_enhance_reverse width height hsvdata data).length = width * height * 3 ∧
    ∀ o, peek (color_enhance_reverse width height hsvdata data) o
      = if o < height * width * 3 then reversed_byte hsvdata o else peek data o := by
  have hflat : color_enhance_reverse width height hsvdata data
      = forRange (height * width)
          (fun q d => colorspace_prepare_reverse hsvdata (4 * q) d (3 * q)) data := by
    unfold color_enhance_reverse
    rw [← forRange_nested height width
      (fun q d => colorspace_prepare_reverse hsvdata (4 * q) d (3 * q))]
    have e1 : ∀ y k : Nat, y * (width * 3) + 3 * k = 3 * (y * width + k) := by
      intro y k
      ring
    have e2 : ∀ y k : Nat, y * (width * 4) + 3 * k * 4 / 3 = 4 * (y * width + k) := by
      intro y k
      have : 3 * k * 4 / 3 = 4 * k := by omega
      rw [this]
      ring
    simp only [e1, e2]
  rw [hflat]
  refine forRange_pointwise (height * width) 3 (width * height * 3) _
    (fun o _ => reversed_byte hsvdata o) ?_ data hd
  intro q hq d hdl
  have hq' : q * 3 + 3 ≤ width * height * 3 := by
    rw [Nat.mul_comm width height]
    omega
  refine ⟨by simp only [colorspace_prepare_reverse, length_poke]; exact hdl, fun o => ?_⟩
  simp only [colorspace_prepare_reverse, peek_poke, length_poke, reversed_byte]
  by_cases h0 : o = 3 * q
  · subst h0
    have m : 3 * q % 3 = 0 := by omega
    have dv : 3 * q / 3 = q := by omega
    rw [if_neg (by omega), if_neg (by omega), if_pos ⟨rfl, by omega⟩, if_pos (by omega),
      if_pos m, dv]
  · by_cases h1 : o = 3 * q + 1
    · subst h1
      have m : (3 * q + 1) % 3 = 1 := by omega
      have dv : (3 * q + 1) / 3 = q := by omega
      rw [if_neg (by omega), if_pos ⟨rfl, by omega⟩, if_pos (by omega), if_neg (by omega),
        if_pos m, dv]
    · by_cases h2 : o = 3 * q + 2
      · subst h2
        have dv : (3 * q + 2) / 3 = q := by omega
        rw [if_pos ⟨rfl, by omega⟩, if_pos (by omega), if_neg (by omega), if_neg (by omega),
          dv]
      · rw [if_neg (by omega), if_neg (by omega), if_neg (by omega), if_neg (by omega)]

theorem prepare_pixel_gray (a : Byte) :
    prepare_pixel a a a = (0, 0, 0, toByte (255 - (a.val : Int))) := by
  have h0 : gimp_rgb_to_hsv4 0 0 0 = (0, 0, 0) := by decide
  have hz : toByte (255 - (a.val : Int) - (255 - (a.val : Int))) = 0 := by
    rw [Int.sub_self]
    rfl
  simp only [prepare_pixel, lt_self_iff_false, if_false, hz, h0]

theorem reverse_pixel_gray (a : Byte) :
    reverse_pixel 0 0 0 (toByte (255 - (a.val : Int))) = (a, a, a) := by
  have h0 : gimp_hsv_to_rgb4 0 0 0 = (0, 0, 0) := by decide
  have hk : ((toByte (255 - (a.val : Int))).val : Int) = 255 - (a.val : Int) :=
    toByte_val_int _ (by omega) (by omega)
  have h00 : (((0 : Byte).val : Nat) : Int) = 0 := rfl
  simp only [reverse_pixel, h0, hk, h00]
  have hc : ¬ (0 + (255 - (a.val : Int)) > 255) := by omega
  rw [if_neg hc]
  have e : 255 - (0 + (255 - (a.val : Int))) = (a.val : Int) := by omega
  rw [e, toByte_val]

/-- C29: on a frame in which every pixel has `r = g = b`, with the frame of
`width*height*3` bytes and the intermediate buffer of `width*height*4` bytes,
`gst_gimp_color_enhance_chain` (`colorspace_prepare` on every pixel, the scan
for `vhi` and `vlo`, `enhance_it` on every pixel and
`colorspace_prepare_reverse` on every pixel) returns the input frame byte for
byte. -/
theorem color_enhance_gray_identity (width height : Nat) (data hsvdata : Buffer)
    (hdata : data.length = width * height * 3) (hhsv : hsvdata.length = width * height * 4)
    (hgray : ∀ q, q < width * height →
      peek data (3 * q + 1) = peek data (3 * q) ∧ peek data (3 * q + 2) = peek data (3 * q)) :
    gst_gimp_color_enhance_chain width height data hsvdata = data := by
  have hcomm : height * width = width * height := Nat.mul_comm _ _
  obtain ⟨l1, p1⟩ := color_enhance_prepare_pointwise width height data hsvdata hhsv
  rw [hcomm] at p1
  have hprep : ∀ q, q < width * height → ∀ j, j < 4 →
      peek (color_enhance_prepare width height data hsvdata) (4 * q + j)
        = if j = 3 then toByte (255 - ((peek data (3 * q)).val : Int)) else 0 := by
    intro q hq j hj
    rw [p1, if_pos (by omega)]
    have dv : (4 * q + j) / 4 = q := by omega
    have md : (4 * q + j) % 4 = j := by omega
    unfold prepared_byte
    rw [dv, md, (hgray q hq).1, (hgray q hq).2, prepare_pixel_gray]
    have hj' : j = 0 ∨ j = 1 ∨ j = 2 ∨ j = 3 := by omega
    rcases hj' with h | h | h | h <;> subst h <;> rfl
  have hscan : color_enhance_scan width height (color_enhance_prepare width height data hsvdata)
      = ⟨0, 0⟩ := by
    rw [color_enhance_scan_eq, hcomm]
    have hz : channel_max (width * height)
        (fun q => peek (color_enhance_prepare width height data hsvdata) (4 * q + 2)) = 0 := by
      rcases channel_max_attained (width * height)
        (fun q => peek (color_enhance_prepare width height data hsvdata) (4 * q + 2))
        with h | ⟨q, hq, e⟩
      · exact h
      · rw [← e]
        show peek (color_enhance_prepare width height data hsvdata) (4 * q + 2) = 0
        rw [hprep q hq 2 (by omega), if_neg (by omega)]
    rw [hz]
  have hstretch : color_enhance_stretch width height ⟨0, 0⟩
      (color_enhance_prepare width height data hsvdata)
        = color_enhance_prepare width height data hsvdata := by
    obtain ⟨l2, p2⟩ := color_enhance_stretch_pointwise width height ⟨0, 0⟩ _ l1
    apply buffer_ext _ _ (by rw [l2, l1])
    intro o _
    rw [p2 o]
    have hid : ∀ b : Byte, enhance_value b 0 0 = b := by
      intro b
      unfold enhance_value
      rw [if_neg (by simp)]
    split_ifs
    · exact hid _
    · rfl
    · rfl
  unfold gst_gimp_color_enhance_chain
  simp only [hscan, hstretch]
  obtain ⟨l3, p3⟩ := color_enhance_reverse_pointwise width height
    (color_enhance_prepare width height data hsvdata) data hdata
  rw [hcomm] at p3
  apply buffer_ext _ _ (by rw [l3, hdata])
  intro o ho
  rw [l3] at ho
  rw [p3 o, if_pos ho]
  have hq : o / 3 < width * height := by omega
  have e0 := hprep (o / 3) hq 0 (by omega)
  have e1 := hprep (o / 3) hq 1 (by omega)
  have e2 := hprep (o / 3) hq 2 (by omega)
  have e3 := hprep (o / 3) hq 3 (by omega)
  rw [if_neg (by omega)] at e0 e1 e2
  rw [if_pos rfl] at e3
  unfold reversed_byte
  rw [show 4 * (o / 3) = 4 * (o / 3) + 0 from rfl, e0, e1, e2, e3, reverse_pixel_gray]
  have hm : o % 3 = 0 ∨ o % 3 = 1 ∨ o % 3 = 2 := by omega
  have hdm := Nat.div_add_mod o 3
  rcases hm with h | h | h
  · rw [if_pos h]
    show peek data (3 * (o / 3)) = peek data o
    congr 1
    omega
  · rw [if_neg (by omega), if_pos h]
    show peek data (3 * (o / 3)) = peek data o
    rw [← (hgray (o / 3) hq).1]
    congr 1
    omega
  · rw [if_neg (by omega), if_neg (by omega)]
    show peek data (3 * (o / 3)) = peek data o
    rw [← (hgray (o / 3) hq).2]
    congr 1
    omega

theorem color_enhance_gray_identity_witness :
    ([10, 10, 10, 200, 200, 200] : Buffer).length = 2 * 1 * 3 ∧
    ([1, 2, 3, 4, 5, 6, 7, 8] : Buffer).length = 2 * 1 * 4 ∧
    (∀ q, q < 2 * 1 →
      peek ([10, 10, 10, 200, 200, 200] : Buffer) (3 * q + 1)
        = peek [10, 10, 10, 200, 200, 200] (3 * q) ∧
      peek ([10, 10, 10, 200, 200, 200] : Buffer) (3 * q + 2)
        = peek [10, 10, 10, 200, 200, 200] (3 * q)) ∧
    gst_gimp_color_enhance_chain 2 1 [10, 10, 10, 200, 200, 200] [1, 2, 3, 4, 5, 6, 7, 8]
      = [10, 10, 10, 200, 200, 200] :=
  ⟨by decide, by decide, by decide,
   color_enhance_gray_identity 2 1 [10, 10, 10, 200, 200, 200] [1, 2, 3, 4, 5, 6, 7, 8]
     (by decide) (by decide) (by decide)⟩

/-- C23: in both stretch kernels the scan starts from zeroed bounds and leaves
the low bounds at 0 on every frame, while every high bound is the largest
value of its channel over the frame: `find_max` gives `slo = 0`, `vlo = 0`,
`shi` the largest S and `vhi` the largest V, `find_vhi_vlo` gives `vlo = 0`
and `vhi` the largest V.  The stretch that follows leaves the hue alone and
makes of every S and V byte `value * 255 / hi` when `hi` is not 0, and leaves
it as it is when `hi` is 0. -/
theorem stretch_low_bounds_stay_zero (width height : Nat) (data hsvdata : Buffer)
    (hdata : data.length = width * height * 3) (hhsv : hsvdata.length = width * height * 4) :
    autostretch_scan width height data
      = ⟨channel_max (width * height) (fun q => peek data (3 * q + 1)), 0,
          channel_max (width * height) (fun q => peek data (3 * q + 2)), 0⟩ ∧
    (∀ q, q < width * height →
      peek (autostretch_frame width height data) (3 * q) = peek data (3 * q) ∧
      (peek (autostretch_frame width height data) (3 * q + 1)).val
        = (if (autostretch_scan width height data).shi ≠ 0 then
            (peek data (3 * q + 1)).val * 255 / (autostretch_scan width height data).shi.val
          else (peek data (3 * q + 1)).val) ∧
      (peek (autostretch_frame width height data) (3 * q + 2)).val
        = (if (autostretch_scan width height data).vhi ≠ 0 then
            (peek data (3 * q + 2)).val * 255 / (autostretch_scan width height data).vhi.val
          else (peek data (3 * q + 2)).val)) ∧
    color_enhance_scan width height hsvdata
      = ⟨channel_max (width * height) (fun q => peek hsvdata (4 * q + 2)), 0⟩ ∧
    (∀ q, q < width * height →
      (peek (color_enhance_stretch width height (color_enhance_scan width height hsvdata)
          hsvdata) (4 * q + 2)).val
        = (if (color_enhance_scan width height hsvdata).vhi ≠ 0 then
            (peek hsvdata (4 * q + 2)).val * 255
              / (color_enhance_scan width height hsvdata).vhi.val
          else (peek hsvdata (4 * q + 2)).val)) := by
  have hcomm : height * width = width * height := Nat.mul_comm _ _
  have hs := autostretch_scan_eq width height data
  have hc := color_enhance_scan_eq width height hsvdata
  rw [hcomm] at hs hc
  refine ⟨hs, fun q hq => ?_, hc, fun q hq => ?_⟩
  · obtain ⟨_, p⟩ := autostretch_stretch_pointwise width height
      (autostretch_scan width height data) data hdata
    rw [hcomm] at p
    unfold autostretch_frame
    have m0 : 3 * q % 3 = 0 := by omega
    have m1 : (3 * q + 1) % 3 = 1 := by omega
    have m2 : (3 * q + 2) % 3 = 2 := by omega
    refine ⟨?_, ?_, ?_⟩
    · rw [p, if_pos (by omega), if_pos m0]
    · rw [p, if_pos (by omega), if_neg (by omega), if_pos m1]
      have hle : peek data (3 * q + 1) ≤ (autostretch_scan width height data).shi := by
        rw [hs]
        exact channel_max_ge (width * height) (fun q => peek data (3 * q + 1)) q hq
      have hlo : (autostretch_scan width height data).slo = 0 := by rw [hs]
      rw [hlo]
      exact enhance_value_zero_low _ _ hle
    · rw [p, if_pos (by omega), if_neg (by omega), if_neg (by omega)]
      have hle : peek data (3 * q + 2) ≤ (autostretch_scan width height data).vhi := by
        rw [hs]
        exact channel_max_ge (width * height) (fun q => peek data (3 * q + 2)) q hq
      have hlo : (autostretch_scan width height data).vlo = 0 := by rw [hs]
      rw [hlo]
      exact enhance_value_zero_low _ _ hle
  · obtain ⟨_, p⟩ := color_enhance_stretch_pointwise width height
      (color_enhance_scan width height hsvdata) hsvdata hhsv
    rw [hcomm] at p
    have m2 : (4 * q + 2) % 4 = 2 := by omega
    rw [p, if_pos (by omega), if_pos m2]
    have hle : peek hsvdata (4 * q + 2) ≤ (color_enhance_scan width height hsvdata).vhi := by
      rw [hc]
      exact channel_max_ge (width * height) (fun q => peek hsvdata (4 * q + 2)) q hq
    have hlo : (color_enhance_scan width height hsvdata).vlo = 0 := by rw [hc]
    rw [hlo]
    exact enhance_value_zero_low _ _ hle

theorem stretch_low_bounds_stay_zero_witness :
    ([0, 100, 100, 0, 200, 200] : Buffer).length = 2 * 1 * 3 ∧
    ([0, 0, 100, 9, 0, 0, 200, 9] : Buffer).length = 2 * 1 * 4 ∧
    autostretch_scan 2 1 [0, 100, 100, 0, 200, 200]
      = ⟨channel_max (2 * 1) (fun q => peek [0, 100, 100, 0, 200, 200] (3 * q + 1)), 0,
          channel_max (2 * 1) (fun q => peek [0, 100, 100, 0, 200, 200] (3 * q + 2)), 0⟩ ∧
    (∀ q, q < 2 * 1 →
      peek (autostretch_frame 2 1 [0, 100, 100, 0, 200, 200]) (3 * q)
        = peek [0, 100, 100, 0, 200, 200] (3 * q) ∧
      (peek (autostretch_frame 2 1 [0, 100, 100, 0, 200, 200]) (3 * q + 1)).val
        = (if (autostretch_scan 2 1 [0, 100, 100, 0, 200, 200]).shi ≠ 0 then
            (peek [0, 100, 100, 0, 200, 200] (3 * q + 1)).val * 255
              / (autostretch_scan 2 1 [0, 100, 100, 0, 200, 200]).shi.val
          else (peek [0, 100, 100, 0, 200, 200] (3 * q + 1)).val) ∧
      (peek (autostretch_frame 2 1 [0, 100, 100, 0, 200, 200]) (3 * q + 2)).val
        = (if (autostretch_scan 2 1 [0, 100, 100, 0, 200, 200]).vhi ≠ 0 then
            (peek [0, 100, 100, 0, 200, 200] (3 * q + 2)).val * 255
              / (autostretch_scan 2 1 [0, 100, 100, 0, 200, 200]).vhi.val
          else (peek [0, 100, 100, 0, 200, 200] (3 * q + 2)).val)) ∧
    color_enhance_scan 2 1 [0, 0, 100, 9, 0, 0, 200, 9]
      = ⟨channel_max (2 * 1) (fun q => peek [0, 0, 100, 9, 0, 0, 200, 9] (4 * q + 2)), 0⟩ ∧
    (∀ q, q < 2 * 1 →
      (peek (color_enhance_stretch 2 1 (color_enhance_scan 2 1 [0, 0, 100, 9, 0, 0, 200, 9])
          [0, 0, 100, 9, 0, 0, 200, 9]) (4 * q + 2)).val
        = (if (color_enhance_scan 2 1 [0, 0, 100, 9, 0, 0, 200, 9]).vhi ≠ 0 then
            (peek [0, 0, 100, 9, 0, 0, 200, 9] (4 * q + 2)).val * 255
              / (color_enhance_scan 2 1 [0, 0, 100, 9, 0, 0, 200, 9]).vhi.val
          else (peek [0, 0, 100, 9, 0, 0, 200, 9] (4 * q + 2)).val)) :=
  ⟨by decide, by decide,
   stretch_low_bounds_stay_zero 2 1 [0, 100, 100, 0, 200, 200] [0, 0, 100, 9, 0, 0, 200, 9]
     (by decide) (by decide)⟩

end GstEditing
